import Mathlib

/-! # Item set tree of the apriori miner (`src/fimi11/apriori/istree.c`)

Shallow embedding of the item set tree and of its operations.

Representation of the C data:

* An `ISNODE` is a value of the inductive type below.  The counter vector
  `cnts[0..size)` is the list `cnts`, so `node->size` is `cnts.length`.  The
  child vector that `ist_addlvl` appends behind the counters is the list
  `vec` (a null pointer is `none`), `chcnt` is kept as the C integer with the
  flag `F_SKIP = INT_MIN` packed into it.
* A pointer to a node is its address: the list of child vector indices that
  leads from the root to the node (`Addr`).  `node->parent` is the address
  without its last index, the root is the node with the empty address.
* `levels[k]` with its `succ` chain is the list of the addresses of level `k`
  in list order; it is a component of the state, written by `ist_addlvl`
  and read by `ist_filter` and `ist_set` as in the source.
* A pair `(int *set, int cnt)` is a `List Int`; advancing the pointer and
  decrementing `cnt` is taking the tail.
* C `int` values are `Int`.  In the mining run a counter never exceeds the
  number of counted transactions, which is assumed to fit an `int`, and the
  counting functions `_count`, `ist_count` use exact arithmetic.  Where a
  counter can be `INT_MAX` (a value that `ist_setcnt` may store) the
  statement `cnts[i]++` overflows: `_countInt`, `ist_countInt` are the same
  functions with the arithmetic of the type `int`, and `countInt_agree`
  relates the two.
* `malloc`/`realloc` take an allocation budget: `none` never fails,
  `some k` lets exactly the next `k` requests succeed.
-/

namespace ISTree

/-- The flag for subtree skipping, `INT_MIN` for a 32 bit `int`. -/
def F_SKIP : Int := -2147483648

/-- The largest `int`. -/
def INT_MAX : Int := 2147483647

/-- The block size of the level vector. -/
def BLKSIZE : Nat := 32

/-- The value of `c & ~F_SKIP` in two's complement. -/
def unskip (c : Int) : Int := if c < 0 then c - F_SKIP else c

/-- The value of `c | F_SKIP` in two's complement. -/
def setskip (c : Int) : Int := if c < 0 then c else c + F_SKIP

/-- An item set node (`ISNODE`). -/
inductive ISNODE where
  | mk (id chcnt offset : Int) (cnts : List Int) (vec : List (Option ISNODE)) : ISNODE

namespace ISNODE

/-- Field `id`. -/
def id : ISNODE → Int
  | mk i _ _ _ _ => i

/-- Field `chcnt`. -/
def chcnt : ISNODE → Int
  | mk _ c _ _ _ => c

/-- Field `offset`. -/
def offset : ISNODE → Int
  | mk _ _ o _ _ => o

/-- Field `cnts`. -/
def cnts : ISNODE → List Int
  | mk _ _ _ c _ => c

/-- The child vector stored behind the counters. -/
def vec : ISNODE → List (Option ISNODE)
  | mk _ _ _ _ v => v

/-- Field `size`, the length of the counter vector. -/
def size (n : ISNODE) : Int := n.cnts.length

/-- Assignment to `chcnt`. -/
def setChcnt : ISNODE → Int → ISNODE
  | mk i _ o c v, ch => mk i ch o c v

/-- Assignment to the counter vector. -/
def setCnts : ISNODE → List Int → ISNODE
  | mk i ch o _ v, c => mk i ch o c v

/-- Assignment to the child vector. -/
def setVec : ISNODE → List (Option ISNODE) → ISNODE
  | mk i ch o c _, v => mk i ch o c v

end ISNODE

/-- A node pointer: the child vector indices on the way from the root. -/
abbrev Addr := List Nat

/-- Dereference an address, starting at `node`. -/
def nodeAt : ISNODE → Addr → Option ISNODE
  | node, [] => some node
  | node, i :: rest =>
    match node.vec.get? i with
    | some (some c) => nodeAt c rest
    | _ => none

/-- Replace the node at an address by `f` of it. -/
def updateAt : ISNODE → Addr → (ISNODE → ISNODE) → ISNODE
  | node, [], f => f node
  | node, i :: rest, f =>
    match node.vec.get? i with
    | some (some c) => node.setVec (node.vec.set i (some (updateAt c rest f)))
    | _ => node

/-- Store through a pointer when the store can fail (an invalid access). -/
def updateAtOpt : ISNODE → Addr → (ISNODE → Option ISNODE) → Option ISNODE
  | node, [], f => f node
  | node, i :: rest, f =>
    match node.vec.get? i with
    | some (some c) =>
      (updateAtOpt c rest f).map (fun c1 => node.setVec (node.vec.set i (some c1)))
    | _ => none

/-- The nodes met on the way from `node` along an address, `node` first. -/
def chain : ISNODE → Addr → List ISNODE
  | node, [] => [node]
  | node, i :: rest =>
    match node.vec.get? i with
    | some (some c) => node :: chain c rest
    | _ => [node]

/-- The ids found by following the parent pointers from the addressed node up to
(and without) the root, in root-to-node order. -/
def pathIds (root : ISNODE) (a : Addr) : List Int :=
  ((chain root a).tail).map ISNODE.id

/-- The statement `cnts[i]++` in exact arithmetic: the value of the statement as long as the
counter is below `INT_MAX`.  The statement on the type `int`, with the overflow at `INT_MAX`,
is `incrInt`; the two agree below `INT_MAX` (`countInt_agree`). -/
def incr (cnts : List Int) (i : Int) : List Int :=
  if i < 0 then cnts else cnts.set i.toNat (cnts.getD i.toNat 0 + 1)

/-- The statement `cnts[i] += m` in exact arithmetic: the value of the statement as long as
the sum stays between `INT_MIN` and `INT_MAX`. -/
def addAt (cnts : List Int) (i m : Int) : List Int :=
  if i < 0 then cnts else cnts.set i.toNat (cnts.getD i.toNat 0 + m)

/-- The loop `while ((cnt > min) && (*set < n)) { cnt--; set++; }`. -/
def skipItems (n min : Int) : List Int → List Int
  | [] => []
  | x :: rest =>
    if ((rest.length : Int) + 1 > min) ∧ x < n then skipItems n min rest else x :: rest

/-- The loop over the items of a transaction in a node without children:
`while (--cnt >= 0) { i = *set++ -n; if (i >= node->size) return; node->cnts[i]++; }`. -/
def countLeaf (n : Int) : List Int → List Int → List Int
  | cnts, [] => cnts
  | cnts, x :: rest =>
    if x - n ≥ (cnts.length : Int) then cnts else countLeaf n (incr cnts (x - n)) rest

/-- The child pointer `vec[i]`; `none` for a null pointer and for an index outside the
stored vector. -/
def vecAt (vec : List (Option ISNODE)) (i : Int) : Option ISNODE :=
  if i < 0 then none else (vec.get? i.toNat).join

/-- The loop over the items of a transaction in a node with children:
`while (--cnt >= min) { i = *set++ -n; if (i >= node->chcnt) return;
 if (vec[i]) _count(vec[i], set, cnt, min); }`; `rec` is the recursive call. -/
def countVec (rec : ISNODE → List Int → ISNODE) (n chcnt min : Int) :
    List (Option ISNODE) → List Int → List (Option ISNODE)
  | vec, [] => vec
  | vec, x :: rest =>
    if (rest.length : Int) < min then vec
    else if x - n ≥ chcnt then vec
    else
      match vecAt vec (x - n) with
      | some c => countVec rec n chcnt min (vec.set (x - n).toNat (some (rec c rest))) rest
      | none => countVec rec n chcnt min vec rest

/-- Function `_count`: count a transaction recursively.  The first argument bounds
the recursion depth. -/
def _count : Nat → ISNODE → List Int → Int → ISNODE
  | 0, node, _, _ => node
  | fuel + 1, node, set, min =>
    if node.chcnt = 0 then
      node.setCnts (countLeaf node.offset node.cnts (skipItems node.offset 0 set))
    else if node.chcnt > 0 then
      match node.vec with
      | some first :: _ =>
        node.setVec (countVec (fun c s => _count fuel c s (min - 1)) first.id node.chcnt
          (min - 1) node.vec (skipItems first.id (min - 1) set))
      | _ => node
    else node

/-- Modelled from the spec: the transaction tree, a collaborator whose source
(`tract.h`, `tract.c`) is not part of the repository.  A leaf stores an item sequence and a
multiplicity `cnt`; an internal node stores its outgoing edges, each an item with the
child below it, and the number `cnt` of transactions below it.  `max` is the maximum
remaining transaction length below the node. -/
inductive TATREE where
  | leaf (cnt max : Int) (items : List Int) : TATREE
  | node (cnt max : Int) (kids : List (Int × TATREE)) : TATREE

/-- Modelled from the spec: `tat_cnt`, the multiplicity of a transaction tree node. -/
def tat_cnt : TATREE → Int
  | .leaf c _ _ => c
  | .node c _ _ => c

/-- Modelled from the spec: `tat_max`, the maximum remaining transaction length. -/
def tat_max : TATREE → Int
  | .leaf _ m _ => m
  | .node _ m _ => m

/-- Modelled from the spec: `tat_size`, the number of children, or for a leaf the
negated length of the stored item sequence. -/
def tat_size : TATREE → Int
  | .leaf _ _ items => - (items.length : Int)
  | .node _ _ kids => kids.length

/-- Modelled from the spec: `tat_items`, the item sequence stored in a leaf. -/
def tat_items : TATREE → List Int
  | .leaf _ _ items => items
  | .node _ _ _ => []

/-- The loop `for (k = tat_size(tat); --k >= 0; )` of `_countx` in a node without
children; the edges are visited from the last to the first, the flag tells that the
loop has hit `return`. -/
def countxLeaf (n : Int) : List (Int × TATREE) → List Int → List Int × Bool
  | [], cnts => (cnts, false)
  | (x, c) :: rest, cnts =>
    match countxLeaf n rest cnts with
    | (cnts1, true) => (cnts1, true)
    | (cnts1, false) =>
      if x - n < 0 then (cnts1, true)
      else if x - n < (cnts1.length : Int) then (addAt cnts1 (x - n) (tat_cnt c), false)
      else (cnts1, false)

/-- The loop `for (k = tat_size(tat); --k >= 0; )` of `_countx` in a node with children;
`rec` is the recursive call. -/
def countxVec (rec : ISNODE → TATREE → ISNODE) (n chcnt : Int) :
    List (Int × TATREE) → List (Option ISNODE) → List (Option ISNODE) × Bool
  | [], vec => (vec, false)
  | (x, c) :: rest, vec =>
    match countxVec rec n chcnt rest vec with
    | (vec1, true) => (vec1, true)
    | (vec1, false) =>
      if x - n < 0 then (vec1, true)
      else if x - n < chcnt then
        match vecAt vec1 (x - n) with
        | some ch => (vec1.set (x - n).toNat (some (rec ch c)), false)
        | none => (vec1, false)
      else (vec1, false)

/-- Function `_countx`: count a transaction tree recursively.  The first argument bounds
the recursion depth in the transaction tree; the call of `_count` for a leaf gets `min`, the
number of levels down to the deepest nodes, as the bound of its recursion depth. -/
def _countx : Nat → ISNODE → TATREE → Int → ISNODE
  | 0, node, _, _ => node
  | fuel + 1, node, tat, min =>
    if tat_max tat < min then node
    else if tat_size tat ≤ 0 then
      if tat_size tat < 0 then _count min.toNat node (tat_items tat) min else node
    else
      match tat with
      | .leaf _ _ _ => node
      | .node _ _ kids =>
        let node1 := kids.foldr (fun kc nd => _countx fuel nd kc.2 min) node
        if node1.chcnt = 0 then
          node1.setCnts (countxLeaf node1.offset kids node1.cnts).1
        else if node1.chcnt > 0 then
          match node1.vec with
          | some first :: _ =>
            node1.setVec (countxVec (fun ch c => _countx fuel ch c (min - 1)) first.id
              node1.chcnt kids node1.vec).1
          | _ => node1
        else node1

/-- Function `_stskip`: set the subtree skip flags; the result is the node and the
return value (`0`: do not skip, `-1`: skip). -/
def _stskip : Nat → ISNODE → ISNODE × Int
  | 0, node => (node, 0)
  | fuel + 1, node =>
    if node.chcnt = 0 then (node, 0)
    else if node.chcnt < 0 then (node, -1)
    else
      let vr := node.vec.foldr (fun c acc =>
        match c with
        | some ch => ((some (_stskip fuel ch).1) :: acc.1,
                      if (_stskip fuel ch).2 = 0 then 0 else acc.2)
        | none => (none :: acc.1, acc.2)) (([] : List (Option ISNODE)), (-1 : Int))
      if vr.2 = 0 then (node.setVec vr.1, 0)
      else ((node.setVec vr.1).setChcnt (setskip node.chcnt), -1)

/-- The statement `marks[i] = 1`. -/
def mark (marks : List Int) (i : Int) : List Int :=
  if i < 0 then marks else marks.set i.toNat 1

/-- The loop `for (i = node->size; --i >= 0; )` of `_check` in a node without children.
The result is the marker vector and `r`. -/
def checkLeaf (supp n : Int) (cnts : List Int) : Nat → List Int → List Int × Int
  | 0, marks => (marks, 0)
  | i + 1, marks =>
    -- the slots are visited downwards: slot `i` is handled before the slots below it
    if cnts.getD i 0 ≥ supp then
      ((checkLeaf supp n cnts i (mark marks (n + i))).1, 1)
    else checkLeaf supp n cnts i marks

/-- Function `_check`: recursively check item usage.  `hasParent` is `node->parent != NULL`. -/
def _check : Nat → ISNODE → Bool → List Int → Int → List Int × Int
  | 0, _, _, marks, _ => (marks, 0)
  | fuel + 1, node, hasParent, marks, supp =>
    let mr : List Int × Int :=
      if node.chcnt = 0 then checkLeaf supp node.offset node.cnts node.cnts.length marks
      else if node.chcnt > 0 then
        node.vec.foldr (fun c acc =>
          match c with
          | some ch =>
            ((_check fuel ch true acc.1 supp).1,
             if (_check fuel ch true acc.1 supp).2 ≠ 0 then 1 else acc.2)
          | none => acc) (marks, 0)
      else (marks, 0)
    if mr.2 ≠ 0 ∧ hasParent = true then (mark mr.1 node.id, mr.2) else mr

/-- Function `_getsupp`: get the support of an item set.  The result `-1` is below every
minimal support. -/
def _getsupp : ISNODE → List Int → Int
  | _, [] => -1
  | node, [x] =>
    if x - node.offset < 0 ∨ x - node.offset ≥ node.size then -1
    else node.cnts.getD (x - node.offset).toNat 0
  | node, x :: y :: rest =>
    if unskip node.chcnt = 0 then -1
    else
      match node.vec with
      | some first :: _ =>
        if x - first.id < 0 ∨ x - first.id ≥ unskip node.chcnt then -1
        else
          match vecAt node.vec (x - first.id) with
          | some c => _getsupp c (y :: rest)
          | none => -1
      | _ => -1

/-- Function `_clrsupp`: clear the support of an item set.  The function checks neither
the child indices nor the counter index; `none` is an access outside the child vector,
through a null pointer or outside the counter vector. -/
def _clrsupp : ISNODE → List Int → Int → Option ISNODE
  | _, [], _ => none
  | node, [x], supp =>
    if 0 ≤ x - node.offset ∧ x - node.offset < node.size then
      if supp < 0 ∨ node.cnts.getD (x - node.offset).toNat 0 = supp then
        some (node.setCnts (node.cnts.set (x - node.offset).toNat 0))
      else some node
    else none
  | node, x :: y :: rest, supp =>
    match node.vec with
    | some first :: _ =>
      match vecAt node.vec (x - first.id) with
      | some c =>
        (_clrsupp c (y :: rest) supp).map
          (fun c1 => node.setVec (node.vec.set (x - first.id).toNat (some c1)))
      | none => none
    | _ => none

/-- An item set tree (`ISTREE`).  `root` holds the nodes, `levels` the node lists of the
levels.  `node` is the extraction cursor `ist->node`, given by its position in the list of
level `size - 1` (`none` is the null pointer). -/
structure ISTREE where
  tacnt : Int
  lvlvsz : Nat
  lvlcnt : Nat
  levels : List (List Addr)
  root : ISNODE
  supp : Int
  size : Nat
  node : Option Nat
  index : Int

/-- One request to `malloc` or `realloc`: the remaining budget, or `none` when the request
fails. -/
def alloc : Option Nat → Option (Option Nat)
  | none => some none
  | some 0 => none
  | some (k + 1) => some (some k)

/-- The loop of `_child` over the path to the root:
`for (curr = node; curr->parent; curr = curr->parent) { supp = _getsupp(curr->parent, set, cnt);
 if (supp < ist->supp) break; *--set = curr->id; cnt++; }` followed by the test
`!curr->parent`.  `id` is `curr->id`, the list holds `curr->parent` and the nodes above it. -/
def checkAnc (supp : Int) : Int → List ISNODE → List Int → Bool
  | _, [], _ => true
  | id, par :: up, set =>
    if _getsupp par set < supp then false else checkAnc supp par.id up (id :: set)

/-- The items that the candidate loop of `_child` writes to `ist->map`. -/
def candidates (supp : Int) (anc : List ISNODE) (node : ISNODE) (index : Nat) : List Int :=
  ((List.range node.cnts.length).filter (fun (i : Nat) =>
      decide (index < i) && decide (supp ≤ node.cnts.getD i 0) &&
      checkAnc supp node.id anc [node.offset + (index : Int), node.offset + (i : Int)])).map
    (fun (i : Nat) => node.offset + (i : Int))

/-- The result of `_child`: `NULL`, the error value `(void*)-1`, or the new node. -/
inductive ChildRes where
  | null : ChildRes
  | fail : ChildRes
  | node (c : ISNODE) : ChildRes

/-- Function `_child`: create a child node (extend the set of slot `index`).  `anc` holds
the parent of `node` and the nodes above it, `mem` is the allocation budget. -/
def _child (supp : Int) (anc : List ISNODE) (node : ISNODE) (index : Nat)
    (mem : Option Nat) : ChildRes × Option Nat :=
  if node.cnts.getD index 0 < supp then (.null, mem)
  else
    match candidates supp anc node index with
    | [] => (.null, mem)
    | first :: more =>
      match alloc mem with
      | none => (.fail, mem)
      | some mem1 =>
        (.node (.mk (node.offset + index) 0 first
          (List.replicate ((first :: more).getLast (List.cons_ne_nil first more) - first + 1).toNat 0)
          []), mem1)

/-- The loop `for (i = n = 0; i < (*ndp)->size; i++)` of `ist_addlvl` over the slots in
`idx`: the created children in order, or `none` when `_child` fails. -/
def newChildren (supp : Int) (anc : List ISNODE) (node : ISNODE) :
    List Nat → Option Nat → Option (List ISNODE × Option Nat)
  | [], mem => some ([], mem)
  | i :: rest, mem =>
    match _child supp anc node i mem with
    | (.null, mem1) => newChildren supp anc node rest mem1
    | (.fail, _) => none
    | (.node c, mem1) =>
      match newChildren supp anc node rest mem1 with
      | none => none
      | some (cs, mem2) => some (c :: cs, mem2)

/-- The child vector built by `ist_addlvl`: `n` null pointers, then
`vec[cur->id -i] = cur` for every created child. -/
def buildVec (frst n : Int) (cs : List ISNODE) : List (Option ISNODE) :=
  cs.foldl (fun v c => v.set (c.id - frst).toNat (some c)) (List.replicate n.toNat none)

/-- The state of the loop of `ist_addlvl` over the deepest nodes. -/
structure LvlState where
  root : ISNODE
  newlvl : List Addr
  mem : Option Nat

/-- One pass of the loop `for (ndp = ist->levels +ist->lvlcnt -1; *ndp; ndp = &(*ndp)->succ)`
of `ist_addlvl` for the node at address `a`.  The flag is `true` when an allocation has
failed; the state is then the one that `_cleanup` finds. -/
def addlvlNode (supp : Int) (st : LvlState) (a : Addr) : LvlState × Bool :=
  match nodeAt st.root a with
  | none => (st, false)
  | some node =>
    match newChildren supp ((chain st.root a).reverse.tail) node
        (List.range node.cnts.length) st.mem with
    | none => (st, true)
    | some ([], mem1) =>
      ({ root := updateAt st.root a (fun nd => nd.setChcnt F_SKIP), newlvl := st.newlvl,
         mem := mem1 }, false)
    | some (frst :: more, mem1) =>
      match alloc mem1 with
      | none => (st, true)
      | some mem2 =>
        ({ root := updateAt st.root a (fun nd =>
             (nd.setChcnt (((frst :: more).getLast (List.cons_ne_nil frst more)).id - frst.id + 1)).setVec
               (buildVec frst.id
                 (((frst :: more).getLast (List.cons_ne_nil frst more)).id - frst.id + 1)
                 (frst :: more))),
           newlvl := st.newlvl ++ (frst :: more).map (fun c => a ++ [(c.id - frst.id).toNat]),
           mem := mem2 }, false)

/-- The loop of `ist_addlvl` over the list of the deepest nodes. -/
def addlvlLoop (supp : Int) : LvlState → List Addr → LvlState × Bool
  | st, [] => (st, false)
  | st, a :: rest =>
    match addlvlNode supp st a with
    | (st1, true) => (st1, true)
    | (st1, false) => addlvlLoop supp st1 rest

/-- Function `_cleanup`: the nodes of the new level are freed and the child node counters
of the deepest nodes are cleared; a freed child vector is the empty list. -/
def _cleanup (root : ISNODE) (deepest : List Addr) : ISNODE :=
  deepest.foldl (fun r a => updateAt r a (fun nd => (nd.setChcnt 0).setVec [])) root

/-- Function `ist_init`. -/
def ist_init (ist : ISTREE) : ISTREE :=
  { ist with index := -1, node := none, size := 1 }

/-- Function `ist_create`, for a successful allocation. -/
def ist_create (itemcnt : Nat) (supp : Int) : ISTREE :=
  ist_init
    { tacnt := 0, lvlvsz := BLKSIZE, lvlcnt := 1, levels := [[[]]],
      root := .mk 0 0 0 (List.replicate itemcnt 0) [], supp := supp,
      size := 1, node := none, index := -1 }

/-- Function `ist_count`: count a transaction in the tree. -/
def ist_count (ist : ISTREE) (set : List Int) : ISTREE :=
  if set.length ≥ ist.lvlcnt then
    { ist with root := _count ist.lvlcnt ist.root set ist.lvlcnt, tacnt := ist.tacnt + 1 }
  else { ist with tacnt := ist.tacnt + 1 }

/-- Function `ist_countx`: count a transaction tree in the tree.  `fuel` bounds the depth of
the transaction tree. -/
def ist_countx (fuel : Nat) (ist : ISTREE) (tat : TATREE) : ISTREE :=
  { ist with root := _countx fuel ist.root tat ist.lvlcnt, tacnt := tat_cnt tat }

/-- Function `ist_check`: check the item usage; the result is the marker vector and the
number of used items. -/
def ist_check (ist : ISTREE) : List Int × Nat :=
  let marks := (_check ist.lvlcnt ist.root false
    (List.replicate ist.root.cnts.length 0) ist.supp).1
  (marks, marks.countP (fun m => decide (m ≠ 0)))

/-- The first step of `ist_addlvl`: when the level vector is full, the level vector and the
path buffer are enlarged by two calls of `realloc`.  The result is the new `lvlvsz` with the
remaining allocation budget, `none` when a call fails. -/
def growLevels (ist : ISTREE) (mem : Option Nat) : Option (Nat × Option Nat) :=
  if ist.lvlcnt ≥ ist.lvlvsz then
    match alloc mem with
    | none => none
    | some mem1 =>
      match alloc mem1 with
      | none => none
      | some mem2 => some (ist.lvlvsz + BLKSIZE, mem2)
  else some (ist.lvlvsz, mem)

/-- Function `ist_addlvl`: add a level to the item set tree.  The result is the tree and the
return value (`0`: level added, `1`: no new level, `-1`: not enough memory). -/
def ist_addlvl (ist : ISTREE) (mem : Option Nat) : ISTREE × Int :=
  match growLevels ist mem with
  | none => (ist, -1)
  | some (vsz, mem1) =>
    match addlvlLoop ist.supp { root := ist.root, newlvl := [], mem := mem1 }
        (ist.levels.getD (ist.lvlcnt - 1) []) with
    | (st, true) =>
      -- `_cleanup(ist); return -1;`
      ({ ist with lvlvsz := vsz,
                  root := _cleanup st.root (ist.levels.getD (ist.lvlcnt - 1) []) }, -1)
    | (st, false) =>
      if st.newlvl = [] then ({ ist with lvlvsz := vsz, root := st.root }, 1)
      else
        ({ ist with lvlvsz := vsz, lvlcnt := ist.lvlcnt + 1, tacnt := 0, node := none,
                    levels := ist.levels ++ [st.newlvl],
                    root := (_stskip (ist.lvlcnt + 1) st.root).1 }, 0)

/-- Function `ist_setcnt`: set the counter of an item in the current node `ist->curr`.
`ist_create` lets `curr` point to the root and no function assigns it again, so the node is
the root as long as `curr` is the block of the root (see `setcnt_ptrs`). -/
def ist_setcnt (ist : ISTREE) (item cnt : Int) : ISTREE :=
  if 0 ≤ item - ist.root.offset ∧ item - ist.root.offset < ist.root.size then
    { ist with root := ist.root.setCnts (ist.root.cnts.set (item - ist.root.offset).toNat cnt) }
  else ist

/-- The filter mode `IST_MAXFRQ`. -/
def IST_MAXFRQ : Int := 0

/-- The filter mode `IST_CLOSED`. -/
def IST_CLOSED : Int := 1

/-- The loop `for (curr = node->parent; curr->parent; curr = curr->parent)
{ _clrsupp(curr->parent, set, k, supp); *--set = curr->id; k++; }` of `ist_filter`.
The address of `curr` is given in reverse (last index first), so that the address of
`curr->parent` is its tail. -/
def clrUp (supp : Int) : ISNODE → List Nat → List Int → Option ISNODE
  | root, [], _ => some root
  | root, i :: rpar, set =>
    match updateAtOpt root rpar.reverse (fun p => _clrsupp p set supp) with
    | none => none
    | some root1 =>
      match nodeAt root1 (i :: rpar).reverse with
      | none => none
      | some curr => clrUp supp root1 rpar (curr.id :: set)

/-- The body of the loop of `ist_filter` over the counters, for slot `i` of the node at
address `a`. -/
def filterSlot (supp mode : Int) (a : Addr) (root : ISNODE) (i : Nat) : Option ISNODE :=
  match nodeAt root a with
  | none => none
  | some node =>
    if node.cnts.getD i 0 < supp then some root
    else
      let s : Int := if mode = IST_CLOSED then node.cnts.getD i 0 else -1
      match a.reverse with
      | [] => none
      | _ :: rpar =>
        match updateAtOpt root rpar.reverse (fun p => _clrsupp p [node.offset + i] s) with
        | none => none
        | some root1 =>
          match updateAtOpt root1 rpar.reverse (fun p => _clrsupp p [node.id] s) with
          | none => none
          | some root2 => clrUp s root2 rpar [node.id, node.offset + i]

/-- Run the steps `f` over a list while no step fails. -/
def foldOpt {α β : Type} (f : α → β → Option α) : α → List β → Option α
  | x, [] => some x
  | x, b :: rest =>
    match f x b with
    | none => none
    | some x1 => foldOpt f x1 rest

/-- The loop of `ist_filter` over the counters of the node at address `a`. -/
def filterNode (supp mode : Int) (root : ISNODE) (a : Addr) : Option ISNODE :=
  match nodeAt root a with
  | none => none
  | some node => foldOpt (filterSlot supp mode a) root (List.range node.cnts.length)

/-- The loop of `ist_filter` over the nodes of a level. -/
def filterLevel (supp mode : Int) (root : ISNODE) (lvl : List Addr) : Option ISNODE :=
  foldOpt (filterNode supp mode) root lvl

/-- Function `ist_filter`: clear the counters of the item sets that are not maximal
(`IST_MAXFRQ`) or not closed (`IST_CLOSED`).  `none` is an invalid access of `_clrsupp`. -/
def ist_filter (ist : ISTREE) (mode : Int) : Option ISTREE :=
  (foldOpt (filterLevel ist.supp mode) ist.root ((ist.levels.take ist.lvlcnt).drop 1)).map
    (fun r => { ist with root := r })

/-- The result of a call of `ist_set`: an item set was found, the return value is `-1`
(`done`), or the search was cut off (a pointer that is no node, or no pass left). -/
inductive SetRes where
  | found (ist : ISTREE) (set : List Int) (supp : Int) : SetRes
  | done (ist : ISTREE) : SetRes
  | abort : SetRes

/-- The node that the cursor position `pos` of level `ist.size - 1` points to. -/
def cursorNode (ist : ISTREE) (pos : Nat) : Option ISNODE :=
  ((ist.levels.getD (ist.size - 1) []).get? pos).bind (nodeAt ist.root)

/-- The outcome of the first statement of the search loop of `ist_set`. -/
inductive Adv where
  | next (ist : ISTREE) (pos : Nat) : Adv
  | done (ist : ISTREE) : Adv
  | bad : Adv

/-- The statement `if (++ist->index >= node->size) { node = node->succ; if (!node) {
if (++ist->size > ist->lvlcnt) return -1; node = ist->levels[ist->size -1]; }
ist->node = node; ist->index = 0; }`; `pos` is the local variable `node`. -/
def advance (ist : ISTREE) (pos : Nat) : Adv :=
  match cursorNode ist pos with
  | none => .bad
  | some node =>
    if ist.index + 1 ≥ node.size then
      if pos + 1 < (ist.levels.getD (ist.size - 1) []).length then
        .next { ist with node := some (pos + 1), index := 0 } (pos + 1)
      else if ist.size + 1 > ist.lvlcnt then
        .done { ist with index := ist.index + 1, size := ist.size + 1 }
      else .next { ist with size := ist.size + 1, node := some 0, index := 0 } 0
    else .next { ist with index := ist.index + 1 } pos

/-- The search loop `while (1)` of `ist_set` followed by the construction of the item set:
the item of the counter, then the ids on the parent chain.  The first argument bounds the
number of passes. -/
def setLoop : Nat → ISTREE → Nat → SetRes
  | 0, _, _ => .abort
  | fuel + 1, ist, pos =>
    match advance ist pos with
    | .bad => .abort
    | .done ist1 => .done ist1
    | .next ist1 pos1 =>
      match cursorNode ist1 pos1 with
      | none => .abort
      | some node =>
        if node.cnts.getD ist1.index.toNat 0 ≥ ist1.supp then
          .found ist1
            (pathIds ist1.root ((ist1.levels.getD (ist1.size - 1) []).getD pos1 [])
              ++ [node.offset + ist1.index])
            (node.cnts.getD ist1.index.toNat 0)
        else setLoop fuel ist1 pos1

/-- The number of search steps that `ist_set` can take at most: one per counter and one
per node and level. -/
def scanFuel (ist : ISTREE) : Nat :=
  ((ist.levels.map (fun lvl =>
      (lvl.map (fun a => match nodeAt ist.root a with
                         | some nd => nd.cnts.length + 1
                         | none => 1)).sum + 1)).sum) + 1

/-- Function `ist_set`: extract the next frequent item set.  `.found` carries the item set
written to `set` and the support written to `*supp`, the return value is `ist->size`;
`.done` is the return value `-1`. -/
def ist_set (ist : ISTREE) : SetRes :=
  if ist.size > ist.lvlcnt then .done ist
  else
    match ist.node with
    | none => setLoop (scanFuel ist) { ist with node := some 0 } 0
    | some pos => setLoop (scanFuel ist) ist pos

/-- The sequence `ist_set*`: the item sets with their supports that successive calls of
`ist_set` return until the first `-1`; `none` when that is not reached within `fuel`
calls. -/
def setAll : Nat → ISTREE → Option (List (List Int × Int))
  | 0, _ => none
  | fuel + 1, ist =>
    match ist_set ist with
    | .found ist1 set supp => (setAll fuel ist1).map (fun l => (set, supp) :: l)
    | .done _ => some []
    | .abort => none

/-- The sequence `ist_init; ist_set*`. -/
def ist_sets (ist : ISTREE) : Option (List (List Int × Int)) :=
  setAll (scanFuel ist) (ist_init ist)

/-! ## The mining run and its specification -/

/-- A transaction contains an item set. -/
def contains (t X : List Int) : Bool := X.all (fun x => decide (x ∈ t))

/-- The support of an item set: the number of transactions that contain it. -/
def support (db : List (List Int)) (X : List Int) : Int :=
  ((db.filter (fun t => contains t X)).length : Int)

/-- The driver's seeding of the root: `for (k = n; --k >= 0; ) ist_setcnt(istree, k, frq(k))`
with the true support of item `k`. -/
def seed (db : List (List Int)) : Nat → ISTREE → ISTREE
  | 0, ist => ist
  | k + 1, ist => seed db k (ist_setcnt ist k (support db [(k : Int)]))

/-- One counting pass: `ist_count` on every transaction of the database. -/
def countAll (ist : ISTREE) (db : List (List Int)) : ISTREE :=
  db.foldl ist_count ist

/-- The loop of the mining run: `ist_addlvl`, and when it returns `0` a counting pass, until
`ist_addlvl` returns `1`.  `none` when that does not happen within `fuel` rounds or when
`ist_addlvl` fails. -/
def mineLoop (db : List (List Int)) : Nat → ISTREE → Option ISTREE
  | 0, _ => none
  | fuel + 1, ist =>
    if (ist_addlvl ist none).2 = 0 then mineLoop db fuel (countAll (ist_addlvl ist none).1 db)
    else if (ist_addlvl ist none).2 = 1 then some (ist_addlvl ist none).1
    else none

/-- The mining run on a database over the items `0 .. n-1`. -/
def mine (db : List (List Int)) (n : Nat) (supp : Int) : Option ISTREE :=
  mineLoop db (n + 1) (seed db n (ist_create n supp))

/-- The first `k` rounds of the mining run (`ist_addlvl`, then a counting pass when it
returned `0`), whatever `ist_addlvl` returns. -/
def rounds (db : List (List Int)) : Nat → ISTREE → ISTREE
  | 0, ist => ist
  | k + 1, ist =>
    if (ist_addlvl ist none).2 = 0 then rounds db k (countAll (ist_addlvl ist none).1 db)
    else rounds db k (ist_addlvl ist none).1

/-! ## Well-formed trees -/

/-- The relation between a node `N` and the child stored at index `j` of its child vector,
whose first entry has the id `firstId`. -/
def ChildOK (N : ISNODE) (firstId : Int) (j : Nat) (c : ISNODE) : Prop :=
  c.id = firstId + (j : Int) ∧ N.offset ≤ c.id ∧ c.id < c.offset ∧ c.cnts ≠ [] ∧
    c.offset + c.size ≤ N.offset + N.size

/-- Well-formed subtrees.  `h` is the number of levels below the node, `lc` the value of
`chcnt` in the deepest nodes (`0`, or `F_SKIP` after `ist_addlvl` has found no child), `live`
tells that no node above carries the skip flag: below a flagged node there is no deepest
node. -/
def WFN (lc : Int) : Bool → Nat → ISNODE → Prop
  | live, 0, N => live = true ∧ N.vec = [] ∧ N.chcnt = lc
  | live, h + 1, N =>
    (N.vec = [] ∧ N.chcnt = F_SKIP) ∨
    (∃ first rest, N.vec = some first :: rest ∧ (N.vec.length : Int) ≤ INT_MAX ∧
      ((live = true ∧ N.chcnt = (N.vec.length : Int) ∧
          ∀ j c, N.vec.get? j = some (some c) → ChildOK N first.id j c ∧ WFN lc true h c) ∨
       (N.chcnt = (N.vec.length : Int) + F_SKIP ∧
          ∀ j c, N.vec.get? j = some (some c) → ChildOK N first.id j c ∧ WFN lc false h c)))

/-- The invariant of the item set tree between two calls of its operations. -/
structure Inv (ist : ISTREE) : Prop where
  lvl_pos : 1 ≤ ist.lvlcnt
  lvl_vsz : ist.lvlcnt ≤ ist.lvlvsz
  supp_pos : 1 ≤ ist.supp
  root_off : ist.root.offset = 0
  root_size : (ist.root.cnts.length : Int) ≤ INT_MAX
  wf : ∃ lc, (lc = 0 ∨ lc = F_SKIP) ∧ WFN lc true (ist.lvlcnt - 1) ist.root
  lvl_len : ist.levels.length = ist.lvlcnt
  lvl_mem : ∀ k, k < ist.lvlcnt → ∀ a, a ∈ ist.levels.getD k [] ↔
    (a.length = k ∧ (nodeAt ist.root a).isSome = true)
  lvl_nodup : ∀ k, (ist.levels.getD k []).Nodup

/-- A transaction: item ids in strictly ascending order. -/
def Tract (t : List Int) : Prop := t.Pairwise (fun x y => x < y)

/-- The trees that the public operations produce, starting from `ist_create`. -/
inductive Reachable : ISTREE → Prop
  | create (itemcnt : Nat) (supp : Int) (hn : (itemcnt : Int) ≤ INT_MAX) (hs : 1 ≤ supp) :
      Reachable (ist_create itemcnt supp)
  | setcnt (ist : ISTREE) (item cnt : Int) : Reachable ist → Reachable (ist_setcnt ist item cnt)
  | count (ist : ISTREE) (t : List Int) : Reachable ist → Tract t → Reachable (ist_count ist t)
  | addlvl (ist : ISTREE) (mem : Option Nat) : Reachable ist → Reachable (ist_addlvl ist mem).1
  | filter (ist ist1 : ISTREE) (mode : Int) : Reachable ist → ist_filter ist mode = some ist1 →
      Reachable ist1
  | init (ist : ISTREE) : Reachable ist → Reachable (ist_init ist)

/-- The items of a transaction that follow item `x`. -/
def after (x : Int) (t : List Int) : List Int := t.dropWhile (fun y => decide (y ≤ x))

/-- Two child vectors hold related children at the same indices. -/
def VecRel (R : ISNODE → ISNODE → Prop) (v w : List (Option ISNODE)) : Prop :=
  (∀ j : Nat, v[j]? = none ↔ w[j]? = none) ∧
  (∀ j : Nat, v[j]? = some none ↔ w[j]? = some none) ∧
  (∀ (j : Nat) (c : ISNODE), v[j]? = some (some c) → ∃ d, w[j]? = some (some d) ∧ R c d)

/-- Two trees are related level by level: the nodes of the first `h` levels by `nodeR` and
the nodes `h` levels below by `leafR`. -/
def TRel (nodeR leafR : ISNODE → ISNODE → Prop) : Nat → ISNODE → ISNODE → Prop
  | 0, a, b => leafR a b
  | h + 1, a, b => nodeR a b ∧ VecRel (TRel nodeR leafR h) a.vec b.vec

/-- Two nodes agree in all fields but the children. -/
def nodeSim (a b : ISNODE) : Prop :=
  a.id = b.id ∧ a.chcnt = b.chcnt ∧ a.offset = b.offset ∧ a.cnts = b.cnts

/-- Two nodes agree in id, offset and counters. -/
def leafSim (a b : ISNODE) : Prop :=
  a.id = b.id ∧ a.offset = b.offset ∧ a.cnts = b.cnts

/-- Two trees agree down to level `d`, where they agree up to `chcnt` and the children. -/
def Sim : Nat → ISNODE → ISNODE → Prop := TRel nodeSim leafSim

/-- Two nodes agree in all fields but the values of the counters and the children. -/
def nodeShape (a b : ISNODE) : Prop :=
  a.id = b.id ∧ a.chcnt = b.chcnt ∧ a.offset = b.offset ∧ a.cnts.length = b.cnts.length

/-- Two nodes agree in all fields but the values of the counters. -/
def leafShape (a b : ISNODE) : Prop :=
  a.id = b.id ∧ a.chcnt = b.chcnt ∧ a.offset = b.offset ∧ a.cnts.length = b.cnts.length ∧
    a.vec = b.vec

/-- Two trees of `h + 1` levels differ only in the values of counters. -/
def Shape : Nat → ISNODE → ISNODE → Prop := TRel nodeShape leafShape

/-- Well-formed subtrees with an arbitrary condition `P` on the nodes `h` levels below. -/
def WFG (P : Bool → ISNODE → Prop) : Bool → Nat → ISNODE → Prop
  | live, 0, N => P live N
  | live, h + 1, N =>
    (N.vec = [] ∧ N.chcnt = F_SKIP) ∨
    (∃ first rest, N.vec = some first :: rest ∧ (N.vec.length : Int) ≤ INT_MAX ∧
      ((live = true ∧ N.chcnt = (N.vec.length : Int) ∧
          ∀ j c, N.vec.get? j = some (some c) → ChildOK N first.id j c ∧ WFG P true h c) ∨
       (N.chcnt = (N.vec.length : Int) + F_SKIP ∧
          ∀ j c, N.vec.get? j = some (some c) → ChildOK N first.id j c ∧ WFG P false h c)))

/-- The condition of `WFN` on the deepest nodes. -/
def leafP (lc : Int) (live : Bool) (N : ISNODE) : Prop :=
  live = true ∧ N.vec = [] ∧ N.chcnt = lc

/-- The node that `_child` creates for slot `index` when memory is available; `none` when
`_child` returns `NULL`. -/
def childOf (supp : Int) (anc : List ISNODE) (node : ISNODE) (index : Nat) : Option ISNODE :=
  if node.cnts.getD index 0 < supp then none
  else
    match candidates supp anc node index with
    | [] => none
    | first :: more =>
      some (.mk (node.offset + index) 0 first
        (List.replicate ((first :: more).getLast (List.cons_ne_nil first more) - first + 1).toNat 0)
        [])

/-- The children that `ist_addlvl` creates for a node, in the order of their creation. -/
def kidsOf (supp : Int) (anc : List ISNODE) (node : ISNODE) : List ISNODE :=
  (List.range node.cnts.length).filterMap (childOf supp anc node)

/-- The node after `ist_addlvl` has handled it: flagged when it got no child, else with
the vector of its children. -/
def attach (kids : List ISNODE) (nd : ISNODE) : ISNODE :=
  match kids with
  | [] => nd.setChcnt F_SKIP
  | frst :: more =>
    (nd.setChcnt (((frst :: more).getLast (List.cons_ne_nil frst more)).id - frst.id + 1)).setVec
      (buildVec frst.id (((frst :: more).getLast (List.cons_ne_nil frst more)).id - frst.id + 1)
        (frst :: more))

/-- The addresses of the children of the node at address `a`. -/
def kidAddrs (a : Addr) (kids : List ISNODE) : List Addr :=
  match kids with
  | [] => []
  | frst :: more => (frst :: more).map (fun c => a ++ [(c.id - frst.id).toNat])

/-- The parent of the node at address `a` and the nodes above it, as `_child` finds them
through the parent pointers. -/
def ancOf (root : ISNODE) (a : Addr) : List ISNODE := (chain root a).reverse.tail

/-- Two lists of ancestors (parent first) whose `k`-th entries agree down to the level of
the node they are the ancestors of. -/
def AncSim : Nat → List ISNODE → List ISNODE → Prop
  | _, [], [] => True
  | k, p :: up, q :: uq => Sim k p q ∧ AncSim (k + 1) up uq
  | _, _, _ => False

/-- The state of the loop of `ist_addlvl` over the deepest nodes after the nodes at the
addresses in `done` have been handled: the tree agrees with the tree `r0` from before the
call down to the deepest level `d`, the handled nodes have their children attached, the
others are untouched. -/
def LoopInv (supp : Int) (r0 : ISNODE) (d : Nat) (done : List Addr) (r : ISNODE) : Prop :=
  Sim d r0 r ∧
  (∀ a : Addr, a.length = d → a ∉ done → nodeAt r a = nodeAt r0 a) ∧
  (∀ a ∈ done, a.length = d ∧ ∀ N, nodeAt r0 a = some N →
    nodeAt r a = some (attach (kidsOf supp (ancOf r0 a) N) N))

/-- The relation between a tree and the tree with the skip flags set: the nodes above the
deepest level keep id, offset and counters, the deepest nodes are unchanged. -/
def SkipRel : Nat → ISNODE → ISNODE → Prop := TRel leafSim Eq

/-- The tree `r1` is the tree `r0` with the children of the new level attached to every
node of the deepest level `d`. -/
def Grown (supp : Int) (r0 : ISNODE) (d : Nat) (r1 : ISNODE) : Prop :=
  Sim d r0 r1 ∧
  ∀ (a : Addr) (N : ISNODE), a.length = d → nodeAt r0 a = some N →
    nodeAt r1 a = some (attach (kidsOf supp (ancOf r0 a) N) N)

/-- The node list of the new level: the addresses of the children of the nodes in `lvl`. -/
def newLevel (supp : Int) (r0 : ISNODE) (lvl : List Addr) : List Addr :=
  lvl.flatMap (fun a =>
    match nodeAt r0 a with
    | some N => kidAddrs a (kidsOf supp (ancOf r0 a) N)
    | none => [])

/-- The deepest level of the tree. -/
def deepest (ist : ISTREE) : List Addr := ist.levels.getD (ist.lvlcnt - 1) []

/-- The size of the level vector after the first step of `ist_addlvl`. -/
def grownVsz (ist : ISTREE) : Nat :=
  if ist.lvlcnt ≥ ist.lvlvsz then ist.lvlvsz + BLKSIZE else ist.lvlvsz

/-- The counter that stands for an item set below a node: the address of the node that holds
it (relative to `node`) and the index of its slot.  The item set is given without the ids on
the path to `node`; `none` when the descent along the ids leaves the child vectors or the
last item lies outside the counter range. -/
def locate : ISNODE → List Int → Option (Addr × Nat)
  | _, [] => none
  | node, [x] =>
    if 0 ≤ x - node.offset ∧ x - node.offset < node.size then
      some ([], (x - node.offset).toNat)
    else none
  | node, x :: y :: rest =>
    match node.vec with
    | some first :: _ =>
      match vecAt node.vec (x - first.id) with
      | some c => (locate c (y :: rest)).map (fun p => ((x - first.id).toNat :: p.1, p.2))
      | none => none
    | _ => none

/-- The last step of `_clrsupp`: the counter of slot `i` is cleared when `supp` is negative
or equal to the counter. -/
def clrSlot (i : Nat) (supp : Int) (M : ISNODE) : ISNODE :=
  if supp < 0 ∨ M.cnts.getD i 0 = supp then M.setCnts (M.cnts.set i 0) else M

/-- The tree with another size of the level vector. -/
def ISTREE.withVsz (ist : ISTREE) (v : Nat) : ISTREE := { ist with lvlvsz := v }

/-- The result of `ist_set` for the tree with another size of the level vector. -/
def SetRes.withVsz : SetRes → Nat → SetRes
  | .found ist set supp, v => .found (ist.withVsz v) set supp
  | .done ist, v => .done (ist.withVsz v)
  | .abort, _ => .abort

/-- The outcome of the first statement of the search loop for the tree with another size of
the level vector. -/
def Adv.withVsz : Adv → Nat → Adv
  | .next ist pos, v => .next (ist.withVsz v) pos
  | .done ist, v => .done (ist.withVsz v)
  | .bad, _ => .bad

/-- The tree of two items after a call of `ist_addlvl` that returned 1 and after both root
counters were then set to 1 by `ist_setcnt`. -/
def doneTree : ISTREE :=
  ist_setcnt (ist_setcnt (ist_addlvl (ist_create 2 1) none).1 0 1) 1 1

/-- The tree of two items with both root counters set to 1 by `ist_setcnt`. -/
def seededTree : ISTREE := ist_setcnt (ist_setcnt (ist_create 2 1) 0 1) 1 1

/-- A database over four items in which the items 1 and 3 occur with item 0 and item 2
does not occur. -/
def gapDb : List (List Int) := [[0, 1], [0, 3]]

/-- The tree for `gapDb` with minimal support 1 after the seeding of the root. -/
def gapTree : ISTREE := seed gapDb 4 (ist_create 4 1)

/-- The subtree `N'` is the subtree `N` of `h + 1` levels after the transactions `ts` have
been counted: the two differ only in the values of counters, and every counter of a node
with `chcnt = 0` has grown by the number of transactions that contain the item set of the
counter (the ids on the path from `N`, then the item of the slot). -/
def Counted (ts : List (List Int)) (h : Nat) (N N' : ISNODE) : Prop :=
  Shape h N N' ∧
  ∀ (a : Addr) (M M' : ISNODE), nodeAt N a = some M → nodeAt N' a = some M' →
    ∀ i : Nat, i < M.cnts.length → M'.cnts.getD i 0 = M.cnts.getD i 0 +
      if M.chcnt = 0 then support ts (pathIds N a ++ [M.offset + (i : Int)]) else 0

/-- Every counter of the tree is the support of its item set in the database. -/
def Exact (db : List (List Int)) (ist : ISTREE) : Prop :=
  ∀ (a : Addr) (M : ISNODE) (i : Nat), nodeAt ist.root a = some M → i < M.cnts.length →
    M.cnts.getD i 0 = support db (pathIds ist.root a ++ [M.offset + (i : Int)])

/-- The item set `X` is the item set of a counter slot of the tree: the ids on the path to a
node, then the item of one of its slots. -/
def Repr (ist : ISTREE) (X : List Int) : Prop :=
  ∃ (a : Addr) (M : ISNODE) (i : Nat), nodeAt ist.root a = some M ∧ i < M.cnts.length ∧
    pathIds ist.root a ++ [M.offset + (i : Int)] = X

/-- Every frequent item set of at most `k` items has a counter slot in the tree. -/
def Complete (db : List (List Int)) (k : Nat) (ist : ISTREE) : Prop :=
  ∀ X : List Int, X ≠ [] → Tract X → X.length ≤ k → ist.supp ≤ support db X → Repr ist X

/-- The invariant of the mining run on the database `db` over `n` items: the tree is well
formed, every level has a node, every counter is exact, and every frequent item set of at
most as many items as the tree has levels has a counter slot. -/
structure Mining (db : List (List Int)) (n : Nat) (supp : Int) (ist : ISTREE) : Prop where
  inv : Inv ist
  exact : Exact db ist
  complete : Complete db ist.lvlcnt ist
  size : ist.root.cnts.length = n
  supp_eq : ist.supp = supp
  lvl_ne : ∀ k, k < ist.lvlcnt → ist.levels.getD k [] ≠ []

/-! ## The enumeration of the frequent item sets -/

/-- The item set and the support that `ist_set` reports for slot `i` of the node `M` at
address `a`; `none` when the counter is below the minimal support. -/
def slotOut (ist : ISTREE) (a : Addr) (M : ISNODE) (i : Nat) : Option (List Int × Int) :=
  if ist.supp ≤ M.cnts.getD i 0 then
    some (pathIds ist.root a ++ [M.offset + (i : Int)], M.cnts.getD i 0)
  else none

/-- The item sets reported for the slots `j, j+1, ...` of the node at address `a`. -/
def nodeOut (ist : ISTREE) (a : Addr) (j : Nat) : List (List Int × Int) :=
  match nodeAt ist.root a with
  | some M => ((List.range M.cnts.length).drop j).filterMap (slotOut ist a M)
  | none => []

/-- The item sets reported for the nodes of a level list. -/
def levelOut (ist : ISTREE) (lvl : List Addr) : List (List Int × Int) :=
  lvl.flatMap (fun a => nodeOut ist a 0)

/-- The item sets with a counter of at least `supp`, level by level, node by node and slot
by slot. -/
def enumSets (ist : ISTREE) : List (List Int × Int) :=
  ist.levels.flatMap (levelOut ist)

/-- The item sets that remain to be reported when the cursor stands at the node at position
`pos` of level `ist.size - 1` and slot `j` is the next one to be looked at. -/
def outFrom (ist : ISTREE) (pos j : Nat) : List (List Int × Int) :=
  nodeOut ist ((ist.levels.getD (ist.size - 1) []).getD pos []) j ++
    levelOut ist ((ist.levels.getD (ist.size - 1) []).drop (pos + 1)) ++
    (ist.levels.drop ist.size).flatMap (levelOut ist)

/-- The number of search steps for a node: one per counter and one to leave the node. -/
def nodeW (ist : ISTREE) (a : Addr) : Nat :=
  match nodeAt ist.root a with
  | some nd => nd.cnts.length + 1
  | none => 1

/-- The number of search steps for a level. -/
def levelW (ist : ISTREE) (lvl : List Addr) : Nat := (lvl.map (nodeW ist)).sum + 1

/-- A bound for the number of search steps that remain from a cursor position. -/
def wFrom (ist : ISTREE) (pos j : Nat) : Nat :=
  (nodeW ist ((ist.levels.getD (ist.size - 1) []).getD pos []) - 1 - j) +
    (((ist.levels.getD (ist.size - 1) []).drop (pos + 1)).map (nodeW ist)).sum +
    ((ist.levels.drop ist.size).map (levelW ist)).sum + 1

/-- The cursor of the extraction stands at the node at position `pos` of level
`ist.size - 1`. -/
structure Cursor (ist : ISTREE) (pos : Nat) : Prop where
  size_pos : 1 ≤ ist.size
  size_le : ist.size ≤ ist.lvlcnt
  pos_lt : pos < (ist.levels.getD (ist.size - 1) []).length
  node_eq : ist.node = some pos
  index_ge : -1 ≤ ist.index

/-- The facts about the level lists that the extraction relies on: the lists hold nodes,
there is one list per level, no list is empty, and the minimal support is positive. -/
structure Scan (ist : ISTREE) : Prop where
  nodes : ∀ k, k < ist.lvlcnt → ∀ a ∈ ist.levels.getD k [], (nodeAt ist.root a).isSome = true
  len : ist.levels.length = ist.lvlcnt
  ne : ∀ k, k < ist.lvlcnt → ist.levels.getD k [] ≠ []
  supp_pos : 1 ≤ ist.supp

/-- Two states of the extraction differ only in the cursor. -/
def SameTree (ist ist' : ISTREE) : Prop :=
  ist'.root = ist.root ∧ ist'.levels = ist.levels ∧ ist'.lvlcnt = ist.lvlcnt ∧
    ist'.supp = ist.supp

/-! ## The filter for maximal and closed item sets -/

/-- The tree `r'` is the tree `r` after calls of `_clrsupp` with the support `s` for the item
sets in `Q`: the two differ only in the values of counters, the counter of a slot whose item
set is in `Q` is cleared when `s` is negative or equal to the counter, and all other
counters are unchanged. -/
def ClrRel (h : Nat) (s : Int) (Q : List Int → Prop) (r r' : ISNODE) : Prop :=
  Shape h r r' ∧
  ∀ (a : Addr) (M M' : ISNODE) (i : Nat), nodeAt r a = some M → nodeAt r' a = some M' →
    i < M.cnts.length →
    ((Q (pathIds r a ++ [M.offset + (i : Int)]) ∧ (s < 0 ∨ M.cnts.getD i 0 = s)) →
      M'.cnts.getD i 0 = 0) ∧
    (¬ (Q (pathIds r a ++ [M.offset + (i : Int)]) ∧ (s < 0 ∨ M.cnts.getD i 0 = s)) →
      M'.cnts.getD i 0 = M.cnts.getD i 0)

/-- The item set `Y` is the item set of a counter slot of the tree with root `r`. -/
def ReprN (r : ISNODE) (Y : List Int) : Prop :=
  ∃ (a : Addr) (M : ISNODE) (i : Nat), nodeAt r a = some M ∧ i < M.cnts.length ∧
    pathIds r a ++ [M.offset + (i : Int)] = Y

/-- The counter of the item set `X` with the value `c` is cleared by `ist_filter` on account
of a slot in `P`: a slot of the tree `r0` with a counter of at least `supp` whose item set
is `X` with one more item and, in the mode `IST_CLOSED`, whose counter is `c`. -/
def Hit (supp mode : Int) (P : Addr → Nat → Prop) (r0 : ISNODE) (X : List Int) (c : Int) : Prop :=
  ∃ (b : Addr) (N0 : ISNODE) (j : Nat), P b j ∧ nodeAt r0 b = some N0 ∧ j < N0.cnts.length ∧
    supp ≤ N0.cnts.getD j 0 ∧
    (∃ m, m < b.length + 1 ∧ X = (pathIds r0 b ++ [N0.offset + (j : Int)]).eraseIdx m) ∧
    (mode = IST_CLOSED → c = N0.cnts.getD j 0)

/-- The tree `r` is the tree `r0` in the course of `ist_filter`, after the slots in `P` have
been handled: a counter is cleared when a slot in `P` is a reason to clear it, and has its
value in `r0` otherwise. -/
def Filtered (h : Nat) (supp mode : Int) (P : Addr → Nat → Prop) (r0 r : ISNODE) : Prop :=
  Shape h r0 r ∧
  ∀ (a : Addr) (M0 M : ISNODE) (i : Nat), nodeAt r0 a = some M0 → nodeAt r a = some M →
    i < M0.cnts.length →
    (Hit supp mode P r0 (pathIds r0 a ++ [M0.offset + (i : Int)]) (M0.cnts.getD i 0) →
      M.cnts.getD i 0 = 0) ∧
    (¬ Hit supp mode P r0 (pathIds r0 a ++ [M0.offset + (i : Int)]) (M0.cnts.getD i 0) →
      M.cnts.getD i 0 = M0.cnts.getD i 0)

/-- Every item set that leaves out one item of the item set of a slot below the root with a
counter of at least `supp` has a counter slot. -/
def SubClosed (supp : Int) (r0 : ISNODE) : Prop :=
  ∀ (b : Addr) (N0 : ISNODE) (j : Nat), b ≠ [] → nodeAt r0 b = some N0 → j < N0.cnts.length →
    supp ≤ N0.cnts.getD j 0 → ∀ m, m < b.length + 1 →
    ReprN r0 ((pathIds r0 b ++ [N0.offset + (j : Int)]).eraseIdx m)

/-! ## The transaction tree and its transactions -/

/-- Modelled from the spec: the transactions that a transaction tree stands for.  A leaf
stands for its item sequence, as many times as its multiplicity says; an internal node stands
for the transactions of its children, each with the item of the edge in front, and for as
many empty transactions as its multiplicity exceeds those of its children.  The first
argument bounds the depth of the tree. -/
def tat_tracts : Nat → TATREE → List (List Int)
  | 0, _ => []
  | _ + 1, .leaf cnt _ items => List.replicate cnt.toNat items
  | fuel + 1, .node cnt _ kids =>
    List.replicate (cnt - (kids.map (fun kc => tat_cnt kc.2)).sum).toNat [] ++
      kids.flatMap (fun kc => (tat_tracts fuel kc.2).map (fun t => kc.1 :: t))

/-- Modelled from the spec: the interface of the transaction tree.  The edges of an internal
node are ordered by ascending item, the item sequences are ascending and lie behind the items
of the edges above them (all items exceed `lb`), the multiplicity of a node is the number of
transactions below it (at least the sum over its children, the rest are transactions that end
in the node), and `max` bounds the lengths of the transactions below the node.  The first
argument bounds the depth of the tree. -/
def WFT : Nat → Int → TATREE → Prop
  | 0, _, _ => False
  | _ + 1, lb, .leaf cnt max items =>
    0 ≤ cnt ∧ Tract items ∧ (∀ x ∈ items, lb < x) ∧ (items.length : Int) ≤ max
  | fuel + 1, lb, .node cnt max kids =>
    0 ≤ max ∧ (kids.map (fun kc => kc.1)).Pairwise (fun x y => x < y) ∧
    (kids.map (fun kc => tat_cnt kc.2)).sum ≤ cnt ∧
    ∀ kc ∈ kids, lb < kc.1 ∧ WFT fuel kc.1 kc.2 ∧ tat_max kc.2 + 1 ≤ max

/-- Every leaf of the transaction tree that holds items has the multiplicity 1. -/
def UnitLeaves : Nat → TATREE → Prop
  | 0, _ => True
  | _ + 1, .leaf cnt _ items => items ≠ [] → cnt = 1
  | fuel + 1, .node _ _ kids => ∀ kc ∈ kids, UnitLeaves fuel kc.2

/-- The transactions of the children of a node without the items of the edges. -/
def tails (fuel : Nat) (kids : List (Int × TATREE)) : List (List Int) :=
  kids.flatMap (fun kc => tat_tracts fuel kc.2)

/-- The transactions of the children of a node behind an edge with the item `y`, without
that item. -/
def heads (fuel : Nat) (y : Int) (kids : List (Int × TATREE)) : List (List Int) :=
  kids.flatMap (fun kc => if kc.1 = y then tat_tracts fuel kc.2 else [])

/-- The transactions of the children of a node with the items of the edges. -/
def withEdges (fuel : Nat) (kids : List (Int × TATREE)) : List (List Int) :=
  kids.flatMap (fun kc => (tat_tracts fuel kc.2).map (fun t => kc.1 :: t))

/-- A transaction tree that is a single leaf with the item sequence `[0]` and the
multiplicity 2. -/
def twinLeaf : TATREE := .leaf 2 1 [0]

/-- The transaction tree of the database `gapDb`: one edge for item 0 out of the root, below
it the edges for the items 1 and 3, each to a leaf with no further items. -/
def gapTat : TATREE :=
  .node 2 2 [(0, .node 2 1 [(1, .leaf 1 0 []), (3, .leaf 1 0 [])])]

/-! ## The skip flags -/

/-- The subtree with the skip flag cleared in every node of its first `fuel + 1` levels:
`chcnt` is replaced by `chcnt & ~F_SKIP`. -/
def clearSkip : Nat → ISNODE → ISNODE
  | 0, node => node.setChcnt (unskip node.chcnt)
  | fuel + 1, node =>
    (node.setChcnt (unskip node.chcnt)).setVec (node.vec.map (Option.map (clearSkip fuel)))

/-- The subtree with the skip flag cleared in every node of its first `fuel` levels that has
a child vector; a node without a child vector keeps its `chcnt`. -/
def clearFlags : Nat → ISNODE → ISNODE
  | 0, node => node
  | fuel + 1, node =>
    match node.vec with
    | [] => node
    | _ :: _ =>
      (node.setChcnt (unskip node.chcnt)).setVec (node.vec.map (Option.map (clearFlags fuel)))

/-- A database with the single transaction `[0, 1, 2]`. -/
def chainDb : List (List Int) := [[0, 1, 2]]

/-- The tree of the mining run on `chainDb` over four items with minimal support 1 after the
second call of `ist_addlvl`: three levels, the node for item 1 on the second level has got no
child and carries `chcnt = F_SKIP`. -/
def chainTree : ISTREE :=
  (ist_addlvl (countAll (ist_addlvl (seed chainDb 4 (ist_create 4 1)) none).1 chainDb) none).1

/-- A database over three items in which item 2 occurs only alone. -/
def soloDb : List (List Int) := [[0, 1], [2]]

/-- The tree of the mining run on `soloDb` with minimal support 1 after the first call of
`ist_addlvl` and the counting pass that follows it. -/
def soloTree : ISTREE := countAll (ist_addlvl (seed soloDb 3 (ist_create 3 1)) none).1 soloDb

/-! ## Successive calls of `ist_set` -/

/-- What a call of `ist_set` hands to the caller: the return value with the item set and the
support that were written (`-1` with nothing written at the end); `none` when the search was
cut off. -/
def SetRes.out : SetRes → Option (Int × List Int × Int)
  | .found ist set supp => some ((ist.size : Int), set, supp)
  | .done _ => some (-1, [], 0)
  | .abort => none

/-- The tree that a call of `ist_set` on the tree `ist0` leaves. -/
def SetRes.state (ist0 : ISTREE) : SetRes → ISTREE
  | .found ist _ _ => ist
  | .done ist => ist
  | .abort => ist0

/-- The results of `k` successive calls of `ist_set`. -/
def setCalls : Nat → ISTREE → List (Option (Int × List Int × Int))
  | 0, _ => []
  | k + 1, ist => SetRes.out (ist_set ist) :: setCalls k (SetRes.state ist (ist_set ist))

/-- The tree after `k` successive calls of `ist_set`. -/
def setState : Nat → ISTREE → ISTREE
  | 0, ist => ist
  | k + 1, ist => setState k (SetRes.state ist (ist_set ist))

/-- The slots of the node at address `a` with a counter of at least `supp`, by ascending
index. -/
def nodeSlots (ist : ISTREE) (a : Addr) : List (Addr × Nat) :=
  match nodeAt ist.root a with
  | some M =>
    ((List.range M.cnts.length).filter (fun i => decide (ist.supp ≤ M.cnts.getD i 0))).map
      (fun i => (a, i))
  | none => []

/-- The pairs of a node and a slot with a counter of at least `supp`: level by level, within
a level in the order of the node list, within a node by ascending slot index. -/
def slotList (ist : ISTREE) : List (Addr × Nat) :=
  ist.levels.flatMap (fun lvl => lvl.flatMap (nodeSlots ist))

/-- The size, the item set and the support of the slot `p.2` of the node at address `p.1`:
the level of the node plus 1, the ids on the path to the node followed by the item of the
slot, and the counter. -/
def slotRes (ist : ISTREE) (p : Addr × Nat) : Option (Int × List Int × Int) :=
  (nodeAt ist.root p.1).map (fun M =>
    ((p.1.length : Int) + 1, pathIds ist.root p.1 ++ [M.offset + (p.2 : Int)],
      M.cnts.getD p.2 0))

/-- The position of a node in the node list of its level. -/
def levelPos (ist : ISTREE) (a : Addr) : Nat := (ist.levels.getD a.length []).indexOf a

/-- The tree `r'` is the tree `r` with some counters set to 0, none of them in a node `h`
levels below the root. -/
def Faded (h : Nat) (r r' : ISNODE) : Prop :=
  Shape h r r' ∧
  ∀ (a : Addr) (M M' : ISNODE), nodeAt r a = some M → nodeAt r' a = some M' →
    (a.length = h → M'.cnts = M.cnts) ∧
    ∀ i : Nat, M'.cnts.getD i 0 = M.cnts.getD i 0 ∨ M'.cnts.getD i 0 = 0

/-- The tree with another tree of nodes. -/
def ISTREE.withRoot (ist : ISTREE) (r : ISNODE) : ISTREE := { ist with root := r }

/-! ## The item usage -/

/-- Below the node `N` (or in it) there is a counter of at least `supp` in a node with
`chcnt = 0`. -/
def Hot (supp : Int) (N : ISNODE) : Prop :=
  ∃ (a : Addr) (M : ISNODE) (i : Nat), nodeAt N a = some M ∧ M.chcnt = 0 ∧
    i < M.cnts.length ∧ supp ≤ M.cnts.getD i 0

/-- The item `x` is used below the node `N`: there is a counter of at least `supp` in a node
with `chcnt = 0` below `N` (or in `N`), and `x` is the item of the slot, an id on the path
from `N` to the node (the id of `N` excluded), or, when `withId` is set, the id of `N`. -/
def Used (supp : Int) (N : ISNODE) (withId : Bool) (x : Int) : Prop :=
  ∃ (a : Addr) (M : ISNODE) (i : Nat), nodeAt N a = some M ∧ M.chcnt = 0 ∧
    i < M.cnts.length ∧ supp ≤ M.cnts.getD i 0 ∧
    (x ∈ pathIds N a ++ [M.offset + (i : Int)] ∨ (withId = true ∧ x = N.id))

/-- What a call of `ist_set` hands to the caller when it reports the item set `p.1` with the
support `p.2`: the number of items as the return value, the item set and the support. -/
def callOut (p : List Int × Int) : Option (Int × List Int × Int) :=
  some ((p.1.length : Int), p.1, p.2)

/-- The order in which `ist_set` visits the slots: by increasing level, within a level by the
position of the node in the node list of the level, within a node by ascending slot index. -/
def slotBefore (ist : ISTREE) (p q : Addr × Nat) : Prop :=
  p.1.length < q.1.length ∨
  (p.1.length = q.1.length ∧ levelPos ist p.1 < levelPos ist q.1) ∨
  (p.1 = q.1 ∧ p.2 < q.2)

/-- The addresses in the node list of level `k` have the length `k`. -/
def LevelLen (ist : ISTREE) : Prop :=
  ∀ k, k < ist.lvlcnt → ∀ a ∈ ist.levels.getD k [], a.length = k

/-- The marker vector `m'` is the marker vector `m` with the mark 1 stored for the items in
`U` (as far as they are indices of the vector). -/
def Marked (U : Int → Prop) (m m' : List Int) : Prop :=
  m'.length = m.length ∧
  ∀ x : Nat, ((x < m.length ∧ U (x : Int)) → m'.getD x 0 = 1) ∧
    (¬ (x < m.length ∧ U (x : Int)) → m'.getD x 0 = m.getD x 0)

/-! ## The pointers to the root -/

/-- The two pointers of the tree structure to the root node: `levels[0]`, through which all
functions but `ist_setcnt` reach the root, and `curr`, which `ist_setcnt` reads.  A pointer is
the number of a memory block. -/
structure RootPtrs where
  levels0 : Nat
  curr : Nat

/-- The pointers after `ist_create`: `lvl[0] = ist->curr = root = calloc(...)`, where `p` is
the block that `calloc` returns. -/
def create_ptrs (p : Nat) : RootPtrs := { levels0 := p, curr := p }

/-- The pointers after `ist_addlvl`.  The statements `node = realloc(node, ...)` and
`*ndp = node` are executed for the root when the root is the deepest level and has got a
child, which is when the call on a tree of height 1 returns 0; `q` is the block that `realloc`
returns, and the block it was called for is released unless it is `q`.  No statement assigns
`ist->curr`. -/
def addlvl_ptrs (ist : ISTREE) (mem : Option Nat) (q : Nat) (ps : RootPtrs) : RootPtrs :=
  if ist.lvlcnt = 1 ∧ (ist_addlvl ist mem).2 = 0 then { ps with levels0 := q } else ps

/-- Function `ist_setcnt` with the pointers: `node = ist->curr; item -= node->offset; ...`.
When `curr` is the block of the root the effect is that of `ist_setcnt`; otherwise the block
has been released by `realloc` and the accesses to it are undefined (`none`). -/
def setcnt_ptrs (ps : RootPtrs) (ist : ISTREE) (item cnt : Int) : Option ISTREE :=
  if ps.curr = ps.levels0 then some (ist_setcnt ist item cnt) else none

/-! ## The scenarios -/

/-- The run of a scenario: the mining run (create, seed the counters of the single items,
`ist_addlvl` and a counting pass until `ist_addlvl` returns 1), then `ist_filter` when a
filter mode is given, then `ist_init; ist_set*`.  The result is the sequence of the emitted
item sets with their supports. -/
def runSets (db : List (List Int)) (n : Nat) (supp : Int) (mode : Option Int) :
    Option (List (List Int × Int)) :=
  (mine db n supp).bind (fun t =>
    match mode with
    | none => ist_sets t
    | some m => (ist_filter t m).bind ist_sets)

/-- The items of a transaction in ascending order. -/
def sortItems (t : List Int) : List Int := t.insertionSort (fun x y => x ≤ y)

/-- The transactions of the scenarios S1 and S3, `{1 2 3}, {1 2}, {1 3}, {2 3}, {1 2 3}`, with
the items coded by `f`. -/
def s1Db (f : Int → Int) : List (List Int) :=
  [[1, 2, 3], [1, 2], [1, 3], [2, 3], [1, 2, 3]].map (fun t => sortItems (t.map f))

/-- The transactions of scenario S4, `{a b c}, {a b c}, {a b}`, with the items coded by the
ids `a`, `b`, `c`. -/
def s4Db (a b c : Int) : List (List Int) :=
  [sortItems [a, b, c], sortItems [a, b, c], sortItems [a, b]]

/-- The codings of three items by the ids 0, 1, 2. -/
def codings3 : List (Int × Int × Int) :=
  [(0, 1, 2), (0, 2, 1), (1, 0, 2), (1, 2, 0), (2, 0, 1), (2, 1, 0)]

/-- The transactions of scenario S6, `{1 2}, {3 4}`, with the items coded by `f`. -/
def s6Db (f : Int → Int) : List (List Int) :=
  [[1, 2], [3, 4]].map (fun t => sortItems (t.map f))

/-- The item sets of a list of emitted sets, each with its items decoded by `g`. -/
def decoded (g : Int → Int) (out : Option (List (List Int × Int))) :
    Option (List (List Int × Int)) :=
  out.map (fun l => l.map (fun p => (p.1.map g, p.2)))

/-! ## The candidate test of `_child` -/

/-- The items that `_child` accepts for slot `index`: none when the counter of the slot is
below the minimal support (`return NULL` before the loop), else the items that the loop
writes to `ist->map`. -/
def accepted (supp : Int) (anc : List ISNODE) (node : ISNODE) (index : Nat) : List Int :=
  if node.cnts.getD index 0 < supp then [] else candidates supp anc node index

/-- The subtree of the node holds a node with `chcnt = 0`. -/
def HasNew (N : ISNODE) : Prop :=
  ∃ (a : Addr) (M : ISNODE), nodeAt N a = some M ∧ M.chcnt = 0

/-! ## The order of the nodes and of the item sets -/

/-- Strict lexicographic order of two sequences. -/
def lexLt {α : Type} (lt : α → α → Prop) : List α → List α → Prop
  | [], [] => False
  | [], _ :: _ => True
  | _ :: _, [] => False
  | x :: s, y :: t => lt x y ∨ (x = y ∧ lexLt lt s t)

/-- The node list of every level is in strictly increasing lexicographic order of the
addresses of the nodes. -/
def Ordered (ist : ISTREE) : Prop :=
  ∀ k : Nat, (ist.levels.getD k []).Pairwise (lexLt (fun i j : Nat => i < j))

/-- The order of the emitted item sets: by size, and the sets of one size in strictly
increasing lexicographic order. -/
def setBefore (X Y : List Int) : Prop :=
  X.length < Y.length ∨ (X.length = Y.length ∧ lexLt (fun x y : Int => x < y) X Y)

/-! ## The driver's flag for the empty item set -/

/-- Modelled from the spec: the frequencies of the items as the item set module of the driver
keeps them; applied to `k` it is `is_getfrq(itemset, k)`, the number of transactions that
contain item `k`. -/
abbrev ItemFrq := Nat → Int

/-- The loop `for (k = n; --k >= 0; ) if (is_getfrq(itemset, k) == tacnt) break;` of `main`
in the CLOSED build: the value of `k` after the loop. -/
def emptyScan (frq : ItemFrq) (tacnt : Int) : Nat → Int
  | 0 => -1
  | k + 1 => if frq k = tacnt then (k : Int) else emptyScan frq tacnt k

/-- The flag `empty` of `main` in the CLOSED build: `empty = (k <= 0) ? 1 : 0` after the loop
over the `n` items. -/
def emptyClosed (frq : ItemFrq) (tacnt : Int) (n : Nat) : Int :=
  if emptyScan frq tacnt n ≤ 0 then 1 else 0

/-! ## The item usage check on a marker vector -/

/-- The loop `for (i = ist->levels[0]->size; --i >= 0; ) marks[i] = 0` of `ist_check`. -/
def clearMarks : Nat → List Int → List Int
  | 0, marks => marks
  | i + 1, marks => clearMarks i (marks.set i 0)

/-- Function `ist_check` on the marker vector `marks` of the caller, whatever it holds: the
first loop clears the markers of the items, `_check` sets markers, the last loop counts the
markers of the items that are not 0.  The result is the marker vector and the return value. -/
def ist_check_on (ist : ISTREE) (marks : List Int) : List Int × Nat :=
  let m := (_check ist.lvlcnt ist.root false
    (clearMarks ist.root.cnts.length marks) ist.supp).1
  (m, (m.take ist.root.cnts.length).countP (fun x => decide (x ≠ 0)))

/-! ## The indices of the path buffer -/

/-- The indices of `ist->buf` that the loop of `_child` over the path to the root writes by
`*--set = curr->id`, when `set` is `buf + p` before the loop.  The loop is the one of
`checkAnc`; the calls of `_getsupp` in it read `set[0]` to `set[cnt-1]`, which are the
indices from `set` to `lvlvsz - 1`. -/
def checkAncIdx (supp : Int) : Int → List ISNODE → List Int → Int → List Int
  | _, [], _, _ => []
  | id, par :: up, set, p =>
    if _getsupp par set < supp then []
    else (p - 1) :: checkAncIdx supp par.id up (id :: set) (p - 1)

/-- The indices of `ist->buf` that a call of `_child` for slot `index` accesses when the size
of the buffer is `vsz`: none when the counter of the slot is below the minimal support, else
`ist->buf[ist->lvlvsz -2] = item` and, for every slot `i` behind `index` with a counter of at
least `supp`, `set = ist->buf +ist->lvlvsz -2; set[1] = k` and the indices of the loop over
the path. -/
def childBufIdx (supp : Int) (vsz : Nat) (anc : List ISNODE) (node : ISNODE) (index : Nat) :
    List Int :=
  if node.cnts.getD index 0 < supp then []
  else
    ((vsz : Int) - 2) ::
      ((List.range node.cnts.length).filter (fun (i : Nat) =>
        decide (index < i) && decide (supp ≤ node.cnts.getD i 0))).flatMap (fun (i : Nat) =>
          ((vsz : Int) - 1) ::
            checkAncIdx supp node.id anc [node.offset + (index : Int), node.offset + (i : Int)]
              ((vsz : Int) - 2))

/-- The indices of `ist->buf` that the loop `for (curr = node->parent; curr->parent; ...)` of
`ist_filter` writes by `*--set = curr->id`, when `set` is `buf + p` before the loop; the list
is the reversed address of `node->parent`, as in `clrUp`. -/
def clrUpIdx : List Nat → Int → List Int
  | [], _ => []
  | _ :: rpar, p => (p - 1) :: clrUpIdx rpar (p - 1)

/-- The indices of `ist->buf` that `ist_filter` writes for a counter of the node at address
`a` when the size of the buffer is `vsz`: `set = ist->buf +ist->lvlvsz; *--set = k;
*--set = node->id;` and the indices of the loop over the path.  The calls of `_clrsupp` read
indices from `set` to `lvlvsz - 1`. -/
def filterBufIdx (vsz : Nat) (a : Addr) : List Int :=
  match a.reverse with
  | [] => []
  | _ :: rpar => ((vsz : Int) - 1) :: ((vsz : Int) - 2) :: clrUpIdx rpar ((vsz : Int) - 2)

/-! ## Counting with counters of the type `int` -/

/-- The least value of the type `int`. -/
def INT_MIN : Int := -2147483648

/-- The value that a variable of the type `int` holds after an arithmetic statement whose exact
result is `x`: the value between `INT_MIN` and `INT_MAX` that differs from `x` by a multiple of
`2^32`.  A result beyond `INT_MAX` is a signed overflow, which C leaves undefined; the compiled
code wraps around, and so does the model. -/
def wrapInt (x : Int) : Int := (x + 2147483648) % 4294967296 - 2147483648

/-- The statement `cnts[i]++` on a counter of the type `int`. -/
def incrInt (cnts : List Int) (i : Int) : List Int :=
  if i < 0 then cnts else cnts.set i.toNat (wrapInt (cnts.getD i.toNat 0 + 1))

/-- The loop over the items of a transaction in a node without children, with counters of the
type `int`:
`while (--cnt >= 0) { i = *set++ -n; if (i >= node->size) return; node->cnts[i]++; }`. -/
def countLeafInt (n : Int) : List Int → List Int → List Int
  | cnts, [] => cnts
  | cnts, x :: rest =>
    if x - n ≥ (cnts.length : Int) then cnts else countLeafInt n (incrInt cnts (x - n)) rest

/-- Function `_count` with counters of the type `int`: count a transaction recursively.  The
first argument bounds the recursion depth. -/
def _countInt : Nat → ISNODE → List Int → Int → ISNODE
  | 0, node, _, _ => node
  | fuel + 1, node, set, min =>
    if node.chcnt = 0 then
      node.setCnts (countLeafInt node.offset node.cnts (skipItems node.offset 0 set))
    else if node.chcnt > 0 then
      match node.vec with
      | some first :: _ =>
        node.setVec (countVec (fun c s => _countInt fuel c s (min - 1)) first.id node.chcnt
          (min - 1) node.vec (skipItems first.id (min - 1) set))
      | _ => node
    else node

/-- Function `ist_count` with counters of the type `int`: count a transaction in the tree;
`ist->tacnt++` is a statement on an `int` as well. -/
def ist_countInt (ist : ISTREE) (set : List Int) : ISTREE :=
  if set.length ≥ ist.lvlcnt then
    { ist with root := _countInt ist.lvlcnt ist.root set ist.lvlcnt,
               tacnt := wrapInt (ist.tacnt + 1) }
  else { ist with tacnt := wrapInt (ist.tacnt + 1) }

/-- The trees that the public operations produce, starting from `ist_create`, when the
counters are values of the type `int`: `ist_setcnt` is given a value of that type and
`ist_count` counts with `cnts[i]++` on that type. -/
inductive ReachableInt : ISTREE → Prop
  | create (itemcnt : Nat) (supp : Int) (hn : (itemcnt : Int) ≤ INT_MAX) (hs : 1 ≤ supp) :
      ReachableInt (ist_create itemcnt supp)
  | setcnt (ist : ISTREE) (item cnt : Int) : ReachableInt ist → INT_MIN ≤ cnt → cnt ≤ INT_MAX →
      ReachableInt (ist_setcnt ist item cnt)
  | count (ist : ISTREE) (t : List Int) : ReachableInt ist → Tract t →
      ReachableInt (ist_countInt ist t)
  | addlvl (ist : ISTREE) (mem : Option Nat) : ReachableInt ist →
      ReachableInt (ist_addlvl ist mem).1
  | filter (ist ist1 : ISTREE) (mode : Int) : ReachableInt ist →
      ist_filter ist mode = some ist1 → ReachableInt ist1
  | init (ist : ISTREE) : ReachableInt ist → ReachableInt (ist_init ist)

/-- Every counter of the tree is a value of the type `int`. -/
def IntCnts (r : ISNODE) : Prop :=
  ∀ (a : Addr) (N : ISNODE) (i : Nat), nodeAt r a = some N →
    INT_MIN ≤ N.cnts.getD i 0 ∧ N.cnts.getD i 0 ≤ INT_MAX

/-- The tree in which the counter of item 0 in the root has reached `INT_MAX`:
`ist_create(2, 1)` followed by `ist_setcnt(ist, 0, INT_MAX)`. -/
def fullTree : ISTREE := ist_setcnt (ist_create 2 1) 0 2147483647

/-! ## Theorems -/


@[simp] theorem ISNODE.id_setCnts (n : ISNODE) (c : List Int) : (n.setCnts c).id = n.id := by
  cases n; rfl
@[simp] theorem ISNODE.chcnt_setCnts (n : ISNODE) (c : List Int) : (n.setCnts c).chcnt = n.chcnt := by
  cases n; rfl
@[simp] theorem ISNODE.offset_setCnts (n : ISNODE) (c : List Int) : (n.setCnts c).offset = n.offset := by
  cases n; rfl
@[simp] theorem ISNODE.cnts_setCnts (n : ISNODE) (c : List Int) : (n.setCnts c).cnts = c := by
  cases n; rfl
@[simp] theorem ISNODE.vec_setCnts (n : ISNODE) (c : List Int) : (n.setCnts c).vec = n.vec := by
  cases n; rfl
@[simp] theorem ISNODE.id_setVec (n : ISNODE) (v : List (Option ISNODE)) : (n.setVec v).id = n.id := by
  cases n; rfl
@[simp] theorem ISNODE.chcnt_setVec (n : ISNODE) (v : List (Option ISNODE)) :
    (n.setVec v).chcnt = n.chcnt := by
  cases n; rfl
@[simp] theorem ISNODE.offset_setVec (n : ISNODE) (v : List (Option ISNODE)) :
    (n.setVec v).offset = n.offset := by
  cases n; rfl
@[simp] theorem ISNODE.cnts_setVec (n : ISNODE) (v : List (Option ISNODE)) :
    (n.setVec v).cnts = n.cnts := by
  cases n; rfl
@[simp] theorem ISNODE.vec_setVec (n : ISNODE) (v : List (Option ISNODE)) : (n.setVec v).vec = v := by
  cases n; rfl
@[simp] theorem ISNODE.id_setChcnt (n : ISNODE) (c : Int) : (n.setChcnt c).id = n.id := by
  cases n; rfl
@[simp] theorem ISNODE.chcnt_setChcnt (n : ISNODE) (c : Int) : (n.setChcnt c).chcnt = c := by
  cases n; rfl
@[simp] theorem ISNODE.offset_setChcnt (n : ISNODE) (c : Int) : (n.setChcnt c).offset = n.offset := by
  cases n; rfl
@[simp] theorem ISNODE.cnts_setChcnt (n : ISNODE) (c : Int) : (n.setChcnt c).cnts = n.cnts := by
  cases n; rfl
@[simp] theorem ISNODE.vec_setChcnt (n : ISNODE) (c : Int) : (n.setChcnt c).vec = n.vec := by
  cases n; rfl
@[simp] theorem ISNODE.size_setVec (n : ISNODE) (v : List (Option ISNODE)) :
    (n.setVec v).size = n.size := by
  cases n; rfl
@[simp] theorem ISNODE.size_setChcnt (n : ISNODE) (c : Int) : (n.setChcnt c).size = n.size := by
  cases n; rfl

theorem ISNODE.ext_fields {a b : ISNODE} (h1 : a.id = b.id) (h2 : a.chcnt = b.chcnt)
    (h3 : a.offset = b.offset) (h4 : a.cnts = b.cnts) (h5 : a.vec = b.vec) : a = b := by
  cases a; cases b
  simp only [ISNODE.id, ISNODE.chcnt, ISNODE.offset, ISNODE.cnts, ISNODE.vec] at h1 h2 h3 h4 h5
  subst h1 h2 h3 h4 h5
  rfl

theorem ISNODE.setVec_vec (n : ISNODE) : n.setVec n.vec = n := by cases n; rfl
theorem ISNODE.setCnts_cnts (n : ISNODE) : n.setCnts n.cnts = n := by cases n; rfl

/-! ### Transactions -/

theorem Tract.tail {x : Int} {t : List Int} (h : Tract (x :: t)) : Tract t :=
  (List.pairwise_cons.1 h).2

theorem Tract.head_lt {x : Int} {t : List Int} (h : Tract (x :: t)) : ∀ y ∈ t, x < y :=
  (List.pairwise_cons.1 h).1

theorem Tract.not_mem {x : Int} {t : List Int} (h : Tract (x :: t)) : x ∉ t := by
  intro hx
  have := h.head_lt x hx
  omega

/-! ### Counting in a node without children -/

theorem length_incr (cnts : List Int) (i : Int) : (incr cnts i).length = cnts.length := by
  unfold incr
  split <;> simp

theorem getD_incr (cnts : List Int) (i : Int) (j : Nat) :
    (incr cnts i).getD j 0 =
      cnts.getD j 0 + if 0 ≤ i ∧ j = i.toNat ∧ j < cnts.length then 1 else 0 := by
  unfold incr
  by_cases hi : i < 0
  · have : ¬ (0 ≤ i) := by omega
    simp [hi, this]
  · simp only [hi, if_false]
    have h0 : 0 ≤ i := by omega
    simp only [h0, true_and]
    by_cases hj : j = i.toNat
    · subst hj
      by_cases hl : i.toNat < cnts.length
      · simp [List.getD_eq_getElem?_getD, List.getElem?_set, hl]
      · simp [List.getD_eq_getElem?_getD, List.getElem?_set, hl]
        have : cnts.length ≤ i.toNat := by omega
        simp [List.getElem?_eq_none this]
    · have : ¬ (i.toNat = j) := fun h => hj h.symm
      simp [List.getD_eq_getElem?_getD, List.getElem?_set, hj, this]

theorem countLeaf_spec (n : Int) (s : List Int) : ∀ (cnts : List Int), Tract s →
    (∀ x ∈ s, n ≤ x) →
    (countLeaf n cnts s).length = cnts.length ∧
    ∀ i : Nat, (countLeaf n cnts s).getD i 0 =
      cnts.getD i 0 + if i < cnts.length ∧ n + (i : Int) ∈ s then 1 else 0 := by
  induction s with
  | nil => intro cnts _ _; simp [countLeaf]
  | cons x rest ih =>
    intro cnts hs hge
    have hx : n ≤ x := hge x (List.mem_cons_self _ _)
    have hlt := hs.head_lt
    unfold countLeaf
    by_cases hc : x - n ≥ (cnts.length : Int)
    · simp only [hc, if_true, true_and]
      intro i
      have : ¬ (i < cnts.length ∧ n + (i : Int) ∈ x :: rest) := by
        rintro ⟨h1, h2⟩
        rcases List.mem_cons.1 h2 with h | h
        · omega
        · have := hlt _ h; omega
      rw [if_neg this]; simp
    · simp only [hc, if_false]
      have ih' := ih (incr cnts (x - n)) hs.tail (fun y hy => by have := hlt y hy; omega)
      rw [length_incr] at ih'
      refine ⟨ih'.1, fun i => ?_⟩
      rw [ih'.2 i, getD_incr]
      have hxn : x ∉ rest := hs.not_mem
      by_cases hi : i < cnts.length
      · by_cases hix : n + (i : Int) = x
        · have h1 : i = (x - n).toNat := by omega
          have h2 : n + (i : Int) ∉ rest := by rw [hix]; exact hxn
          have h3 : 0 ≤ x - n := by omega
          rw [if_pos ⟨h3, h1, hi⟩, if_neg (fun h => h2 h.2),
            if_pos ⟨hi, by rw [hix]; exact List.mem_cons_self _ _⟩]
          omega
        · have h1 : ¬ (0 ≤ x - n ∧ i = (x - n).toNat ∧ i < cnts.length) := by
            rintro ⟨_, h, _⟩; omega
          rw [if_neg h1]
          by_cases hr : n + (i : Int) ∈ rest
          · rw [if_pos ⟨hi, hr⟩, if_pos ⟨hi, List.mem_cons_of_mem _ hr⟩]; omega
          · rw [if_neg (fun h => hr h.2), if_neg]
            · omega
            · rintro ⟨_, h⟩
              rcases List.mem_cons.1 h with h | h
              · exact hix h
              · exact hr h
      · have h1 : ¬ (0 ≤ x - n ∧ i = (x - n).toNat ∧ i < cnts.length) := by
          rintro ⟨_, _, h⟩; exact hi h
        rw [if_neg h1, if_neg (fun h => hi h.1), if_neg (fun h => hi h.1)]
        omega


/-! ### The items after an item -/

theorem after_nil (x : Int) : after x [] = [] := rfl

theorem after_cons_le {x y : Int} (t : List Int) (h : y ≤ x) : after x (y :: t) = after x t := by
  simp [after, List.dropWhile_cons, h]

theorem after_cons_gt {x y : Int} (t : List Int) (h : x < y) : after x (y :: t) = y :: t := by
  have : ¬ (y ≤ x) := by omega
  simp [after, List.dropWhile_cons, this]

theorem after_of_lt {x : Int} : ∀ {t : List Int}, (∀ y ∈ t, x < y) → after x t = t
  | [], _ => rfl
  | y :: t, h => after_cons_gt t (h y (List.mem_cons_self _ _))

theorem length_after_le (x : Int) : ∀ (t : List Int), (after x t).length ≤ t.length
  | [] => by simp [after]
  | y :: t => by
    by_cases h : y ≤ x
    · rw [after_cons_le t h]
      have := length_after_le x t
      simp; omega
    · rw [after_cons_gt t (by omega)]

theorem after_sublist (x : Int) (t : List Int) : (after x t).Sublist t := by
  unfold after
  exact (List.dropWhile_suffix _).sublist

theorem Tract.after {t : List Int} (h : Tract t) (x : Int) : Tract (after x t) :=
  List.Pairwise.sublist (after_sublist x t) h

theorem mem_after {x y : Int} : ∀ {t : List Int}, Tract t → (y ∈ after x t ↔ (y ∈ t ∧ x < y))
  | [], _ => by simp [after]
  | z :: t, h => by
    by_cases hz : z ≤ x
    · rw [after_cons_le t hz, mem_after h.tail]
      constructor
      · rintro ⟨h1, h2⟩; exact ⟨List.mem_cons_of_mem _ h1, h2⟩
      · rintro ⟨h1, h2⟩
        rcases List.mem_cons.1 h1 with h1 | h1
        · omega
        · exact ⟨h1, h2⟩
    · rw [after_cons_gt t (by omega)]
      constructor
      · intro h1
        refine ⟨h1, ?_⟩
        rcases List.mem_cons.1 h1 with h1 | h1
        · omega
        · have := h.head_lt y h1; omega
      · exact fun h1 => h1.1

theorem after_after {x y : Int} (hxy : x ≤ y) : ∀ (t : List Int), Tract t →
    after y (after x t) = after y t
  | [], _ => rfl
  | z :: t, h => by
    by_cases hz : z ≤ x
    · rw [after_cons_le t hz, after_cons_le t (by omega)]; exact after_after hxy t h.tail
    · rw [after_cons_gt t (by omega)]

/-! ### The skip loop -/

theorem skipItems_spec (n m : Int) : ∀ (t : List Int), Tract t →
    Tract (skipItems n m t) ∧
    (∀ y, n ≤ y → (y ∈ skipItems n m t ↔ y ∈ t)) ∧
    (∀ y, n ≤ y → after y (skipItems n m t) = after y t) ∧
    ((∀ y ∈ skipItems n m t, n ≤ y) ∨ ((skipItems n m t).length : Int) ≤ m)
  | [], _ => by simp [skipItems, Tract]
  | x :: t, h => by
    unfold skipItems
    by_cases hc : ((t.length : Int) + 1 > m) ∧ x < n
    · rw [if_pos hc]
      obtain ⟨h1, h2, h3, h4⟩ := skipItems_spec n m t h.tail
      refine ⟨h1, fun y hy => ?_, fun y hy => ?_, h4⟩
      · rw [h2 y hy]
        constructor
        · exact fun h => List.mem_cons_of_mem _ h
        · intro h
          rcases List.mem_cons.1 h with h | h
          · omega
          · exact h
      · rw [h3 y hy, after_cons_le t (by omega)]
    · rw [if_neg hc]
      refine ⟨h, fun _ _ => Iff.rfl, fun _ _ => rfl, ?_⟩
      by_cases hx : x < n
      · right
        have : ¬ ((t.length : Int) + 1 > m) := fun h => hc ⟨h, hx⟩
        simp only [List.length_cons]
        push_cast
        omega
      · left
        intro y hy
        rcases List.mem_cons.1 hy with hy | hy
        · omega
        · have := h.head_lt y hy; omega

/-! ### The loop over the child vector -/

theorem vecAt_eq (vec : List (Option ISNODE)) (i : Int) (h : 0 ≤ i) :
    vecAt vec i = (vec[i.toNat]?).join := by
  have : ¬ (i < 0) := by omega
  simp [vecAt, this]

theorem countVec_spec (rec : ISNODE → List Int → ISNODE) (n chcnt m : Int) :
    ∀ (s : List Int) (vec : List (Option ISNODE)), Tract s → (∀ x ∈ s, n ≤ x) →
    chcnt = (vec.length : Int) →
    (countVec rec n chcnt m vec s).length = vec.length ∧
    ∀ j : Nat, (countVec rec n chcnt m vec s)[j]? =
      (vec[j]?).map (fun oc => oc.map (fun c =>
        if n + (j : Int) ∈ s ∧ m ≤ ((after (n + (j : Int)) s).length : Int)
        then rec c (after (n + (j : Int)) s) else c))
  | [], vec, _, _, _ => by
    refine ⟨rfl, fun j => ?_⟩
    simp only [countVec, List.not_mem_nil, false_and, if_false]
    cases h : vec[j]? with
    | none => rfl
    | some oc => cases oc <;> rfl
  | x :: rest, vec, hs, hge, hch => by
    have hx : n ≤ x := hge x (List.mem_cons_self _ _)
    have hlt := hs.head_lt
    have hrest : ∀ y ∈ rest, n ≤ y := fun y hy => by have := hlt y hy; omega
    -- the condition of the specification in terms of `rest`
    have hcond : ∀ j : Nat, n + (j : Int) ≠ x →
        ((n + (j : Int) ∈ x :: rest ∧ m ≤ ((after (n + (j : Int)) (x :: rest)).length : Int)) ↔
         (n + (j : Int) ∈ rest ∧ m ≤ ((after (n + (j : Int)) rest).length : Int))) := by
      intro j hj
      constructor
      · rintro ⟨h1, h2⟩
        rcases List.mem_cons.1 h1 with h1 | h1
        · exact absurd h1 hj
        · have := hlt _ h1
          rw [after_cons_le rest (by omega)] at h2
          exact ⟨h1, h2⟩
      · rintro ⟨h1, h2⟩
        have := hlt _ h1
        rw [after_cons_le rest (by omega)]
        exact ⟨List.mem_cons_of_mem _ h1, h2⟩
    have hafter : ∀ j : Nat, n + (j : Int) ≠ x → n + (j : Int) ∈ rest →
        after (n + (j : Int)) (x :: rest) = after (n + (j : Int)) rest := by
      intro j _ h1
      have := hlt _ h1
      rw [after_cons_le rest (by omega)]
    unfold countVec
    by_cases h1 : (rest.length : Int) < m
    · rw [if_pos h1]
      refine ⟨rfl, fun j => ?_⟩
      have : ¬ (n + (j : Int) ∈ x :: rest ∧ m ≤ ((after (n + (j : Int)) (x :: rest)).length : Int)) := by
        rintro ⟨h2, h3⟩
        have h4 : x ≤ n + (j : Int) := by
          rcases List.mem_cons.1 h2 with h2 | h2
          · omega
          · have := hlt _ h2; omega
        rw [after_cons_le rest h4] at h3
        have := length_after_le (n + (j : Int)) rest
        omega
      simp only [this, if_false]
      cases h : vec[j]? with
      | none => rfl
      | some oc => cases oc <;> rfl
    · rw [if_neg h1]
      by_cases h2 : x - n ≥ chcnt
      · rw [if_pos h2]
        refine ⟨rfl, fun j => ?_⟩
        by_cases hj : j < vec.length
        · have : ¬ (n + (j : Int) ∈ x :: rest ∧ m ≤ ((after (n + (j : Int)) (x :: rest)).length : Int)) := by
            rintro ⟨h3, _⟩
            rcases List.mem_cons.1 h3 with h3 | h3
            · omega
            · have := hlt _ h3; omega
          simp only [this, if_false]
          cases h : vec[j]? with
          | none => rfl
          | some oc => cases oc <;> rfl
        · rw [List.getElem?_eq_none (by omega)]; rfl
      · rw [if_neg h2]
        have hi0 : 0 ≤ x - n := by omega
        have hil : (x - n).toNat < vec.length := by omega
        rw [vecAt_eq _ _ hi0]
        cases hv : (vec[(x - n).toNat]?).join with
        | none =>
          simp only []
          obtain ⟨ih1, ih2⟩ := countVec_spec rec n chcnt m rest vec hs.tail hrest hch
          refine ⟨ih1, fun j => ?_⟩
          rw [ih2 j]
          by_cases hj : n + (j : Int) = x
          · have hje : j = (x - n).toNat := by omega
            have hvj : vec[j]? = some none := by
              rw [hje]
              rw [List.getElem?_eq_getElem hil] at hv ⊢
              cases hg : vec[(x - n).toNat] with
              | none => rfl
              | some c => rw [hg] at hv; simp at hv
            rw [hvj]; rfl
          · cases hg : vec[j]? with
            | none => rfl
            | some oc =>
              cases oc with
              | none => rfl
              | some c =>
                simp only [Option.map_some']
                by_cases hc : n + (j : Int) ∈ rest ∧ m ≤ ((after (n + (j : Int)) rest).length : Int)
                · rw [if_pos hc, if_pos ((hcond j hj).2 hc), hafter j hj hc.1]
                · rw [if_neg hc, if_neg (fun h => hc ((hcond j hj).1 h))]
        | some c =>
          simp only []
          obtain ⟨ih1, ih2⟩ := countVec_spec rec n chcnt m rest
            (vec.set (x - n).toNat (some (rec c rest))) hs.tail hrest (by simp [hch])
          rw [List.length_set] at ih1
          refine ⟨ih1, fun j => ?_⟩
          rw [ih2 j]
          have hvx : vec[(x - n).toNat]? = some (some c) := by
            rw [List.getElem?_eq_getElem hil] at hv ⊢
            cases hg : vec[(x - n).toNat] with
            | none => rw [hg] at hv; simp at hv
            | some c' => rw [hg] at hv; simp at hv; rw [hv]
          by_cases hj : n + (j : Int) = x
          · have hje : j = (x - n).toNat := by omega
            subst hje
            rw [List.getElem?_set_self hil, hvx]
            simp only [Option.map_some']
            have hxr : n + ((x - n).toNat : Int) ∉ rest := by rw [hj]; exact hs.not_mem
            rw [if_neg (fun h => hxr h.1)]
            have ha : after (n + ((x - n).toNat : Int)) (x :: rest) = rest := by
              rw [hj, after_cons_le rest (le_refl x)]
              exact after_of_lt hlt
            rw [ha, if_pos ⟨by rw [hj]; exact List.mem_cons_self _ _, by omega⟩]
          · have hne : (x - n).toNat ≠ j := by omega
            rw [List.getElem?_set_ne hne]
            cases hg : vec[j]? with
            | none => rfl
            | some oc =>
              cases oc with
              | none => rfl
              | some c' =>
                simp only [Option.map_some']
                by_cases hc : n + (j : Int) ∈ rest ∧ m ≤ ((after (n + (j : Int)) rest).length : Int)
                · rw [if_pos hc, if_pos ((hcond j hj).2 hc), hafter j hj hc.1]
                · rw [if_neg hc, if_neg (fun h => hc ((hcond j hj).1 h))]


/-! ### Well-formed subtrees -/

theorem WFN_zero {lc : Int} {live : Bool} {N : ISNODE} :
    WFN lc live 0 N ↔ (live = true ∧ N.vec = [] ∧ N.chcnt = lc) := by
  unfold WFN; exact Iff.rfl

theorem WFN_succ {lc : Int} {live : Bool} {h : Nat} {N : ISNODE} :
    WFN lc live (h + 1) N ↔
    ((N.vec = [] ∧ N.chcnt = F_SKIP) ∨
    (∃ first rest, N.vec = some first :: rest ∧ (N.vec.length : Int) ≤ INT_MAX ∧
      ((live = true ∧ N.chcnt = (N.vec.length : Int) ∧
          ∀ j c, N.vec.get? j = some (some c) → ChildOK N first.id j c ∧ WFN lc true h c) ∨
       (N.chcnt = (N.vec.length : Int) + F_SKIP ∧
          ∀ j c, N.vec.get? j = some (some c) → ChildOK N first.id j c ∧ WFN lc false h c)))) := by
  conv => lhs; unfold WFN

theorem WFN_mono {lc : Int} : ∀ {h : Nat} {N : ISNODE}, WFN lc false h N → WFN lc true h N
  | 0, N, hw => by
    rw [WFN_zero] at hw
    exact absurd hw.1 (by simp)
  | h + 1, N, hw => by
    rw [WFN_succ] at hw ⊢
    rcases hw with hw | ⟨first, rest, hv, hl, hw | hw⟩
    · exact Or.inl hw
    · exact absurd hw.1 (by simp)
    · exact Or.inr ⟨first, rest, hv, hl, Or.inr hw⟩

theorem WFN_live {lc : Int} {live : Bool} {h : Nat} {N : ISNODE} (hw : WFN lc live h N) :
    WFN lc true h N := by
  cases live with
  | true => exact hw
  | false => exact WFN_mono hw

/-- The child vector of a well-formed node: every child is well-formed, live exactly
when the node is live and not flagged. -/
theorem WFN_child {lc : Int} {live : Bool} {h : Nat} {N c : ISNODE} {j : Nat}
    (hw : WFN lc live (h + 1) N) (hc : N.vec[j]? = some (some c)) :
    ∃ first rest, N.vec = some first :: rest ∧ ChildOK N first.id j c ∧
      WFN lc (live && decide (0 < N.chcnt)) h c ∧ (N.vec.length : Int) ≤ INT_MAX ∧
      (N.chcnt = (N.vec.length : Int) ∨ N.chcnt = (N.vec.length : Int) + F_SKIP) ∧
      (live = false → N.chcnt < 0) := by
  rw [WFN_succ] at hw
  rcases hw with hw | ⟨first, rest, hv, hl, hw | hw⟩
  · rw [hw.1] at hc; simp at hc
  · obtain ⟨h1, h2, h3⟩ := hw
    refine ⟨first, rest, hv, (h3 j c (by simpa using hc)).1, ?_, hl, Or.inl h2, ?_⟩
    · have : 0 < N.chcnt := by rw [h2, hv]; simp
      simpa [h1, this] using (h3 j c (by simpa using hc)).2
    · intro hf; rw [h1] at hf; exact absurd hf (by simp)
  · obtain ⟨h2, h3⟩ := hw
    have hneg : N.chcnt < 0 := by
      rw [h2]; unfold INT_MAX at hl; unfold F_SKIP; omega
    refine ⟨first, rest, hv, (h3 j c (by simpa using hc)).1, ?_, hl, Or.inr h2, fun _ => hneg⟩
    have : ¬ (0 < N.chcnt) := by omega
    simpa [this] using (h3 j c (by simpa using hc)).2

theorem WFN_dead_chcnt {lc : Int} : ∀ {h : Nat} {N : ISNODE}, WFN lc false h N → N.chcnt < 0
  | 0, N, hw => by
    rw [WFN_zero] at hw
    exact absurd hw.1 (by simp)
  | h + 1, N, hw => by
    rw [WFN_succ] at hw
    rcases hw with hw | ⟨first, rest, hv, hl, hw | hw⟩
    · rw [hw.2]; unfold F_SKIP; omega
    · exact absurd hw.1 (by simp)
    · rw [hw.1]; unfold INT_MAX at hl; unfold F_SKIP; omega

theorem WFN_chcnt_zero {lc : Int} {live : Bool} {h : Nat} {N : ISNODE} (hw : WFN lc live h N)
    (h0 : N.chcnt = 0) : h = 0 ∧ lc = 0 ∧ live = true ∧ N.vec = [] := by
  cases h with
  | zero =>
    rw [WFN_zero] at hw
    exact ⟨rfl, by rw [← hw.2.2, h0], hw.1, hw.2.1⟩
  | succ h =>
    rw [WFN_succ] at hw
    rcases hw with hw | ⟨first, rest, hv, hl, hw | hw⟩
    · rw [hw.2] at h0; unfold F_SKIP at h0; omega
    · rw [hw.2.1, hv] at h0; simp at h0; omega
    · rw [hw.1] at h0; unfold INT_MAX at hl; unfold F_SKIP at h0; rw [hv] at h0 hl
      simp at h0 hl; omega

theorem WFN_chcnt_pos {lc : Int} {live : Bool} {h : Nat} {N : ISNODE} (hw : WFN lc live h N)
    (hlc : lc ≤ 0) (h0 : 0 < N.chcnt) : ∃ h', h = h' + 1 ∧ live = true ∧ N.chcnt = (N.vec.length : Int) ∧
      ∃ first rest, N.vec = some first :: rest := by
  cases h with
  | zero =>
    rw [WFN_zero] at hw
    omega
  | succ h =>
    rw [WFN_succ] at hw
    rcases hw with hw | ⟨first, rest, hv, hl, hw | hw⟩
    · rw [hw.2] at h0; unfold F_SKIP at h0; omega
    · exact ⟨h, rfl, hw.1, hw.2.1, first, rest, hv⟩
    · rw [hw.1] at h0; unfold INT_MAX at hl; unfold F_SKIP at h0; omega


theorem length_skipItems_le (n m : Int) : ∀ (t : List Int), (skipItems n m t).length ≤ t.length
  | [] => by simp [skipItems]
  | x :: t => by
    unfold skipItems
    split
    · have := length_skipItems_le n m t
      simp; omega
    · exact le_refl _

theorem countVec_short (rec : ISNODE → List Int → ISNODE) (n chcnt m : Int)
    (vec : List (Option ISNODE)) (s : List Int) (h : (s.length : Int) ≤ m) :
    countVec rec n chcnt m vec s = vec := by
  cases s with
  | nil => rfl
  | cons x rest =>
    unfold countVec
    have : (rest.length : Int) < m := by simp at h; omega
    rw [if_pos this]

theorem length_after_lt {y : Int} : ∀ {s : List Int}, Tract s → y ∈ s →
    (after y s).length < s.length
  | [], _, h => by simp at h
  | x :: s, hs, h => by
    have hx : x ≤ y := by
      rcases List.mem_cons.1 h with h | h
      · omega
      · have := hs.head_lt y h; omega
    rw [after_cons_le s hx]
    have := length_after_le y s
    simp; omega

/-- A transaction with fewer items than levels below the node changes nothing. -/
theorem count_short {lc : Int} {live : Bool} {h : Nat} {N : ISNODE} (hw : WFN lc live h N)
    (s : List Int) (min : Int) (hm : min = (h : Int) + 1) (hs : s.length < h + 1) :
    _count (h + 1) N s min = N := by
  unfold _count
  by_cases h0 : N.chcnt = 0
  · rw [if_pos h0]
    obtain ⟨hh, -, -, -⟩ := WFN_chcnt_zero hw h0
    subst hh
    have : s = [] := by
      cases s with
      | nil => rfl
      | cons x r => simp at hs
    subst this
    simp [skipItems, countLeaf, ISNODE.setCnts_cnts]
  · rw [if_neg h0]
    by_cases h1 : N.chcnt > 0
    · rw [if_pos h1]
      split
      · rw [countVec_short, ISNODE.setVec_vec]
        have := length_skipItems_le (ISNODE.id ‹ISNODE›) (min - 1) s
        omega
      · rfl
    · rw [if_neg h1]

theorem count_succ_eq (fuel : Nat) (node : ISNODE) (set : List Int) (min : Int) :
    _count (fuel + 1) node set min =
      if node.chcnt = 0 then
        node.setCnts (countLeaf node.offset node.cnts (skipItems node.offset 0 set))
      else if node.chcnt > 0 then
        match node.vec with
        | some first :: _ =>
          node.setVec (countVec (fun c s => _count fuel c s (min - 1)) first.id node.chcnt
            (min - 1) node.vec (skipItems first.id (min - 1) set))
        | _ => node
      else node := by
  rfl

/-- The effect of `_count` on a well-formed node: the counters of a node without children
are incremented for the items of the transaction, the children whose id is in the
transaction are counted with the items after the id. -/
theorem count_node {lc : Int} {live : Bool} {h : Nat} {N : ISNODE} (hw : WFN lc live h N)
    (hlc : lc ≤ 0) {t : List Int} (ht : Tract t) (min : Int) (hm : min = (h : Int) + 1) :
    (_count (h + 1) N t min).id = N.id ∧ (_count (h + 1) N t min).chcnt = N.chcnt ∧
    (_count (h + 1) N t min).offset = N.offset ∧
    (_count (h + 1) N t min).cnts.length = N.cnts.length ∧
    (∀ i : Nat, (_count (h + 1) N t min).cnts.getD i 0 = N.cnts.getD i 0 +
      if N.chcnt = 0 ∧ i < N.cnts.length ∧ N.offset + (i : Int) ∈ t then 1 else 0) ∧
    (_count (h + 1) N t min).vec.length = N.vec.length ∧
    (∀ j : Nat, (_count (h + 1) N t min).vec[j]? = (N.vec[j]?).map (fun oc => oc.map (fun c =>
        if 0 < N.chcnt ∧ c.id ∈ t then _count h c (after c.id t) (min - 1) else c))) := by
  have hmapid : ∀ (j : Nat) (P : ISNODE → Prop) [DecidablePred P] (f : ISNODE → ISNODE),
      (∀ c, N.vec[j]? = some (some c) → ¬ P c) →
      N.vec[j]? = (N.vec[j]?).map (fun oc => oc.map (fun c => if P c then f c else c)) := by
    intro j P _ f hP
    cases hg : N.vec[j]? with
    | none => rfl
    | some oc =>
      cases oc with
      | none => rfl
      | some c => simp [hP c hg]
  rw [count_succ_eq]
  by_cases h0 : N.chcnt = 0
  · rw [if_pos h0]
    obtain ⟨hh, -, -, hv⟩ := WFN_chcnt_zero hw h0
    obtain ⟨s1, s2, s3, s4⟩ := skipItems_spec N.offset 0 t ht
    have hall : ∀ y ∈ skipItems N.offset 0 t, N.offset ≤ y := by
      rcases s4 with s4 | s4
      · exact s4
      · have : skipItems N.offset 0 t = [] := by
          cases hsk : skipItems N.offset 0 t with
          | nil => rfl
          | cons a b => rw [hsk] at s4; simp at s4; omega
        rw [this]; simp
    obtain ⟨c1, c2⟩ := countLeaf_spec N.offset _ N.cnts s1 hall
    refine ⟨by simp, by simp, by simp, by simpa using c1, fun i => ?_, by simp, fun j => ?_⟩
    · simp only [ISNODE.cnts_setCnts]
      rw [c2 i]
      by_cases hi : i < N.cnts.length
      · have := s2 (N.offset + (i : Int)) (by omega)
        simp only [h0, hi, true_and, this]
      · simp [hi]
    · simp [hv]
  · rw [if_neg h0]
    by_cases h1 : N.chcnt > 0
    · rw [if_pos h1]
      obtain ⟨h', hh, hl, hch, first, rest, hv⟩ := WFN_chcnt_pos hw hlc h1
      subst hh
      have hcond : ¬ (N.chcnt = 0) := h0
      simp only [hv]
      rw [← hv]
      obtain ⟨s1, s2, s3, s4⟩ := skipItems_spec first.id (min - 1) t ht
      have hkid : ∀ (j : Nat) (c : ISNODE), N.vec[j]? = some (some c) →
          c.id = first.id + (j : Int) := by
        intro j c hc
        obtain ⟨f2, r2, hv2, hok, -⟩ := WFN_child hw hc
        rw [hv] at hv2
        simp only [List.cons.injEq, Option.some.injEq] at hv2
        rw [hv2.1]; exact hok.1
      rcases s4 with s4 | s4
      · obtain ⟨c1, c2⟩ := countVec_spec (fun c s => _count (h' + 1) c s (min - 1)) first.id
          N.chcnt (min - 1) _ N.vec s1 s4 hch
        refine ⟨by simp, by simp, by simp, by simp, fun i => by simp [h0], by simpa using c1,
          fun j => ?_⟩
        simp only [ISNODE.vec_setVec]
        rw [c2 j]
        cases hg : N.vec[j]? with
        | none => rfl
        | some oc =>
          cases oc with
          | none => rfl
          | some c =>
            have hid := hkid j c hg
            obtain ⟨f2, r2, hv2, hok, hwc, -⟩ := WFN_child hw hg
            simp only [Option.map_some']
            have e2 : after (first.id + (j : Int)) (skipItems first.id (min - 1) t) =
                after c.id t := by
              rw [← hid, s3 c.id (by rw [hid]; omega)]
            have e1 : (first.id + (j : Int) ∈ skipItems first.id (min - 1) t ∧
                min - 1 ≤ ((after (first.id + (j : Int))
                  (skipItems first.id (min - 1) t)).length : Int)) ↔
                (c.id ∈ t ∧ min - 1 ≤ ((after c.id t).length : Int)) := by
              rw [e2, ← hid, s2 c.id (by rw [hid]; omega)]
            rw [if_congr e1 (congrArg (fun s => _count (h' + 1) c s (min - 1)) e2) rfl]
            by_cases hin : c.id ∈ t
            · by_cases hlen : min - 1 ≤ ((after c.id t).length : Int)
              · rw [if_pos ⟨hin, hlen⟩, if_pos ⟨h1, hin⟩]
              · rw [if_neg (fun h => hlen h.2), if_pos ⟨h1, hin⟩]
                rw [count_short hwc _ _ (by omega) (by omega)]
            · rw [if_neg (fun h => hin h.1), if_neg (fun h => hin h.2)]
      · rw [countVec_short _ _ _ _ _ _ s4]
        refine ⟨by simp, by simp, by simp, by simp, fun i => by simp [h0], by simp, fun j => ?_⟩
        simp only [ISNODE.vec_setVec]
        cases hg : N.vec[j]? with
        | none => rfl
        | some oc =>
          cases oc with
          | none => rfl
          | some c =>
            have hid := hkid j c hg
            obtain ⟨f2, r2, hv2, hok, hwc, -⟩ := WFN_child hw hg
            simp only [Option.map_some']
            by_cases hin : c.id ∈ t
            · rw [if_pos ⟨h1, hin⟩]
              have hins : c.id ∈ skipItems first.id (min - 1) t :=
                (s2 c.id (by rw [hid]; omega)).2 hin
              have h5 := length_after_lt s1 hins
              rw [s3 c.id (by rw [hid]; omega)] at h5
              rw [count_short hwc _ _ (by omega) (by omega)]
            · rw [if_neg (fun h => hin h.2)]
    · rw [if_neg h1]
      refine ⟨rfl, rfl, rfl, rfl, fun i => by simp [h0], rfl, fun j => ?_⟩
      exact hmapid j _ _ (fun c _ h => h1 h.1)


/-! ### Addresses -/

theorem nodeAt_nil (N : ISNODE) : nodeAt N [] = some N := rfl

theorem nodeAt_cons_of {N c : ISNODE} {j : Nat} (hc : N.vec[j]? = some (some c)) (a : Addr) :
    nodeAt N (j :: a) = nodeAt c a := by
  simp [nodeAt, hc]

theorem nodeAt_cons_some {N M : ISNODE} {j : Nat} {a : Addr} (h : nodeAt N (j :: a) = some M) :
    ∃ c, N.vec[j]? = some (some c) ∧ nodeAt c a = some M := by
  unfold nodeAt at h
  cases hg : N.vec.get? j with
  | none => rw [hg] at h; simp at h
  | some oc =>
    cases oc with
    | none => rw [hg] at h; simp at h
    | some c =>
      rw [hg] at h
      exact ⟨c, by simpa using hg, h⟩

theorem nodeAt_cons_none {N : ISNODE} {j : Nat} (a : Addr)
    (h : ∀ c, N.vec[j]? ≠ some (some c)) : nodeAt N (j :: a) = none := by
  unfold nodeAt
  cases hg : N.vec.get? j with
  | none => rfl
  | some oc =>
    cases oc with
    | none => rfl
    | some c => exact absurd (by simpa using hg) (h c)

theorem pathIds_nil (N : ISNODE) : pathIds N [] = [] := rfl

theorem chain_cons_of {N c : ISNODE} {j : Nat} (hc : N.vec[j]? = some (some c)) (a : Addr) :
    chain N (j :: a) = N :: chain c a := by
  simp [chain, hc]

theorem chain_ne_nil (N : ISNODE) (a : Addr) : chain N a ≠ [] := by
  cases a with
  | nil => simp [chain]
  | cons j a =>
    unfold chain
    split <;> simp

theorem chain_head (N : ISNODE) (a : Addr) : (chain N a).head? = some N := by
  cases a with
  | nil => simp [chain]
  | cons j a =>
    unfold chain
    split <;> simp

theorem pathIds_cons_of {N c : ISNODE} {j : Nat} (hc : N.vec[j]? = some (some c)) (a : Addr) :
    pathIds N (j :: a) = c.id :: pathIds c a := by
  unfold pathIds
  rw [chain_cons_of hc]
  cases hch : chain c a with
  | nil => exact absurd hch (chain_ne_nil c a)
  | cons x r =>
    have := chain_head c a
    rw [hch] at this
    simp at this
    subst this
    simp

/-- Below a flagged node every node is flagged. -/
theorem dead_at {lc : Int} : ∀ (a : Addr) {h : Nat} {c M : ISNODE}, WFN lc false h c →
    nodeAt c a = some M → M.chcnt < 0
  | [], h, c, M, hw, hn => by
    rw [nodeAt_nil] at hn
    cases hn
    exact WFN_dead_chcnt hw
  | j :: a, h, c, M, hw, hn => by
    obtain ⟨d, hd, hn'⟩ := nodeAt_cons_some hn
    cases h with
    | zero => rw [WFN_zero] at hw; exact absurd hw.1 (by simp)
    | succ h =>
      obtain ⟨_, _, _, _, hwd, _⟩ := WFN_child hw hd
      simp only [Bool.false_and] at hwd
      exact dead_at a hwd hn'

/-- The item set of a counter: the ids on the path, then the item of the slot, is strictly
ascending and lies in the counter range of the node the path starts from. -/
theorem path_sorted {lc : Int} : ∀ (a : Addr) {live : Bool} {h : Nat} {c M : ISNODE},
    WFN lc live h c → nodeAt c a = some M → ∀ (i : Nat), i < M.cnts.length →
    Tract (pathIds c a ++ [M.offset + (i : Int)]) ∧
    ∀ x ∈ pathIds c a ++ [M.offset + (i : Int)], c.offset ≤ x ∧ x < c.offset + c.size
  | [], live, h, c, M, hw, hn, i, hi => by
    rw [nodeAt_nil] at hn
    cases hn
    refine ⟨by simp [pathIds_nil, Tract], ?_⟩
    intro x hx
    simp [pathIds_nil] at hx
    subst hx
    unfold ISNODE.size
    omega
  | j :: a, live, h, c, M, hw, hn, i, hi => by
    obtain ⟨d, hd, hn'⟩ := nodeAt_cons_some hn
    cases h with
    | zero => rw [WFN_zero] at hw; rw [hw.2.1] at hd; simp at hd
    | succ h =>
      obtain ⟨first, rest, hv, hok, hwd, -⟩ := WFN_child hw hd
      obtain ⟨ih1, ih2⟩ := path_sorted a hwd hn' i hi
      obtain ⟨o1, o2, o3, o4, o5⟩ := hok
      have hsz : 0 < d.size := by
        unfold ISNODE.size
        cases hc : d.cnts with
        | nil => exact absurd hc o4
        | cons _ _ => simp
      rw [pathIds_cons_of hd]
      refine ⟨?_, ?_⟩
      · simp only [List.cons_append]
        refine List.pairwise_cons.2 ⟨fun y hy => ?_, ih1⟩
        have := ih2 y hy
        omega
      · intro x hx
        simp only [List.cons_append] at hx
        rcases List.mem_cons.1 hx with hx | hx
        · subst hx; omega
        · have := ih2 x hx
          omega

/-- The effect of `_count` on the node at an address: its counters are incremented exactly
when it has no children (`chcnt = 0`) and the transaction contains the item set of the
counter. -/
theorem count_at {lc : Int} (hlc : lc ≤ 0) : ∀ (a : Addr) {live : Bool} {h : Nat} {N M : ISNODE}
    {t : List Int} (min : Int), WFN lc live h N → Tract t → min = (h : Int) + 1 →
    nodeAt N a = some M →
    ∃ M', nodeAt (_count (h + 1) N t min) a = some M' ∧ M'.id = M.id ∧ M'.chcnt = M.chcnt ∧
      M'.offset = M.offset ∧ M'.cnts.length = M.cnts.length ∧ M'.vec.length = M.vec.length ∧
      pathIds (_count (h + 1) N t min) a = pathIds N a ∧
      ∀ i : Nat, M'.cnts.getD i 0 = M.cnts.getD i 0 +
        if M.chcnt = 0 ∧ i < M.cnts.length ∧ (∀ x ∈ pathIds N a ++ [M.offset + (i : Int)], x ∈ t)
        then 1 else 0
  | [], live, h, N, M, t, min, hw, ht, hm, hn => by
    rw [nodeAt_nil] at hn
    cases hn
    obtain ⟨c1, c2, c3, c4, c5, c6, c7⟩ := count_node hw hlc ht min hm
    refine ⟨_, nodeAt_nil _, c1, c2, c3, c4, c6, by simp [pathIds_nil], fun i => ?_⟩
    rw [c5 i]
    simp [pathIds_nil]
  | j :: a, live, h, N, M, t, min, hw, ht, hm, hn => by
    obtain ⟨c, hc, hn'⟩ := nodeAt_cons_some hn
    cases h with
    | zero => rw [WFN_zero] at hw; rw [hw.2.1] at hc; simp at hc
    | succ h =>
      obtain ⟨first, rest, hv, hok, hwc, hl, hch, hdead⟩ := WFN_child hw hc
      obtain ⟨c1, c2, c3, c4, c5, c6, c7⟩ := count_node hw hlc ht min hm
      have hc' := c7 j
      rw [hc] at hc'
      simp only [Option.map_some'] at hc'
      by_cases hit : 0 < N.chcnt ∧ c.id ∈ t
      · rw [if_pos hit] at hc'
        have hlive : live = true := by
          cases live with
          | true => rfl
          | false => have := hdead rfl; omega
        obtain ⟨M', m1, m2, m3, m4, m5, m6, m7, m8⟩ :=
          count_at hlc a (t := after c.id t) (min - 1) hwc (ht.after c.id) (by push_cast at hm; omega) hn'
        obtain ⟨d1, d2, d3, d4, d5, d6, d7⟩ := count_node hwc hlc (ht.after c.id) (min - 1)
          (by push_cast at hm; omega)
        refine ⟨M', by rw [nodeAt_cons_of hc']; exact m1, m2, m3, m4, m5, m6, ?_, fun i => ?_⟩
        · rw [pathIds_cons_of hc', pathIds_cons_of hc, m7, d1]
        · rw [m8 i, pathIds_cons_of hc]
          by_cases hi : i < M.cnts.length
          · obtain ⟨p1, p2⟩ := path_sorted a hwc hn' i hi
            have hiff : (∀ x ∈ pathIds c a ++ [M.offset + (i : Int)], x ∈ after c.id t) ↔
                (∀ x ∈ c.id :: pathIds c a ++ [M.offset + (i : Int)], x ∈ t) := by
              constructor
              · intro hall x hx
                simp only [List.cons_append] at hx
                rcases List.mem_cons.1 hx with hx | hx
                · subst hx; exact hit.2
                · exact ((mem_after ht).1 (hall x hx)).1
              · intro hall x hx
                refine (mem_after ht).2 ⟨hall x (by simp only [List.cons_append]; exact List.mem_cons_of_mem _ hx), ?_⟩
                have := p2 x hx
                have := hok.2.2.1
                omega
            simp only [hiff]
          · simp [hi]
      · rw [if_neg hit] at hc'
        refine ⟨M, by rw [nodeAt_cons_of hc']; exact hn', rfl, rfl, rfl, rfl, rfl, ?_, fun i => ?_⟩
        · rw [pathIds_cons_of hc', pathIds_cons_of hc]
        · have : ¬ (M.chcnt = 0 ∧ i < M.cnts.length ∧
              (∀ x ∈ pathIds N (j :: a) ++ [M.offset + (i : Int)], x ∈ t)) := by
            rintro ⟨h1, h2, h3⟩
            by_cases hpos : 0 < N.chcnt
            · apply hit
              refine ⟨hpos, h3 c.id ?_⟩
              rw [pathIds_cons_of hc]; simp
            · have hwc' : WFN lc false h c := by
                have : (live && decide (0 < N.chcnt)) = false := by simp [hpos]
                rw [this] at hwc; exact hwc
              have := dead_at a hwc' hn'
              omega
          rw [if_neg this]; simp

theorem count_at_none {lc : Int} (hlc : lc ≤ 0) : ∀ (a : Addr) {live : Bool} {h : Nat} {N : ISNODE}
    {t : List Int} (min : Int), WFN lc live h N → Tract t → min = (h : Int) + 1 →
    nodeAt N a = none → nodeAt (_count (h + 1) N t min) a = none
  | [], live, h, N, t, min, hw, ht, hm, hn => by simp [nodeAt_nil] at hn
  | j :: a, live, h, N, t, min, hw, ht, hm, hn => by
    obtain ⟨c1, c2, c3, c4, c5, c6, c7⟩ := count_node hw hlc ht min hm
    have hc' := c7 j
    cases hg : N.vec[j]? with
    | none =>
      rw [hg] at hc'
      exact nodeAt_cons_none a (fun c h => by rw [hc'] at h; simp at h)
    | some oc =>
      cases oc with
      | none =>
        rw [hg] at hc'
        exact nodeAt_cons_none a (fun c h => by rw [hc'] at h; simp at h)
      | some c =>
        rw [hg] at hc'
        simp only [Option.map_some'] at hc'
        rw [nodeAt_cons_of hg] at hn
        rw [nodeAt_cons_of hc']
        cases h with
        | zero => rw [WFN_zero] at hw; rw [hw.2.1] at hg; simp at hg
        | succ h =>
          obtain ⟨first, rest, hv, hok, hwc, hl, hch, hdead⟩ := WFN_child hw hg
          split
          · exact count_at_none hlc a (min - 1) hwc (ht.after c.id) (by push_cast at hm; omega) hn
          · exact hn


/-! ### Related child vectors and trees -/

theorem VecRel.length_vec {R : ISNODE → ISNODE → Prop} {v w : List (Option ISNODE)}
    (h : VecRel R v w) : v.length = w.length := by
  have h1 := h.1
  by_contra hne
  rcases Nat.lt_or_gt_of_ne hne with hlt | hlt
  · have : v[v.length]? = none := List.getElem?_eq_none (le_refl _)
    have := (h1 _).1 this
    rw [List.getElem?_eq_none_iff] at this
    omega
  · have : w[w.length]? = none := List.getElem?_eq_none (le_refl _)
    have := (h1 _).2 this
    rw [List.getElem?_eq_none_iff] at this
    omega

theorem VecRel.inv {R : ISNODE → ISNODE → Prop} {v w : List (Option ISNODE)}
    (h : VecRel R v w) {j : Nat} {d : ISNODE} (hd : w[j]? = some (some d)) :
    ∃ c, v[j]? = some (some c) ∧ R c d := by
  cases hv : v[j]? with
  | none => rw [(h.1 j).1 hv] at hd; simp at hd
  | some oc =>
    cases oc with
    | none => rw [(h.2.1 j).1 hv] at hd; simp at hd
    | some c =>
      obtain ⟨d', hd', hr⟩ := h.2.2 j c hv
      rw [hd'] at hd
      simp only [Option.some.injEq] at hd
      subst hd
      exact ⟨c, rfl, hr⟩

theorem VecRel.refl_vec {R : ISNODE → ISNODE → Prop} (hR : ∀ c, R c c) (v : List (Option ISNODE)) :
    VecRel R v v :=
  ⟨fun _ => Iff.rfl, fun _ => Iff.rfl, fun _ c hc => ⟨c, hc, hR c⟩⟩

theorem VecRel.refl_on {R : ISNODE → ISNODE → Prop} (v : List (Option ISNODE))
    (hR : ∀ (j : Nat) (c : ISNODE), v[j]? = some (some c) → R c c) : VecRel R v v :=
  ⟨fun _ => Iff.rfl, fun _ => Iff.rfl, fun j c hc => ⟨c, hc, hR j c hc⟩⟩

theorem VecRel.trans_vec {R S T : ISNODE → ISNODE → Prop} (hT : ∀ a b c, R a b → S b c → T a c)
    {u v w : List (Option ISNODE)} (h1 : VecRel R u v) (h2 : VecRel S v w) : VecRel T u w := by
  refine ⟨fun j => (h1.1 j).trans (h2.1 j), fun j => (h1.2.1 j).trans (h2.2.1 j), fun j c hc => ?_⟩
  obtain ⟨d, hd, hr⟩ := h1.2.2 j c hc
  obtain ⟨e, he, hs⟩ := h2.2.2 j d hd
  exact ⟨e, he, hT _ _ _ hr hs⟩

theorem VecRel.mono {R S : ISNODE → ISNODE → Prop} {v w : List (Option ISNODE)}
    (h : VecRel R v w) (hRS : ∀ (j : Nat) (c d : ISNODE), v[j]? = some (some c) →
      w[j]? = some (some d) → R c d → S c d) : VecRel S v w := by
  refine ⟨h.1, h.2.1, fun j c hc => ?_⟩
  obtain ⟨d, hd, hr⟩ := h.2.2 j c hc
  exact ⟨d, hd, hRS j c d hc hd hr⟩

/-- Replacing one child by a related one. -/
theorem VecRel.set {R : ISNODE → ISNODE → Prop} (v : List (Option ISNODE)) {j : Nat}
    {c d : ISNODE} (hc : v[j]? = some (some c)) (hcd : R c d)
    (hR : ∀ (k : Nat) (e : ISNODE), k ≠ j → v[k]? = some (some e) → R e e) :
    VecRel R v (v.set j (some d)) := by
  have hj : j < v.length := by
    by_contra hn
    rw [List.getElem?_eq_none (by omega)] at hc
    simp at hc
  refine ⟨fun k => ?_, fun k => ?_, fun k e he => ?_⟩
  · by_cases hk : j = k
    · subst hk; rw [List.getElem?_set_self hj, hc]; simp
    · rw [List.getElem?_set_ne hk]
  · by_cases hk : j = k
    · subst hk; rw [List.getElem?_set_self hj, hc]; simp
    · rw [List.getElem?_set_ne hk]
  · by_cases hk : j = k
    · subst hk
      rw [hc] at he
      simp only [Option.some.injEq] at he
      subst he
      exact ⟨d, List.getElem?_set_self hj, hcd⟩
    · rw [List.getElem?_set_ne hk]
      exact ⟨e, he, hR k e (fun h => hk h.symm) he⟩

theorem TRel_zero {nodeR leafR : ISNODE → ISNODE → Prop} {a b : ISNODE} :
    TRel nodeR leafR 0 a b ↔ leafR a b := by
  unfold TRel; exact Iff.rfl

theorem TRel_succ {nodeR leafR : ISNODE → ISNODE → Prop} {h : Nat} {a b : ISNODE} :
    TRel nodeR leafR (h + 1) a b ↔ (nodeR a b ∧ VecRel (TRel nodeR leafR h) a.vec b.vec) := by
  conv => lhs; unfold TRel

theorem TRel.refl_tree {nodeR leafR : ISNODE → ISNODE → Prop} (hn : ∀ a, nodeR a a)
    (hl : ∀ a, leafR a a) : ∀ (h : Nat) (a : ISNODE), TRel nodeR leafR h a a
  | 0, a => TRel_zero.2 (hl a)
  | h + 1, a => TRel_succ.2 ⟨hn a, VecRel.refl_vec (TRel.refl_tree hn hl h) _⟩

theorem TRel.trans_tree {nodeR leafR : ISNODE → ISNODE → Prop}
    (hn : ∀ a b c, nodeR a b → nodeR b c → nodeR a c)
    (hl : ∀ a b c, leafR a b → leafR b c → leafR a c) :
    ∀ (h : Nat) (a b c : ISNODE), TRel nodeR leafR h a b → TRel nodeR leafR h b c →
      TRel nodeR leafR h a c
  | 0, a, b, c, h1, h2 => TRel_zero.2 (hl a b c (TRel_zero.1 h1) (TRel_zero.1 h2))
  | h + 1, a, b, c, h1, h2 => by
    rw [TRel_succ] at h1 h2 ⊢
    exact ⟨hn a b c h1.1 h2.1, VecRel.trans_vec (TRel.trans_tree hn hl h) h1.2 h2.2⟩

theorem Sim.refl_sim (d : Nat) (a : ISNODE) : Sim d a a :=
  TRel.refl_tree (fun _ => ⟨rfl, rfl, rfl, rfl⟩) (fun _ => ⟨rfl, rfl, rfl⟩) d a

theorem Sim.trans_sim {d : Nat} {a b c : ISNODE} (h1 : Sim d a b) (h2 : Sim d b c) : Sim d a c :=
  TRel.trans_tree (fun _ _ _ h1 h2 => ⟨h1.1.trans h2.1, h1.2.1.trans h2.2.1, h1.2.2.1.trans h2.2.2.1,
      h1.2.2.2.trans h2.2.2.2⟩)
    (fun _ _ _ h1 h2 => ⟨h1.1.trans h2.1, h1.2.1.trans h2.2.1, h1.2.2.trans h2.2.2⟩) d a b c h1 h2

theorem Shape.refl_shape (h : Nat) (a : ISNODE) : Shape h a a :=
  TRel.refl_tree (fun _ => ⟨rfl, rfl, rfl, rfl⟩) (fun _ => ⟨rfl, rfl, rfl, rfl, rfl⟩) h a

theorem Shape.trans_shape {h : Nat} {a b c : ISNODE} (h1 : Shape h a b) (h2 : Shape h b c) :
    Shape h a c :=
  TRel.trans_tree (fun _ _ _ h1 h2 => ⟨h1.1.trans h2.1, h1.2.1.trans h2.2.1, h1.2.2.1.trans h2.2.2.1,
      h1.2.2.2.trans h2.2.2.2⟩)
    (fun _ _ _ h1 h2 => ⟨h1.1.trans h2.1, h1.2.1.trans h2.2.1, h1.2.2.1.trans h2.2.2.1,
      h1.2.2.2.1.trans h2.2.2.2.1, h1.2.2.2.2.trans h2.2.2.2.2⟩) h a b c h1 h2

theorem Shape.fields_shape : ∀ {h : Nat} {a b : ISNODE}, Shape h a b → nodeShape a b
  | 0, a, b, hs => by
    have := TRel_zero.1 hs
    exact ⟨this.1, this.2.1, this.2.2.1, this.2.2.2.1⟩
  | h + 1, a, b, hs => (TRel_succ.1 hs).1

theorem Shape.vec_length : ∀ {h : Nat} {a b : ISNODE}, Shape h a b → a.vec.length = b.vec.length
  | 0, a, b, hs => by
    have := TRel_zero.1 hs
    rw [this.2.2.2.2]
  | h + 1, a, b, hs => (TRel_succ.1 hs).2.length_vec

theorem Sim.fields_sim : ∀ {h : Nat} {a b : ISNODE}, Sim h a b → leafSim a b
  | 0, a, b, hs => TRel_zero.1 hs
  | h + 1, a, b, hs => by
    have := (TRel_succ.1 hs).1
    exact ⟨this.1, this.2.2.1, this.2.2.2⟩

/-! ### Well-formedness with a condition on the deepest nodes -/

theorem WFG_zero {P : Bool → ISNODE → Prop} {live : Bool} {N : ISNODE} :
    WFG P live 0 N ↔ P live N := by
  unfold WFG; exact Iff.rfl

theorem WFG_succ {P : Bool → ISNODE → Prop} {live : Bool} {h : Nat} {N : ISNODE} :
    WFG P live (h + 1) N ↔
    ((N.vec = [] ∧ N.chcnt = F_SKIP) ∨
    (∃ first rest, N.vec = some first :: rest ∧ (N.vec.length : Int) ≤ INT_MAX ∧
      ((live = true ∧ N.chcnt = (N.vec.length : Int) ∧
          ∀ j c, N.vec.get? j = some (some c) → ChildOK N first.id j c ∧ WFG P true h c) ∨
       (N.chcnt = (N.vec.length : Int) + F_SKIP ∧
          ∀ j c, N.vec.get? j = some (some c) → ChildOK N first.id j c ∧ WFG P false h c)))) := by
  conv => lhs; unfold WFG

theorem WFN_iff_WFG {lc : Int} : ∀ {h : Nat} {live : Bool} {N : ISNODE},
    WFN lc live h N ↔ WFG (leafP lc) live h N
  | 0, live, N => by rw [WFN_zero, WFG_zero]; rfl
  | h + 1, live, N => by
    rw [WFN_succ, WFG_succ]
    simp only [WFN_iff_WFG (h := h)]

/-- A stronger form of `WFG`: the children with the rest of their description. -/
theorem WFG_congr {P Q : Bool → ISNODE → Prop} {live : Bool} {h : Nat} {N N' : ISNODE}
    (hw : WFG P live (h + 1) N)
    (hvl : N'.vec.length = N.vec.length) (hch : N'.chcnt = N.chcnt)
    (hhead : ∀ first rest, N.vec = some first :: rest →
      ∃ first' rest', N'.vec = some first' :: rest' ∧ first'.id = first.id)
    (hkids : ∀ (l : Bool) (first : ISNODE) (j : Nat) (c' : ISNODE),
      N'.vec[j]? = some (some c') →
      ∃ c, N.vec[j]? = some (some c) ∧
        (ChildOK N first.id j c → ChildOK N' first.id j c') ∧ (WFG P l h c → WFG Q l h c')) :
    WFG Q live (h + 1) N' := by
  rw [WFG_succ] at hw ⊢
  rcases hw with hw | ⟨first, rest, hv, hl, hw⟩
  · left
    refine ⟨?_, by rw [hch]; exact hw.2⟩
    have : N'.vec.length = 0 := by rw [hvl, hw.1]; rfl
    exact List.length_eq_zero.1 this
  · right
    obtain ⟨first', rest', hv', hid⟩ := hhead first rest hv
    refine ⟨first', rest', hv', by rw [hvl]; exact hl, ?_⟩
    rcases hw with ⟨h1, h2, h3⟩ | ⟨h2, h3⟩
    · left
      refine ⟨h1, by rw [hch, hvl]; exact h2, fun j c' hc' => ?_⟩
      obtain ⟨c, hc, k1, k2⟩ := hkids true first j c' (by simpa using hc')
      have := h3 j c (by simpa using hc)
      rw [hid]
      exact ⟨k1 this.1, k2 this.2⟩
    · right
      refine ⟨by rw [hch, hvl]; exact h2, fun j c' hc' => ?_⟩
      obtain ⟨c, hc, k1, k2⟩ := hkids false first j c' (by simpa using hc')
      have := h3 j c (by simpa using hc)
      rw [hid]
      exact ⟨k1 this.1, k2 this.2⟩

theorem ChildOK_shape {N N' c c' : ISNODE} {f : Int} {j : Nat} (hN : nodeShape N N')
    (hc : nodeShape c c') (h : ChildOK N f j c) : ChildOK N' f j c' := by
  obtain ⟨o1, o2, o3, o4, o5⟩ := h
  obtain ⟨n1, n2, n3, n4⟩ := hN
  obtain ⟨c1, c2, c3, c4⟩ := hc
  unfold ISNODE.size at *
  refine ⟨by rw [← c1]; exact o1, by rw [← n3, ← c1]; exact o2, by rw [← c1, ← c3]; exact o3,
    ?_, by unfold ISNODE.size; rw [← c3, ← c4, ← n3, ← n4]; exact o5⟩
  intro h0
  apply o4
  rw [h0] at c4
  exact List.length_eq_zero.1 c4

/-- Well-formedness depends on the shape only. -/
theorem WFG_shape {P Q : Bool → ISNODE → Prop}
    (hPQ : ∀ l a b, P l a → leafShape a b → Q l b) :
    ∀ {h : Nat} {live : Bool} {N N' : ISNODE}, WFG P live h N → Shape h N N' → WFG Q live h N'
  | 0, live, N, N', hw, hs => WFG_zero.2 (hPQ _ _ _ (WFG_zero.1 hw) (TRel_zero.1 hs))
  | h + 1, live, N, N', hw, hs => by
    have hs' := TRel_succ.1 hs
    refine WFG_congr hw hs'.2.length_vec.symm hs'.1.2.1.symm ?_ ?_
    · intro first rest hv
      have h0 : N.vec[0]? = some (some first) := by rw [hv]; simp
      obtain ⟨d, hd, hr⟩ := hs'.2.2.2 0 first h0
      cases hv' : N'.vec with
      | nil => rw [hv'] at hd; simp at hd
      | cons x r =>
        rw [hv'] at hd
        simp at hd
        subst hd
        exact ⟨d, r, rfl, (Shape.fields_shape hr).1.symm⟩
    · intro l first j c' hc'
      obtain ⟨c, hc, hr⟩ := hs'.2.inv hc'
      exact ⟨c, hc, ChildOK_shape hs'.1 (Shape.fields_shape hr), fun hw => WFG_shape hPQ hw hr⟩

theorem WFN_shape {lc : Int} {h : Nat} {live : Bool} {N N' : ISNODE} (hw : WFN lc live h N)
    (hs : Shape h N N') : WFN lc live h N' := by
  rw [WFN_iff_WFG] at hw ⊢
  refine WFG_shape ?_ hw hs
  intro l a b hp hl
  exact ⟨hp.1, by rw [← hl.2.2.2.2]; exact hp.2.1, by rw [← hl.2.1]; exact hp.2.2⟩


/-! ### Stores through an address -/

theorem updateAt_nil (r : ISNODE) (f : ISNODE → ISNODE) : updateAt r [] f = f r := rfl

theorem updateAt_cons_of {r c : ISNODE} {j : Nat} (hc : r.vec[j]? = some (some c)) (a : Addr)
    (f : ISNODE → ISNODE) :
    updateAt r (j :: a) f = r.setVec (r.vec.set j (some (updateAt c a f))) := by
  simp [updateAt, hc]

theorem updateAt_cons_none {r : ISNODE} {j : Nat} (a : Addr) (f : ISNODE → ISNODE)
    (h : ∀ c, r.vec[j]? ≠ some (some c)) : updateAt r (j :: a) f = r := by
  unfold updateAt
  cases hg : r.vec.get? j with
  | none => rfl
  | some oc =>
    cases oc with
    | none => rfl
    | some c => exact absurd (by simpa using hg) (h c)

theorem lt_length_of_getElem? {α : Type} {v : List α} {j : Nat} {x : α} (h : v[j]? = some x) :
    j < v.length := by
  by_contra hn
  rw [List.getElem?_eq_none (by omega)] at h
  simp at h

theorem nodeAt_updateAt_same : ∀ (a : Addr) {r N : ISNODE} (f : ISNODE → ISNODE),
    nodeAt r a = some N → nodeAt (updateAt r a f) a = some (f N)
  | [], r, N, f, h => by
    rw [nodeAt_nil] at h; cases h; rfl
  | j :: a, r, N, f, h => by
    obtain ⟨c, hc, hn⟩ := nodeAt_cons_some h
    rw [updateAt_cons_of hc]
    have hj := lt_length_of_getElem? hc
    have : (r.setVec (r.vec.set j (some (updateAt c a f)))).vec[j]? =
        some (some (updateAt c a f)) := by
      simp [List.getElem?_set_self hj]
    rw [nodeAt_cons_of this]
    exact nodeAt_updateAt_same a f hn

theorem nodeAt_updateAt_ne : ∀ (a b : Addr) (r : ISNODE) (f : ISNODE → ISNODE),
    a.length = b.length → a ≠ b → nodeAt (updateAt r b f) a = nodeAt r a
  | [], [], _, _, _, hne => absurd rfl hne
  | [], _ :: _, _, _, hl, _ => by simp at hl
  | _ :: _, [], _, _, hl, _ => by simp at hl
  | i :: a, j :: b, r, f, hl, hne => by
    cases hg : r.vec[j]? with
    | none => rw [updateAt_cons_none b f (fun c h => by rw [hg] at h; simp at h)]
    | some oc =>
      cases oc with
      | none => rw [updateAt_cons_none b f (fun c h => by rw [hg] at h; simp at h)]
      | some c =>
        rw [updateAt_cons_of hg]
        have hj := lt_length_of_getElem? hg
        by_cases hij : i = j
        · subst hij
          have : (r.setVec (r.vec.set i (some (updateAt c b f)))).vec[i]? =
              some (some (updateAt c b f)) := by
            simp [List.getElem?_set_self hj]
          rw [nodeAt_cons_of this, nodeAt_cons_of hg]
          exact nodeAt_updateAt_ne a b c f (by simpa using hl) (fun h => hne (by rw [h]))
        · have hv : (r.setVec (r.vec.set j (some (updateAt c b f)))).vec[i]? = r.vec[i]? := by
            simp [List.getElem?_set_ne (fun h => hij h.symm)]
          unfold nodeAt
          simp only [List.get?_eq_getElem?, hv]

/-- A store through an address relates the trees when it relates the addressed node to its
replacement. -/
theorem TRel_updateAt {nodeR leafR : ISNODE → ISNODE → Prop} (hn : ∀ a, nodeR a a)
    (hl : ∀ a, leafR a a) (hv : ∀ N v, nodeR N (N.setVec v)) (f : ISNODE → ISNODE) :
    ∀ (a : Addr) (h : Nat) (r : ISNODE), a.length ≤ h →
      (∀ N, nodeAt r a = some N → TRel nodeR leafR (h - a.length) N (f N)) →
      TRel nodeR leafR h r (updateAt r a f)
  | [], h, r, _, hf => by
    have := hf r (nodeAt_nil r)
    simpa [updateAt_nil] using this
  | j :: a, 0, r, hle, _ => by simp at hle
  | j :: a, h + 1, r, hle, hf => by
    cases hg : r.vec[j]? with
    | none =>
      rw [updateAt_cons_none a f (fun c h => by rw [hg] at h; simp at h)]
      exact TRel.refl_tree hn hl _ _
    | some oc =>
      cases oc with
      | none =>
        rw [updateAt_cons_none a f (fun c h => by rw [hg] at h; simp at h)]
        exact TRel.refl_tree hn hl _ _
      | some c =>
        rw [updateAt_cons_of hg, TRel_succ]
        refine ⟨hv _ _, ?_⟩
        simp only [ISNODE.vec_setVec]
        refine VecRel.set _ hg ?_ (fun _ _ _ _ => TRel.refl_tree hn hl _ _)
        refine TRel_updateAt hn hl hv f a h c (by simpa using hle) (fun N hN => ?_)
        have := hf N (by rw [nodeAt_cons_of hg]; exact hN)
        simpa using this

/-- Related trees have related nodes at the same addresses. -/
theorem TRel_nodeAt {nodeR leafR : ISNODE → ISNODE → Prop} :
    ∀ (a : Addr) {h : Nat} {N N' : ISNODE}, TRel nodeR leafR h N N' → a.length ≤ h →
      (nodeAt N a = none ↔ nodeAt N' a = none) ∧
      (∀ M, nodeAt N a = some M → ∃ M', nodeAt N' a = some M' ∧
        TRel nodeR leafR (h - a.length) M M') ∧
      (∀ M', nodeAt N' a = some M' → ∃ M, nodeAt N a = some M ∧
        TRel nodeR leafR (h - a.length) M M')
  | [], h, N, N', hr, _ => by
    refine ⟨by simp [nodeAt_nil], fun M hM => ?_, fun M' hM' => ?_⟩
    · rw [nodeAt_nil] at hM; cases hM
      exact ⟨N', nodeAt_nil _, by simpa using hr⟩
    · rw [nodeAt_nil] at hM'; cases hM'
      exact ⟨N, nodeAt_nil _, by simpa using hr⟩
  | j :: a, 0, N, N', hr, hle => by simp at hle
  | j :: a, h + 1, N, N', hr, hle => by
    have hr' := (TRel_succ.1 hr).2
    cases hg : N.vec[j]? with
    | none =>
      have hg' := (hr'.1 j).1 hg
      rw [nodeAt_cons_none a (fun c h => by rw [hg] at h; simp at h),
        nodeAt_cons_none a (fun c h => by rw [hg'] at h; simp at h)]
      simp
    | some oc =>
      cases oc with
      | none =>
        have hg' := (hr'.2.1 j).1 hg
        rw [nodeAt_cons_none a (fun c h => by rw [hg] at h; simp at h),
          nodeAt_cons_none a (fun c h => by rw [hg'] at h; simp at h)]
        simp
      | some c =>
        obtain ⟨d, hd, hcd⟩ := hr'.2.2 j c hg
        rw [nodeAt_cons_of hg, nodeAt_cons_of hd]
        have := TRel_nodeAt a hcd (by simpa using hle)
        simpa using this

theorem pathIds_cons_none {N : ISNODE} {j : Nat} (a : Addr)
    (h : ∀ c, N.vec[j]? ≠ some (some c)) : pathIds N (j :: a) = [] := by
  unfold pathIds chain
  cases hg : N.vec.get? j with
  | none => rfl
  | some oc =>
    cases oc with
    | none => rfl
    | some c => exact absurd (by simpa using hg) (h c)

/-- Related trees have the same ids on a path. -/
theorem TRel_pathIds {nodeR leafR : ISNODE → ISNODE → Prop}
    (hn : ∀ a b, nodeR a b → a.id = b.id) (hl : ∀ a b, leafR a b → a.id = b.id) :
    ∀ (a : Addr) {h : Nat} {N N' : ISNODE}, TRel nodeR leafR h N N' → a.length ≤ h →
      pathIds N a = pathIds N' a
  | [], h, N, N', _, _ => rfl
  | j :: a, 0, N, N', hr, hle => by simp at hle
  | j :: a, h + 1, N, N', hr, hle => by
    have hr' := (TRel_succ.1 hr).2
    cases hg : N.vec[j]? with
    | none =>
      have hg' := (hr'.1 j).1 hg
      rw [pathIds_cons_none a (fun c h => by rw [hg] at h; simp at h),
        pathIds_cons_none a (fun c h => by rw [hg'] at h; simp at h)]
    | some oc =>
      cases oc with
      | none =>
        have hg' := (hr'.2.1 j).1 hg
        rw [pathIds_cons_none a (fun c h => by rw [hg] at h; simp at h),
          pathIds_cons_none a (fun c h => by rw [hg'] at h; simp at h)]
      | some c =>
        obtain ⟨d, hd, hcd⟩ := hr'.2.2 j c hg
        rw [pathIds_cons_of hg, pathIds_cons_of hd,
          TRel_pathIds hn hl a hcd (by simpa using hle)]
        congr 1
        cases h with
        | zero => exact hl _ _ (TRel_zero.1 hcd)
        | succ h => exact hn _ _ (TRel_succ.1 hcd).1

theorem Shape_pathIds {h : Nat} {N N' : ISNODE} (hs : Shape h N N') (a : Addr)
    (ha : a.length ≤ h) : pathIds N a = pathIds N' a :=
  TRel_pathIds (fun _ _ h => h.1) (fun _ _ h => h.1) a hs ha

theorem Sim_pathIds {h : Nat} {N N' : ISNODE} (hs : Sim h N N') (a : Addr)
    (ha : a.length ≤ h) : pathIds N a = pathIds N' a :=
  TRel_pathIds (fun _ _ h => h.1) (fun _ _ h => h.1) a hs ha

/-- Counting changes the values of counters only. -/
theorem count_shape {lc : Int} (hlc : lc ≤ 0) : ∀ {h : Nat} {live : Bool} {N : ISNODE}
    {t : List Int} (min : Int), WFN lc live h N → Tract t → min = (h : Int) + 1 →
    Shape h N (_count (h + 1) N t min)
  | 0, live, N, t, min, hw, ht, hm => by
    obtain ⟨c1, c2, c3, c4, c5, c6, c7⟩ := count_node hw hlc ht min hm
    refine TRel_zero.2 ⟨c1.symm, c2.symm, c3.symm, c4.symm, ?_⟩
    rw [(WFN_zero.1 hw).2.1] at c6 ⊢
    exact (List.length_eq_zero.1 c6).symm
  | h + 1, live, N, t, min, hw, ht, hm => by
    obtain ⟨c1, c2, c3, c4, c5, c6, c7⟩ := count_node hw hlc ht min hm
    refine TRel_succ.2 ⟨⟨c1.symm, c2.symm, c3.symm, c4.symm⟩, ?_, ?_, ?_⟩
    · intro j
      rw [c7 j]
      cases N.vec[j]? <;> simp
    · intro j
      rw [c7 j]
      cases hg : N.vec[j]? with
      | none => simp
      | some oc => cases oc <;> simp
    · intro j c hc
      rw [c7 j, hc]
      simp only [Option.map_some']
      refine ⟨_, rfl, ?_⟩
      obtain ⟨first, rest, hv, hok, hwc, -⟩ := WFN_child hw hc
      split
      · exact count_shape hlc (min - 1) hwc (ht.after c.id) (by push_cast at hm; omega)
      · exact Shape.refl_shape _ _


/-! ### The invariant under the operations that keep the shape -/

theorem Shape_nodeAt_isSome {h : Nat} {N N' : ISNODE} (hs : Shape h N N') (a : Addr)
    (ha : a.length ≤ h) : (nodeAt N' a).isSome = (nodeAt N a).isSome := by
  have := (TRel_nodeAt a hs ha).1
  cases h1 : nodeAt N a with
  | none => rw [this.1 h1]
  | some M =>
    cases h2 : nodeAt N' a with
    | none => rw [this.2 h2] at h1; simp at h1
    | some M' => rfl

theorem Inv_of_shape {ist ist' : ISTREE} (hI : Inv ist) (h1 : ist'.lvlcnt = ist.lvlcnt)
    (h2 : ist'.lvlvsz = ist.lvlvsz) (h3 : ist'.levels = ist.levels) (h4 : ist'.supp = ist.supp)
    (hs : Shape (ist.lvlcnt - 1) ist.root ist'.root) : Inv ist' := by
  have hf := Shape.fields_shape hs
  refine ⟨by rw [h1]; exact hI.lvl_pos, by rw [h1, h2]; exact hI.lvl_vsz,
    by rw [h4]; exact hI.supp_pos, by rw [← hf.2.2.1]; exact hI.root_off,
    by rw [← hf.2.2.2]; exact hI.root_size, ?_, by rw [h3, h1]; exact hI.lvl_len, ?_,
    by rw [h3]; exact hI.lvl_nodup⟩
  · obtain ⟨lc, hlc, hw⟩ := hI.wf
    exact ⟨lc, hlc, by rw [h1]; exact WFN_shape hw hs⟩
  · intro k hk a
    rw [h3, hI.lvl_mem k (by omega) a]
    constructor
    · rintro ⟨ha, hn⟩
      exact ⟨ha, by rw [Shape_nodeAt_isSome hs a (by omega)]; exact hn⟩
    · rintro ⟨ha, hn⟩
      exact ⟨ha, by rw [← Shape_nodeAt_isSome hs a (by omega)]; exact hn⟩

theorem Shape_setCnts (h : Nat) (r : ISNODE) (c : List Int) (hc : c.length = r.cnts.length) :
    Shape h r (r.setCnts c) := by
  cases h with
  | zero => exact TRel_zero.2 ⟨by simp, by simp, by simp, by simp [hc], by simp⟩
  | succ h =>
    refine TRel_succ.2 ⟨⟨by simp, by simp, by simp, by simp [hc]⟩, ?_⟩
    simp only [ISNODE.vec_setCnts]
    exact VecRel.refl_vec (Shape.refl_shape h) _

theorem Inv_create (itemcnt : Nat) (supp : Int) (hn : (itemcnt : Int) ≤ INT_MAX)
    (hs : 1 ≤ supp) : Inv (ist_create itemcnt supp) := by
  refine ⟨by simp [ist_create, ist_init], by simp [ist_create, ist_init, BLKSIZE], hs, rfl,
    by simpa [ist_create, ist_init, ISNODE.cnts] using hn, ⟨0, Or.inl rfl, ?_⟩, rfl, ?_, ?_⟩
  · show WFN 0 true 0 _
    rw [WFN_zero]
    exact ⟨rfl, rfl, rfl⟩
  · intro k hk a
    have hk0 : k = 0 := by simp [ist_create, ist_init] at hk; omega
    subst hk0
    simp only [ist_create, ist_init, List.getD_cons_zero, List.mem_singleton]
    constructor
    · intro h; subst h; exact ⟨rfl, rfl⟩
    · intro h; exact List.length_eq_zero.1 h.1
  · intro k
    simp only [ist_create, ist_init]
    cases k with
    | zero => simp
    | succ k => simp

theorem Inv_init {ist : ISTREE} (hI : Inv ist) : Inv (ist_init ist) :=
  Inv_of_shape hI rfl rfl rfl rfl (Shape.refl_shape _ _)

theorem Inv_setcnt {ist : ISTREE} (hI : Inv ist) (item cnt : Int) :
    Inv (ist_setcnt ist item cnt) := by
  unfold ist_setcnt
  split
  · exact Inv_of_shape hI rfl rfl rfl rfl (Shape_setCnts _ _ _ (by simp))
  · exact hI

theorem wf_lc_le {lc : Int} (h : lc = 0 ∨ lc = F_SKIP) : lc ≤ 0 := by
  rcases h with h | h
  · omega
  · rw [h]; unfold F_SKIP; omega

theorem ist_count_shape {ist : ISTREE} (hI : Inv ist) {t : List Int} (ht : Tract t) :
    Shape (ist.lvlcnt - 1) ist.root (ist_count ist t).root := by
  unfold ist_count
  split
  · obtain ⟨lc, hlc, hw⟩ := hI.wf
    have hp := hI.lvl_pos
    have := count_shape (wf_lc_le hlc) (t := t) (ist.lvlcnt : Int) hw ht
      (by have : ((ist.lvlcnt - 1 : Nat) : Int) = (ist.lvlcnt : Int) - 1 := by omega
          omega)
    have he : ist.lvlcnt - 1 + 1 = ist.lvlcnt := by omega
    rw [he] at this
    exact this
  · exact Shape.refl_shape _ _

theorem Inv_count {ist : ISTREE} (hI : Inv ist) {t : List Int} (ht : Tract t) :
    Inv (ist_count ist t) := by
  refine Inv_of_shape hI ?_ ?_ ?_ ?_ (ist_count_shape hI ht) <;>
  · unfold ist_count; split <;> rfl


/-! ### The children created by `ist_addlvl` -/

@[simp] theorem ISNODE.id_mk (i c o : Int) (k : List Int) (v : List (Option ISNODE)) :
    (ISNODE.mk i c o k v).id = i := rfl
@[simp] theorem ISNODE.chcnt_mk (i c o : Int) (k : List Int) (v : List (Option ISNODE)) :
    (ISNODE.mk i c o k v).chcnt = c := rfl
@[simp] theorem ISNODE.offset_mk (i c o : Int) (k : List Int) (v : List (Option ISNODE)) :
    (ISNODE.mk i c o k v).offset = o := rfl
@[simp] theorem ISNODE.cnts_mk (i c o : Int) (k : List Int) (v : List (Option ISNODE)) :
    (ISNODE.mk i c o k v).cnts = k := rfl
@[simp] theorem ISNODE.vec_mk (i c o : Int) (k : List Int) (v : List (Option ISNODE)) :
    (ISNODE.mk i c o k v).vec = v := rfl

theorem mem_candidates {supp : Int} {anc : List ISNODE} {node : ISNODE} {index : Nat} {k : Int} :
    k ∈ candidates supp anc node index ↔
      ∃ i : Nat, i < node.cnts.length ∧ index < i ∧ supp ≤ node.cnts.getD i 0 ∧
        checkAnc supp node.id anc [node.offset + index, node.offset + i] = true ∧
        k = node.offset + (i : Int) := by
  unfold candidates
  simp only [List.mem_map, List.mem_filter, List.mem_range, Bool.and_eq_true, decide_eq_true_eq]
  constructor
  · rintro ⟨i, ⟨hi, ⟨h1, h2⟩, h3⟩, rfl⟩
    exact ⟨i, hi, h1, h2, h3, rfl⟩
  · rintro ⟨i, hi, h1, h2, h3, rfl⟩
    exact ⟨i, ⟨hi, ⟨h1, h2⟩, h3⟩, rfl⟩

theorem candidates_sorted (supp : Int) (anc : List ISNODE) (node : ISNODE) (index : Nat) :
    Tract (candidates supp anc node index) := by
  unfold candidates Tract
  refine List.Pairwise.map _ (fun a b hab => ?_) (List.Pairwise.filter _ (List.pairwise_lt_range _))
  omega

theorem getLast_mem_cons {α : Type} (x : α) (l : List α) :
    (x :: l).getLast (List.cons_ne_nil x l) ∈ x :: l :=
  List.getLast_mem _

theorem Tract.le_getLast {x : Int} {l : List Int} (h : Tract (x :: l)) :
    ∀ y ∈ x :: l, y ≤ (x :: l).getLast (List.cons_ne_nil x l) := by
  induction l generalizing x with
  | nil => intro y hy; simp at hy; simp [hy]
  | cons z l ih =>
    intro y hy
    rw [List.getLast_cons (List.cons_ne_nil z l)]
    rcases List.mem_cons.1 hy with hy | hy
    · have h1 := h.head_lt z (List.mem_cons_self _ _)
      have h2 := ih h.tail z (List.mem_cons_self _ _)
      omega
    · exact ih h.tail y hy

/-- The description of a created child. -/
theorem childOf_some {supp : Int} {anc : List ISNODE} {node : ISNODE} {index : Nat} {c : ISNODE}
    (h : childOf supp anc node index = some c) :
    index < node.cnts.length ∧ supp ≤ node.cnts.getD index 0 ∧
    c.id = node.offset + (index : Int) ∧ c.chcnt = 0 ∧ c.vec = [] ∧
    c.id < c.offset ∧ c.cnts ≠ [] ∧ c.offset + c.size ≤ node.offset + node.size ∧
    (∀ x ∈ c.cnts, x = 0) ∧
    ∃ first more, candidates supp anc node index = first :: more ∧ c.offset = first ∧
      c.offset + c.size = (first :: more).getLast (List.cons_ne_nil first more) + 1 := by
  unfold childOf at h
  split at h
  · simp at h
  · rename_i hs
    split at h
    · simp at h
    · rename_i first more hc
      simp only [Option.some.injEq] at h
      subst h
      have hfirst : first ∈ candidates supp anc node index := by rw [hc]; simp
      obtain ⟨i1, hi1, hx1, -, -, e1⟩ := mem_candidates.1 hfirst
      obtain ⟨i2, hi2, hx2, -, -, e2⟩ := mem_candidates.1 (by rw [hc]; exact getLast_mem_cons first more)
      have hsorted := candidates_sorted supp anc node index
      rw [hc] at hsorted
      have hle := hsorted.le_getLast first (List.mem_cons_self _ _)
      simp only [ISNODE.id_mk, ISNODE.chcnt_mk, ISNODE.vec_mk, ISNODE.offset_mk, ISNODE.cnts_mk,
        ISNODE.size, List.length_replicate]
      refine ⟨by omega, by omega, trivial, trivial, trivial, by omega, ?_, ?_, ?_,
        first, more, hc, rfl, ?_⟩
      · intro h0
        have := congrArg List.length h0
        simp at this
        omega
      · have : ((((first :: more).getLast (List.cons_ne_nil first more) - first + 1).toNat : Nat) : Int)
            = (first :: more).getLast (List.cons_ne_nil first more) - first + 1 := by omega
        rw [this, e2]
        omega
      · intro x hx
        exact (List.mem_replicate.1 hx).2
      · have : ((((first :: more).getLast (List.cons_ne_nil first more) - first + 1).toNat : Nat) : Int)
            = (first :: more).getLast (List.cons_ne_nil first more) - first + 1 := by omega
        rw [this]; omega

theorem mem_kidsOf {supp : Int} {anc : List ISNODE} {node : ISNODE} {c : ISNODE} :
    c ∈ kidsOf supp anc node ↔ ∃ i, i < node.cnts.length ∧ childOf supp anc node i = some c := by
  unfold kidsOf
  simp [List.mem_filterMap]

theorem kidsOf_sorted (supp : Int) (anc : List ISNODE) (node : ISNODE) :
    (kidsOf supp anc node).Pairwise (fun a b => a.id < b.id) := by
  unfold kidsOf
  refine List.Pairwise.filterMap _ (fun i j hij a ha b hb => ?_) (List.pairwise_lt_range _)
  have h1 := (childOf_some ha).2.2.1
  have h2 := (childOf_some hb).2.2.1
  omega

/-! ### The child vector built by `ist_addlvl` -/

theorem foldl_set_length {α β : Type} (key : β → Nat) (val : β → α) :
    ∀ (cs : List β) (init : List α),
      (cs.foldl (fun v c => v.set (key c) (val c)) init).length = init.length
  | [], _ => rfl
  | c :: cs, init => by
    simp only [List.foldl_cons]
    rw [foldl_set_length key val cs]
    simp

theorem foldl_set_get {α β : Type} (key : β → Nat) (val : β → α) :
    ∀ (cs : List β) (init : List α) (j : Nat),
      cs.Pairwise (fun a b => key a ≠ key b) → (∀ c ∈ cs, key c < init.length) →
      ((∀ c ∈ cs, key c ≠ j) →
        (cs.foldl (fun v c => v.set (key c) (val c)) init)[j]? = init[j]?) ∧
      (∀ c ∈ cs, key c = j →
        (cs.foldl (fun v c => v.set (key c) (val c)) init)[j]? = some (val c))
  | [], init, j, _, _ => by simp
  | c :: cs, init, j, hp, hk => by
    simp only [List.foldl_cons]
    have hp' := List.pairwise_cons.1 hp
    have ih := foldl_set_get key val cs (init.set (key c) (val c)) j hp'.2
      (fun d hd => by simpa using hk d (List.mem_cons_of_mem _ hd))
    constructor
    · intro hne
      rw [ih.1 (fun d hd => hne d (List.mem_cons_of_mem _ hd))]
      exact List.getElem?_set_ne (hne c (List.mem_cons_self _ _))
    · intro d hd hdj
      rcases List.mem_cons.1 hd with hd | hd
      · subst hd
        rw [ih.1 (fun e he => by rw [← hdj]; exact fun h => hp'.1 e he h.symm)]
        rw [← hdj]
        exact List.getElem?_set_self (hk d (List.mem_cons_self _ _))
      · exact ih.2 d hd hdj

/-- The child vector holds exactly the created children, each at the index given by its
id. -/
theorem buildVec_spec (frst : ISNODE) (more : List ISNODE)
    (hs : (frst :: more).Pairwise (fun a b => a.id < b.id)) :
    (buildVec frst.id (((frst :: more).getLast (List.cons_ne_nil frst more)).id - frst.id + 1)
        (frst :: more)).length =
      (((frst :: more).getLast (List.cons_ne_nil frst more)).id - frst.id + 1).toNat ∧
    (∀ (j : Nat) (c : ISNODE),
      (buildVec frst.id (((frst :: more).getLast (List.cons_ne_nil frst more)).id - frst.id + 1)
        (frst :: more))[j]? = some (some c) ↔ (c ∈ frst :: more ∧ c.id = frst.id + (j : Int))) ∧
    frst.id ≤ ((frst :: more).getLast (List.cons_ne_nil frst more)).id := by
  have hids : Tract ((frst :: more).map ISNODE.id) := by
    unfold Tract
    exact List.Pairwise.map _ (fun _ _ h => h) hs
  have hlast : ((frst :: more).map ISNODE.id).getLast (by simp) =
      ((frst :: more).getLast (List.cons_ne_nil frst more)).id := by
    rw [List.getLast_map]
  have hle : ∀ c ∈ frst :: more, frst.id ≤ c.id ∧
      c.id ≤ ((frst :: more).getLast (List.cons_ne_nil frst more)).id := by
    intro c hc
    constructor
    · rcases List.mem_cons.1 hc with hc | hc
      · rw [hc]
      · have := (List.pairwise_cons.1 hs).1 c hc; omega
    · rw [← hlast]
      simp only [List.map_cons] at hids ⊢
      exact hids.le_getLast c.id (by
        rw [← List.map_cons]
        exact List.mem_map_of_mem _ hc)
  have hfl := (hle frst (List.mem_cons_self _ _)).2
  set n := ((frst :: more).getLast (List.cons_ne_nil frst more)).id - frst.id + 1 with hn
  have hkey : (frst :: more).Pairwise
      (fun a b => (a.id - frst.id).toNat ≠ (b.id - frst.id).toNat) := by
    refine List.Pairwise.imp_of_mem ?_ hs
    intro a b ha hb hab
    have := hle a ha
    have := hle b hb
    omega
  have hbound : ∀ c ∈ frst :: more, (c.id - frst.id).toNat < (List.replicate n.toNat
      (none : Option ISNODE)).length := by
    intro c hc
    have := hle c hc
    simp only [List.length_replicate]
    omega
  refine ⟨?_, ?_, hfl⟩
  · unfold buildVec
    exact (foldl_set_length (fun c : ISNODE => (c.id - frst.id).toNat)
      (fun c : ISNODE => (some c : Option ISNODE)) (frst :: more)
      (List.replicate n.toNat none)).trans (by simp)
  · intro j c
    unfold buildVec
    have hg := foldl_set_get (fun c : ISNODE => (c.id - frst.id).toNat) (fun c => some c)
      (frst :: more) (List.replicate n.toNat none) j hkey hbound
    constructor
    · intro hj
      by_cases hex : ∃ d ∈ frst :: more, (d.id - frst.id).toNat = j
      · obtain ⟨d, hd, hdj⟩ := hex
        have := hg.2 d hd hdj
        rw [this] at hj
        simp only [Option.some.injEq] at hj
        subst hj
        have := hle d hd
        exact ⟨hd, by omega⟩
      · have hne : ∀ d ∈ frst :: more, (d.id - frst.id).toNat ≠ j :=
          fun d hd h => hex ⟨d, hd, h⟩
        rw [hg.1 hne] at hj
        by_cases hjn : j < n.toNat
        · rw [List.getElem?_replicate_of_lt hjn] at hj
          simp at hj
        · rw [List.getElem?_eq_none (by simp; omega)] at hj
          simp at hj
    · rintro ⟨hc, hcj⟩
      exact hg.2 c hc (by show (c.id - frst.id).toNat = j; omega)

/-! ### `_child` and the loop over the slots -/

theorem child_eq (supp : Int) (anc : List ISNODE) (node : ISNODE) (index : Nat)
    (mem : Option Nat) :
    _child supp anc node index mem =
      match childOf supp anc node index with
      | none => (.null, mem)
      | some c =>
        match alloc mem with
        | none => (.fail, mem)
        | some mem1 => (.node c, mem1) := by
  unfold _child childOf
  split
  · rfl
  · split
    · rfl
    · rfl

theorem alloc_none : alloc none = some none := rfl

/-- With unlimited memory the loop over the slots creates all children. -/
theorem newChildren_none (supp : Int) (anc : List ISNODE) (node : ISNODE) :
    ∀ (idx : List Nat), newChildren supp anc node idx none =
      some (idx.filterMap (childOf supp anc node), none)
  | [] => rfl
  | i :: rest => by
    unfold newChildren
    rw [child_eq]
    cases hc : childOf supp anc node i with
    | none =>
      simp only [List.filterMap_cons, hc]
      exact newChildren_none supp anc node rest
    | some c =>
      simp only [alloc_none, List.filterMap_cons, hc]
      rw [newChildren_none supp anc node rest]

/-- When the loop over the slots succeeds it has created all children. -/
theorem newChildren_some (supp : Int) (anc : List ISNODE) (node : ISNODE) :
    ∀ (idx : List Nat) (mem : Option Nat) (cs : List ISNODE) (mem1 : Option Nat),
      newChildren supp anc node idx mem = some (cs, mem1) →
      cs = idx.filterMap (childOf supp anc node)
  | [], mem, cs, mem1, h => by
    simp only [newChildren, Option.some.injEq, Prod.mk.injEq] at h
    rw [← h.1]; rfl
  | i :: rest, mem, cs, mem1, h => by
    unfold newChildren at h
    rw [child_eq] at h
    cases hc : childOf supp anc node i with
    | none =>
      rw [hc] at h
      simp only [List.filterMap_cons, hc]
      exact newChildren_some supp anc node rest mem cs mem1 h
    | some c =>
      rw [hc] at h
      simp only [List.filterMap_cons, hc]
      cases ha : alloc mem with
      | none => rw [ha] at h; simp at h
      | some m2 =>
        rw [ha] at h
        simp only at h
        cases hr : newChildren supp anc node rest m2 with
        | none => rw [hr] at h; simp at h
        | some p =>
          obtain ⟨cs2, m3⟩ := p
          rw [hr] at h
          simp only [Option.some.injEq, Prod.mk.injEq] at h
          rw [← h.1, newChildren_some supp anc node rest m2 cs2 m3 hr]


/-! ### Trees that agree down to the deepest level -/

theorem vecAt_some {vec : List (Option ISNODE)} {i : Int} {c : ISNODE} :
    vecAt vec i = some c ↔ (0 ≤ i ∧ vec[i.toNat]? = some (some c)) := by
  unfold vecAt
  by_cases hi : i < 0
  · simp [hi]
  · simp only [hi, if_false, List.get?_eq_getElem?]
    have h0 : 0 ≤ i := by omega
    simp only [h0, true_and]
    cases hg : vec[i.toNat]? with
    | none => simp
    | some oc => cases oc <;> simp

theorem vecAt_none {vec : List (Option ISNODE)} {i : Int} (h0 : 0 ≤ i) :
    vecAt vec i = none ↔ (vec[i.toNat]? = none ∨ vec[i.toNat]? = some none) := by
  unfold vecAt
  have hi : ¬ (i < 0) := by omega
  simp only [hi, if_false, List.get?_eq_getElem?]
  cases hg : vec[i.toNat]? with
  | none => simp
  | some oc => cases oc <;> simp

theorem VecRel.vecAt {R : ISNODE → ISNODE → Prop} {v w : List (Option ISNODE)}
    (h : VecRel R v w) (i : Int) :
    (vecAt v i = none ∧ vecAt w i = none) ∨
    ∃ c d, vecAt v i = some c ∧ vecAt w i = some d ∧ R c d := by
  by_cases hi : i < 0
  · left; simp [ISTree.vecAt, hi]
  · have h0 : 0 ≤ i := by omega
    cases hv : ISTree.vecAt v i with
    | none =>
      left
      refine ⟨rfl, ?_⟩
      rw [vecAt_none h0] at hv ⊢
      rcases hv with hv | hv
      · exact Or.inl ((h.1 _).1 hv)
      · exact Or.inr ((h.2.1 _).1 hv)
    | some c =>
      right
      obtain ⟨-, hc⟩ := vecAt_some.1 hv
      obtain ⟨d, hd, hr⟩ := h.2.2 _ c hc
      exact ⟨c, d, rfl, vecAt_some.2 ⟨h0, hd⟩, hr⟩

theorem VecRel.head {R : ISNODE → ISNODE → Prop} {v w : List (Option ISNODE)}
    (h : VecRel R v w) :
    (∃ f rest g rest', v = some f :: rest ∧ w = some g :: rest' ∧ R f g) ∨
    ((∀ f rest, v ≠ some f :: rest) ∧ (∀ g rest', w ≠ some g :: rest')) := by
  cases v with
  | nil =>
    right
    have := h.length_vec
    cases w with
    | nil => exact ⟨by simp, by simp⟩
    | cons _ _ => simp at this
  | cons x rest =>
    cases w with
    | nil => have := h.length_vec; simp at this
    | cons y rest' =>
      cases x with
      | none =>
        right
        have := (h.2.1 0).1 (by simp)
        simp at this
        subst this
        exact ⟨by simp, by simp⟩
      | some f =>
        left
        obtain ⟨g, hg, hr⟩ := h.2.2 0 f (by simp)
        simp at hg
        subst hg
        exact ⟨f, rest, g, rest', rfl, rfl, hr⟩

theorem getsupp_nil (N : ISNODE) : _getsupp N [] = -1 := by
  unfold _getsupp; rfl

theorem getsupp_single (N : ISNODE) (x : Int) :
    _getsupp N [x] =
      if x - N.offset < 0 ∨ x - N.offset ≥ N.size then -1
      else N.cnts.getD (x - N.offset).toNat 0 := by
  conv => lhs; unfold _getsupp

theorem getsupp_cons (N : ISNODE) (x y : Int) (rest : List Int) :
    _getsupp N (x :: y :: rest) =
      if unskip N.chcnt = 0 then -1
      else
        match N.vec with
        | some first :: _ =>
          if x - first.id < 0 ∨ x - first.id ≥ unskip N.chcnt then -1
          else
            match vecAt N.vec (x - first.id) with
            | some c => _getsupp c (y :: rest)
            | none => -1
        | _ => -1 := by
  rw [_getsupp]

/-- `_getsupp` reads the counters of the level it ends in and the child vectors above. -/
theorem getsupp_sim : ∀ (set : List Int) {d : Nat} {N N' : ISNODE}, Sim d N N' →
    set.length = d + 1 → _getsupp N set = _getsupp N' set
  | [], d, N, N', _, hl => by simp at hl
  | [x], d, N, N', hs, hl => by
    have hd : d = 0 := by simpa using hl.symm
    subst hd
    obtain ⟨h1, h2, h3⟩ := TRel_zero.1 hs
    rw [getsupp_single, getsupp_single]
    unfold ISNODE.size
    rw [h2, h3]
  | x :: y :: rest, 0, N, N', hs, hl => by simp at hl
  | x :: y :: rest, d + 1, N, N', hs, hl => by
    obtain ⟨⟨h1, h2, h3, h4⟩, hv⟩ := TRel_succ.1 hs
    rw [getsupp_cons, getsupp_cons, h2]
    by_cases hc : unskip N'.chcnt = 0
    · rw [if_pos hc, if_pos hc]
    · rw [if_neg hc, if_neg hc]
      rcases hv.head with ⟨f, r, g, r', hf, hg, hfg⟩ | ⟨hn, hn'⟩
      · have hid : f.id = g.id := (Sim.fields_sim hfg).1
        rw [hf, hg]
        simp only
        rw [← hf, ← hg, hid]
        by_cases hr : x - g.id < 0 ∨ x - g.id ≥ unskip N'.chcnt
        · rw [if_pos hr, if_pos hr]
        · rw [if_neg hr, if_neg hr]
          rcases hv.vecAt (x - g.id) with ⟨e1, e2⟩ | ⟨c, c', e1, e2, hcc⟩
          · rw [e1, e2]
          · rw [e1, e2]
            exact getsupp_sim (y :: rest) hcc (by simpa using hl)
      · have e1 : (match N.vec with
            | some first :: _ =>
              if x - first.id < 0 ∨ x - first.id ≥ unskip N'.chcnt then (-1 : Int)
              else
                match vecAt N.vec (x - first.id) with
                | some c => _getsupp c (y :: rest)
                | none => -1
            | _ => -1) = -1 := by
          split
          · rename_i f r hf; exact absurd hf (hn f r)
          · rfl
        have e2 : (match N'.vec with
            | some first :: _ =>
              if x - first.id < 0 ∨ x - first.id ≥ unskip N'.chcnt then (-1 : Int)
              else
                match vecAt N'.vec (x - first.id) with
                | some c => _getsupp c (y :: rest)
                | none => -1
            | _ => -1) = -1 := by
          split
          · rename_i f r hf; exact absurd hf (hn' f r)
          · rfl
        rw [e1, e2]

theorem AncSim_nil (k : Nat) : AncSim k [] [] := by
  unfold AncSim; trivial

theorem AncSim_cons {k : Nat} {p q : ISNODE} {up uq : List ISNODE} :
    AncSim k (p :: up) (q :: uq) ↔ (Sim k p q ∧ AncSim (k + 1) up uq) := by
  conv => lhs; unfold AncSim

theorem AncSim.length_anc : ∀ {k : Nat} {l l' : List ISNODE}, AncSim k l l' → l.length = l'.length
  | _, [], [], _ => rfl
  | _, [], _ :: _, h => by unfold AncSim at h; exact absurd h id
  | _, _ :: _, [], h => by unfold AncSim at h; exact absurd h id
  | k, p :: up, q :: uq, h => by
    have := (AncSim_cons.1 h).2.length_anc
    simp [this]

theorem AncSim_append : ∀ {k : Nat} {l l' : List ISNODE} {r r' : ISNODE}, AncSim k l l' →
    Sim (k + l.length) r r' → AncSim k (l ++ [r]) (l' ++ [r'])
  | k, [], [], r, r', _, hs => by
    simp only [List.nil_append]
    exact AncSim_cons.2 ⟨by simpa using hs, AncSim_nil _⟩
  | _, [], _ :: _, _, _, h, _ => by unfold AncSim at h; exact absurd h id
  | _, _ :: _, [], _, _, h, _ => by unfold AncSim at h; exact absurd h id
  | k, p :: up, q :: uq, r, r', h, hs => by
    have h' := AncSim_cons.1 h
    simp only [List.cons_append]
    refine AncSim_cons.2 ⟨h'.1, AncSim_append h'.2 ?_⟩
    have : k + 1 + up.length = k + (p :: up).length := by simp; omega
    rw [this]; exact hs

theorem ancOf_nil (r : ISNODE) : ancOf r [] = [] := rfl

theorem ancOf_cons_of {r c : ISNODE} {j : Nat} (hc : r.vec[j]? = some (some c)) (a : Addr) :
    ancOf r (j :: a) = ancOf c a ++ [r] := by
  unfold ancOf
  rw [chain_cons_of hc]
  cases hch : chain c a with
  | nil => exact absurd hch (chain_ne_nil c a)
  | cons x l =>
    simp only [List.reverse_cons]
    cases hl : l.reverse with
    | nil => simp
    | cons y l' => simp

theorem length_chain : ∀ (a : Addr) {r M : ISNODE}, nodeAt r a = some M →
    (chain r a).length = a.length + 1
  | [], r, M, _ => rfl
  | j :: a, r, M, h => by
    obtain ⟨c, hc, hn⟩ := nodeAt_cons_some h
    rw [chain_cons_of hc]
    simp [length_chain a hn]

theorem length_ancOf {a : Addr} {r M : ISNODE} (h : nodeAt r a = some M) :
    (ancOf r a).length = a.length := by
  unfold ancOf
  simp [length_chain a h]

/-- The ancestors of a node in two trees that agree down to the level of the node. -/
theorem ancOf_sim : ∀ (a : Addr) {r r' M : ISNODE}, Sim a.length r r' → nodeAt r a = some M →
    AncSim 1 (ancOf r a) (ancOf r' a)
  | [], r, r', M, _, _ => AncSim_nil _
  | j :: a, r, r', M, hs, hn => by
    obtain ⟨c, hc, hn'⟩ := nodeAt_cons_some hn
    obtain ⟨d, hd, hcd⟩ := (TRel_succ.1 hs).2.2.2 j c hc
    rw [ancOf_cons_of hc, ancOf_cons_of hd]
    refine AncSim_append (ancOf_sim a hcd hn') ?_
    rw [length_ancOf hn']
    have : 1 + a.length = (j :: a).length := by simp; omega
    rw [this]; exact hs

theorem checkAnc_sim (supp : Int) : ∀ {k : Nat} {anc anc' : List ISNODE} (id : Int)
    (set : List Int), AncSim k anc anc' → set.length = k + 1 →
    checkAnc supp id anc set = checkAnc supp id anc' set
  | _, [], [], _, _, _, _ => rfl
  | _, [], _ :: _, _, _, h, _ => by unfold AncSim at h; exact absurd h id
  | _, _ :: _, [], _, _, h, _ => by unfold AncSim at h; exact absurd h id
  | k, p :: up, q :: uq, id, set, h, hl => by
    have h' := AncSim_cons.1 h
    unfold checkAnc
    rw [getsupp_sim set h'.1 hl, (Sim.fields_sim h'.1).1]
    split
    · rfl
    · exact checkAnc_sim supp q.id (id :: set) h'.2 (by simp [hl])

theorem kidsOf_sim (supp : Int) {anc anc' : List ISNODE} (node : ISNODE)
    (h : AncSim 1 anc anc') : kidsOf supp anc node = kidsOf supp anc' node := by
  have hc : ∀ index, candidates supp anc node index = candidates supp anc' node index := by
    intro index
    unfold candidates
    congr 1
    apply List.filter_congr
    intro i _
    rw [checkAnc_sim supp node.id _ h (by simp)]
  unfold kidsOf childOf
  congr 1
  funext index
  rw [hc index]

/-- Two trees that agree down to level `d` and have the same nodes at level `d` are equal. -/
theorem Sim_ext : ∀ {d : Nat} {r r' : ISNODE}, Sim d r r' →
    (∀ a : Addr, a.length = d → nodeAt r a = nodeAt r' a) → r = r'
  | 0, r, r', _, h => by
    have := h [] rfl
    simpa [nodeAt_nil] using this
  | d + 1, r, r', hs, h => by
    obtain ⟨⟨h1, h2, h3, h4⟩, hv⟩ := TRel_succ.1 hs
    refine ISNODE.ext_fields h1 h2 h3 h4 ?_
    apply List.ext_getElem?
    intro j
    cases hg : r.vec[j]? with
    | none => rw [(hv.1 j).1 hg]
    | some oc =>
      cases oc with
      | none => rw [(hv.2.1 j).1 hg]
      | some c =>
        obtain ⟨c', hc', hcc⟩ := hv.2.2 j c hg
        rw [hc']
        have : c = c' := by
          refine Sim_ext hcc (fun a ha => ?_)
          have := h (j :: a) (by simp [ha])
          rwa [nodeAt_cons_of hg, nodeAt_cons_of hc'] at this
        rw [this]


/-! ### The loop of `ist_addlvl` over the deepest nodes -/

theorem attach_fields (kids : List ISNODE) (N : ISNODE) :
    (attach kids N).id = N.id ∧ (attach kids N).offset = N.offset ∧
      (attach kids N).cnts = N.cnts := by
  unfold attach
  split <;> simp

theorem attach_nil (N : ISNODE) : attach [] N = N.setChcnt F_SKIP := rfl

theorem updateAt_none : ∀ (a : Addr) {r : ISNODE} (f : ISNODE → ISNODE),
    nodeAt r a = none → updateAt r a f = r
  | [], r, f, h => by simp [nodeAt_nil] at h
  | j :: a, r, f, h => by
    cases hg : r.vec[j]? with
    | none => exact updateAt_cons_none a f (fun c hc => by rw [hg] at hc; simp at hc)
    | some oc =>
      cases oc with
      | none => exact updateAt_cons_none a f (fun c hc => by rw [hg] at hc; simp at hc)
      | some c =>
        rw [nodeAt_cons_of hg] at h
        rw [updateAt_cons_of hg, updateAt_none a f h]
        have : r.vec.set j (some c) = r.vec := by
          apply List.ext_getElem?
          intro k
          by_cases hk : j = k
          · subst hk; rw [List.getElem?_set_self (lt_length_of_getElem? hg), hg]
          · rw [List.getElem?_set_ne hk]
        rw [this, ISNODE.setVec_vec]

theorem nodeAt_updateAt_self (a : Addr) (r : ISNODE) (f : ISNODE → ISNODE) :
    nodeAt (updateAt r a f) a = (nodeAt r a).map f := by
  cases h : nodeAt r a with
  | none => rw [updateAt_none a f h, h]; rfl
  | some N => rw [nodeAt_updateAt_same a f h]; rfl

/-- The outcome of one pass of the loop: an allocation fails and the state is unchanged, or
the children found in the tree are attached. -/
theorem addlvlNode_spec (supp : Int) (st : LvlState) (a : Addr) {node : ISNODE}
    (hn : nodeAt st.root a = some node) :
    ((addlvlNode supp st a).2 = true ∧ (addlvlNode supp st a).1 = st ∧ st.mem ≠ none) ∨
    ((addlvlNode supp st a).2 = false ∧
      (addlvlNode supp st a).1.root =
        updateAt st.root a (attach (kidsOf supp (ancOf st.root a) node)) ∧
      (addlvlNode supp st a).1.newlvl =
        st.newlvl ++ kidAddrs a (kidsOf supp (ancOf st.root a) node) ∧
      (st.mem = none → (addlvlNode supp st a).1.mem = none)) := by
  unfold addlvlNode
  rw [hn]
  simp only
  have hanc : (chain st.root a).reverse.tail = ancOf st.root a := rfl
  rw [hanc]
  cases hc : newChildren supp (ancOf st.root a) node (List.range node.cnts.length) st.mem with
  | none =>
    left
    refine ⟨rfl, rfl, fun h => ?_⟩
    rw [h, newChildren_none] at hc
    simp at hc
  | some p =>
    obtain ⟨cs, m1⟩ := p
    have hcs := newChildren_some supp _ node _ _ _ _ hc
    have hk : kidsOf supp (ancOf st.root a) node = cs := hcs.symm
    have hm1 : st.mem = none → m1 = none := by
      intro h
      rw [h, newChildren_none] at hc
      simp only [Option.some.injEq, Prod.mk.injEq] at hc
      exact hc.2.symm
    rw [hk]
    cases cs with
    | nil =>
      right
      exact ⟨rfl, rfl, by simp [kidAddrs], hm1⟩
    | cons frst more =>
      simp only
      cases ha : alloc m1 with
      | none =>
        left
        refine ⟨rfl, rfl, fun h => ?_⟩
        rw [hm1 h] at ha
        simp [alloc] at ha
      | some m2 =>
        right
        refine ⟨rfl, rfl, rfl, fun h => ?_⟩
        rw [hm1 h] at ha
        simp only [alloc, Option.some.injEq] at ha
        exact ha.symm

theorem LoopInv_start (supp : Int) (r0 : ISNODE) (d : Nat) : LoopInv supp r0 d [] r0 :=
  ⟨Sim.refl_sim d r0, fun _ _ _ => rfl, fun a ha => by simp at ha⟩

/-- One pass of the loop keeps the loop invariant. -/
theorem LoopInv_step {supp : Int} {r0 r : ISNODE} {d : Nat} {done : List Addr}
    (hI : LoopInv supp r0 d done r) {a : Addr} (hal : a.length = d) (had : a ∉ done)
    {N : ISNODE} (hN : nodeAt r0 a = some N) :
    nodeAt r a = some N ∧ kidsOf supp (ancOf r a) N = kidsOf supp (ancOf r0 a) N ∧
    LoopInv supp r0 d (a :: done) (updateAt r a (attach (kidsOf supp (ancOf r0 a) N))) := by
  obtain ⟨h1, h2, h3⟩ := hI
  have hrN : nodeAt r a = some N := by rw [h2 a hal had, hN]
  have hk : kidsOf supp (ancOf r a) N = kidsOf supp (ancOf r0 a) N := by
    symm
    exact kidsOf_sim supp N (ancOf_sim a (by rw [hal]; exact h1) hN)
  refine ⟨hrN, hk, ?_, ?_, ?_⟩
  · refine h1.trans_sim ?_
    refine TRel_updateAt (fun _ => ⟨rfl, rfl, rfl, rfl⟩) (fun _ => ⟨rfl, rfl, rfl⟩)
      (fun _ _ => ⟨by simp, by simp, by simp, by simp⟩) _ a d r (by omega) (fun M _ => ?_)
    rw [hal, Nat.sub_self]
    have := attach_fields (kidsOf supp (ancOf r0 a) N) M
    exact TRel_zero.2 ⟨this.1.symm, this.2.1.symm, this.2.2.symm⟩
  · intro b hbl hbd
    rw [nodeAt_updateAt_ne b a r _ (by omega) (fun h => hbd (by rw [h]; exact List.mem_cons_self _ _))]
    exact h2 b hbl (fun h => hbd (List.mem_cons_of_mem _ h))
  · intro b hb
    rcases List.mem_cons.1 hb with hb | hb
    · subst hb
      refine ⟨hal, fun M hM => ?_⟩
      rw [hN] at hM
      cases hM
      exact nodeAt_updateAt_same b _ hrN
    · obtain ⟨hbl, hbn⟩ := h3 b hb
      refine ⟨hbl, fun M hM => ?_⟩
      rw [nodeAt_updateAt_ne b a r _ (by omega) (fun h => had (by rw [← h]; exact hb))]
      exact hbn M hM

/-- The addresses of the new level that the loop collects for the addresses in `rest`. -/
theorem addlvlLoop_spec (supp : Int) (r0 : ISNODE) (d : Nat) :
    ∀ (rest done : List Addr) (st : LvlState), LoopInv supp r0 d done st.root → rest.Nodup →
    (∀ a ∈ rest, a.length = d ∧ a ∉ done ∧ (nodeAt r0 a).isSome = true) →
    ((addlvlLoop supp st rest).2 = false ∧
      LoopInv supp r0 d (rest.reverse ++ done) (addlvlLoop supp st rest).1.root ∧
      (addlvlLoop supp st rest).1.newlvl = st.newlvl ++ rest.flatMap (fun a =>
        match nodeAt r0 a with
        | some N => kidAddrs a (kidsOf supp (ancOf r0 a) N)
        | none => []) ∧
      (st.mem = none → (addlvlLoop supp st rest).1.mem = none)) ∨
    ((addlvlLoop supp st rest).2 = true ∧ st.mem ≠ none ∧
      ∃ done', LoopInv supp r0 d done' (addlvlLoop supp st rest).1.root)
  | [], done, st, hI, _, _ => by
    left
    simp only [addlvlLoop, List.reverse_nil, List.nil_append, List.flatMap_nil, List.append_nil]
    exact ⟨trivial, hI, trivial, fun h => h⟩
  | a :: rest, done, st, hI, hnd, hall => by
    obtain ⟨hal, had, hsome⟩ := hall a (List.mem_cons_self _ _)
    obtain ⟨N, hN⟩ := Option.isSome_iff_exists.1 hsome
    obtain ⟨hrN, hk, hI'⟩ := LoopInv_step hI hal had hN
    have hnd' := List.nodup_cons.1 hnd
    unfold addlvlLoop
    rcases addlvlNode_spec supp st a hrN with ⟨e1, e2, e3⟩ | ⟨e1, e2, e3, e4⟩
    · right
      have : addlvlNode supp st a = (st, true) := Prod.ext e2 e1
      rw [this]
      exact ⟨rfl, e3, done, hI⟩
    · have hst : addlvlNode supp st a = ((addlvlNode supp st a).1, false) := Prod.ext rfl e1
      rw [hst]
      simp only
      rw [hk] at e2 e3
      have hI2 : LoopInv supp r0 d (a :: done) (addlvlNode supp st a).1.root := by
        rw [e2]; exact hI'
      have ih := addlvlLoop_spec supp r0 d rest (a :: done) (addlvlNode supp st a).1 hI2 hnd'.2
        (fun b hb => by
          obtain ⟨h1, h2, h3⟩ := hall b (List.mem_cons_of_mem _ hb)
          refine ⟨h1, fun h => ?_, h3⟩
          rcases List.mem_cons.1 h with h | h
          · subst h; exact hnd'.1 hb
          · exact h2 h)
      rcases ih with ⟨i1, i2, i3, i4⟩ | ⟨i1, i2, i3⟩
      · left
        refine ⟨i1, ?_, ?_, fun h => i4 (e4 h)⟩
        · have : (a :: rest).reverse ++ done = rest.reverse ++ (a :: done) := by simp
          rw [this]; exact i2
        · rw [i3, e3, List.flatMap_cons, hN, List.append_assoc]
      · right
        refine ⟨i1, fun h => i2 (e4 h), i3⟩


/-! ### Well-formedness of the tree with the new level -/

theorem ChildOK_fields {N N' c c' : ISNODE} {f : Int} {j : Nat}
    (hN : N.offset = N'.offset ∧ N.cnts.length = N'.cnts.length)
    (hc : c.id = c'.id ∧ c.offset = c'.offset ∧ c.cnts.length = c'.cnts.length)
    (h : ChildOK N f j c) : ChildOK N' f j c' := by
  obtain ⟨o1, o2, o3, o4, o5⟩ := h
  obtain ⟨n3, n4⟩ := hN
  obtain ⟨c1, c3, c4⟩ := hc
  unfold ISNODE.size at *
  refine ⟨by rw [← c1]; exact o1, by rw [← n3, ← c1]; exact o2, by rw [← c1, ← c3]; exact o3,
    ?_, by unfold ISNODE.size; rw [← c3, ← c4, ← n3, ← n4]; exact o5⟩
  intro h0
  apply o4
  rw [h0] at c4
  exact List.length_eq_zero.1 c4

/-- Well-formedness carries over to a tree that agrees down to the deepest level, when the
condition on the deepest nodes does. -/
theorem WFG_sim_pointwise {P Q : Bool → ISNODE → Prop} :
    ∀ {h : Nat} {live : Bool} {N N' : ISNODE}, WFG P live h N → Sim h N N' →
    (∀ (a : Addr) (M M' : ISNODE) (l : Bool), a.length = h → nodeAt N a = some M →
      nodeAt N' a = some M' → P l M → Q l M') → WFG Q live h N'
  | 0, live, N, N', hw, _, hpq =>
    WFG_zero.2 (hpq [] N N' live rfl (nodeAt_nil _) (nodeAt_nil _) (WFG_zero.1 hw))
  | h + 1, live, N, N', hw, hs, hpq => by
    have hs' := TRel_succ.1 hs
    refine WFG_congr hw hs'.2.length_vec.symm hs'.1.2.1.symm ?_ ?_
    · intro first rest hv
      rcases hs'.2.head with ⟨f, r, g, r', hf, hg, hfg⟩ | ⟨hn, -⟩
      · rw [hv] at hf
        simp only [List.cons.injEq, Option.some.injEq] at hf
        exact ⟨g, r', hg, by rw [hf.1]; exact (Sim.fields_sim hfg).1.symm⟩
      · exact absurd hv (hn first rest)
    · intro l first j c' hc'
      obtain ⟨c, hc, hr⟩ := hs'.2.inv hc'
      refine ⟨c, hc, ChildOK_fields ⟨hs'.1.2.2.1, by rw [hs'.1.2.2.2]⟩
        ⟨(Sim.fields_sim hr).1, (Sim.fields_sim hr).2.1, by rw [(Sim.fields_sim hr).2.2]⟩, fun hw => ?_⟩
      refine WFG_sim_pointwise hw hr (fun a M M' l' ha hM hM' hP => ?_)
      exact hpq (j :: a) M M' l' (by simp [ha]) (by rw [nodeAt_cons_of hc]; exact hM)
        (by rw [nodeAt_cons_of hc']; exact hM') hP

/-- Well-formed subtrees of one level at the bottom of a well-formed tree of `h` levels
make a well-formed tree of `h + 1` levels. -/
theorem WFG_compose {P : Bool → ISNODE → Prop} :
    ∀ {h : Nat} {live : Bool} {N : ISNODE}, WFG (fun l M => WFG P l 1 M) live h N →
      WFG P live (h + 1) N
  | 0, live, N, hw => WFG_zero.1 hw
  | h + 1, live, N, hw => by
    rw [WFG_succ] at hw ⊢
    rcases hw with hw | ⟨first, rest, hv, hl, hw | hw⟩
    · exact Or.inl hw
    · exact Or.inr ⟨first, rest, hv, hl, Or.inl ⟨hw.1, hw.2.1, fun j c hc =>
        ⟨(hw.2.2 j c hc).1, WFG_compose (hw.2.2 j c hc).2⟩⟩⟩
    · exact Or.inr ⟨first, rest, hv, hl, Or.inr ⟨hw.1, fun j c hc =>
        ⟨(hw.2 j c hc).1, WFG_compose (hw.2 j c hc).2⟩⟩⟩

/-- A deepest node with its new children is a well-formed tree of two levels. -/
theorem attach_wf (supp : Int) (anc : List ISNODE) {M : ISNODE} (hv : M.vec = [])
    (hsize : (M.cnts.length : Int) ≤ INT_MAX) :
    WFN 0 true 1 (attach (kidsOf supp anc M) M) := by
  rw [WFN_succ]
  cases hk : kidsOf supp anc M with
  | nil =>
    left
    rw [attach_nil]
    exact ⟨by simpa using hv, by simp⟩
  | cons frst more =>
    right
    have hsorted := kidsOf_sorted supp anc M
    rw [hk] at hsorted
    obtain ⟨b1, b2, b3⟩ := buildVec_spec frst more hsorted
    have hmem : ∀ c ∈ frst :: more, ∃ i, i < M.cnts.length ∧ childOf supp anc M i = some c := by
      intro c hc
      rw [← hk] at hc
      exact mem_kidsOf.1 hc
    obtain ⟨i1, hi1, hc1⟩ := hmem frst (List.mem_cons_self _ _)
    obtain ⟨i2, hi2, hc2⟩ := hmem _ (getLast_mem_cons frst more)
    have e1 := (childOf_some hc1).2.2.1
    have e2 := (childOf_some hc2).2.2.1
    set n := ((frst :: more).getLast (List.cons_ne_nil frst more)).id - frst.id + 1 with hn
    have hvec : (attach (frst :: more) M).vec = buildVec frst.id n (frst :: more) := by
      unfold attach; simp
    have hch : (attach (frst :: more) M).chcnt = n := by
      unfold attach; simp
    have h0 : (buildVec frst.id n (frst :: more))[0]? = some (some frst) :=
      (b2 0 frst).2 ⟨List.mem_cons_self _ _, by simp⟩
    obtain ⟨rest, hrest⟩ : ∃ rest, buildVec frst.id n (frst :: more) = some frst :: rest := by
      cases hb : buildVec frst.id n (frst :: more) with
      | nil => rw [hb] at h0; simp at h0
      | cons x r => rw [hb] at h0; simp at h0; exact ⟨r, by rw [h0]⟩
    refine ⟨frst, rest, by rw [hvec, hrest], ?_, Or.inl ⟨rfl, ?_, ?_⟩⟩
    · rw [hvec, b1]; omega
    · rw [hch, hvec, b1]; omega
    · intro j c hc
      rw [hvec] at hc
      obtain ⟨hcm, hcj⟩ := (b2 j c).1 (by simpa using hc)
      obtain ⟨i, hi, hci⟩ := hmem c hcm
      obtain ⟨c1, c2, c3, c4, c5, c6, c7, c8, -⟩ := childOf_some hci
      have af := attach_fields (frst :: more) M
      refine ⟨⟨hcj, by rw [af.2.1, c3]; omega, c6, c7, ?_⟩, ?_⟩
      · unfold ISNODE.size at c8 ⊢
        rw [af.2.1, af.2.2]; exact c8
      · rw [WFN_zero]
        exact ⟨rfl, c5, c4⟩

/-! ### The skip flags -/

theorem stskip_succ_eq (fuel : Nat) (node : ISNODE) :
    _stskip (fuel + 1) node =
      if node.chcnt = 0 then (node, 0)
      else if node.chcnt < 0 then (node, -1)
      else
        if (node.vec.foldr (fun c acc =>
            match c with
            | some ch => ((some (_stskip fuel ch).1) :: acc.1,
                          if (_stskip fuel ch).2 = 0 then 0 else acc.2)
            | none => (none :: acc.1, acc.2)) (([] : List (Option ISNODE)), (-1 : Int))).2 = 0
        then (node.setVec (node.vec.foldr (fun c acc =>
            match c with
            | some ch => ((some (_stskip fuel ch).1) :: acc.1,
                          if (_stskip fuel ch).2 = 0 then 0 else acc.2)
            | none => (none :: acc.1, acc.2)) (([] : List (Option ISNODE)), (-1 : Int))).1, 0)
        else ((node.setVec (node.vec.foldr (fun c acc =>
            match c with
            | some ch => ((some (_stskip fuel ch).1) :: acc.1,
                          if (_stskip fuel ch).2 = 0 then 0 else acc.2)
            | none => (none :: acc.1, acc.2))
              (([] : List (Option ISNODE)), (-1 : Int))).1).setChcnt (setskip node.chcnt), -1) := by
  rfl

/-- The loop of `_stskip` over the child vector. -/
theorem stskip_foldr (g : ISNODE → ISNODE × Int) : ∀ (vec : List (Option ISNODE)),
    (vec.foldr (fun c acc =>
      match c with
      | some ch => ((some (g ch).1) :: acc.1, if (g ch).2 = 0 then 0 else acc.2)
      | none => (none :: acc.1, acc.2)) (([] : List (Option ISNODE)), (-1 : Int))).1 =
      vec.map (fun oc => oc.map (fun ch => (g ch).1)) ∧
    ((vec.foldr (fun c acc =>
      match c with
      | some ch => ((some (g ch).1) :: acc.1, if (g ch).2 = 0 then 0 else acc.2)
      | none => (none :: acc.1, acc.2)) (([] : List (Option ISNODE)), (-1 : Int))).2 = 0 ∨
     ((vec.foldr (fun c acc =>
      match c with
      | some ch => ((some (g ch).1) :: acc.1, if (g ch).2 = 0 then 0 else acc.2)
      | none => (none :: acc.1, acc.2)) (([] : List (Option ISNODE)), (-1 : Int))).2 = -1 ∧
      ∀ ch, some ch ∈ vec → (g ch).2 ≠ 0))
  | [] => by simp
  | none :: vec => by
    obtain ⟨h1, h2⟩ := stskip_foldr g vec
    simp only [List.foldr_cons, List.map_cons, Option.map_none']
    refine ⟨by rw [h1], ?_⟩
    rcases h2 with h2 | ⟨h2, h3⟩
    · exact Or.inl h2
    · refine Or.inr ⟨h2, fun ch hch => ?_⟩
      rcases List.mem_cons.1 hch with h | h
      · simp at h
      · exact h3 ch h
  | some c :: vec => by
    obtain ⟨h1, h2⟩ := stskip_foldr g vec
    simp only [List.foldr_cons, List.map_cons, Option.map_some']
    refine ⟨by rw [h1], ?_⟩
    by_cases hc : (g c).2 = 0
    · left; rw [if_pos hc]
    · rw [if_neg hc]
      rcases h2 with h2 | ⟨h2, h3⟩
      · exact Or.inl h2
      · refine Or.inr ⟨h2, fun ch hch => ?_⟩
        rcases List.mem_cons.1 hch with h | h
        · simp only [Option.some.injEq] at h; rw [h]; exact hc
        · exact h3 ch h


theorem SkipRel.refl_skip (h : Nat) (a : ISNODE) : SkipRel h a a :=
  TRel.refl_tree (fun _ => ⟨rfl, rfl, rfl⟩) (fun _ => rfl) h a

theorem SkipRel.fields_skip : ∀ {h : Nat} {a b : ISNODE}, SkipRel h a b → leafSim a b
  | 0, a, b, hs => by
    have := TRel_zero.1 hs
    subst this
    exact ⟨rfl, rfl, rfl⟩
  | h + 1, a, b, hs => (TRel_succ.1 hs).1

theorem getElem?_map_some_some {f : ISNODE → ISNODE} {vec : List (Option ISNODE)} {j : Nat}
    {c' : ISNODE} (h : (vec.map (fun oc => oc.map f))[j]? = some (some c')) :
    ∃ c, vec[j]? = some (some c) ∧ c' = f c := by
  rw [List.getElem?_map] at h
  cases hg : vec[j]? with
  | none => rw [hg] at h; simp at h
  | some oc =>
    cases oc with
    | none => rw [hg] at h; simp at h
    | some c =>
      rw [hg] at h
      simp at h
      exact ⟨c, rfl, h.symm⟩

/-- `_stskip` keeps the tree well-formed, flags a node exactly when it returns `-1`, and
changes nothing but `chcnt` above the deepest level. -/
theorem stskip_spec : ∀ {h : Nat} {N : ISNODE}, WFN 0 true h N →
    WFN 0 true h (_stskip (h + 1) N).1 ∧
    ((_stskip (h + 1) N).2 = 0 ∨
      ((_stskip (h + 1) N).2 = -1 ∧ WFN 0 false h (_stskip (h + 1) N).1)) ∧
    SkipRel h N (_stskip (h + 1) N).1
  | 0, N, hw => by
    have h0 := (WFN_zero.1 hw).2.2
    rw [stskip_succ_eq, if_pos h0]
    exact ⟨hw, Or.inl rfl, SkipRel.refl_skip _ _⟩
  | h + 1, N, hw => by
    have hw0 := hw
    rw [WFN_succ] at hw
    rw [stskip_succ_eq]
    rcases hw with ⟨hv, hc⟩ | ⟨first, rest, hv, hl, ⟨-, hc, hk⟩ | ⟨hc, hk⟩⟩
    · have h1 : ¬ (N.chcnt = 0) := by rw [hc]; unfold F_SKIP; omega
      have h2 : N.chcnt < 0 := by rw [hc]; unfold F_SKIP; omega
      rw [if_neg h1, if_pos h2]
      refine ⟨hw0, Or.inr ⟨rfl, ?_⟩, SkipRel.refl_skip _ _⟩
      rw [WFN_succ]; exact Or.inl ⟨hv, hc⟩
    · have hlen : 0 < N.vec.length := by rw [hv]; simp
      have h1 : ¬ (N.chcnt = 0) := by omega
      have h2 : ¬ (N.chcnt < 0) := by omega
      rw [if_neg h1, if_neg h2]
      obtain ⟨f1, f2⟩ := stskip_foldr (_stskip (h + 1)) N.vec
      have hfirst := hk 0 first (by rw [hv]; simp)
      have ihf := stskip_spec hfirst.2
      have hvec' : N.vec.map (fun oc => oc.map (fun ch => (_stskip (h + 1) ch).1)) =
          some (_stskip (h + 1) first).1 ::
            rest.map (fun oc => oc.map (fun ch => (_stskip (h + 1) ch).1)) := by
        rw [hv]; simp
      have hrel : VecRel (SkipRel h) N.vec
          (N.vec.map (fun oc => oc.map (fun ch => (_stskip (h + 1) ch).1))) := by
        refine ⟨fun j => ?_, fun j => ?_, fun j c hc => ?_⟩
        · rw [List.getElem?_map]; cases N.vec[j]? <;> simp
        · rw [List.getElem?_map]
          cases hg : N.vec[j]? with
          | none => simp
          | some oc => cases oc <;> simp
        · rw [List.getElem?_map, hc]
          exact ⟨_, rfl, (stskip_spec (hk j c (by simpa using hc)).2).2.2⟩
      have hkids : ∀ (l : Bool), (∀ ch, some ch ∈ N.vec →
            WFN 0 l h (_stskip (h + 1) ch).1) →
          ∀ j c', (N.vec.map (fun oc => oc.map (fun ch => (_stskip (h + 1) ch).1))).get? j =
            some (some c') →
          ChildOK N (_stskip (h + 1) first).1.id j c' ∧ WFN 0 l h c' := by
        intro l hall j c' hc'
        obtain ⟨c, hcj, hcc⟩ := getElem?_map_some_some (by simpa using hc')
        have hck := hk j c (by simpa using hcj)
        have hs := (stskip_spec hck.2).2.2
        subst hcc
        refine ⟨?_, hall c (List.getElem?_mem hcj)⟩
        rw [← (SkipRel.fields_skip ihf.2.2).1]
        exact ChildOK_fields ⟨rfl, rfl⟩ ⟨(SkipRel.fields_skip hs).1, (SkipRel.fields_skip hs).2.1,
          by rw [(SkipRel.fields_skip hs).2.2]⟩ hck.1
      have hmemk : ∀ ch, some ch ∈ N.vec → WFN 0 true h ch := by
        intro ch hch
        obtain ⟨j, hj⟩ := List.getElem?_of_mem hch
        exact (hk j ch (by simpa using hj)).2
      rw [f1]
      rcases f2 with f2 | ⟨f2, f3⟩
      · rw [if_pos f2]
        refine ⟨?_, Or.inl rfl, TRel_succ.2 ⟨⟨by simp, by simp, by simp⟩, by simpa using hrel⟩⟩
        rw [WFN_succ]
        right
        refine ⟨_, _, by simpa using hvec', by simpa using hl, Or.inl ⟨rfl, by simpa using hc, ?_⟩⟩
        intro j c' hc'
        have := hkids true (fun ch hch => (stskip_spec (hmemk ch hch)).1) j c'
          (by simpa using hc')
        exact ⟨ChildOK_fields ⟨by simp, by simp⟩ ⟨rfl, rfl, rfl⟩ this.1, this.2⟩
      · have hne : ¬ ((-1 : Int) = 0) := by omega
        rw [f2, if_neg hne]
        have hdead : WFN 0 false (h + 1)
            ((N.setVec (N.vec.map (fun oc => oc.map (fun ch => (_stskip (h + 1) ch).1)))).setChcnt
              (setskip N.chcnt)) := by
          rw [WFN_succ]
          right
          refine ⟨_, _, by simpa using hvec', by simpa using hl, Or.inr ⟨?_, ?_⟩⟩
          · simp only [ISNODE.chcnt_setChcnt, ISNODE.vec_setChcnt, ISNODE.vec_setVec,
              List.length_map]
            unfold setskip
            rw [if_neg h2, hc]
          · intro j c' hc'
            have := hkids false (fun ch hch => by
              rcases (stskip_spec (hmemk ch hch)).2.1 with h0 | ⟨-, hd⟩
              · exact absurd h0 (f3 ch hch)
              · exact hd) j c' (by simpa using hc')
            exact ⟨ChildOK_fields ⟨by simp, by simp⟩ ⟨rfl, rfl, rfl⟩ this.1, this.2⟩
        exact ⟨WFN_mono hdead, Or.inr ⟨rfl, hdead⟩,
          TRel_succ.2 ⟨⟨by simp, by simp, by simp⟩, by simpa using hrel⟩⟩
    · have h2 : N.chcnt < 0 := by rw [hc]; unfold INT_MAX at hl; unfold F_SKIP; omega
      have h1 : ¬ (N.chcnt = 0) := by omega
      rw [if_neg h1, if_pos h2]
      refine ⟨hw0, Or.inr ⟨rfl, ?_⟩, SkipRel.refl_skip _ _⟩
      rw [WFN_succ]
      exact Or.inr ⟨first, rest, hv, hl, Or.inr ⟨hc, hk⟩⟩


/-! ### The outcomes of `ist_addlvl` -/

theorem Inv.deepest_mem {ist : ISTREE} (hI : Inv ist) (a : Addr) :
    a ∈ deepest ist ↔ (a.length = ist.lvlcnt - 1 ∧ (nodeAt ist.root a).isSome = true) :=
  hI.lvl_mem (ist.lvlcnt - 1) (by have := hI.lvl_pos; omega) a

theorem Inv.deepest_nodup {ist : ISTREE} (hI : Inv ist) : (deepest ist).Nodup :=
  hI.lvl_nodup _

/-- The four outcomes of `ist_addlvl`: an allocation fails before the loop, an allocation
fails in the loop and `_cleanup` runs, no child is created, or a level is added. -/
theorem addlvl_cases {ist : ISTREE} (hI : Inv ist) (mem : Option Nat) :
    (ist_addlvl ist mem = (ist, -1) ∧ mem ≠ none) ∨
    (∃ r1 done, LoopInv ist.supp ist.root (ist.lvlcnt - 1) done r1 ∧ mem ≠ none ∧
      ist_addlvl ist mem =
        ({ ist with lvlvsz := grownVsz ist, root := _cleanup r1 (deepest ist) }, -1)) ∨
    (∃ r1, Grown ist.supp ist.root (ist.lvlcnt - 1) r1 ∧
      newLevel ist.supp ist.root (deepest ist) = [] ∧
      ist_addlvl ist mem = ({ ist with lvlvsz := grownVsz ist, root := r1 }, 1)) ∨
    (∃ r1, Grown ist.supp ist.root (ist.lvlcnt - 1) r1 ∧
      newLevel ist.supp ist.root (deepest ist) ≠ [] ∧
      ist_addlvl ist mem =
        ({ ist with lvlvsz := grownVsz ist, lvlcnt := ist.lvlcnt + 1, tacnt := 0, node := none,
                    levels := ist.levels ++ [newLevel ist.supp ist.root (deepest ist)],
                    root := (_stskip (ist.lvlcnt + 1) r1).1 }, 0)) := by
  unfold ist_addlvl
  have hgrow : (growLevels ist mem = none ∧ mem ≠ none) ∨
      ∃ mem1, growLevels ist mem = some (grownVsz ist, mem1) ∧ (mem = none → mem1 = none) := by
    unfold growLevels grownVsz
    by_cases hg : ist.lvlcnt ≥ ist.lvlvsz
    · simp only [hg, if_true]
      cases mem with
      | none => right; exact ⟨none, rfl, fun _ => rfl⟩
      | some k =>
        cases k with
        | zero => left; exact ⟨rfl, by simp⟩
        | succ k =>
          cases k with
          | zero => left; exact ⟨rfl, by simp⟩
          | succ k => right; exact ⟨some k, rfl, by simp⟩
    · simp only [hg, if_false]
      right; exact ⟨mem, rfl, fun h => h⟩
  rcases hgrow with ⟨hg, hm⟩ | ⟨mem1, hg, hm1⟩
  · left
    rw [hg]
    exact ⟨rfl, hm⟩
  · right
    rw [hg]
    simp only
    have hloop := addlvlLoop_spec ist.supp ist.root (ist.lvlcnt - 1) (deepest ist) []
      { root := ist.root, newlvl := [], mem := mem1 } (LoopInv_start _ _ _) hI.deepest_nodup
      (fun a ha => by
        have := (hI.deepest_mem a).1 ha
        exact ⟨this.1, by simp, this.2⟩)
    have hd : ist.levels.getD (ist.lvlcnt - 1) [] = deepest ist := rfl
    rw [hd]
    rcases hloop with ⟨l1, l2, l3, l4⟩ | ⟨l1, l2, done, l3⟩
    · right
      have hres : addlvlLoop ist.supp { root := ist.root, newlvl := [], mem := mem1 } (deepest ist)
          = ((addlvlLoop ist.supp { root := ist.root, newlvl := [], mem := mem1 }
              (deepest ist)).1, false) := Prod.ext rfl l1
      rw [hres]
      simp only
      have hnl : (addlvlLoop ist.supp { root := ist.root, newlvl := [], mem := mem1 }
          (deepest ist)).1.newlvl = newLevel ist.supp ist.root (deepest ist) := by
        rw [l3]; simp [newLevel]
      have hG : Grown ist.supp ist.root (ist.lvlcnt - 1)
          (addlvlLoop ist.supp { root := ist.root, newlvl := [], mem := mem1 }
            (deepest ist)).1.root := by
        refine ⟨l2.1, fun a N ha hN => ?_⟩
        have hmem : a ∈ (deepest ist).reverse ++ [] := by
          simp only [List.append_nil, List.mem_reverse]
          exact (hI.deepest_mem a).2 ⟨ha, by rw [hN]; rfl⟩
        exact (l2.2.2 a hmem).2 N hN
      rw [hnl]
      by_cases he : newLevel ist.supp ist.root (deepest ist) = []
      · left
        rw [if_pos he]
        exact ⟨_, hG, he, rfl⟩
      · right
        rw [if_neg he]
        exact ⟨_, hG, he, rfl⟩
    · left
      have hres : addlvlLoop ist.supp { root := ist.root, newlvl := [], mem := mem1 } (deepest ist)
          = ((addlvlLoop ist.supp { root := ist.root, newlvl := [], mem := mem1 }
              (deepest ist)).1, true) := Prod.ext rfl l1
      rw [hres]
      simp only
      exact ⟨_, done, l3, fun h => l2 (hm1 h), rfl⟩

/-- With unlimited memory `ist_addlvl` does not fail. -/
theorem addlvl_cases_none {ist : ISTREE} (hI : Inv ist) :
    (∃ r1, Grown ist.supp ist.root (ist.lvlcnt - 1) r1 ∧
      newLevel ist.supp ist.root (deepest ist) = [] ∧
      ist_addlvl ist none = ({ ist with lvlvsz := grownVsz ist, root := r1 }, 1)) ∨
    (∃ r1, Grown ist.supp ist.root (ist.lvlcnt - 1) r1 ∧
      newLevel ist.supp ist.root (deepest ist) ≠ [] ∧
      ist_addlvl ist none =
        ({ ist with lvlvsz := grownVsz ist, lvlcnt := ist.lvlcnt + 1, tacnt := 0, node := none,
                    levels := ist.levels ++ [newLevel ist.supp ist.root (deepest ist)],
                    root := (_stskip (ist.lvlcnt + 1) r1).1 }, 0)) := by
  rcases addlvl_cases hI none with h | ⟨_, _, _, h, _⟩ | h | h
  · exact absurd rfl h.2
  · exact absurd rfl h
  · exact Or.inl h
  · exact Or.inr h


/-! ### Stores at all addresses of a level -/

theorem foldl_updateAt_nodeAt (f : ISNODE → ISNODE) (d : Nat) :
    ∀ (L : List Addr) (r : ISNODE) (a : Addr), (∀ b ∈ L, b.length = d) → L.Nodup →
      a.length = d →
      nodeAt (L.foldl (fun r b => updateAt r b f) r) a =
        if a ∈ L then (nodeAt r a).map f else nodeAt r a
  | [], r, a, _, _, _ => by simp
  | b :: L, r, a, hl, hnd, ha => by
    have hnd' := List.nodup_cons.1 hnd
    simp only [List.foldl_cons]
    rw [foldl_updateAt_nodeAt f d L (updateAt r b f) a
      (fun c hc => hl c (List.mem_cons_of_mem _ hc)) hnd'.2 ha]
    by_cases hab : a = b
    · subst hab
      rw [if_neg hnd'.1, if_pos (List.mem_cons_self _ _), nodeAt_updateAt_self]
    · have hne : nodeAt (updateAt r b f) a = nodeAt r a :=
        nodeAt_updateAt_ne a b r f (by rw [ha, hl b (List.mem_cons_self _ _)]) hab
      rw [hne]
      by_cases haL : a ∈ L
      · rw [if_pos haL, if_pos (List.mem_cons_of_mem _ haL)]
      · rw [if_neg haL, if_neg (fun h => by
          rcases List.mem_cons.1 h with h | h
          · exact hab h
          · exact haL h)]

theorem foldl_updateAt_sim (f : ISNODE → ISNODE)
    (hf : ∀ N, (f N).id = N.id ∧ (f N).offset = N.offset ∧ (f N).cnts = N.cnts) (d : Nat) :
    ∀ (L : List Addr) (r : ISNODE), (∀ b ∈ L, b.length = d) →
      Sim d r (L.foldl (fun r b => updateAt r b f) r)
  | [], r, _ => Sim.refl_sim d r
  | b :: L, r, hl => by
    simp only [List.foldl_cons]
    refine Sim.trans_sim ?_ (foldl_updateAt_sim f hf d L (updateAt r b f)
      (fun c hc => hl c (List.mem_cons_of_mem _ hc)))
    refine TRel_updateAt (fun _ => ⟨rfl, rfl, rfl, rfl⟩) (fun _ => ⟨rfl, rfl, rfl⟩)
      (fun _ _ => ⟨by simp, by simp, by simp, by simp⟩) f b d r
      (by rw [hl b (List.mem_cons_self _ _)]) (fun M _ => ?_)
    rw [hl b (List.mem_cons_self _ _), Nat.sub_self]
    exact TRel_zero.2 ⟨(hf M).1.symm, (hf M).2.1.symm, (hf M).2.2.symm⟩

/-- The nodes of a well-formed tree are well-formed. -/
theorem WFN_at {lc : Int} : ∀ (a : Addr) {live : Bool} {h : Nat} {N M : ISNODE},
    WFN lc live h N → nodeAt N a = some M → a.length ≤ h ∧ ∃ l, WFN lc l (h - a.length) M
  | [], live, h, N, M, hw, hn => by
    rw [nodeAt_nil] at hn; cases hn
    exact ⟨by simp, live, by simpa using hw⟩
  | j :: a, live, h, N, M, hw, hn => by
    obtain ⟨c, hc, hn'⟩ := nodeAt_cons_some hn
    cases h with
    | zero => rw [WFN_zero] at hw; rw [hw.2.1] at hc; simp at hc
    | succ h =>
      obtain ⟨_, _, _, _, hwc, _⟩ := WFN_child hw hc
      obtain ⟨h1, l, h2⟩ := WFN_at a hwc hn'
      exact ⟨by simp; omega, l, by simpa using h2⟩

theorem WFN_leaf {lc : Int} {live : Bool} {h : Nat} {N M : ISNODE} {a : Addr}
    (hw : WFN lc live h N) (hn : nodeAt N a = some M) (ha : a.length = h) :
    M.vec = [] ∧ M.chcnt = lc := by
  obtain ⟨_, l, hm⟩ := WFN_at a hw hn
  rw [ha, Nat.sub_self, WFN_zero] at hm
  exact hm.2

/-- The counter vector of a node of a well-formed tree is no longer than the root's. -/
theorem size_le_root {lc : Int} {live : Bool} {h : Nat} {N M : ISNODE} {a : Addr}
    (hw : WFN lc live h N) (hn : nodeAt N a = some M) :
    N.offset ≤ M.offset ∧ M.offset + M.size ≤ N.offset + N.size := by
  cases hc : M.cnts with
  | nil =>
    cases a with
    | nil =>
      rw [nodeAt_nil] at hn; cases hn
      exact ⟨le_refl _, le_refl _⟩
    | cons j a =>
      -- a node below the root has a counter
      obtain ⟨c, hcj, hn'⟩ := nodeAt_cons_some hn
      exfalso
      have : ∀ (b : Addr) {l : Bool} {k : Nat} {P C : ISNODE} {i : Nat},
          WFN lc l (k + 1) P → P.vec[i]? = some (some C) → nodeAt C b = some M → False := by
        intro b
        induction b with
        | nil =>
          intro l k P C i hP hC hb
          rw [nodeAt_nil] at hb; cases hb
          obtain ⟨_, _, _, hok, _⟩ := WFN_child hP hC
          exact hok.2.2.2.1 hc
        | cons i' b ih =>
          intro l k P C i hP hC hb
          obtain ⟨C', hC', hb'⟩ := nodeAt_cons_some hb
          obtain ⟨_, _, _, _, hwC, _⟩ := WFN_child hP hC
          cases k with
          | zero => rw [WFN_zero] at hwC; rw [hwC.2.1] at hC'; simp at hC'
          | succ k => exact ih hwC hC' hb'
      cases h with
      | zero => rw [WFN_zero] at hw; rw [hw.2.1] at hcj; simp at hcj
      | succ h => exact this a hw hcj hn'
  | cons x xs =>
    have hlen : 0 < M.cnts.length := by rw [hc]; simp
    obtain ⟨_, p0⟩ := path_sorted a hw hn 0 hlen
    obtain ⟨_, p1⟩ := path_sorted a hw hn (M.cnts.length - 1) (by omega)
    have h0 := p0 (M.offset + ((0 : Nat) : Int)) (by simp)
    have h1 := p1 (M.offset + ((M.cnts.length - 1 : Nat) : Int)) (by simp)
    unfold ISNODE.size at *
    constructor
    · omega
    · have : ((M.cnts.length - 1 : Nat) : Int) = (M.cnts.length : Int) - 1 := by omega
      omega

/-! ### `_cleanup` -/

theorem cleanup_eq_foldl (r : ISNODE) (L : List Addr) :
    _cleanup r L = L.foldl (fun r a => updateAt r a (fun nd => (nd.setChcnt 0).setVec [])) r :=
  rfl

/-- After `_cleanup` the tree is well-formed with `chcnt = 0` in the deepest nodes. -/
theorem cleanup_wf {supp lc : Int} {r0 r1 : ISNODE} {d : Nat} {done L : List Addr}
    (hw : WFN lc true d r0) (hL : LoopInv supp r0 d done r1)
    (hLm : ∀ a, a ∈ L ↔ (a.length = d ∧ (nodeAt r0 a).isSome = true)) (hnd : L.Nodup) :
    Sim d r0 (_cleanup r1 L) ∧ WFN 0 true d (_cleanup r1 L) := by
  have hsim : Sim d r0 (_cleanup r1 L) :=
    hL.1.trans_sim (foldl_updateAt_sim _ (fun N => ⟨by simp, by simp, by simp⟩) d L r1
      (fun b hb => ((hLm b).1 hb).1))
  refine ⟨hsim, ?_⟩
  rw [WFN_iff_WFG] at hw ⊢
  refine WFG_sim_pointwise hw hsim (fun a M M' l ha hM hM' hP => ?_)
  have haL : a ∈ L := (hLm a).2 ⟨ha, by rw [hM]; rfl⟩
  rw [cleanup_eq_foldl, foldl_updateAt_nodeAt _ d L r1 a (fun b hb => ((hLm b).1 hb).1) hnd ha,
    if_pos haL] at hM'
  cases h1 : nodeAt r1 a with
  | none => rw [h1] at hM'; simp at hM'
  | some X =>
    rw [h1] at hM'
    simp only [Option.map_some', Option.some.injEq] at hM'
    subst hM'
    exact ⟨hP.1, by simp, by simp⟩

/-- `_cleanup` restores the tree from before the call when the deepest nodes had no
children and no flag. -/
theorem cleanup_eq {supp : Int} {r0 r1 : ISNODE} {d : Nat} {done L : List Addr}
    (hw : WFN 0 true d r0) (hL : LoopInv supp r0 d done r1)
    (hLm : ∀ a, a ∈ L ↔ (a.length = d ∧ (nodeAt r0 a).isSome = true)) (hnd : L.Nodup) :
    _cleanup r1 L = r0 := by
  have hsim := (cleanup_wf hw hL hLm hnd).1
  symm
  refine Sim_ext hsim (fun a ha => ?_)
  rw [cleanup_eq_foldl, foldl_updateAt_nodeAt _ d L r1 a (fun b hb => ((hLm b).1 hb).1) hnd ha]
  cases h0 : nodeAt r0 a with
  | none =>
    have hr1 : nodeAt r1 a = none := (TRel_nodeAt a hL.1 (by omega)).1.1 h0
    rw [hr1]; simp
  | some N =>
    have haL : a ∈ L := (hLm a).2 ⟨ha, by rw [h0]; rfl⟩
    rw [if_pos haL]
    obtain ⟨X, hX, hNX⟩ := (TRel_nodeAt a hL.1 (by omega)).2.1 N h0
    rw [ha, Nat.sub_self] at hNX
    have hf := TRel_zero.1 hNX
    obtain ⟨hv, hc⟩ := WFN_leaf hw h0 ha
    rw [hX]
    simp only [Option.map_some', Option.some.injEq]
    exact ISNODE.ext_fields (by simpa using hf.1) (by simpa using hc) (by simpa using hf.2.1)
      (by simpa using hf.2.2) (by simpa using hv)

/-! ### The tree with the new level -/

/-- When no child is created the deepest nodes get the flag and nothing else changes. -/
theorem Grown_none_wf {supp lc : Int} {r0 r1 : ISNODE} {d : Nat} (hw : WFN lc true d r0)
    (hG : Grown supp r0 d r1)
    (hnone : ∀ a N, a.length = d → nodeAt r0 a = some N → kidsOf supp (ancOf r0 a) N = []) :
    WFN F_SKIP true d r1 := by
  rw [WFN_iff_WFG] at hw ⊢
  refine WFG_sim_pointwise hw hG.1 (fun a M M' l ha hM hM' hP => ?_)
  rw [hG.2 a M ha hM, hnone a M ha hM, attach_nil] at hM'
  cases hM'
  exact ⟨hP.1, by simpa using hP.2.1, by simp⟩

/-- The tree with the new level is well-formed, one level higher. -/
theorem Grown_wf {supp lc : Int} {r0 r1 : ISNODE} {d : Nat} (hw : WFN lc true d r0)
    (hoff : r0.offset = 0) (hsize : (r0.cnts.length : Int) ≤ INT_MAX)
    (hG : Grown supp r0 d r1) : WFN 0 true (d + 1) r1 := by
  have hw0 := hw
  rw [WFN_iff_WFG] at hw ⊢
  refine WFG_compose (WFG_sim_pointwise hw hG.1 (fun a M M' l ha hM hM' hP => ?_))
  rw [hG.2 a M ha hM] at hM'
  cases hM'
  have hl : l = true := hP.1
  subst hl
  rw [← WFN_iff_WFG]
  refine attach_wf supp _ hP.2.1 ?_
  have := size_le_root hw0 hM
  unfold ISNODE.size at this
  omega


/-! ### The node list of the new level -/

theorem TRel_isSome {nodeR leafR : ISNODE → ISNODE → Prop} {h : Nat} {N N' : ISNODE}
    (hs : TRel nodeR leafR h N N') (a : Addr) (ha : a.length ≤ h) :
    (nodeAt N' a).isSome = (nodeAt N a).isSome := by
  have := (TRel_nodeAt a hs ha).1
  cases h1 : nodeAt N a with
  | none => rw [this.1 h1]
  | some M =>
    cases h2 : nodeAt N' a with
    | none => rw [this.2 h2] at h1; simp at h1
    | some M' => rfl

theorem nodeAt_append : ∀ (a b : Addr) (r : ISNODE),
    nodeAt r (a ++ b) = (nodeAt r a).bind (fun M => nodeAt M b)
  | [], b, r => by simp [nodeAt_nil]
  | j :: a, b, r => by
    cases hg : r.vec[j]? with
    | none =>
      rw [List.cons_append, nodeAt_cons_none _ (fun c h => by rw [hg] at h; simp at h),
        nodeAt_cons_none _ (fun c h => by rw [hg] at h; simp at h)]
      rfl
    | some oc =>
      cases oc with
      | none =>
        rw [List.cons_append, nodeAt_cons_none _ (fun c h => by rw [hg] at h; simp at h),
          nodeAt_cons_none _ (fun c h => by rw [hg] at h; simp at h)]
        rfl
      | some c =>
        rw [List.cons_append, nodeAt_cons_of hg, nodeAt_cons_of hg]
        exact nodeAt_append a b c

theorem nodeAt_single (M : ISNODE) (j : Nat) :
    nodeAt M [j] = (M.vec[j]?).join := by
  cases hg : M.vec[j]? with
  | none => rw [nodeAt_cons_none _ (fun c h => by rw [hg] at h; simp at h)]; rfl
  | some oc =>
    cases oc with
    | none => rw [nodeAt_cons_none _ (fun c h => by rw [hg] at h; simp at h)]; rfl
    | some c => rw [nodeAt_cons_of hg, nodeAt_nil]; rfl

theorem mem_kidAddrs {a b : Addr} {kids : List ISNODE} :
    b ∈ kidAddrs a kids ↔
      ∃ frst more c, kids = frst :: more ∧ c ∈ kids ∧ b = a ++ [(c.id - frst.id).toNat] := by
  unfold kidAddrs
  cases kids with
  | nil => simp
  | cons frst more =>
    simp only [List.mem_map]
    constructor
    · rintro ⟨c, hc, rfl⟩
      exact ⟨frst, more, c, rfl, hc, rfl⟩
    · rintro ⟨f, m, c, he, hc, rfl⟩
      simp only [List.cons.injEq] at he
      rw [← he.1]
      exact ⟨c, hc, rfl⟩

/-- The child vector of a deepest node after its children are attached. -/
theorem attach_vec_get (supp : Int) (anc : List ISNODE) {N : ISNODE} (hv : N.vec = [])
    (j : Nat) (c : ISNODE) :
    (attach (kidsOf supp anc N) N).vec[j]? = some (some c) ↔
      ∃ frst more, kidsOf supp anc N = frst :: more ∧ c ∈ kidsOf supp anc N ∧
        c.id = frst.id + (j : Int) := by
  cases hk : kidsOf supp anc N with
  | nil => rw [attach_nil]; simp [hv]
  | cons frst more =>
    have hsorted := kidsOf_sorted supp anc N
    rw [hk] at hsorted
    obtain ⟨b1, b2, b3⟩ := buildVec_spec frst more hsorted
    have hvec : (attach (frst :: more) N).vec = buildVec frst.id
        (((frst :: more).getLast (List.cons_ne_nil frst more)).id - frst.id + 1)
        (frst :: more) := by
      unfold attach; simp
    rw [hvec, b2 j c]
    constructor
    · rintro ⟨h1, h2⟩; exact ⟨frst, more, rfl, h1, h2⟩
    · rintro ⟨f, m, he, h1, h2⟩
      simp only [List.cons.injEq] at he
      rw [← he.1] at h2
      exact ⟨h1, h2⟩

/-- The node list of the new level holds exactly the addresses of the new nodes. -/
theorem mem_newLevel {supp lc : Int} {r0 r1 : ISNODE} {d : Nat} {L : List Addr}
    (hw : WFN lc true d r0) (hG : Grown supp r0 d r1)
    (hLm : ∀ a, a ∈ L ↔ (a.length = d ∧ (nodeAt r0 a).isSome = true)) (b : Addr) :
    b ∈ newLevel supp r0 L ↔ (b.length = d + 1 ∧ (nodeAt r1 b).isSome = true) := by
  unfold newLevel
  rw [List.mem_flatMap]
  constructor
  · rintro ⟨a, haL, hb⟩
    obtain ⟨hal, hsome⟩ := (hLm a).1 haL
    obtain ⟨N, hN⟩ := Option.isSome_iff_exists.1 hsome
    rw [hN] at hb
    obtain ⟨frst, more, c, hk, hc, rfl⟩ := mem_kidAddrs.1 hb
    refine ⟨by simp [hal], ?_⟩
    rw [nodeAt_append, hG.2 a N hal hN]
    simp only [Option.some_bind]
    rw [nodeAt_single]
    have hv := (WFN_leaf hw hN hal).1
    have hsorted := kidsOf_sorted supp (ancOf r0 a) N
    have hge : frst.id ≤ c.id := by
      rw [hk] at hsorted hc
      rcases List.mem_cons.1 hc with h | h
      · rw [h]
      · have := (List.pairwise_cons.1 hsorted).1 c h; omega
    have := (attach_vec_get supp (ancOf r0 a) hv (c.id - frst.id).toNat c).2
      ⟨frst, more, hk, hc, by omega⟩
    rw [this]; rfl
  · rintro ⟨hbl, hsome⟩
    have hne : b ≠ [] := by intro h; rw [h] at hbl; simp at hbl
    have hb := List.dropLast_append_getLast hne
    set a := b.dropLast with ha
    set j := b.getLast hne with hj
    have hal : a.length = d := by rw [ha, List.length_dropLast]; omega
    obtain ⟨C, hC⟩ := Option.isSome_iff_exists.1 hsome
    rw [← hb, nodeAt_append] at hC
    cases h1 : nodeAt r1 a with
    | none => rw [h1] at hC; simp at hC
    | some M' =>
      rw [h1] at hC
      simp only [Option.some_bind] at hC
      obtain ⟨N, hN, -⟩ := (TRel_nodeAt a hG.1 (by omega)).2.2 M' h1
      rw [hG.2 a N hal hN] at h1
      cases h1
      rw [nodeAt_single] at hC
      have hCj : (attach (kidsOf supp (ancOf r0 a) N) N).vec[j]? = some (some C) := by
        cases hg : (attach (kidsOf supp (ancOf r0 a) N) N).vec[j]? with
        | none => rw [hg] at hC; simp at hC
        | some oc =>
          cases oc with
          | none => rw [hg] at hC; simp at hC
          | some c => rw [hg] at hC; simp at hC; rw [hC]
      have hv := (WFN_leaf hw hN hal).1
      obtain ⟨frst, more, hk, hc, hid⟩ := (attach_vec_get supp (ancOf r0 a) hv j C).1 hCj
      refine ⟨a, (hLm a).2 ⟨hal, by rw [hN]; rfl⟩, ?_⟩
      rw [hN]
      refine mem_kidAddrs.2 ⟨frst, more, C, hk, hc, ?_⟩
      rw [← hb]
      congr 2
      omega

theorem nodup_kidAddrs (supp : Int) (anc : List ISNODE) (N : ISNODE) (a : Addr) :
    (kidAddrs a (kidsOf supp anc N)).Nodup := by
  unfold kidAddrs
  have hsorted := kidsOf_sorted supp anc N
  cases hk : kidsOf supp anc N with
  | nil => simp
  | cons frst more =>
    rw [hk] at hsorted
    simp only
    have hnd : (frst :: more).Nodup := by
      refine List.Pairwise.imp ?_ hsorted
      intro x y hxy he
      rw [he] at hxy; omega
    refine List.Nodup.map_on ?_ hnd
    intro x hx y hy hxy
    have hx' : frst.id ≤ x.id := by
      rcases List.mem_cons.1 hx with h | h
      · rw [h]
      · have := (List.pairwise_cons.1 hsorted).1 x h; omega
    have hy' : frst.id ≤ y.id := by
      rcases List.mem_cons.1 hy with h | h
      · rw [h]
      · have := (List.pairwise_cons.1 hsorted).1 y h; omega
    have hj := List.append_cancel_left hxy
    simp only [List.cons.injEq, and_true] at hj
    have hid : x.id = y.id := by omega
    by_contra hne
    rcases List.mem_iff_getElem.1 hx with ⟨i, hi, rfl⟩
    rcases List.mem_iff_getElem.1 hy with ⟨k, hk', rfl⟩
    have hik : i ≠ k := by intro h; subst h; exact hne rfl
    rcases Nat.lt_or_gt_of_ne hik with h | h
    · have := List.pairwise_iff_getElem.1 hsorted i k hi hk' h; omega
    · have := List.pairwise_iff_getElem.1 hsorted k i hk' hi h; omega

theorem nodup_newLevel (supp : Int) (r0 : ISNODE) {L : List Addr} (hnd : L.Nodup) :
    (newLevel supp r0 L).Nodup := by
  unfold newLevel
  rw [List.nodup_flatMap]
  refine ⟨fun a _ => ?_, ?_⟩
  · cases nodeAt r0 a with
    | none => simp
    | some N => exact nodup_kidAddrs supp _ N a
  · refine List.Pairwise.imp ?_ hnd
    intro a a' hne
    simp only [Function.onFun]
    intro b hb hb'
    apply hne
    cases h1 : nodeAt r0 a with
    | none => rw [h1] at hb; simp at hb
    | some N =>
      cases h2 : nodeAt r0 a' with
      | none => rw [h2] at hb'; simp at hb'
      | some N' =>
        rw [h1] at hb
        rw [h2] at hb'
        obtain ⟨_, _, c, _, _, e1⟩ := mem_kidAddrs.1 hb
        obtain ⟨_, _, c', _, _, e2⟩ := mem_kidAddrs.1 hb'
        rw [e1] at e2
        have := congrArg List.dropLast e2
        simpa using this


/-! ### The invariant under `ist_addlvl` -/

theorem grownVsz_ge (ist : ISTREE) : ist.lvlvsz ≤ grownVsz ist ∧
    (ist.lvlcnt ≤ ist.lvlvsz → ist.lvlcnt + 1 ≤ grownVsz ist) := by
  unfold grownVsz BLKSIZE
  split <;> constructor <;> omega

theorem Inv.newLevel_nil {ist : ISTREE} (hI : Inv ist)
    (he : newLevel ist.supp ist.root (deepest ist) = []) (a : Addr) (N : ISNODE)
    (ha : a.length = ist.lvlcnt - 1) (hN : nodeAt ist.root a = some N) :
    kidsOf ist.supp (ancOf ist.root a) N = [] := by
  have haL : a ∈ deepest ist := (hI.deepest_mem a).2 ⟨ha, by rw [hN]; rfl⟩
  unfold newLevel at he
  have := List.flatMap_eq_nil_iff.1 he a haL
  rw [hN] at this
  simp only at this
  cases hk : kidsOf ist.supp (ancOf ist.root a) N with
  | nil => rfl
  | cons f m => rw [hk] at this; simp [kidAddrs] at this

theorem Inv_of_sim {ist ist' : ISTREE} (hI : Inv ist) (h1 : ist'.lvlcnt = ist.lvlcnt)
    (h2 : ist.lvlvsz ≤ ist'.lvlvsz) (h3 : ist'.levels = ist.levels) (h4 : ist'.supp = ist.supp)
    (hs : Sim (ist.lvlcnt - 1) ist.root ist'.root)
    (hw : ∃ lc, (lc = 0 ∨ lc = F_SKIP) ∧ WFN lc true (ist.lvlcnt - 1) ist'.root) : Inv ist' := by
  have hf := Sim.fields_sim hs
  refine ⟨by rw [h1]; exact hI.lvl_pos, by rw [h1]; exact le_trans hI.lvl_vsz h2,
    by rw [h4]; exact hI.supp_pos, by rw [← hf.2.1]; exact hI.root_off,
    by rw [← hf.2.2]; exact hI.root_size, by rw [h1]; exact hw,
    by rw [h3, h1]; exact hI.lvl_len, ?_, by rw [h3]; exact hI.lvl_nodup⟩
  intro k hk a
  rw [h3, hI.lvl_mem k (by omega) a]
  constructor
  · rintro ⟨ha, hn⟩
    exact ⟨ha, by rw [TRel_isSome hs a (by omega)]; exact hn⟩
  · rintro ⟨ha, hn⟩
    exact ⟨ha, by rw [← TRel_isSome hs a (by omega)]; exact hn⟩

/-- `ist_addlvl` keeps the invariant, whatever its outcome. -/
theorem Inv_addlvl {ist : ISTREE} (hI : Inv ist) (mem : Option Nat) :
    Inv (ist_addlvl ist mem).1 := by
  obtain ⟨lc, hlc, hw⟩ := hI.wf
  have hp := hI.lvl_pos
  rcases addlvl_cases hI mem with ⟨h, -⟩ | ⟨r1, done, hL, -, h⟩ | ⟨r1, hG, he, h⟩ | ⟨r1, hG, hne, h⟩
  · rw [h]; exact hI
  · rw [h]
    obtain ⟨c1, c2⟩ := cleanup_wf hw hL hI.deepest_mem hI.deepest_nodup
    exact Inv_of_sim hI rfl (grownVsz_ge ist).1 rfl rfl c1 ⟨0, Or.inl rfl, c2⟩
  · rw [h]
    exact Inv_of_sim hI rfl (grownVsz_ge ist).1 rfl rfl hG.1
      ⟨F_SKIP, Or.inr rfl, Grown_none_wf hw hG (hI.newLevel_nil he)⟩
  · rw [h]
    have hw1 : WFN 0 true (ist.lvlcnt - 1 + 1) r1 := Grown_wf hw hI.root_off hI.root_size hG
    obtain ⟨s1, -, s3⟩ := stskip_spec hw1
    have hd : ist.lvlcnt - 1 + 1 = ist.lvlcnt := by omega
    rw [hd] at hw1 s1 s3
    have hf1 := Sim.fields_sim hG.1
    have hf2 := SkipRel.fields_skip s3
    refine ⟨by simp, ?_, hI.supp_pos, ?_, ?_, ⟨0, Or.inl rfl, by simpa using s1⟩, ?_, ?_, ?_⟩
    · exact (grownVsz_ge ist).2 hI.lvl_vsz
    · show (_stskip (ist.lvlcnt + 1) r1).1.offset = 0
      rw [← hf2.2.1, ← hf1.2.1]; exact hI.root_off
    · show ((_stskip (ist.lvlcnt + 1) r1).1.cnts.length : Int) ≤ INT_MAX
      rw [← hf2.2.2, ← hf1.2.2]; exact hI.root_size
    · simp [hI.lvl_len]
    · intro k hk a
      simp only at hk ⊢
      by_cases hkl : k < ist.lvlcnt
      · have hget : (ist.levels ++ [newLevel ist.supp ist.root (deepest ist)]).getD k [] =
            ist.levels.getD k [] := by
          simp only [List.getD_eq_getElem?_getD]
          rw [List.getElem?_append_left (by rw [hI.lvl_len]; exact hkl)]
        rw [hget, hI.lvl_mem k hkl a]
        constructor
        · rintro ⟨ha, hn⟩
          refine ⟨ha, ?_⟩
          rw [TRel_isSome s3 a (by omega), TRel_isSome hG.1 a (by omega)]; exact hn
        · rintro ⟨ha, hn⟩
          refine ⟨ha, ?_⟩
          rw [← TRel_isSome hG.1 a (by omega), ← TRel_isSome s3 a (by omega)]; exact hn
      · have hke : k = ist.lvlcnt := by omega
        subst hke
        have hget : (ist.levels ++ [newLevel ist.supp ist.root (deepest ist)]).getD
            ist.lvlcnt [] = newLevel ist.supp ist.root (deepest ist) := by
          simp only [List.getD_eq_getElem?_getD]
          rw [List.getElem?_append_right (by rw [hI.lvl_len]), hI.lvl_len]
          simp
        rw [hget, mem_newLevel hw hG hI.deepest_mem a, hd]
        constructor
        · rintro ⟨ha, hn⟩
          exact ⟨ha, by rw [TRel_isSome s3 a (by omega)]; exact hn⟩
        · rintro ⟨ha, hn⟩
          exact ⟨ha, by rw [← TRel_isSome s3 a (by omega)]; exact hn⟩
    · intro k
      simp only
      by_cases hkl : k < ist.lvlcnt
      · have hget : (ist.levels ++ [newLevel ist.supp ist.root (deepest ist)]).getD k [] =
            ist.levels.getD k [] := by
          simp only [List.getD_eq_getElem?_getD]
          rw [List.getElem?_append_left (by rw [hI.lvl_len]; exact hkl)]
        rw [hget]; exact hI.lvl_nodup k
      · by_cases hke : k = ist.lvlcnt
        · subst hke
          have hget : (ist.levels ++ [newLevel ist.supp ist.root (deepest ist)]).getD
              ist.lvlcnt [] = newLevel ist.supp ist.root (deepest ist) := by
            simp only [List.getD_eq_getElem?_getD]
            rw [List.getElem?_append_right (by rw [hI.lvl_len]), hI.lvl_len]
            simp
          rw [hget]
          exact nodup_newLevel _ _ hI.deepest_nodup
        · have hget : (ist.levels ++ [newLevel ist.supp ist.root (deepest ist)]).getD k [] =
              [] := by
            simp only [List.getD_eq_getElem?_getD]
            rw [List.getElem?_eq_none (by simp [hI.lvl_len]; omega)]
            rfl
          rw [hget]; exact List.nodup_nil


/-! ### The counter of an item set -/

theorem locate_single (N : ISNODE) (x : Int) :
    locate N [x] =
      if 0 ≤ x - N.offset ∧ x - N.offset < N.size then some ([], (x - N.offset).toNat)
      else none := by
  rfl

theorem locate_cons (N : ISNODE) (x y : Int) (rest : List Int) :
    locate N (x :: y :: rest) =
      match N.vec with
      | some first :: _ =>
        match vecAt N.vec (x - first.id) with
        | some c => (locate c (y :: rest)).map (fun p => ((x - first.id).toNat :: p.1, p.2))
        | none => none
      | _ => none := by
  rfl

theorem clrsupp_single (N : ISNODE) (x supp : Int) :
    _clrsupp N [x] supp =
      if 0 ≤ x - N.offset ∧ x - N.offset < N.size then
        if supp < 0 ∨ N.cnts.getD (x - N.offset).toNat 0 = supp then
          some (N.setCnts (N.cnts.set (x - N.offset).toNat 0))
        else some N
      else none := by
  rfl

theorem clrsupp_cons (N : ISNODE) (x y : Int) (rest : List Int) (supp : Int) :
    _clrsupp N (x :: y :: rest) supp =
      match N.vec with
      | some first :: _ =>
        match vecAt N.vec (x - first.id) with
        | some c =>
          (_clrsupp c (y :: rest) supp).map
            (fun c1 => N.setVec (N.vec.set (x - first.id).toNat (some c1)))
        | none => none
      | _ => none := by
  rfl

/-- `_clrsupp` clears the counter that stands for the item set, and fails exactly when the
item set has no counter. -/
theorem clrsupp_eq (supp : Int) : ∀ (set : List Int) (N : ISNODE),
    _clrsupp N set supp = (locate N set).map (fun p => updateAt N p.1 (clrSlot p.2 supp))
  | [], N => rfl
  | [x], N => by
    rw [clrsupp_single, locate_single]
    split
    · simp only [Option.map_some', updateAt_nil, clrSlot]
      split <;> rfl
    · rfl
  | x :: y :: rest, N => by
    rw [clrsupp_cons, locate_cons]
    cases hv : N.vec with
    | nil => rfl
    | cons o r =>
      cases o with
      | none => rfl
      | some first =>
        simp only
        cases hc : vecAt (some first :: r) (x - first.id) with
        | none => rfl
        | some c =>
          simp only
          rw [clrsupp_eq supp (y :: rest) c]
          cases hl : locate c (y :: rest) with
          | none => rfl
          | some p =>
            simp only [Option.map_some', Option.some.injEq]
            obtain ⟨h0, hg⟩ := vecAt_some.1 hc
            rw [← hv] at hg ⊢
            rw [updateAt_cons_of hg]

/-- The counter found for an item set belongs to a node of the tree. -/
theorem locate_some : ∀ (set : List Int) {N : ISNODE} {a : Addr} {i : Nat},
    locate N set = some (a, i) →
    a.length + 1 = set.length ∧ ∃ M, nodeAt N a = some M ∧ i < M.cnts.length ∧
      set.getLast? = some (M.offset + (i : Int))
  | [], N, a, i, h => by
    have : locate N [] = none := rfl
    rw [this] at h; simp at h
  | [x], N, a, i, h => by
    rw [locate_single] at h
    split at h
    · rename_i hc
      simp only [Option.some.injEq, Prod.mk.injEq] at h
      obtain ⟨rfl, rfl⟩ := h
      unfold ISNODE.size at hc
      refine ⟨rfl, N, nodeAt_nil N, by omega, ?_⟩
      simp only [List.getLast?_singleton, Option.some.injEq]
      omega
    · simp at h
  | x :: y :: rest, N, a, i, h => by
    rw [locate_cons] at h
    cases hv : N.vec with
    | nil => rw [hv] at h; simp at h
    | cons o r =>
      cases o with
      | none => rw [hv] at h; simp at h
      | some first =>
        rw [hv] at h
        simp only at h
        cases hc : vecAt (some first :: r) (x - first.id) with
        | none => rw [hc] at h; simp at h
        | some c =>
          rw [hc] at h
          simp only at h
          cases hl : locate c (y :: rest) with
          | none => rw [hl] at h; simp at h
          | some p =>
            obtain ⟨a', i'⟩ := p
            rw [hl] at h
            simp only [Option.map_some', Option.some.injEq, Prod.mk.injEq] at h
            obtain ⟨rfl, rfl⟩ := h
            obtain ⟨h1, M, h2, h3, h4⟩ := locate_some (y :: rest) hl
            obtain ⟨h0, hg⟩ := vecAt_some.1 hc
            rw [← hv] at hg
            refine ⟨by simp at h1 ⊢; omega, M, by rw [nodeAt_cons_of hg]; exact h2, h3, ?_⟩
            rw [List.getLast?_cons_cons]; exact h4

theorem Shape_updateAt_cnts (h : Nat) (r : ISNODE) (a : Addr) (f : ISNODE → ISNODE)
    (ha : a.length ≤ h)
    (hf : ∀ N, (f N).id = N.id ∧ (f N).chcnt = N.chcnt ∧ (f N).offset = N.offset ∧
      (f N).cnts.length = N.cnts.length ∧ (f N).vec = N.vec) :
    Shape h r (updateAt r a f) := by
  refine TRel_updateAt (fun _ => ⟨rfl, rfl, rfl, rfl⟩) (fun _ => ⟨rfl, rfl, rfl, rfl, rfl⟩)
    (fun _ _ => ⟨by simp, by simp, by simp, by simp⟩) f a h r ha (fun N _ => ?_)
  obtain ⟨f1, f2, f3, f4, f5⟩ := hf N
  cases hk : h - a.length with
  | zero => exact TRel_zero.2 ⟨f1.symm, f2.symm, f3.symm, f4.symm, f5.symm⟩
  | succ k =>
    refine TRel_succ.2 ⟨⟨f1.symm, f2.symm, f3.symm, f4.symm⟩, ?_⟩
    rw [f5]
    exact VecRel.refl_vec (Shape.refl_shape k) _

theorem clrSlot_fields (i : Nat) (supp : Int) (N : ISNODE) :
    (clrSlot i supp N).id = N.id ∧ (clrSlot i supp N).chcnt = N.chcnt ∧
    (clrSlot i supp N).offset = N.offset ∧ (clrSlot i supp N).cnts.length = N.cnts.length ∧
    (clrSlot i supp N).vec = N.vec := by
  unfold clrSlot
  split <;> simp

/-- `_clrsupp` changes the value of a counter only. -/
theorem clrsupp_shape {supp : Int} {set : List Int} {N N' : ISNODE} {h : Nat}
    (hc : _clrsupp N set supp = some N') (hl : set.length ≤ h + 1) : Shape h N N' := by
  rw [clrsupp_eq] at hc
  cases hloc : locate N set with
  | none => rw [hloc] at hc; simp at hc
  | some p =>
    obtain ⟨a, i⟩ := p
    rw [hloc] at hc
    simp only [Option.map_some', Option.some.injEq] at hc
    rw [← hc]
    have := (locate_some set hloc).1
    exact Shape_updateAt_cnts h N a _ (by omega) (clrSlot_fields i supp)

/-- A store through an address that can fail. -/
theorem updateAtOpt_eq : ∀ (a : Addr) (r : ISNODE) (f : ISNODE → Option ISNODE),
    updateAtOpt r a f =
      (nodeAt r a).bind (fun N => (f N).map (fun N' => updateAt r a (fun _ => N')))
  | [], r, f => by
    simp only [updateAtOpt, nodeAt_nil, Option.some_bind, updateAt_nil]
    cases f r <;> rfl
  | j :: a, r, f => by
    cases hg : r.vec[j]? with
    | none =>
      rw [nodeAt_cons_none _ (fun c h => by rw [hg] at h; simp at h)]
      simp [updateAtOpt, hg]
    | some oc =>
      cases oc with
      | none =>
        rw [nodeAt_cons_none _ (fun c h => by rw [hg] at h; simp at h)]
        simp [updateAtOpt, hg]
      | some c =>
        rw [nodeAt_cons_of hg]
        have : updateAtOpt r (j :: a) f =
            (updateAtOpt c a f).map (fun c1 => r.setVec (r.vec.set j (some c1))) := by
          simp [updateAtOpt, hg]
        rw [this, updateAtOpt_eq a c f]
        cases hn : nodeAt c a with
        | none => rfl
        | some N =>
          simp only [Option.some_bind]
          cases hf : f N with
          | none => rfl
          | some N' =>
            simp only [Option.map_some', Option.some.injEq]
            rw [updateAt_cons_of hg]

theorem updateAtOpt_shape {h : Nat} {r r' : ISNODE} {a : Addr} {f : ISNODE → Option ISNODE}
    (hu : updateAtOpt r a f = some r') (ha : a.length ≤ h)
    (hf : ∀ N N', f N = some N' → Shape (h - a.length) N N') : Shape h r r' := by
  rw [updateAtOpt_eq] at hu
  cases hn : nodeAt r a with
  | none => rw [hn] at hu; simp at hu
  | some N =>
    rw [hn] at hu
    simp only [Option.some_bind] at hu
    cases hfN : f N with
    | none => rw [hfN] at hu; simp at hu
    | some N' =>
      rw [hfN] at hu
      simp only [Option.map_some', Option.some.injEq] at hu
      rw [← hu]
      refine TRel_updateAt (fun _ => ⟨rfl, rfl, rfl, rfl⟩) (fun _ => ⟨rfl, rfl, rfl, rfl, rfl⟩)
        (fun _ _ => ⟨by simp, by simp, by simp, by simp⟩) _ a h r ha (fun M hM => ?_)
      rw [hn] at hM
      cases hM
      exact hf N N' hfN


/-! ### The invariant under `ist_filter` -/

theorem foldOpt_rel {α β : Type} (R : α → α → Prop) (hrefl : ∀ x, R x x)
    (htrans : ∀ x y z, R x y → R y z → R x z) (f : α → β → Option α) :
    ∀ (l : List β) (x y : α), (∀ x b y, b ∈ l → f x b = some y → R x y) →
      foldOpt f x l = some y → R x y
  | [], x, y, _, h => by
    simp only [foldOpt, Option.some.injEq] at h
    rw [← h]; exact hrefl x
  | b :: l, x, y, hf, h => by
    unfold foldOpt at h
    cases hb : f x b with
    | none => rw [hb] at h; simp at h
    | some x1 =>
      rw [hb] at h
      simp only at h
      exact htrans _ _ _ (hf x b x1 (List.mem_cons_self _ _) hb)
        (foldOpt_rel R hrefl htrans f l x1 y
          (fun x b y hb => hf x b y (List.mem_cons_of_mem _ hb)) h)

theorem clrUp_nil (supp : Int) (root : ISNODE) (set : List Int) :
    clrUp supp root [] set = some root := rfl

theorem clrUp_cons (supp : Int) (root : ISNODE) (i : Nat) (rpar : List Nat) (set : List Int) :
    clrUp supp root (i :: rpar) set =
      match updateAtOpt root rpar.reverse (fun p => _clrsupp p set supp) with
      | none => none
      | some root1 =>
        match nodeAt root1 (i :: rpar).reverse with
        | none => none
        | some curr => clrUp supp root1 rpar (curr.id :: set) := rfl

theorem clrUp_shape (supp : Int) (h : Nat) : ∀ (raddr : List Nat) (root root' : ISNODE)
    (set : List Int), clrUp supp root raddr set = some root' → 1 ≤ set.length →
    set.length + raddr.length ≤ h + 2 → Shape h root root'
  | [], root, root', set, hc, _, _ => by
    rw [clrUp_nil] at hc
    cases hc
    exact Shape.refl_shape _ _
  | i :: rpar, root, root', set, hc, h1, h2 => by
    rw [clrUp_cons] at hc
    cases hu : updateAtOpt root rpar.reverse (fun p => _clrsupp p set supp) with
    | none => rw [hu] at hc; simp at hc
    | some root1 =>
      rw [hu] at hc
      simp only at hc
      have hs1 : Shape h root root1 := by
        refine updateAtOpt_shape hu (by simp at h2 ⊢; omega) (fun N N' hN => ?_)
        exact clrsupp_shape hN (by simp at h2 ⊢; omega)
      cases hn : nodeAt root1 (i :: rpar).reverse with
      | none => rw [hn] at hc; simp at hc
      | some curr =>
        rw [hn] at hc
        simp only at hc
        exact hs1.trans_shape (clrUp_shape supp h rpar root1 root' (curr.id :: set) hc (by simp)
          (by simp at h2 ⊢; omega))

theorem filterSlot_shape {supp mode : Int} {a : Addr} {root root' : ISNODE} {i : Nat} {h : Nat}
    (hf : filterSlot supp mode a root i = some root') (ha : a.length ≤ h) :
    Shape h root root' := by
  unfold filterSlot at hf
  cases hn : nodeAt root a with
  | none => rw [hn] at hf; simp at hf
  | some node =>
    rw [hn] at hf
    simp only at hf
    split at hf
    · cases hf; exact Shape.refl_shape _ _
    · cases hr : a.reverse with
      | nil => rw [hr] at hf; simp at hf
      | cons j rpar =>
        rw [hr] at hf
        simp only at hf
        have hlen : rpar.length + 1 = a.length := by
          have := congrArg List.length hr
          simp at this
          omega
        cases hu1 : updateAtOpt root rpar.reverse (fun p => _clrsupp p [node.offset + (i : Int)]
            (if mode = IST_CLOSED then node.cnts.getD i 0 else -1)) with
        | none => rw [hu1] at hf; simp at hf
        | some root1 =>
          rw [hu1] at hf
          simp only at hf
          cases hu2 : updateAtOpt root1 rpar.reverse (fun p => _clrsupp p [node.id]
              (if mode = IST_CLOSED then node.cnts.getD i 0 else -1)) with
          | none => rw [hu2] at hf; simp at hf
          | some root2 =>
            rw [hu2] at hf
            simp only at hf
            have s1 : Shape h root root1 :=
              updateAtOpt_shape hu1 (by simp; omega)
                (fun N N' hN => clrsupp_shape hN (by simp))
            have s2 : Shape h root1 root2 :=
              updateAtOpt_shape hu2 (by simp; omega)
                (fun N N' hN => clrsupp_shape hN (by simp))
            exact (s1.trans_shape s2).trans_shape (clrUp_shape _ h rpar root2 root' _ hf (by simp)
              (by simp; omega))

theorem filterNode_shape {supp mode : Int} {a : Addr} {root root' : ISNODE} {h : Nat}
    (hf : filterNode supp mode root a = some root') (ha : a.length ≤ h) :
    Shape h root root' := by
  unfold filterNode at hf
  cases hn : nodeAt root a with
  | none => rw [hn] at hf; simp at hf
  | some node =>
    rw [hn] at hf
    simp only at hf
    exact foldOpt_rel (Shape h) (Shape.refl_shape h) (fun _ _ _ => Shape.trans_shape) _ _ _ _
      (fun x b y _ hxy => filterSlot_shape hxy ha) hf

theorem filterLevel_shape {supp mode : Int} {lvl : List Addr} {root root' : ISNODE} {h : Nat}
    (hf : filterLevel supp mode root lvl = some root') (ha : ∀ a ∈ lvl, a.length ≤ h) :
    Shape h root root' :=
  foldOpt_rel (Shape h) (Shape.refl_shape h) (fun _ _ _ => Shape.trans_shape) _ _ _ _
    (fun x b y hb hxy => filterNode_shape hxy (ha b hb)) hf

theorem Inv.level_length {ist : ISTREE} (hI : Inv ist) {lvl : List Addr}
    (hl : lvl ∈ ist.levels) : ∀ a ∈ lvl, a.length ≤ ist.lvlcnt - 1 := by
  intro a ha
  obtain ⟨k, hk⟩ := List.getElem?_of_mem hl
  have hkl : k < ist.levels.length := lt_length_of_getElem? hk
  rw [hI.lvl_len] at hkl
  have hget : ist.levels.getD k [] = lvl := by
    simp [List.getD_eq_getElem?_getD, hk]
  have := (hI.lvl_mem k hkl a).1 (by rw [hget]; exact ha)
  omega

theorem ist_filter_shape {ist ist1 : ISTREE} {mode : Int} (hI : Inv ist)
    (hf : ist_filter ist mode = some ist1) :
    Shape (ist.lvlcnt - 1) ist.root ist1.root ∧ ist1 = { ist with root := ist1.root } := by
  unfold ist_filter at hf
  cases hfo : foldOpt (filterLevel ist.supp mode) ist.root
      ((ist.levels.take ist.lvlcnt).drop 1) with
  | none => rw [hfo] at hf; simp at hf
  | some r =>
    rw [hfo] at hf
    simp only [Option.map_some', Option.some.injEq] at hf
    subst hf
    refine ⟨?_, rfl⟩
    refine foldOpt_rel (Shape _) (Shape.refl_shape _) (fun _ _ _ => Shape.trans_shape) _ _ _ _
      (fun x b y hb hxy => ?_) hfo
    refine filterLevel_shape hxy (hI.level_length ?_)
    exact List.mem_of_mem_take (List.mem_of_mem_drop hb)

theorem Inv_filter {ist ist1 : ISTREE} {mode : Int} (hI : Inv ist)
    (hf : ist_filter ist mode = some ist1) : Inv ist1 := by
  obtain ⟨hs, he⟩ := ist_filter_shape hI hf
  rw [he]
  exact Inv_of_shape hI rfl rfl rfl rfl hs

/-- Every tree that the public operations produce satisfies the invariant. -/
theorem Inv_of_reachable {ist : ISTREE} (hr : Reachable ist) : Inv ist := by
  induction hr with
  | create itemcnt supp hn hs => exact Inv_create itemcnt supp hn hs
  | setcnt ist item cnt _ ih => exact Inv_setcnt ih item cnt
  | count ist t _ ht ih => exact Inv_count ih ht
  | addlvl ist mem _ ih => exact Inv_addlvl ih mem
  | filter ist ist1 mode _ hf ih => exact Inv_filter ih hf
  | init ist _ ih => exact Inv_init ih


/-! ### Counting one transaction -/

theorem contains_iff (t X : List Int) : contains t X = true ↔ ∀ x ∈ X, x ∈ t := by
  unfold contains
  simp [List.all_eq_true]

theorem ist_count_root {ist : ISTREE} (hI : Inv ist) (t : List Int) :
    (ist_count ist t).root = _count ist.lvlcnt ist.root t ist.lvlcnt := by
  unfold ist_count
  split
  · rfl
  · rename_i hlt
    obtain ⟨lc, hlc, hw⟩ := hI.wf
    have hp := hI.lvl_pos
    have := count_short hw t (ist.lvlcnt : Int) (by omega) (by omega)
    have he : ist.lvlcnt - 1 + 1 = ist.lvlcnt := by omega
    rw [he] at this
    rw [this]

theorem Inv.nodeAt_length {ist : ISTREE} (hI : Inv ist) {a : Addr} {N : ISNODE}
    (hN : nodeAt ist.root a = some N) : a.length ≤ ist.lvlcnt - 1 := by
  obtain ⟨lc, _, hw⟩ := hI.wf
  exact (WFN_at a hw hN).1

/-- The nodes without children and without flag are nodes of the deepest level. -/
theorem Inv.chcnt_zero_deepest {ist : ISTREE} (hI : Inv ist) {a : Addr} {N : ISNODE}
    (hN : nodeAt ist.root a = some N) (h0 : N.chcnt = 0) : a.length + 1 = ist.lvlcnt := by
  obtain ⟨lc, _, hw⟩ := hI.wf
  obtain ⟨h1, l, h2⟩ := WFN_at a hw hN
  have := (WFN_chcnt_zero h2 h0).1
  have := hI.lvl_pos
  omega

theorem tract_pair : Tract [0, 1] := by
  unfold Tract
  simp

/-! ### The result of `ist_addlvl` -/

theorem child_none_node (supp : Int) (anc : List ISNODE) (N : ISNODE) (i : Nat) (c : ISNODE) :
    (_child supp anc N i none).1 = ChildRes.node c ↔ childOf supp anc N i = some c := by
  rw [child_eq]
  cases hc : childOf supp anc N i with
  | none => simp
  | some d => simp [alloc_none]

theorem kidsOf_ne_nil (supp : Int) (anc : List ISNODE) (N : ISNODE) :
    kidsOf supp anc N ≠ [] ↔ ∃ i c, (_child supp anc N i none).1 = ChildRes.node c := by
  constructor
  · intro h
    cases hk : kidsOf supp anc N with
    | nil => exact absurd hk h
    | cons c m =>
      have : c ∈ kidsOf supp anc N := by rw [hk]; exact List.mem_cons_self _ _
      obtain ⟨i, _, hi⟩ := mem_kidsOf.1 this
      exact ⟨i, c, (child_none_node _ _ _ _ _).2 hi⟩
  · rintro ⟨i, c, hc⟩ h
    have hc' := (child_none_node _ _ _ _ _).1 hc
    have : c ∈ kidsOf supp anc N := mem_kidsOf.2 ⟨i, (childOf_some hc').1, hc'⟩
    rw [h] at this
    simp at this

theorem newLevel_ne_nil {ist : ISTREE} (hI : Inv ist) :
    newLevel ist.supp ist.root (deepest ist) ≠ [] ↔
      ∃ a ∈ deepest ist, ∃ N, nodeAt ist.root a = some N ∧
        ∃ i c, (_child ist.supp (ancOf ist.root a) N i none).1 = ChildRes.node c := by
  constructor
  · intro h
    by_contra hne
    apply h
    unfold newLevel
    rw [List.flatMap_eq_nil_iff]
    intro a ha
    cases hN : nodeAt ist.root a with
    | none => rfl
    | some N =>
      simp only
      have : kidsOf ist.supp (ancOf ist.root a) N = [] := by
        by_contra hk
        exact hne ⟨a, ha, N, hN, (kidsOf_ne_nil _ _ _).1 hk⟩
      rw [this]; rfl
  · rintro ⟨a, ha, N, hN, hc⟩ h
    have hk := (kidsOf_ne_nil _ _ _).2 hc
    apply hk
    exact hI.newLevel_nil h a N ((hI.deepest_mem a).1 ha).1 hN

/-- The counters, ids and offsets that `ist_addlvl` finds are the ones it leaves. -/
theorem addlvl_counters {ist : ISTREE} (hI : Inv ist) (mem : Option Nat) (a : Addr) (N : ISNODE)
    (hN : nodeAt ist.root a = some N) :
    ∃ N', nodeAt (ist_addlvl ist mem).1.root a = some N' ∧ N'.cnts = N.cnts ∧ N'.id = N.id ∧
      N'.offset = N.offset := by
  obtain ⟨lc, hlc, hw⟩ := hI.wf
  have hp := hI.lvl_pos
  have hal := hI.nodeAt_length hN
  have hsim : ∀ r1, Sim (ist.lvlcnt - 1) ist.root r1 →
      ∃ N', nodeAt r1 a = some N' ∧ N'.cnts = N.cnts ∧ N'.id = N.id ∧ N'.offset = N.offset := by
    intro r1 hs
    obtain ⟨N', h1, h2⟩ := (TRel_nodeAt a hs hal).2.1 N hN
    have := Sim.fields_sim h2
    exact ⟨N', h1, this.2.2.symm, this.1.symm, this.2.1.symm⟩
  rcases addlvl_cases hI mem with ⟨h, -⟩ | ⟨r1, done, hL, -, h⟩ | ⟨r1, hG, he, h⟩ | ⟨r1, hG, hne, h⟩
  · rw [h]; exact ⟨N, hN, rfl, rfl, rfl⟩
  · rw [h]
    exact hsim _ (cleanup_wf hw hL hI.deepest_mem hI.deepest_nodup).1
  · rw [h]; exact hsim _ hG.1
  · rw [h]
    obtain ⟨N1, h1, h2, h3, h4⟩ := hsim _ hG.1
    have hw1 : WFN 0 true (ist.lvlcnt - 1 + 1) r1 := Grown_wf hw hI.root_off hI.root_size hG
    obtain ⟨-, -, s3⟩ := stskip_spec hw1
    have hd : ist.lvlcnt - 1 + 1 = ist.lvlcnt := by omega
    rw [hd] at s3
    obtain ⟨N2, k1, k2⟩ := (TRel_nodeAt a s3 (by omega)).2.1 N1 h1
    have := SkipRel.fields_skip k2
    exact ⟨N2, k1, by rw [← this.2.2, h2], by rw [← this.1, h3], by rw [← this.2.1, h4]⟩

/-- C9: `ist_addlvl` without allocation failure returns 0 or 1; it returns 0 exactly when
`_child` creates a child for some slot of some node of the deepest level, and then the height
is larger by exactly 1 and the new deepest level is a non-empty list of nodes; when it
returns 1 the height and the level lists are unchanged; in both cases every counter is
unchanged.  In particular a tree of height 1 whose root has at most one counter `>= supp`
stays at height 1. -/
theorem C9_addlvl_result (ist : ISTREE) (hr : Reachable ist) :
    ((ist_addlvl ist none).2 = 0 ∨ (ist_addlvl ist none).2 = 1) ∧
    ((ist_addlvl ist none).2 = 0 ↔
      ∃ a ∈ deepest ist, ∃ N, nodeAt ist.root a = some N ∧
        ∃ i c, (_child ist.supp (ancOf ist.root a) N i none).1 = ChildRes.node c) ∧
    ((ist_addlvl ist none).2 = 0 →
      (ist_addlvl ist none).1.lvlcnt = ist.lvlcnt + 1 ∧
      deepest (ist_addlvl ist none).1 ≠ [] ∧
      ∀ b ∈ deepest (ist_addlvl ist none).1,
        b.length = ist.lvlcnt ∧ (nodeAt (ist_addlvl ist none).1.root b).isSome = true) ∧
    ((ist_addlvl ist none).2 = 1 →
      (ist_addlvl ist none).1.lvlcnt = ist.lvlcnt ∧
      (ist_addlvl ist none).1.levels = ist.levels) ∧
    (∀ (a : Addr) (N : ISNODE), nodeAt ist.root a = some N →
      ∃ N', nodeAt (ist_addlvl ist none).1.root a = some N' ∧ N'.cnts = N.cnts) ∧
    (ist.lvlcnt = 1 →
      (∀ i j : Nat, i < ist.root.cnts.length → j < ist.root.cnts.length →
        ist.supp ≤ ist.root.cnts.getD i 0 → ist.supp ≤ ist.root.cnts.getD j 0 → i = j) →
      (ist_addlvl ist none).2 = 1 ∧ (ist_addlvl ist none).1.lvlcnt = 1) := by
  have hI := Inv_of_reachable hr
  have hI' := Inv_addlvl hI none
  have hp := hI.lvl_pos
  have hnl := newLevel_ne_nil hI
  have hcnt : ∀ (a : Addr) (N : ISNODE), nodeAt ist.root a = some N →
      ∃ N', nodeAt (ist_addlvl ist none).1.root a = some N' ∧ N'.cnts = N.cnts := by
    intro a N hN
    obtain ⟨N', h1, h2, -⟩ := addlvl_counters hI none a N hN
    exact ⟨N', h1, h2⟩
  have hsix : ist.lvlcnt = 1 →
      (∀ i j : Nat, i < ist.root.cnts.length → j < ist.root.cnts.length →
        ist.supp ≤ ist.root.cnts.getD i 0 → ist.supp ≤ ist.root.cnts.getD j 0 → i = j) →
      newLevel ist.supp ist.root (deepest ist) = [] := by
    intro h1 hone
    by_contra hne
    obtain ⟨a, ha, N, hN, i, c, hc⟩ := hnl.1 hne
    have hal := ((hI.deepest_mem a).1 ha).1
    have ha0 : a = [] := List.length_eq_zero.1 (by omega)
    subst ha0
    rw [nodeAt_nil] at hN
    cases hN
    have hc' := (child_none_node _ _ _ _ _).1 hc
    obtain ⟨c1, c2, -, -, -, -, -, -, -, first, more, hcand, -⟩ := childOf_some hc'
    have hfirst : first ∈ candidates ist.supp (ancOf ist.root []) ist.root i := by
      rw [hcand]; exact List.mem_cons_self _ _
    obtain ⟨i', hi', hlt, hs', -⟩ := mem_candidates.1 hfirst
    have := hone i i' c1 hi' c2 hs'
    omega
  rcases addlvl_cases_none hI with ⟨r1, hG, he, h⟩ | ⟨r1, hG, hne, h⟩
  · have h2 : (ist_addlvl ist none).2 = 1 := by rw [h]
    have hn0 : ¬ ((ist_addlvl ist none).2 = 0) := by rw [h2]; omega
    refine ⟨Or.inr h2, ⟨fun h0 => absurd h0 hn0, fun hex => absurd he (hnl.2 hex)⟩,
      fun h0 => absurd h0 hn0, fun _ => by rw [h]; exact ⟨rfl, rfl⟩, hcnt,
      fun h1 _ => ⟨h2, by rw [h]; exact h1⟩⟩
  · have h2 : (ist_addlvl ist none).2 = 0 := by rw [h]
    have hn1 : ¬ ((ist_addlvl ist none).2 = 1) := by rw [h2]; omega
    have hlc : (ist_addlvl ist none).1.lvlcnt = ist.lvlcnt + 1 := by rw [h]
    have hdeep : deepest (ist_addlvl ist none).1 = newLevel ist.supp ist.root (deepest ist) := by
      rw [h]
      unfold deepest
      simp only [Nat.add_sub_cancel, List.getD_eq_getElem?_getD]
      rw [List.getElem?_append_right (by rw [hI.lvl_len]), hI.lvl_len]
      simp
    refine ⟨Or.inl h2, ⟨fun _ => hnl.1 hne, fun _ => h2⟩, fun _ => ⟨hlc, ?_, ?_⟩,
      fun h1 => absurd h1 hn1, hcnt, fun h1 hone => absurd (hsix h1 hone) hne⟩
    · rw [hdeep]; exact hne
    · intro b hb
      have := (hI'.deepest_mem b).1 hb
      rw [hlc] at this
      exact ⟨by omega, this.2⟩

theorem C9_addlvl_result_witness :
    Reachable (ist_create 2 1) ∧
    ((ist_addlvl (ist_create 2 1) none).2 = 0 ∨ (ist_addlvl (ist_create 2 1) none).2 = 1) :=
  ⟨Reachable.create 2 1 (by decide) (by decide),
    (C9_addlvl_result (ist_create 2 1) (Reachable.create 2 1 (by decide) (by decide))).1⟩


/-! ### The size of the level vector is not observable -/

theorem advance_withVsz (ist : ISTREE) (v pos : Nat) :
    advance (ist.withVsz v) pos = (advance ist pos).withVsz v := by
  unfold advance
  have hc : cursorNode (ist.withVsz v) pos = cursorNode ist pos := rfl
  rw [hc]
  cases cursorNode ist pos with
  | none => rfl
  | some node =>
    simp only [ISTREE.withVsz]
    split
    · split
      · rfl
      · split <;> rfl
    · rfl

theorem setLoop_withVsz (v : Nat) : ∀ (fuel : Nat) (ist : ISTREE) (pos : Nat),
    setLoop fuel (ist.withVsz v) pos = (setLoop fuel ist pos).withVsz v
  | 0, _, _ => rfl
  | fuel + 1, ist, pos => by
    rw [setLoop, setLoop, advance_withVsz]
    cases advance ist pos with
    | bad => rfl
    | done ist1 => rfl
    | next ist1 pos1 =>
      simp only [Adv.withVsz]
      have hc : cursorNode (ist1.withVsz v) pos1 = cursorNode ist1 pos1 := rfl
      rw [hc]
      cases cursorNode ist1 pos1 with
      | none => rfl
      | some node =>
        simp only
        have hs : (ist1.withVsz v).supp = ist1.supp := rfl
        have hi : (ist1.withVsz v).index = ist1.index := rfl
        rw [hs, hi]
        split
        · rfl
        · exact setLoop_withVsz v fuel ist1 pos1

theorem ist_set_withVsz (v : Nat) (ist : ISTREE) :
    ist_set (ist.withVsz v) = (ist_set ist).withVsz v := by
  unfold ist_set
  have h1 : (ist.withVsz v).size = ist.size := rfl
  have h2 : (ist.withVsz v).lvlcnt = ist.lvlcnt := rfl
  have h3 : (ist.withVsz v).node = ist.node := rfl
  have h4 : scanFuel (ist.withVsz v) = scanFuel ist := rfl
  rw [h1, h2, h3, h4]
  split
  · rfl
  · cases ist.node with
    | none => exact setLoop_withVsz v _ { ist with node := some 0 } 0
    | some pos => exact setLoop_withVsz v _ ist pos

theorem setAll_withVsz (v : Nat) : ∀ (fuel : Nat) (ist : ISTREE),
    setAll fuel (ist.withVsz v) = setAll fuel ist
  | 0, _ => rfl
  | fuel + 1, ist => by
    rw [setAll, setAll, ist_set_withVsz]
    cases ist_set ist with
    | found ist1 set supp =>
      simp only [SetRes.withVsz]
      rw [setAll_withVsz v fuel ist1]
    | done ist1 => rfl
    | abort => rfl

theorem ist_sets_withVsz (v : Nat) (ist : ISTREE) : ist_sets (ist.withVsz v) = ist_sets ist := by
  unfold ist_sets
  have h4 : scanFuel (ist.withVsz v) = scanFuel ist := rfl
  have h5 : ist_init (ist.withVsz v) = (ist_init ist).withVsz v := rfl
  rw [h4, h5, setAll_withVsz]

/-- C10 (amended): if `ist_addlvl` is called on a reachable tree whose deepest nodes all have
`chcnt = 0` (the state after `ist_create` and after a call that returned 0) and returns -1
because an allocation fails, then the tree is the one from before the call in every
component but the size `lvlvsz` of the level vector: the height, the level lists, every node
with its counters and its `chcnt` are unchanged, no deepest node has a child, and
`ist_init; ist_set*` and `ist_check` give the same results as before the call. -/
theorem C10_addlvl_failure (ist : ISTREE) (mem : Option Nat) (hr : Reachable ist)
    (hfresh : ∀ (a : Addr) (N : ISNODE), a ∈ deepest ist → nodeAt ist.root a = some N →
      N.chcnt = 0)
    (hfail : (ist_addlvl ist mem).2 = -1) :
    (ist_addlvl ist mem).1 = ist.withVsz (ist_addlvl ist mem).1.lvlvsz ∧
    (ist_addlvl ist mem).1.lvlcnt = ist.lvlcnt ∧
    (ist_addlvl ist mem).1.levels = ist.levels ∧
    (ist_addlvl ist mem).1.root = ist.root ∧
    (∀ (a : Addr) (N : ISNODE), a ∈ deepest ist →
      nodeAt (ist_addlvl ist mem).1.root a = some N → N.chcnt = 0 ∧ N.vec = []) ∧
    ist_sets (ist_addlvl ist mem).1 = ist_sets ist ∧
    ist_check (ist_addlvl ist mem).1 = ist_check ist := by
  have hI := Inv_of_reachable hr
  obtain ⟨lc, hlc, hw⟩ := hI.wf
  have hw0 : WFN 0 true (ist.lvlcnt - 1) ist.root := by
    rw [WFN_iff_WFG] at hw ⊢
    refine WFG_sim_pointwise hw (Sim.refl_sim _ _) (fun a M M' l ha hM hM' hP => ?_)
    rw [hM] at hM'
    cases hM'
    exact ⟨hP.1, hP.2.1,
      hfresh a M ((hI.deepest_mem a).2 ⟨ha, by rw [hM]; rfl⟩) hM⟩
  have hleaf : ∀ (a : Addr) (N : ISNODE), a ∈ deepest ist → nodeAt ist.root a = some N →
      N.chcnt = 0 ∧ N.vec = [] := by
    intro a N ha hN
    have := WFN_leaf hw0 hN ((hI.deepest_mem a).1 ha).1
    exact ⟨this.2, this.1⟩
  have hmain : (ist_addlvl ist mem).1 = ist.withVsz (ist_addlvl ist mem).1.lvlvsz := by
    rcases addlvl_cases hI mem with ⟨h, -⟩ | ⟨r1, done, hL, -, h⟩ | ⟨r1, hG, he, h⟩ |
        ⟨r1, hG, hne, h⟩
    · rw [h]; rfl
    · rw [h]
      simp only [ISTREE.withVsz]
      rw [cleanup_eq hw0 hL hI.deepest_mem hI.deepest_nodup]
    · rw [h] at hfail; simp at hfail
    · rw [h] at hfail; simp at hfail
  have hroot : (ist_addlvl ist mem).1.root = ist.root := by rw [hmain]; rfl
  refine ⟨hmain, by rw [hmain]; rfl, by rw [hmain]; rfl, hroot, ?_, ?_, ?_⟩
  · intro a N ha hN
    rw [hroot] at hN
    exact hleaf a N ha hN
  · rw [hmain, ist_sets_withVsz]
  · rw [hmain]; rfl

theorem doneTree_reachable : Reachable doneTree :=
  Reachable.setcnt _ 1 1 (Reachable.setcnt _ 0 1
    (Reachable.addlvl _ none (Reachable.create 2 1 (by decide) (by decide))))

theorem seededTree_reachable : Reachable seededTree :=
  Reachable.setcnt _ 1 1 (Reachable.setcnt _ 0 1 (Reachable.create 2 1 (by decide) (by decide)))

theorem seededTree_fresh (a : Addr) (N : ISNODE) (ha : a ∈ deepest seededTree)
    (hN : nodeAt seededTree.root a = some N) : N.chcnt = 0 := by
  have hd : deepest seededTree = [[]] := by decide
  rw [hd, List.mem_singleton] at ha
  subst ha
  rw [nodeAt_nil] at hN
  cases hN
  decide

/-- C10 (counterexample): the tree of two items on which `ist_addlvl` returned 1 has a root
with `chcnt = F_SKIP`; after both counters are set to 1, a call of `ist_addlvl` whose first
allocation fails returns -1, leaves the root with `chcnt = 0`, and `ist_check` reports two
used items where it reported none before the call. -/
theorem C10_failure_after_done :
    Reachable doneTree ∧ (ist_addlvl (ist_create 2 1) none).2 = 1 ∧
    (ist_addlvl doneTree (some 0)).2 = -1 ∧
    ist_check doneTree = ([0, 0], 0) ∧
    ist_check (ist_addlvl doneTree (some 0)).1 = ([1, 1], 2) ∧
    doneTree.root.chcnt = F_SKIP ∧
    (ist_addlvl doneTree (some 0)).1.root.chcnt = 0 := by
  refine ⟨doneTree_reachable, ?_, ?_, ?_, ?_, ?_, ?_⟩ <;> decide

theorem C10_addlvl_failure_witness :
    Reachable seededTree ∧ (ist_addlvl seededTree (some 0)).2 = -1 ∧
    (ist_addlvl seededTree (some 0)).1.root = seededTree.root ∧
    ist_sets (ist_addlvl seededTree (some 0)).1 = ist_sets seededTree ∧
    ist_check (ist_addlvl seededTree (some 0)).1 = ist_check seededTree :=
  ⟨seededTree_reachable, by decide,
    (C10_addlvl_failure seededTree (some 0) seededTree_reachable seededTree_fresh
      (by decide)).2.2.2.1,
    (C10_addlvl_failure seededTree (some 0) seededTree_reachable seededTree_fresh
      (by decide)).2.2.2.2.2.1,
    (C10_addlvl_failure seededTree (some 0) seededTree_reachable seededTree_fresh
      (by decide)).2.2.2.2.2.2⟩


/-! ### Item sets and their counters -/

theorem unskip_len {n : Int} (h0 : 0 ≤ n) (h1 : n ≤ INT_MAX) :
    unskip n = n ∧ unskip (n + F_SKIP) = n := by
  unfold unskip F_SKIP
  unfold INT_MAX at h1
  constructor
  · rw [if_neg (by omega)]
  · rw [if_pos (by omega)]; omega

/-- The facts about a node that has a child at index `j`. -/
theorem WFN_vec {lc : Int} {live : Bool} {h : Nat} {N c : ISNODE} {j : Nat}
    (hw : WFN lc live h N) (hc : N.vec[j]? = some (some c)) :
    ∃ h' first rest, h = h' + 1 ∧ N.vec = some first :: rest ∧ c.id = first.id + (j : Int) ∧
      unskip N.chcnt = (N.vec.length : Int) ∧ j < N.vec.length ∧
      vecAt N.vec (c.id - first.id) = some c ∧ (c.id - first.id).toNat = j ∧
      WFN lc (live && decide (0 < N.chcnt)) h' c := by
  cases h with
  | zero =>
    rw [WFN_zero] at hw
    rw [hw.2.1] at hc
    simp at hc
  | succ h' =>
    obtain ⟨first, rest, hv, hok, hwc, hl, hch, -⟩ := WFN_child hw hc
    have hj := lt_length_of_getElem? hc
    have hu := unskip_len (Int.ofNat_nonneg N.vec.length) hl
    have hcid : c.id - first.id = (j : Int) := by rw [hok.1]; omega
    refine ⟨h', first, rest, rfl, hv, hok.1, ?_, hj, ?_, ?_, hwc⟩
    · rcases hch with e | e
      · rw [e]; exact hu.1
      · rw [e]; exact hu.2
    · rw [hcid, vecAt_some]
      exact ⟨by omega, by simpa using hc⟩
    · rw [hcid]; simp

theorem getsupp_child {lc : Int} {live : Bool} {h : Nat} {N c : ISNODE} {j : Nat}
    (hw : WFN lc live h N) (hc : N.vec[j]? = some (some c)) {rest : List Int}
    (hr : rest ≠ []) : _getsupp N (c.id :: rest) = _getsupp c rest := by
  obtain ⟨h', first, vr, -, hv, hid, hu, hj, hva, -, -⟩ := WFN_vec hw hc
  cases rest with
  | nil => exact absurd rfl hr
  | cons y r =>
    rw [getsupp_cons, hu, if_neg (by omega)]
    rw [hv] at hva hj ⊢
    simp only
    rw [if_neg (by rw [hid]; omega), hva]

theorem locate_child {lc : Int} {live : Bool} {h : Nat} {N c : ISNODE} {j : Nat}
    (hw : WFN lc live h N) (hc : N.vec[j]? = some (some c)) {rest : List Int}
    (hr : rest ≠ []) :
    locate N (c.id :: rest) = (locate c rest).map (fun p => (j :: p.1, p.2)) := by
  obtain ⟨h', first, vr, -, hv, hid, hu, hj, hva, hn, -⟩ := WFN_vec hw hc
  cases rest with
  | nil => exact absurd rfl hr
  | cons y r =>
    rw [locate_cons]
    rw [hv] at hva ⊢
    simp only
    rw [hva, hn]

/-- The descent of `_getsupp` along the path to a node. -/
theorem getsupp_descend {lc : Int} : ∀ (a : Addr) {live : Bool} {h : Nat} {N Q : ISNODE}
    {S : List Int}, WFN lc live h N → nodeAt N a = some Q → S ≠ [] →
    _getsupp N (pathIds N a ++ S) = _getsupp Q S
  | [], live, h, N, Q, S, _, hn, _ => by
    rw [nodeAt_nil] at hn; cases hn
    rw [pathIds_nil]; rfl
  | j :: a, live, h, N, Q, S, hw, hn, hS => by
    obtain ⟨c, hc, hn'⟩ := nodeAt_cons_some hn
    obtain ⟨h', first, vr, -, -, -, -, -, -, -, hwc⟩ := WFN_vec hw hc
    rw [pathIds_cons_of hc, List.cons_append, getsupp_child hw hc (by simp [hS])]
    exact getsupp_descend a hwc hn' hS

/-- The descent of `locate` along the path to a node. -/
theorem locate_descend {lc : Int} : ∀ (a : Addr) {live : Bool} {h : Nat} {N Q : ISNODE}
    {S : List Int}, WFN lc live h N → nodeAt N a = some Q → S ≠ [] →
    locate N (pathIds N a ++ S) = (locate Q S).map (fun p => (a ++ p.1, p.2))
  | [], live, h, N, Q, S, _, hn, _ => by
    rw [nodeAt_nil] at hn; cases hn
    rw [pathIds_nil, List.nil_append]
    cases locate N S with
    | none => rfl
    | some p => simp
  | j :: a, live, h, N, Q, S, hw, hn, hS => by
    obtain ⟨c, hc, hn'⟩ := nodeAt_cons_some hn
    obtain ⟨h', first, vr, -, -, -, -, -, -, -, hwc⟩ := WFN_vec hw hc
    rw [pathIds_cons_of hc, List.cons_append, locate_child hw hc (by simp [hS]),
      locate_descend a hwc hn' hS]
    cases locate Q S with
    | none => rfl
    | some p => simp

/-- The counter of slot `i` of the node at address `a` is the counter that `_getsupp` finds
for the item set of the slot. -/
theorem getsupp_of_path {lc : Int} {live : Bool} {h : Nat} {N M : ISNODE} {a : Addr} {i : Nat}
    (hw : WFN lc live h N) (hn : nodeAt N a = some M) (hi : i < M.cnts.length) :
    _getsupp N (pathIds N a ++ [M.offset + (i : Int)]) = M.cnts.getD i 0 := by
  rw [getsupp_descend a hw hn (by simp), getsupp_single, if_neg]
  · congr 1
    omega
  · unfold ISNODE.size; omega

theorem locate_of_path {lc : Int} {live : Bool} {h : Nat} {N M : ISNODE} {a : Addr} {i : Nat}
    (hw : WFN lc live h N) (hn : nodeAt N a = some M) (hi : i < M.cnts.length) :
    locate N (pathIds N a ++ [M.offset + (i : Int)]) = some (a, i) := by
  rw [locate_descend a hw hn (by simp), locate_single, if_pos]
  · simp
  · unfold ISNODE.size; omega

theorem locate_path {lc : Int} : ∀ (set : List Int) {live : Bool} {h : Nat} {N : ISNODE}
    {a : Addr} {i : Nat}, WFN lc live h N → locate N set = some (a, i) →
    ∃ M, nodeAt N a = some M ∧ i < M.cnts.length ∧ pathIds N a ++ [M.offset + (i : Int)] = set
  | [], live, h, N, a, i, _, hl => by
    have : locate N [] = none := rfl
    rw [this] at hl; simp at hl
  | [x], live, h, N, a, i, _, hl => by
    rw [locate_single] at hl
    split at hl
    · rename_i hc
      simp only [Option.some.injEq, Prod.mk.injEq] at hl
      obtain ⟨rfl, rfl⟩ := hl
      unfold ISNODE.size at hc
      refine ⟨N, nodeAt_nil _, by omega, ?_⟩
      rw [pathIds_nil, List.nil_append]
      congr 1
      omega
    · simp at hl
  | x :: y :: rest, live, h, N, a, i, hw, hl => by
    rw [locate_cons] at hl
    cases hv : N.vec with
    | nil => rw [hv] at hl; simp at hl
    | cons o vr =>
      cases o with
      | none => rw [hv] at hl; simp at hl
      | some first =>
        rw [hv] at hl
        simp only at hl
        cases hva : vecAt (some first :: vr) (x - first.id) with
        | none => rw [hva] at hl; simp at hl
        | some c =>
          rw [hva] at hl
          simp only at hl
          cases hlc : locate c (y :: rest) with
          | none => rw [hlc] at hl; simp at hl
          | some p =>
            rw [hlc] at hl
            simp only [Option.map_some', Option.some.injEq, Prod.mk.injEq] at hl
            obtain ⟨rfl, rfl⟩ := hl
            rw [← hv, vecAt_some] at hva
            obtain ⟨h', first', vr', -, hv', hid, -, -, -, -, hwc⟩ := WFN_vec hw hva.2
            have hf : first' = first := by
              rw [hv] at hv'
              simp only [List.cons.injEq, Option.some.injEq] at hv'
              exact hv'.1.symm
            subst hf
            obtain ⟨M, hM, hi, hp⟩ := locate_path (y :: rest) (a := p.1) (i := p.2) hwc hlc
            refine ⟨M, ?_, hi, ?_⟩
            · rw [nodeAt_cons_of hva.2]; exact hM
            · rw [pathIds_cons_of hva.2, List.cons_append, hp]
              congr 1
              rw [hid]
              have := hva.1
              omega

theorem getsupp_locate_none : ∀ (set : List Int) (N : ISNODE), locate N set = none →
    _getsupp N set = -1
  | [], N, _ => rfl
  | [x], N, hl => by
    rw [locate_single] at hl
    rw [getsupp_single]
    split at hl
    · simp at hl
    · rename_i hc
      rw [if_pos]
      by_contra hcon
      exact hc ⟨by omega, by omega⟩
  | x :: y :: rest, N, hl => by
    rw [locate_cons] at hl
    rw [getsupp_cons]
    split
    · rfl
    · cases hv : N.vec with
      | nil => rfl
      | cons o vr =>
        cases o with
        | none => rfl
        | some first =>
          rw [hv] at hl
          simp only at hl ⊢
          split
          · rfl
          · cases hva : vecAt (some first :: vr) (x - first.id) with
            | none => rfl
            | some c =>
              rw [hva] at hl
              simp only at hl ⊢
              cases hlc : locate c (y :: rest) with
              | none => exact getsupp_locate_none (y :: rest) c hlc
              | some p => rw [hlc] at hl; simp at hl

/-- An item set for which `_getsupp` finds a counter that reaches a minimal support of at
least 1 is the item set of a slot with that counter. -/
theorem getsupp_ge {lc : Int} {live : Bool} {h : Nat} {N : ISNODE} {set : List Int}
    {supp : Int} (hw : WFN lc live h N) (hs : 1 ≤ supp) (hg : supp ≤ _getsupp N set) :
    ∃ a M i, nodeAt N a = some M ∧ i < M.cnts.length ∧
      pathIds N a ++ [M.offset + (i : Int)] = set ∧ supp ≤ M.cnts.getD i 0 := by
  cases hl : locate N set with
  | none =>
    rw [getsupp_locate_none set N hl] at hg
    omega
  | some p =>
    obtain ⟨M, hM, hi, hp⟩ := locate_path set (a := p.1) (i := p.2) hw hl
    refine ⟨p.1, M, p.2, hM, hi, hp, ?_⟩
    rw [← getsupp_of_path hw hM hi, hp]
    exact hg

/-- Two slots with the same item set are the same slot. -/
theorem path_inj {lc : Int} {live : Bool} {h : Nat} {N M M' : ISNODE} {a a' : Addr} {i i' : Nat}
    (hw : WFN lc live h N) (hn : nodeAt N a = some M) (hi : i < M.cnts.length)
    (hn' : nodeAt N a' = some M') (hi' : i' < M'.cnts.length)
    (he : pathIds N a ++ [M.offset + (i : Int)] = pathIds N a' ++ [M'.offset + (i' : Int)]) :
    a = a' ∧ i = i' := by
  have h1 := locate_of_path hw hn hi
  have h2 := locate_of_path hw hn' hi'
  rw [he, h2] at h1
  simp only [Option.some.injEq, Prod.mk.injEq] at h1
  exact ⟨h1.1.symm, h1.2.symm⟩


/-! ### The subset test of `_child` -/

theorem checkAnc_append (supp : Int) : ∀ (anc : List ISNODE) (id : Int) (r : ISNODE)
    (set : List Int),
    checkAnc supp id (anc ++ [r]) set =
      (checkAnc supp id anc set &&
        decide (supp ≤ _getsupp r ((id :: anc.map ISNODE.id).dropLast.reverse ++ set)))
  | [], id, r, set => by
    simp only [List.nil_append, checkAnc, List.map_nil, List.dropLast_single, List.reverse_nil,
      Bool.true_and]
    by_cases h : _getsupp r set < supp
    · rw [if_pos h]; simp [h]
    · rw [if_neg h]; simp at h; simp [h]
  | p :: up, id, r, set => by
    simp only [List.cons_append, checkAnc]
    by_cases h : _getsupp p set < supp
    · rw [if_pos h, if_pos h]; rfl
    · rw [if_neg h, if_neg h]
      have := checkAnc_append supp up p.id r (id :: set)
      simp only [List.append_eq] at this ⊢
      rw [this]
      congr 2
      simp [List.dropLast]

theorem chain_getLast : ∀ (a : Addr) {r N : ISNODE}, nodeAt r a = some N →
    (chain r a).getLast? = some N
  | [], r, N, h => by
    rw [nodeAt_nil] at h; cases h; rfl
  | j :: a, r, N, h => by
    obtain ⟨c, hc, hn⟩ := nodeAt_cons_some h
    rw [chain_cons_of hc]
    have := chain_getLast a hn
    cases hch : chain c a with
    | nil => exact absurd hch (chain_ne_nil c a)
    | cons y l =>
      rw [hch] at this
      rw [List.getLast?_cons_cons]
      exact this

theorem ancOf_ids {a : Addr} {r N : ISNODE} (h : nodeAt r a = some N) :
    (N.id :: (ancOf r a).map ISNODE.id).dropLast.reverse = pathIds r a := by
  have h1 := chain_getLast a h
  have h2 := chain_head r a
  unfold ancOf pathIds
  generalize chain r a = ch at h1 h2
  obtain ⟨L, rfl⟩ : ∃ L, ch = L ++ [N] := by
    rcases List.eq_nil_or_concat ch with e | ⟨L, b, e⟩
    · rw [e] at h1; simp at h1
    · rw [e] at h1
      simp at h1
      exact ⟨L, by rw [e, h1]; simp⟩
  simp only [List.reverse_append, List.reverse_cons, List.reverse_nil, List.nil_append,
    List.singleton_append, List.tail_cons, List.map_reverse]
  cases L with
  | nil => simp
  | cons x L =>
    simp only [List.cons_append, List.tail_cons, List.map_append, List.map_cons, List.map_nil]
    rw [List.reverse_cons, ← List.cons_append, List.dropLast_concat]
    simp

/-- The loop of `_child` over the path to the root succeeds exactly when `_getsupp` finds a
counter of at least `supp` for every item set that leaves out one item of the path. -/
theorem checkAnc_tree {lc : Int} (supp : Int) : ∀ (a : Addr) {live : Bool} {h : Nat}
    {r N : ISNODE} {set : List Int}, WFN lc live h r → nodeAt r a = some N → set ≠ [] →
    (checkAnc supp N.id (ancOf r a) set = true ↔
      ∀ m : Nat, m < a.length → supp ≤ _getsupp r ((pathIds r a).eraseIdx m ++ set))
  | [], live, h, r, N, set, _, _, _ => by
    rw [ancOf_nil]
    simp [checkAnc]
  | j :: a, live, h, r, N, set, hw, hn, hs => by
    obtain ⟨c, hc, hn'⟩ := nodeAt_cons_some hn
    obtain ⟨h', first, vr, -, -, -, -, -, -, -, hwc⟩ := WFN_vec hw hc
    rw [ancOf_cons_of hc, checkAnc_append, ancOf_ids hn', Bool.and_eq_true,
      checkAnc_tree supp a hwc hn' hs, pathIds_cons_of hc, decide_eq_true_eq]
    constructor
    · rintro ⟨h1, h2⟩ m hm
      cases m with
      | zero => simpa using h2
      | succ k =>
        rw [List.eraseIdx_cons_succ, List.cons_append, getsupp_child hw hc (by simp [hs])]
        exact h1 k (by simpa using hm)
    · intro hall
      refine ⟨fun k hk => ?_, ?_⟩
      · have := hall (k + 1) (by simpa using hk)
        rwa [List.eraseIdx_cons_succ, List.cons_append,
          getsupp_child hw hc (by simp [hs])] at this
      · simpa using hall 0 (by simp)

theorem pathIds_append : ∀ (a : Addr) {r M c : ISNODE} {j : Nat}, nodeAt r a = some M →
    M.vec[j]? = some (some c) → pathIds r (a ++ [j]) = pathIds r a ++ [c.id]
  | [], r, M, c, j, h, hc => by
    rw [nodeAt_nil] at h; cases h
    rw [List.nil_append, pathIds_cons_of hc, pathIds_nil, pathIds_nil]
    rfl
  | i :: a, r, M, c, j, h, hc => by
    obtain ⟨d, hd, hn⟩ := nodeAt_cons_some h
    rw [List.cons_append, pathIds_cons_of hd, pathIds_cons_of hd, pathIds_append a hn hc]
    rfl

theorem length_pathIds {a : Addr} {r M : ISNODE} (h : nodeAt r a = some M) :
    (pathIds r a).length = a.length := by
  unfold pathIds
  rw [List.length_map, List.length_tail, length_chain a h]
  rfl


/-! ### The tree after a call of `ist_addlvl` that returns 0 -/

theorem SkipRel_pathIds {h : Nat} {N N' : ISNODE} (hs : SkipRel h N N') (a : Addr)
    (ha : a.length ≤ h) : pathIds N a = pathIds N' a :=
  TRel_pathIds (fun _ _ h => h.1) (fun _ _ h => by rw [h]) a hs ha

theorem addlvl_zero {ist : ISTREE} (hI : Inv ist) (mem : Option Nat)
    (h0 : (ist_addlvl ist mem).2 = 0) :
    ∃ r1, Grown ist.supp ist.root (ist.lvlcnt - 1) r1 ∧
      newLevel ist.supp ist.root (deepest ist) ≠ [] ∧
      WFN 0 true ist.lvlcnt r1 ∧
      WFN 0 true ist.lvlcnt (ist_addlvl ist mem).1.root ∧
      SkipRel ist.lvlcnt r1 (ist_addlvl ist mem).1.root ∧
      (ist_addlvl ist mem).1.lvlcnt = ist.lvlcnt + 1 ∧
      (ist_addlvl ist mem).1.supp = ist.supp ∧
      deepest (ist_addlvl ist mem).1 = newLevel ist.supp ist.root (deepest ist) := by
  obtain ⟨lc, hlc, hw⟩ := hI.wf
  have hp := hI.lvl_pos
  rcases addlvl_cases hI mem with ⟨h, -⟩ | ⟨r1, done, hL, -, h⟩ | ⟨r1, hG, he, h⟩ | ⟨r1, hG, hne, h⟩
  · rw [h] at h0; simp at h0
  · rw [h] at h0; simp at h0
  · rw [h] at h0; simp at h0
  · have hw1 : WFN 0 true (ist.lvlcnt - 1 + 1) r1 := Grown_wf hw hI.root_off hI.root_size hG
    obtain ⟨s1, -, s3⟩ := stskip_spec hw1
    have hd : ist.lvlcnt - 1 + 1 = ist.lvlcnt := by omega
    rw [hd] at hw1 s1 s3
    refine ⟨r1, hG, hne, hw1, ?_, ?_, ?_, ?_, ?_⟩
    · rw [h]; exact s1
    · rw [h]; exact s3
    · rw [h]
    · rw [h]
    · rw [h]
      unfold deepest
      simp only [List.getD_eq_getElem?_getD]
      rw [show ist.lvlcnt + 1 - 1 = ist.lvlcnt by omega,
        List.getElem?_append_right (by rw [hI.lvl_len]), hI.lvl_len]
      simp

theorem addlvl_pathIds {ist : ISTREE} (hI : Inv ist) (mem : Option Nat) (a : Addr)
    (ha : a.length ≤ ist.lvlcnt - 1) :
    pathIds (ist_addlvl ist mem).1.root a = pathIds ist.root a := by
  obtain ⟨lc, hlc, hw⟩ := hI.wf
  have hp := hI.lvl_pos
  rcases addlvl_cases hI mem with ⟨h, -⟩ | ⟨r1, done, hL, -, h⟩ | ⟨r1, hG, he, h⟩ | ⟨r1, hG, hne, h⟩
  · rw [h]
  · rw [h]
    exact (Sim_pathIds (cleanup_wf hw hL hI.deepest_mem hI.deepest_nodup).1 a ha).symm
  · rw [h]; exact (Sim_pathIds hG.1 a ha).symm
  · rw [h]
    have hw1 : WFN 0 true (ist.lvlcnt - 1 + 1) r1 := Grown_wf hw hI.root_off hI.root_size hG
    obtain ⟨-, -, s3⟩ := stskip_spec hw1
    have hd : ist.lvlcnt - 1 + 1 = ist.lvlcnt := by omega
    rw [hd] at s3
    show pathIds (_stskip (ist.lvlcnt + 1) r1).1 a = pathIds ist.root a
    rw [← SkipRel_pathIds s3 a (by omega), ← Sim_pathIds hG.1 a ha]

/-- A node of the tree after `ist_addlvl` that lies above the new level is a node of the tree
before the call. -/
theorem addlvl_old_node {ist : ISTREE} (hI : Inv ist) (mem : Option Nat) (a : Addr)
    (N' : ISNODE) (ha : a.length ≤ ist.lvlcnt - 1)
    (hN : nodeAt (ist_addlvl ist mem).1.root a = some N') :
    ∃ N, nodeAt ist.root a = some N ∧ N'.cnts = N.cnts ∧ N'.id = N.id ∧ N'.offset = N.offset := by
  cases ho : nodeAt ist.root a with
  | some N =>
    obtain ⟨N2, h1, h2, h3, h4⟩ := addlvl_counters hI mem a N ho
    rw [hN] at h1; cases h1
    exact ⟨N, rfl, h2, h3, h4⟩
  | none =>
    exfalso
    obtain ⟨lc, hlc, hw⟩ := hI.wf
    have hp := hI.lvl_pos
    have hsim : ∀ r1, Sim (ist.lvlcnt - 1) ist.root r1 → nodeAt r1 a = none := fun r1 hs =>
      (TRel_nodeAt a hs ha).1.1 ho
    rcases addlvl_cases hI mem with ⟨h, -⟩ | ⟨r1, done, hL, -, h⟩ | ⟨r1, hG, he, h⟩ |
        ⟨r1, hG, hne, h⟩
    · rw [h, ho] at hN; simp at hN
    · rw [h] at hN
      have := hsim _ (cleanup_wf hw hL hI.deepest_mem hI.deepest_nodup).1
      simp only at hN
      rw [this] at hN; simp at hN
    · rw [h] at hN
      have := hsim _ hG.1
      simp only at hN
      rw [this] at hN; simp at hN
    · rw [h] at hN
      have hw1 : WFN 0 true (ist.lvlcnt - 1 + 1) r1 := Grown_wf hw hI.root_off hI.root_size hG
      obtain ⟨-, -, s3⟩ := stskip_spec hw1
      have hd : ist.lvlcnt - 1 + 1 = ist.lvlcnt := by omega
      rw [hd] at s3
      have := (TRel_nodeAt a s3 (by omega)).1.1 (hsim _ hG.1)
      simp only at hN
      rw [this] at hN; simp at hN

/-- A node of the new level is a child that `_child` has created for a node of the level
above. -/
theorem addlvl_new_node {ist : ISTREE} (hI : Inv ist) (mem : Option Nat)
    (h0 : (ist_addlvl ist mem).2 = 0) (b : Addr) (c : ISNODE) (hb : b.length = ist.lvlcnt)
    (hc : nodeAt (ist_addlvl ist mem).1.root b = some c) :
    ∃ a j N, b = a ++ [j] ∧ a.length = ist.lvlcnt - 1 ∧ nodeAt ist.root a = some N ∧
      N.vec = [] ∧ c ∈ kidsOf ist.supp (ancOf ist.root a) N ∧
      pathIds (ist_addlvl ist mem).1.root b = pathIds ist.root a ++ [c.id] := by
  obtain ⟨lc, hlc, hw⟩ := hI.wf
  have hp := hI.lvl_pos
  obtain ⟨r1, hG, hne, hw1, hw2, s3, -, -, -⟩ := addlvl_zero hI mem h0
  have hbne : b ≠ [] := by intro h; rw [h] at hb; simp at hb; omega
  have hbe := List.dropLast_append_getLast hbne
  set a := b.dropLast with ha
  set j := b.getLast hbne with hj
  have hal : a.length = ist.lvlcnt - 1 := by rw [ha, List.length_dropLast]; omega
  -- the node in the tree before the skip flags are set
  obtain ⟨c1, hc1, hrel⟩ := (TRel_nodeAt b s3 (by omega)).2.2 c hc
  rw [hb, Nat.sub_self] at hrel
  have hce : c1 = c := TRel_zero.1 hrel
  subst hce
  rw [← hbe, nodeAt_append] at hc1 hc
  cases h1 : nodeAt r1 a with
  | none => rw [h1] at hc1; simp at hc1
  | some M' =>
    rw [h1] at hc1
    simp only [Option.some_bind] at hc1
    obtain ⟨N, hN, -⟩ := (TRel_nodeAt a hG.1 (by omega)).2.2 M' h1
    rw [hG.2 a N hal hN] at h1
    cases h1
    rw [nodeAt_single] at hc1
    have hCj : (attach (kidsOf ist.supp (ancOf ist.root a) N) N).vec[j]? = some (some c1) := by
      cases hg : (attach (kidsOf ist.supp (ancOf ist.root a) N) N).vec[j]? with
      | none => rw [hg] at hc1; simp at hc1
      | some oc =>
        cases oc with
        | none => rw [hg] at hc1; simp at hc1
        | some c => rw [hg] at hc1; simp at hc1; rw [hc1]
    have hv := (WFN_leaf hw hN hal).1
    obtain ⟨frst, more, hk, hmem, hid⟩ := (attach_vec_get ist.supp (ancOf ist.root a) hv j c1).1 hCj
    refine ⟨a, j, N, hbe.symm, hal, hN, hv, hmem, ?_⟩
    cases h2 : nodeAt (ist_addlvl ist mem).1.root a with
    | none => rw [h2] at hc; simp at hc
    | some Nn =>
      rw [h2] at hc
      simp only [Option.some_bind] at hc
      rw [nodeAt_single] at hc
      have hNj : Nn.vec[j]? = some (some c1) := by
        cases hg : Nn.vec[j]? with
        | none => rw [hg] at hc; simp at hc
        | some oc =>
          cases oc with
          | none => rw [hg] at hc; simp at hc
          | some c => rw [hg] at hc; simp at hc; rw [hc]
      rw [← hbe, pathIds_append a h2 hNj, addlvl_pathIds hI mem a (by omega)]

/-- Every child that `_child` creates is a node of the new level. -/
theorem addlvl_kid_node {ist : ISTREE} (hI : Inv ist) (mem : Option Nat)
    (h0 : (ist_addlvl ist mem).2 = 0) (a : Addr) (N c : ISNODE)
    (ha : a.length = ist.lvlcnt - 1) (hN : nodeAt ist.root a = some N)
    (hc : c ∈ kidsOf ist.supp (ancOf ist.root a) N) :
    ∃ j, nodeAt (ist_addlvl ist mem).1.root (a ++ [j]) = some c ∧
      pathIds (ist_addlvl ist mem).1.root (a ++ [j]) = pathIds ist.root a ++ [c.id] := by
  obtain ⟨lc, hlc, hw⟩ := hI.wf
  have hp := hI.lvl_pos
  obtain ⟨r1, hG, hne, hw1, hw2, s3, -, -, -⟩ := addlvl_zero hI mem h0
  have hv := (WFN_leaf hw hN ha).1
  cases hk : kidsOf ist.supp (ancOf ist.root a) N with
  | nil => rw [hk] at hc; simp at hc
  | cons frst more =>
    have hsorted := kidsOf_sorted ist.supp (ancOf ist.root a) N
    have hge : frst.id ≤ c.id := by
      rw [hk] at hsorted hc
      rcases List.mem_cons.1 hc with h | h
      · rw [h]
      · have := (List.pairwise_cons.1 hsorted).1 c h; omega
    have hvj := (attach_vec_get ist.supp (ancOf ist.root a) hv (c.id - frst.id).toNat c).2
      ⟨frst, more, hk, hc, by omega⟩
    have h1 : nodeAt r1 (a ++ [(c.id - frst.id).toNat]) = some c := by
      rw [nodeAt_append, hG.2 a N ha hN]
      simp only [Option.some_bind]
      rw [nodeAt_single, hvj]; rfl
    obtain ⟨c2, hc2, hrel⟩ := (TRel_nodeAt (a ++ [(c.id - frst.id).toNat]) s3
      (by simp; omega)).2.1 c h1
    have hlen : (a ++ [(c.id - frst.id).toNat]).length = ist.lvlcnt := by simp; omega
    rw [hlen, Nat.sub_self] at hrel
    have hce : c = c2 := TRel_zero.1 hrel
    subst hce
    obtain ⟨a', j', N', e1, e2, e3, e4, e5, e6⟩ :=
      addlvl_new_node hI mem h0 _ c hlen hc2
    have hae := List.append_inj_left e1 (by rw [ha, e2])
    subst hae
    exact ⟨(c.id - frst.id).toNat, hc2, e6⟩


/-! ### Downward closure -/

theorem seed_reachable (db : List (List Int)) : ∀ (k : Nat) (ist : ISTREE), Reachable ist →
    Reachable (seed db k ist)
  | 0, _, h => h
  | k + 1, ist, h => seed_reachable db k _ (Reachable.setcnt ist k _ h)

theorem gapTree_reachable : Reachable gapTree :=
  seed_reachable gapDb 4 _ (Reachable.create 4 1 (by decide) (by decide))

/-- The slots of a new node and the candidates of `_child`. -/
theorem kid_candidates {supp : Int} {anc : List ISNODE} {N c : ISNODE}
    (hc : c ∈ kidsOf supp anc N) :
    (c.id - N.offset).toNat < N.cnts.length ∧
    c.id = N.offset + ((c.id - N.offset).toNat : Int) ∧
    supp ≤ N.cnts.getD (c.id - N.offset).toNat 0 ∧
    c.offset ∈ candidates supp anc N (c.id - N.offset).toNat ∧
    c.offset + c.size - 1 ∈ candidates supp anc N (c.id - N.offset).toNat ∧
    ∀ x ∈ candidates supp anc N (c.id - N.offset).toNat,
      ∃ i : Nat, i < c.cnts.length ∧ x = c.offset + (i : Int) := by
  obtain ⟨idx, hidx, hch⟩ := mem_kidsOf.1 hc
  obtain ⟨-, hs, hid, -, -, -, -, -, -, first, more, hcand, hoff, hlast⟩ := childOf_some hch
  have he : (c.id - N.offset).toNat = idx := by rw [hid]; simp
  rw [he]
  refine ⟨hidx, hid, hs, ?_, ?_, ?_⟩
  · rw [hcand, hoff]; exact List.mem_cons_self _ _
  · rw [hcand, hlast]
    simp only [add_sub_cancel_right]
    exact getLast_mem_cons first more
  · intro x hx
    have hsorted := candidates_sorted supp anc N idx
    rw [hcand] at hx hsorted
    have h1 : first ≤ x := by
      rcases List.mem_cons.1 hx with h | h
      · rw [h]
      · have := (List.pairwise_cons.1 hsorted).1 x h; omega
    have h2 := Tract.le_getLast hsorted x hx
    refine ⟨(x - c.offset).toNat, ?_, ?_⟩
    · unfold ISNODE.size at hlast; omega
    · omega

/-- C5 (amended): after `ist_addlvl` has returned 0, the first and the last counter slot of
every node of the new deepest level hold items that `_child` has accepted as candidates, and
for every counter slot of such a node whose item is an accepted candidate, every subset
of the item set of the slot that leaves out one item is the item set of a slot of the tree
whose counter is at least `supp`. -/
theorem C5_downward_closure (ist : ISTREE) (mem : Option Nat) (hr : Reachable ist)
    (h0 : (ist_addlvl ist mem).2 = 0) (b : Addr) (c : ISNODE)
    (hb : b ∈ deepest (ist_addlvl ist mem).1)
    (hc : nodeAt (ist_addlvl ist mem).1.root b = some c) :
    ∃ N, nodeAt ist.root b.dropLast = some N ∧ b.dropLast ∈ deepest ist ∧
      c.offset ∈ candidates ist.supp (ancOf ist.root b.dropLast) N (c.id - N.offset).toNat ∧
      c.offset + c.size - 1 ∈
        candidates ist.supp (ancOf ist.root b.dropLast) N (c.id - N.offset).toNat ∧
      ∀ i : Nat, i < c.cnts.length →
        c.offset + (i : Int) ∈
          candidates ist.supp (ancOf ist.root b.dropLast) N (c.id - N.offset).toNat →
        ∀ m : Nat, m < (pathIds (ist_addlvl ist mem).1.root b ++ [c.offset + (i : Int)]).length →
          ∃ a' M' i', nodeAt (ist_addlvl ist mem).1.root a' = some M' ∧ i' < M'.cnts.length ∧
            pathIds (ist_addlvl ist mem).1.root a' ++ [M'.offset + (i' : Int)] =
              (pathIds (ist_addlvl ist mem).1.root b ++ [c.offset + (i : Int)]).eraseIdx m ∧
            ist.supp ≤ M'.cnts.getD i' 0 := by
  have hI := Inv_of_reachable hr
  have hI' := Inv_addlvl hI mem
  obtain ⟨lc, hlc, hw⟩ := hI.wf
  have hp := hI.lvl_pos
  obtain ⟨r1, hG, hne, hw1, hw2, s3, hl, hsupp, hdeep⟩ := addlvl_zero hI mem h0
  have hbl : b.length = ist.lvlcnt := by
    have := ((hI'.deepest_mem b).1 hb).1
    rw [hl] at this; omega
  obtain ⟨a, j, N, rfl, hal, hN, hv, hkid, hpath⟩ := addlvl_new_node hI mem h0 b c hbl hc
  rw [List.dropLast_concat]
  obtain ⟨k1, k2, k3, k4, k5, -⟩ := kid_candidates hkid
  refine ⟨N, hN, (hI.deepest_mem a).2 ⟨hal, by rw [hN]; rfl⟩, k4, k5, ?_⟩
  intro i hi hcand m hm
  obtain ⟨iN, hiN, hlt, hsN, hchk, hx⟩ := mem_candidates.1 hcand
  rw [← k2] at hchk
  obtain ⟨N', hN', e1, e2, e3⟩ := addlvl_counters hI mem a N hN
  have hpa := addlvl_pathIds hI mem a (by omega)
  have hplen := length_pathIds hN
  rw [hpath, List.append_assoc] at hm ⊢
  simp only [List.length_append, List.length_cons, List.length_nil] at hm
  by_cases hm1 : m < a.length
  · -- an item of the path is left out: the test of `_child` along the path
    have := (checkAnc_tree ist.supp a hw hN (by simp)).1 hchk m hm1
    obtain ⟨a', M, i', hM, hi', hp', hs'⟩ := getsupp_ge hw hI.supp_pos this
    obtain ⟨M', hM', f1, f2, f3⟩ := addlvl_counters hI mem a' M hM
    refine ⟨a', M', i', hM', by rw [f1]; exact hi', ?_, by rw [f1]; exact hs'⟩
    rw [addlvl_pathIds hI mem a' (hI.nodeAt_length hM), f3, hp',
      List.eraseIdx_append_of_lt_length (by omega), ← hx]
    rfl
  · by_cases hm2 : m = a.length
    · -- the item of the new node is left out: the counter of the candidate
      refine ⟨a, N', iN, hN', by rw [e1]; exact hiN, ?_, by rw [e1]; exact hsN⟩
      rw [hpa, e3, List.eraseIdx_append_of_length_le (by omega), hm2, hplen, Nat.sub_self, ← hx]
      rfl
    · -- the last item is left out: the counter of the slot that got the new node
      have hm3 : m = a.length + 1 := by omega
      refine ⟨a, N', (c.id - N.offset).toNat, hN', by rw [e1]; exact k1, ?_,
        by rw [e1]; exact k3⟩
      rw [hpa, e3, List.eraseIdx_append_of_length_le (by omega), hm3, hplen, ← k2]
      simp

/-- C5 (counterexample): the tree for the database `{0,1}, {0,3}` over four items with
minimal support 1.  `ist_addlvl` returns 0 and the new node below item 0 has the three slots
of the items 1, 2 and 3; the slot of item 2 stands for the set `{0,2}`, whose subset `{2}`
is the item set of no slot with a counter of at least `supp`. -/
theorem C5_gap_slot :
    Reachable gapTree ∧ (ist_addlvl gapTree none).2 = 0 ∧
    [0] ∈ deepest (ist_addlvl gapTree none).1 ∧
    nodeAt (ist_addlvl gapTree none).1.root [0] = some (ISNODE.mk 0 0 1 [0, 0, 0] []) ∧
    (pathIds (ist_addlvl gapTree none).1.root [0] ++ [1 + 1]).eraseIdx 0 = [2] ∧
    ¬ ∃ a' M' i', nodeAt (ist_addlvl gapTree none).1.root a' = some M' ∧ i' < M'.cnts.length ∧
        pathIds (ist_addlvl gapTree none).1.root a' ++ [M'.offset + (i' : Int)] = [2] ∧
        gapTree.supp ≤ M'.cnts.getD i' 0 := by
  refine ⟨gapTree_reachable, by decide, by decide, rfl, by decide, ?_⟩
  rintro ⟨a', M', i', hM, hi, hp, hs⟩
  have hI := Inv_addlvl (Inv_of_reachable gapTree_reachable) none
  obtain ⟨lc, -, hw⟩ := hI.wf
  have hroot : nodeAt (ist_addlvl gapTree none).1.root [] = some (ist_addlvl gapTree none).1.root :=
    nodeAt_nil _
  have h2 : (2 : Nat) < (ist_addlvl gapTree none).1.root.cnts.length := by decide
  have hp2 : pathIds (ist_addlvl gapTree none).1.root [] ++
      [(ist_addlvl gapTree none).1.root.offset + ((2 : Nat) : Int)] = [2] := by decide
  obtain ⟨rfl, rfl⟩ := path_inj hw hM hi hroot h2 (hp.trans hp2.symm)
  rw [nodeAt_nil] at hM
  cases hM
  revert hs
  decide

theorem C5_downward_closure_witness :
    ∃ N, nodeAt gapTree.root ([0] : Addr).dropLast = some N ∧
      ([0] : Addr).dropLast ∈ deepest gapTree ∧
      (ISNODE.mk 0 0 1 [0, 0, 0] []).offset ∈
        candidates gapTree.supp (ancOf gapTree.root ([0] : Addr).dropLast) N
          ((ISNODE.mk 0 0 1 [0, 0, 0] []).id - N.offset).toNat ∧
      (ISNODE.mk 0 0 1 [0, 0, 0] []).offset + (ISNODE.mk 0 0 1 [0, 0, 0] []).size - 1 ∈
        candidates gapTree.supp (ancOf gapTree.root ([0] : Addr).dropLast) N
          ((ISNODE.mk 0 0 1 [0, 0, 0] []).id - N.offset).toNat ∧
      ∀ i : Nat, i < (ISNODE.mk 0 0 1 [0, 0, 0] []).cnts.length →
        (ISNODE.mk 0 0 1 [0, 0, 0] []).offset + (i : Int) ∈
          candidates gapTree.supp (ancOf gapTree.root ([0] : Addr).dropLast) N
            ((ISNODE.mk 0 0 1 [0, 0, 0] []).id - N.offset).toNat →
        ∀ m : Nat, m < (pathIds (ist_addlvl gapTree none).1.root [0] ++
            [(ISNODE.mk 0 0 1 [0, 0, 0] []).offset + (i : Int)]).length →
          ∃ a' M' i', nodeAt (ist_addlvl gapTree none).1.root a' = some M' ∧
            i' < M'.cnts.length ∧
            pathIds (ist_addlvl gapTree none).1.root a' ++ [M'.offset + (i' : Int)] =
              (pathIds (ist_addlvl gapTree none).1.root [0] ++
                [(ISNODE.mk 0 0 1 [0, 0, 0] []).offset + (i : Int)]).eraseIdx m ∧
            gapTree.supp ≤ M'.cnts.getD i' 0 :=
  C5_downward_closure gapTree none gapTree_reachable (by decide) [0]
    (ISNODE.mk 0 0 1 [0, 0, 0] []) (by decide) rfl


/-! ### Counting a list of transactions -/

theorem support_nil (X : List Int) : support [] X = 0 := rfl

theorem support_cons (t : List Int) (db : List (List Int)) (X : List Int) :
    support (t :: db) X = (if contains t X = true then 1 else 0) + support db X := by
  unfold support
  rw [List.filter_cons]
  split
  · simp only [List.length_cons]; push_cast; ring
  · simp

theorem support_append (db1 db2 : List (List Int)) (X : List Int) :
    support (db1 ++ db2) X = support db1 X + support db2 X := by
  unfold support
  rw [List.filter_append, List.length_append]
  push_cast; rfl

theorem support_nonneg (db : List (List Int)) (X : List Int) : 0 ≤ support db X := by
  unfold support; exact Int.ofNat_nonneg _

theorem VecRel_symm {R S : ISNODE → ISNODE → Prop} (hRS : ∀ a b, R a b → S b a)
    {v w : List (Option ISNODE)} (h : VecRel R v w) : VecRel S w v := by
  refine ⟨fun j => (h.1 j).symm, fun j => (h.2.1 j).symm, fun j d hd => ?_⟩
  obtain ⟨c, hc, hr⟩ := h.inv hd
  exact ⟨c, hc, hRS _ _ hr⟩

theorem Shape_symm : ∀ {h : Nat} {a b : ISNODE}, Shape h a b → Shape h b a
  | 0, a, b, hs => by
    have := TRel_zero.1 hs
    exact TRel_zero.2 ⟨this.1.symm, this.2.1.symm, this.2.2.1.symm, this.2.2.2.1.symm,
      this.2.2.2.2.symm⟩
  | h + 1, a, b, hs => by
    have := TRel_succ.1 hs
    exact TRel_succ.2 ⟨⟨this.1.1.symm, this.1.2.1.symm, this.1.2.2.1.symm, this.1.2.2.2.symm⟩,
      VecRel_symm (fun _ _ h => Shape_symm h) this.2⟩

/-- Two trees that differ only in the values of counters and agree in them are equal. -/
theorem Shape_ext : ∀ {h : Nat} {A B : ISNODE}, Shape h A B →
    (∀ (a : Addr) (M M' : ISNODE), nodeAt A a = some M → nodeAt B a = some M' →
      M.cnts = M'.cnts) → A = B
  | 0, A, B, hs, hc => by
    have := TRel_zero.1 hs
    exact ISNODE.ext_fields this.1 this.2.1 this.2.2.1 (hc [] A B (nodeAt_nil _) (nodeAt_nil _))
      this.2.2.2.2
  | h + 1, A, B, hs, hc => by
    have hs' := TRel_succ.1 hs
    refine ISNODE.ext_fields hs'.1.1 hs'.1.2.1 hs'.1.2.2.1
      (hc [] A B (nodeAt_nil _) (nodeAt_nil _)) ?_
    apply List.ext_getElem?
    intro j
    cases hv : A.vec[j]? with
    | none => rw [(hs'.2.1 j).1 hv]
    | some oc =>
      cases oc with
      | none => rw [(hs'.2.2.1 j).1 hv]
      | some c =>
        obtain ⟨d, hd, hr⟩ := hs'.2.2.2 j c hv
        rw [hd]
        have : c = d := Shape_ext hr (fun a M M' hM hM' =>
          hc (j :: a) M M' (by rw [nodeAt_cons_of hv]; exact hM)
            (by rw [nodeAt_cons_of hd]; exact hM'))
        rw [this]

theorem Counted_refl (h : Nat) (N : ISNODE) : Counted [] h N N := by
  refine ⟨Shape.refl_shape h N, fun a M M' hM hM' i _ => ?_⟩
  rw [hM] at hM'; cases hM'
  simp [support_nil]

theorem Shape_node {h : Nat} {N N' : ISNODE} (hs : Shape h N N') {a : Addr} {M : ISNODE}
    (ha : a.length ≤ h) (hM : nodeAt N a = some M) :
    ∃ M', nodeAt N' a = some M' ∧ M'.id = M.id ∧ M'.chcnt = M.chcnt ∧ M'.offset = M.offset ∧
      M'.cnts.length = M.cnts.length := by
  obtain ⟨M', h1, h2⟩ := (TRel_nodeAt a hs ha).2.1 M hM
  have := Shape.fields_shape h2
  exact ⟨M', h1, this.1.symm, this.2.1.symm, this.2.2.1.symm, this.2.2.2.symm⟩

/-- Counting one list of transactions after another. -/
theorem Counted_trans {lc : Int} {live : Bool} {ts1 ts2 : List (List Int)} {h : Nat}
    {N N1 N2 : ISNODE} (hw : WFN lc live h N)
    (h1 : Counted ts1 h N N1) (h2 : Counted ts2 h N1 N2) : Counted (ts1 ++ ts2) h N N2 := by
  refine ⟨h1.1.trans_shape h2.1, fun a M M2 hM hM2 i hi => ?_⟩
  have hal := (WFN_at a hw hM).1
  obtain ⟨M1, hM1, f1, f2, f3, f4⟩ := Shape_node h1.1 hal hM
  rw [h2.2 a M1 M2 hM1 hM2 i (by rw [f4]; exact hi), h1.2 a M M1 hM hM1 i hi, f2, f3,
    ← Shape_pathIds h1.1 a hal, support_append]
  split <;> ring

theorem Counted_congr {ts1 ts2 : List (List Int)} {h : Nat} {N N' : ISNODE}
    (hs : ∀ X, support ts1 X = support ts2 X) (hc : Counted ts1 h N N') : Counted ts2 h N N' := by
  refine ⟨hc.1, fun a M M' hM hM' i hi => ?_⟩
  rw [hc.2 a M M' hM hM' i hi, hs]

/-- One call of `_count`. -/
theorem count_counted {lc : Int} (hlc : lc ≤ 0) {live : Bool} {h : Nat} {N : ISNODE}
    {t : List Int} (hw : WFN lc live h N) (ht : Tract t) :
    Counted [t] h N (_count (h + 1) N t ((h : Int) + 1)) := by
  refine ⟨count_shape hlc _ hw ht rfl, fun a M M' hM hM' i hi => ?_⟩
  obtain ⟨M2, c1, -, -, -, -, -, -, c8⟩ := count_at hlc a (t := t) ((h : Int) + 1) hw ht rfl hM
  rw [hM'] at c1; cases c1
  rw [c8 i, support_cons, support_nil]
  by_cases h0 : M.chcnt = 0
  · simp only [h0, hi, true_and, if_true, contains_iff, add_zero]
  · simp [h0]

/-- The calls of `_count` for a list of transactions. -/
theorem count_fold {lc : Int} (hlc : lc ≤ 0) {live : Bool} {h : Nat} :
    ∀ (ts : List (List Int)) {N : ISNODE}, WFN lc live h N → (∀ t ∈ ts, Tract t) →
    Counted ts h N (ts.foldl (fun nd t => _count (h + 1) nd t ((h : Int) + 1)) N)
  | [], N, _, _ => Counted_refl h N
  | t :: ts, N, hw, ht => by
    have h1 := count_counted hlc hw (ht t (List.mem_cons_self _ _))
    have hw1 := WFN_shape hw h1.1
    have h2 := count_fold hlc ts hw1 (fun t' h' => ht t' (List.mem_cons_of_mem _ h'))
    exact Counted_trans hw h1 h2

/-- A counting pass over a database. -/
theorem countAll_counted : ∀ (db : List (List Int)) {ist : ISTREE}, Inv ist →
    (∀ t ∈ db, Tract t) →
    Inv (countAll ist db) ∧ (countAll ist db).lvlcnt = ist.lvlcnt ∧
    (countAll ist db).levels = ist.levels ∧ (countAll ist db).supp = ist.supp ∧
    Counted db (ist.lvlcnt - 1) ist.root (countAll ist db).root
  | [], ist, hI, _ => ⟨hI, rfl, rfl, rfl, Counted_refl _ _⟩
  | t :: db, ist, hI, ht => by
    have htt := ht t (List.mem_cons_self _ _)
    have hI1 := Inv_count hI htt
    obtain ⟨lc, hlc, hw⟩ := hI.wf
    have hp := hI.lvl_pos
    have hl1 : (ist_count ist t).lvlcnt = ist.lvlcnt := by unfold ist_count; split <;> rfl
    have hv1 : (ist_count ist t).levels = ist.levels := by unfold ist_count; split <;> rfl
    have hs1 : (ist_count ist t).supp = ist.supp := by unfold ist_count; split <;> rfl
    obtain ⟨k1, k2, k3, k4, k5⟩ := countAll_counted db hI1
      (fun t' h' => ht t' (List.mem_cons_of_mem _ h'))
    have hc := count_counted (wf_lc_le hlc) hw htt
    have he : ist.lvlcnt - 1 + 1 = ist.lvlcnt := by omega
    have hmin : ((ist.lvlcnt - 1 : Nat) : Int) + 1 = (ist.lvlcnt : Int) := by omega
    rw [he, hmin, ← ist_count_root hI] at hc
    rw [hl1] at k5
    refine ⟨k1, k2.trans hl1, k3.trans hv1, k4.trans hs1, ?_⟩
    exact @Counted_trans lc true [t] db (ist.lvlcnt - 1) _ _ _ hw hc k5


/-! ### Exactness of the counters in the mining run -/

theorem seed_inv (db : List (List Int)) : ∀ (k : Nat) (ist : ISTREE), Inv ist →
    Inv (seed db k ist)
  | 0, _, h => h
  | k + 1, ist, h => seed_inv db k _ (Inv_setcnt h _ _)

theorem setcnt_root (ist : ISTREE) (item cnt : Int) :
    (ist_setcnt ist item cnt).root = ist.root.setCnts
      (if 0 ≤ item - ist.root.offset ∧ item - ist.root.offset < ist.root.size then
        ist.root.cnts.set (item - ist.root.offset).toNat cnt else ist.root.cnts) := by
  unfold ist_setcnt
  split
  · rfl
  · rw [ISNODE.setCnts_cnts]

theorem ISNODE.setCnts_setCnts (N : ISNODE) (c1 c2 : List Int) :
    (N.setCnts c1).setCnts c2 = N.setCnts c2 := by
  cases N; rfl

theorem seed_spec (db : List (List Int)) : ∀ (k : Nat) (ist : ISTREE), ist.root.offset = 0 →
    ∃ cs : List Int, (seed db k ist).root = ist.root.setCnts cs ∧
      cs.length = ist.root.cnts.length ∧
      ∀ i : Nat, i < ist.root.cnts.length →
        cs.getD i 0 = if i < k then support db [(i : Int)] else ist.root.cnts.getD i 0
  | 0, ist, _ => ⟨ist.root.cnts, by rw [ISNODE.setCnts_cnts]; rfl, rfl, fun i _ => by simp⟩
  | k + 1, ist, ho => by
    have hs : seed db (k + 1) ist = seed db k (ist_setcnt ist k (support db [(k : Int)])) := rfl
    have hr := setcnt_root ist k (support db [(k : Int)])
    obtain ⟨cs, h1, h2, h3⟩ := seed_spec db k (ist_setcnt ist k (support db [(k : Int)]))
      (by rw [hr]; simpa using ho)
    rw [hs, h1, hr, ISNODE.setCnts_setCnts]
    rw [hr] at h2 h3
    simp only [ISNODE.cnts_setCnts, ho, sub_zero, Int.toNat_ofNat] at h2 h3
    have hlen : (if 0 ≤ (k : Int) ∧ (k : Int) < ist.root.size then
        ist.root.cnts.set k (support db [(k : Int)]) else ist.root.cnts).length =
        ist.root.cnts.length := by
      split <;> simp
    rw [hlen] at h2 h3
    refine ⟨cs, rfl, h2, fun i hi => ?_⟩
    rw [h3 i hi]
    have hsz : ist.root.size = (ist.root.cnts.length : Int) := rfl
    by_cases h4 : i < k
    · rw [if_pos h4, if_pos (by omega)]
    · rw [if_neg h4]
      by_cases h5 : i = k
      · subst h5
        have e1 : (if i < i + 1 then support db [(i : Int)] else ist.root.cnts.getD i 0) =
            support db [(i : Int)] := if_pos (by omega)
        have e2 : (if 0 ≤ (i : Int) ∧ (i : Int) < ist.root.size then
            ist.root.cnts.set i (support db [(i : Int)]) else ist.root.cnts) =
            ist.root.cnts.set i (support db [(i : Int)]) := if_pos ⟨by omega, by rw [hsz]; omega⟩
        rw [e1, e2]
        simp [List.getD_eq_getElem?_getD, hi]
      · have e1 : (if i < k + 1 then support db [(i : Int)] else ist.root.cnts.getD i 0) =
            ist.root.cnts.getD i 0 := if_neg (by omega)
        rw [e1]
        split
        · simp only [List.getD_eq_getElem?_getD]
          rw [List.getElem?_set_ne (by omega)]
        · rfl

theorem Exact_seed (db : List (List Int)) (n : Nat) (supp : Int) (hn : (n : Int) ≤ INT_MAX)
    (hs : 1 ≤ supp) : Exact db (seed db n (ist_create n supp)) := by
  have hI := seed_inv db n _ (Inv_create n supp hn hs)
  obtain ⟨cs, h1, h2, h3⟩ := seed_spec db n (ist_create n supp) rfl
  intro a M i hM hi
  have hal := hI.nodeAt_length hM
  have hlv : (seed db n (ist_create n supp)).lvlcnt - 1 = 0 := by
    have : ∀ (k : Nat) (ist : ISTREE), (seed db k ist).lvlcnt = ist.lvlcnt := by
      intro k
      induction k with
      | zero => intro ist; rfl
      | succ k ih =>
        intro ist
        show (seed db k (ist_setcnt ist k (support db [(k : Int)]))).lvlcnt = ist.lvlcnt
        rw [ih]
        unfold ist_setcnt
        split <;> rfl
    rw [this]; rfl
  rw [hlv] at hal
  have ha : a = [] := List.length_eq_zero.1 (by omega)
  subst ha
  rw [nodeAt_nil] at hM
  cases hM
  have hlen : (ist_create n supp).root.cnts.length = n := by simp [ist_create, ist_init]
  rw [h1] at hi ⊢
  simp only [ISNODE.cnts_setCnts] at hi ⊢
  rw [h2, hlen] at hi
  rw [h3 i (by rw [hlen]; exact hi), if_pos hi, pathIds_nil]
  simp [ist_create, ist_init]

theorem addlvl_one_lvlcnt {ist : ISTREE} (hI : Inv ist) (h : (ist_addlvl ist none).2 ≠ 0) :
    (ist_addlvl ist none).1.lvlcnt = ist.lvlcnt ∧ (ist_addlvl ist none).2 = 1 ∧
    newLevel ist.supp ist.root (deepest ist) = [] := by
  rcases addlvl_cases_none hI with ⟨r1, -, he, h1⟩ | ⟨r1, -, -, h1⟩
  · rw [h1]; exact ⟨rfl, rfl, he⟩
  · rw [h1] at h; exact absurd rfl h

/-- The counters stay exact over a call of `ist_addlvl` that adds no level. -/
theorem Exact_addlvl_one {db : List (List Int)} {ist : ISTREE} (hI : Inv ist)
    (hE : Exact db ist) (h : (ist_addlvl ist none).2 ≠ 0) :
    Exact db (ist_addlvl ist none).1 := by
  intro a M' i hM' hi
  have hal := (Inv_addlvl hI none).nodeAt_length hM'
  rw [(addlvl_one_lvlcnt hI h).1] at hal
  obtain ⟨M, hM, e1, e2, e3⟩ := addlvl_old_node hI none a M' hal hM'
  rw [addlvl_pathIds hI none a hal, e1, e3]
  rw [e1] at hi
  exact hE a M i hM hi

/-- The counters are exact after a call of `ist_addlvl` that adds a level and the counting
pass that follows. -/
theorem Exact_addlvl_zero {db : List (List Int)} {ist : ISTREE} (hI : Inv ist)
    (hE : Exact db ist) (hdb : ∀ t ∈ db, Tract t) (h0 : (ist_addlvl ist none).2 = 0) :
    Exact db (countAll (ist_addlvl ist none).1 db) := by
  have hI1 := Inv_addlvl hI none
  have hp := hI.lvl_pos
  obtain ⟨r1, hG, hne, hw1, hw2, s3, hl, hsupp, hdeep⟩ := addlvl_zero hI none h0
  obtain ⟨k1, k2, k3, k4, k5⟩ := countAll_counted db hI1 hdb
  rw [hl, show ist.lvlcnt + 1 - 1 = ist.lvlcnt by omega] at k5
  intro a M2 i hM2 hi
  have hal : a.length ≤ ist.lvlcnt := by
    have := k1.nodeAt_length hM2
    rw [k2, hl] at this; omega
  obtain ⟨M1, hM1, -⟩ := (TRel_nodeAt a k5.1 hal).2.2 M2 hM2
  obtain ⟨M2', hM2', f1, f2, f3, f4⟩ := Shape_node k5.1 hal hM1
  rw [hM2] at hM2'; cases hM2'
  rw [f4] at hi
  rw [k5.2 a M1 M2 hM1 hM2 i hi, ← Shape_pathIds k5.1 a hal, f3]
  by_cases hlt : a.length ≤ ist.lvlcnt - 1
  · -- a node above the new level: its counters are those from before the call
    obtain ⟨M, hM, e1, e2, e3⟩ := addlvl_old_node hI none a M1 hlt hM1
    have hch : M1.chcnt ≠ 0 := by
      intro hz
      have := hI1.chcnt_zero_deepest hM1 hz
      rw [hl] at this; omega
    rw [if_neg hch, add_zero, addlvl_pathIds hI none a hlt, e1, e3]
    rw [e1] at hi
    exact hE a M i hM hi
  · -- a node of the new level: its counters were zero
    obtain ⟨a0, j, N, -, -, -, -, hkid, -⟩ := addlvl_new_node hI none h0 a M1 (by omega) hM1
    obtain ⟨idx, -, hch⟩ := mem_kidsOf.1 hkid
    obtain ⟨-, -, -, hc0, -, -, -, -, hz, -⟩ := childOf_some hch
    have hzero : M1.cnts.getD i 0 = 0 := by
      rw [List.getD_eq_getElem?_getD, List.getElem?_eq_getElem hi]
      exact hz _ (List.getElem_mem _)
    rw [if_pos hc0, hzero, zero_add]

theorem Exact_rounds (db : List (List Int)) (hdb : ∀ t ∈ db, Tract t) : ∀ (k : Nat)
    (ist : ISTREE), Inv ist → Exact db ist →
    Inv (rounds db k ist) ∧ Exact db (rounds db k ist)
  | 0, _, hI, hE => ⟨hI, hE⟩
  | k + 1, ist, hI, hE => by
    unfold rounds
    split
    · rename_i h0
      exact Exact_rounds db hdb k _ (countAll_counted db (Inv_addlvl hI none) hdb).1
        (Exact_addlvl_zero hI hE hdb h0)
    · rename_i h0
      exact Exact_rounds db hdb k _ (Inv_addlvl hI none) (Exact_addlvl_one hI hE h0)

/-- C2: in the mining run on a database of transactions with ascending item ids (`ist_create`,
the root counters seeded with the supports of the items, then rounds of `ist_addlvl` followed,
when it returns 0, by `ist_count` on every transaction), after every number of rounds every
counter `cnts[i]` of every node `N` of the tree equals the number of transactions of the
database that contain the ids on the path to `N` and the item `N.offset + i`. -/
theorem C2_exactness (db : List (List Int)) (n : Nat) (supp : Int) (k : Nat)
    (hn : (n : Int) ≤ INT_MAX) (hs : 1 ≤ supp) (hdb : ∀ t ∈ db, Tract t)
    (a : Addr) (N : ISNODE) (i : Nat)
    (hN : nodeAt (rounds db k (seed db n (ist_create n supp))).root a = some N)
    (hi : i < N.cnts.length) :
    N.cnts.getD i 0 =
      support db (pathIds (rounds db k (seed db n (ist_create n supp))).root a ++
        [N.offset + (i : Int)]) :=
  (Exact_rounds db hdb k _ (seed_inv db n _ (Inv_create n supp hn hs))
    (Exact_seed db n supp hn hs)).2 a N i hN hi

theorem gapDb_tract : ∀ t ∈ gapDb, Tract t := by
  unfold gapDb Tract
  simp

theorem C2_exactness_witness :
    (ISNODE.mk 0 0 1 [1, 0, 1] []).cnts.getD 2 0 =
      support gapDb (pathIds (rounds gapDb 1 (seed gapDb 4 (ist_create 4 1))).root [0] ++
        [(ISNODE.mk 0 0 1 [1, 0, 1] []).offset + ((2 : Nat) : Int)]) :=
  C2_exactness gapDb 4 1 1 (by decide) (by decide) gapDb_tract [0]
    (ISNODE.mk 0 0 1 [1, 0, 1] []) 2 rfl (by decide)


/-! ### Completeness of the candidate generation -/

theorem support_mono (db : List (List Int)) {X Y : List Int} (h : ∀ y ∈ Y, y ∈ X) :
    support db X ≤ support db Y := by
  unfold support
  rw [← List.countP_eq_length_filter, ← List.countP_eq_length_filter]
  have := List.countP_mono_left (l := db) (p := fun t => contains t X)
    (q := fun t => contains t Y) (fun t _ ht => by
      rw [contains_iff] at ht ⊢
      exact fun y hy => ht y (h y hy))
  exact_mod_cast this

theorem support_pos_mem {db : List (List Int)} {X : List Int} (h : 1 ≤ support db X) :
    ∃ t ∈ db, ∀ x ∈ X, x ∈ t := by
  unfold support at h
  have hpos : 0 < (db.filter (fun t => contains t X)).length := by omega
  obtain ⟨t, ht⟩ := List.exists_mem_of_length_pos hpos
  rw [List.mem_filter] at ht
  exact ⟨t, ht.1, (contains_iff t X).1 ht.2⟩

theorem pathIds_inj {lc : Int} : ∀ (a a' : Addr) {live : Bool} {h : Nat} {N M M' : ISNODE},
    WFN lc live h N → nodeAt N a = some M → nodeAt N a' = some M' →
    pathIds N a = pathIds N a' → a = a'
  | [], [], _, _, _, _, _, _, _, _, _ => rfl
  | [], j :: a', _, _, N, M, M', _, _, h2, he => by
    have := length_pathIds h2
    rw [← he, pathIds_nil] at this
    simp at this
  | j :: a, [], _, _, N, M, M', _, h1, _, he => by
    have := length_pathIds h1
    rw [he, pathIds_nil] at this
    simp at this
  | j :: a, j' :: a', live, h, N, M, M', hw, h1, h2, he => by
    obtain ⟨c, hc, hn⟩ := nodeAt_cons_some h1
    obtain ⟨c', hc', hn'⟩ := nodeAt_cons_some h2
    rw [pathIds_cons_of hc, pathIds_cons_of hc'] at he
    simp only [List.cons.injEq] at he
    obtain ⟨h', first, vr, -, hv, hid, -, -, -, -, hwc⟩ := WFN_vec hw hc
    obtain ⟨h'', first', vr', -, hv', hid', -, -, -, -, -⟩ := WFN_vec hw hc'
    have hf : first' = first := by
      rw [hv] at hv'
      simp only [List.cons.injEq, Option.some.injEq] at hv'
      exact hv'.1.symm
    subst hf
    have hj : j = j' := by
      have := he.1
      rw [hid, hid'] at this
      omega
    subst hj
    rw [hc] at hc'
    simp only [Option.some.injEq] at hc'
    subst hc'
    rw [pathIds_inj a a' hwc hn hn' he.2]

theorem sorted_range_length : ∀ (l : List Int) (lo hi : Int), Tract l →
    (∀ x ∈ l, lo ≤ x ∧ x < hi) → (l.length : Int) ≤ max (hi - lo) 0
  | [], lo, hi, _, _ => by simp
  | x :: l, lo, hi, ht, hr => by
    have h1 := sorted_range_length l (x + 1) hi ht.tail (fun y hy =>
      ⟨by have := ht.head_lt y hy; omega, (hr y (List.mem_cons_of_mem _ hy)).2⟩)
    have h2 := hr x (List.mem_cons_self _ _)
    simp only [List.length_cons]
    push_cast
    omega

theorem two_last {α : Type} (X : List α) (d : Nat) (h : X.length = d + 2) :
    ∃ P y x, X = P ++ [y, x] ∧ P.length = d := by
  rcases List.eq_nil_or_concat X with e | ⟨L, x, e⟩
  · rw [e] at h; simp at h
  · rcases List.eq_nil_or_concat L with e' | ⟨P, y, e'⟩
    · rw [e, e'] at h; simp at h
    · refine ⟨P, y, x, by rw [e, e']; simp, ?_⟩
      rw [e, e'] at h
      simp at h
      omega

theorem Tract.sublist {s t : List Int} (h : s.Sublist t) (ht : Tract t) : Tract s :=
  List.Pairwise.sublist h ht

/-- The candidate test of `_child` accepts the last item of a frequent item set with one
item more than the tree has levels, and the child of the second last item has a slot for
it. -/
theorem grow_candidate {db : List (List Int)} {ist : ISTREE} (hI : Inv ist)
    (hE : Exact db ist) (hC : Complete db ist.lvlcnt ist) {X : List Int} (hX : Tract X)
    (hl : X.length = ist.lvlcnt + 1) (hs : ist.supp ≤ support db X) :
    ∃ a M c, a.length = ist.lvlcnt - 1 ∧ nodeAt ist.root a = some M ∧
      c ∈ kidsOf ist.supp (ancOf ist.root a) M ∧
      ∃ i : Nat, i < c.cnts.length ∧ pathIds ist.root a ++ [c.id, c.offset + (i : Int)] = X := by
  obtain ⟨lc, hlc, hw⟩ := hI.wf
  have hp := hI.lvl_pos
  obtain ⟨P, y, x, rfl, hPl⟩ := two_last X (ist.lvlcnt - 1) (by omega)
  -- the two subsets without one of the last two items
  have hy : ist.supp ≤ support db (P ++ [y]) :=
    le_trans hs (support_mono db (fun z hz => by simp at hz ⊢; tauto))
  have hx : ist.supp ≤ support db (P ++ [x]) :=
    le_trans hs (support_mono db (fun z hz => by simp at hz ⊢; tauto))
  have hty : Tract (P ++ [y]) :=
    Tract.sublist (List.Sublist.append_left (List.sublist_append_left [y] [x])  P)
      (by simpa using hX)
  have htx : Tract (P ++ [x]) :=
    Tract.sublist (List.Sublist.append_left (List.sublist_append_right [y] [x]) P)
      (by simpa using hX)
  obtain ⟨a, M, i1, hM, hi1, hp1⟩ := hC (P ++ [y]) (by simp) hty (by simp; omega) hy
  obtain ⟨a2, M2, i2, hM2, hi2, hp2⟩ := hC (P ++ [x]) (by simp) htx (by simp; omega) hx
  obtain ⟨e1, e1'⟩ := List.append_inj' hp1 rfl
  obtain ⟨e2, e2'⟩ := List.append_inj' hp2 rfl
  simp only [List.cons.injEq, and_true] at e1' e2'
  have ha2 : a2 = a := pathIds_inj a2 a hw hM2 hM (by rw [e1, e2])
  subst ha2
  rw [hM] at hM2; cases hM2
  have hal : a2.length = ist.lvlcnt - 1 := by rw [← length_pathIds hM, e1, hPl]
  have hyx : y < x := by
    have := List.pairwise_append.1 hX
    have := this.2.1
    simp at this
    exact this
  have hc1 : ist.supp ≤ M.cnts.getD i1 0 := by rw [hE a2 M i1 hM hi1, hp1]; exact hy
  have hc2 : ist.supp ≤ M.cnts.getD i2 0 := by rw [hE a2 M i2 hM hi2, hp2]; exact hx
  -- the test along the path
  have hchk : checkAnc ist.supp M.id (ancOf ist.root a2)
      [M.offset + (i1 : Int), M.offset + (i2 : Int)] = true := by
    rw [checkAnc_tree ist.supp a2 hw hM (by simp)]
    intro m hm
    have hsub : (P.eraseIdx m ++ [y, x]).Sublist (P ++ [y, x]) :=
      List.Sublist.append_right (List.eraseIdx_sublist P m) _
    have hPm : (P.eraseIdx m).length = ist.lvlcnt - 1 - 1 := by
      rw [List.length_eraseIdx, hPl, if_pos (by omega)]
    obtain ⟨a3, M3, i3, hM3, hi3, hp3⟩ := hC (P.eraseIdx m ++ [y, x]) (by simp)
      (Tract.sublist hsub hX) (by simp [hPm]; omega)
      (le_trans hs (support_mono db (fun z hz => hsub.subset hz)))
    rw [e1, e1', e2', ← hp3, getsupp_of_path hw hM3 hi3, hE a3 M3 i3 hM3 hi3, hp3]
    exact le_trans hs (support_mono db (fun z hz => hsub.subset hz))
  have hcand : x ∈ candidates ist.supp (ancOf ist.root a2) M i1 :=
    mem_candidates.2 ⟨i2, hi2, by omega, hc2, hchk, e2'.symm⟩
  -- the child of slot `i1`
  obtain ⟨c, hch⟩ : ∃ c, childOf ist.supp (ancOf ist.root a2) M i1 = some c := by
    unfold childOf
    rw [if_neg (by omega)]
    cases hcd : candidates ist.supp (ancOf ist.root a2) M i1 with
    | nil => rw [hcd] at hcand; simp at hcand
    | cons first more => exact ⟨_, rfl⟩
  have hkid : c ∈ kidsOf ist.supp (ancOf ist.root a2) M := mem_kidsOf.2 ⟨i1, hi1, hch⟩
  obtain ⟨-, -, hid, -⟩ := childOf_some hch
  obtain ⟨k1, k2, k3, k4, k5, k6⟩ := kid_candidates hkid
  have hidx : (c.id - M.offset).toNat = i1 := by rw [hid]; simp
  rw [hidx] at k6
  obtain ⟨i, hi, hxi⟩ := k6 x hcand
  refine ⟨a2, M, c, hal, hM, hkid, i, hi, ?_⟩
  rw [e1, hid, e1', ← hxi]


/-! ### The invariant of the mining run -/

theorem seed_fields (db : List (List Int)) : ∀ (k : Nat) (ist : ISTREE),
    (seed db k ist).lvlcnt = ist.lvlcnt ∧ (seed db k ist).levels = ist.levels ∧
    (seed db k ist).supp = ist.supp
  | 0, _ => ⟨rfl, rfl, rfl⟩
  | k + 1, ist => by
    have hs : seed db (k + 1) ist = seed db k (ist_setcnt ist k (support db [(k : Int)])) := rfl
    obtain ⟨h1, h2, h3⟩ := seed_fields db k (ist_setcnt ist k (support db [(k : Int)]))
    rw [hs, h1, h2, h3]
    unfold ist_setcnt
    split <;> exact ⟨rfl, rfl, rfl⟩

theorem Repr_addlvl {ist : ISTREE} (hI : Inv ist) (mem : Option Nat) {X : List Int}
    (h : Repr ist X) : Repr (ist_addlvl ist mem).1 X := by
  obtain ⟨a, M, i, hM, hi, hp⟩ := h
  obtain ⟨M', hM', e1, e2, e3⟩ := addlvl_counters hI mem a M hM
  exact ⟨a, M', i, hM', by rw [e1]; exact hi,
    by rw [addlvl_pathIds hI mem a (hI.nodeAt_length hM), e3]; exact hp⟩

theorem Repr_shape {ist ist' : ISTREE} (hI : Inv ist)
    (hs : Shape (ist.lvlcnt - 1) ist.root ist'.root) {X : List Int} (h : Repr ist X) :
    Repr ist' X := by
  obtain ⟨a, M, i, hM, hi, hp⟩ := h
  have hal := hI.nodeAt_length hM
  obtain ⟨M', hM', f1, f2, f3, f4⟩ := Shape_node hs hal hM
  exact ⟨a, M', i, hM', by rw [f4]; exact hi, by rw [← Shape_pathIds hs a hal, f3]; exact hp⟩

theorem Mining_seed (db : List (List Int)) (n : Nat) (supp : Int) (hn : (n : Int) ≤ INT_MAX)
    (hs : 1 ≤ supp) (hdb : ∀ t ∈ db, ∀ x ∈ t, 0 ≤ x ∧ x < (n : Int)) :
    Mining db n supp (seed db n (ist_create n supp)) := by
  have hI := seed_inv db n _ (Inv_create n supp hn hs)
  obtain ⟨cs, h1, h2, h3⟩ := seed_spec db n (ist_create n supp) rfl
  obtain ⟨f1, f2, f3⟩ := seed_fields db n (ist_create n supp)
  have hlen : (ist_create n supp).root.cnts.length = n := by simp [ist_create, ist_init]
  have hsize : (seed db n (ist_create n supp)).root.cnts.length = n := by
    rw [h1, ISNODE.cnts_setCnts, h2, hlen]
  refine ⟨hI, Exact_seed db n supp hn hs, ?_, hsize, by rw [f3]; rfl, ?_⟩
  · intro X hne hX hl hsupp
    rw [f1] at hl
    rw [f3] at hsupp
    have hl1 : X.length ≤ 1 := hl
    obtain ⟨x, rfl⟩ : ∃ x, X = [x] := by
      cases X with
      | nil => exact absurd rfl hne
      | cons x r =>
        cases r with
        | nil => exact ⟨x, rfl⟩
        | cons y r => simp at hl1
    have h1s : 1 ≤ support db [x] := le_trans hs hsupp
    obtain ⟨t, ht, hx⟩ := support_pos_mem h1s
    have hr := hdb t ht x (hx x (List.mem_singleton_self x))
    refine ⟨[], _, x.toNat, nodeAt_nil _, by rw [hsize]; omega, ?_⟩
    rw [pathIds_nil, hI.root_off]
    simp
    omega
  · intro k hk
    rw [f1] at hk
    rw [f2]
    have : k = 0 := by
      have : k < 1 := hk
      omega
    subst this
    simp [ist_create, ist_init]

/-- The height of the tree cannot exceed the number of items. -/
theorem height_bound {db : List (List Int)} {n : Nat} {supp : Int} {ist : ISTREE}
    (hm : Mining db n supp ist) (h0 : (ist_addlvl ist none).2 = 0) : ist.lvlcnt + 1 ≤ n := by
  have hI := hm.inv
  have hI1 := Inv_addlvl hI none
  have hp := hI.lvl_pos
  obtain ⟨r1, hG, hne, hw1, hw2, s3, hl, hsupp, hdeep⟩ := addlvl_zero hI none h0
  obtain ⟨b, hb⟩ := List.exists_mem_of_ne_nil _ hne
  rw [← hdeep] at hb
  obtain ⟨hbl, hbs⟩ := (hI1.deepest_mem b).1 hb
  rw [hl] at hbl
  obtain ⟨c, hc⟩ := Option.isSome_iff_exists.1 hbs
  obtain ⟨a0, j, N, -, -, -, -, hkid, -⟩ := addlvl_new_node hI none h0 b c (by omega) hc
  obtain ⟨idx, -, hch⟩ := mem_kidsOf.1 hkid
  obtain ⟨-, -, -, -, -, -, hcne, -⟩ := childOf_some hch
  have hpos : 0 < c.cnts.length := List.length_pos.2 hcne
  obtain ⟨ht, hr⟩ := path_sorted b hw2 hc 0 hpos
  have hroot : (ist_addlvl ist none).1.root.cnts.length = n := by
    obtain ⟨R, hR, e1, -, -⟩ := addlvl_counters hI none [] ist.root (nodeAt_nil _)
    rw [nodeAt_nil] at hR
    cases hR
    rw [e1, hm.size]
  have := sorted_range_length _ _ _ ht hr
  rw [hI1.root_off] at this
  unfold ISNODE.size at this
  rw [hroot] at this
  simp only [List.length_append, length_pathIds hc, List.length_cons, List.length_nil] at this
  push_cast at this
  omega

theorem Mining_zero {db : List (List Int)} {n : Nat} {supp : Int} {ist : ISTREE}
    (hm : Mining db n supp ist) (hdb : ∀ t ∈ db, Tract t) (h0 : (ist_addlvl ist none).2 = 0) :
    Mining db n supp (countAll (ist_addlvl ist none).1 db) := by
  have hI := hm.inv
  have hI1 := Inv_addlvl hI none
  have hp := hI.lvl_pos
  obtain ⟨r1, hG, hne, hw1, hw2, s3, hl, hsupp, hdeep⟩ := addlvl_zero hI none h0
  obtain ⟨k1, k2, k3, k4, k5⟩ := countAll_counted db hI1 hdb
  refine ⟨k1, Exact_addlvl_zero hI hm.exact hdb h0, ?_, ?_, by rw [k4, hsupp]; exact hm.supp_eq, ?_⟩
  · intro X hXne hX hXl hXs
    rw [k2, hl] at hXl
    rw [k4, hsupp] at hXs
    apply Repr_shape hI1 k5.1
    by_cases hle : X.length ≤ ist.lvlcnt
    · exact Repr_addlvl hI none (hm.complete X hXne hX hle hXs)
    · obtain ⟨a, M, c, hal, hM, hkid, i, hi, hpath⟩ :=
        grow_candidate hI hm.exact hm.complete hX (by omega) hXs
      obtain ⟨j, hj, hpj⟩ := addlvl_kid_node hI none h0 a M c hal hM hkid
      exact ⟨a ++ [j], c, i, hj, hi, by rw [hpj, List.append_assoc]; exact hpath⟩
  · obtain ⟨R, hR, -, -, -, f4⟩ := Shape_node k5.1 (Nat.zero_le _) (nodeAt_nil _)
    rw [nodeAt_nil] at hR
    cases hR
    rw [f4]
    obtain ⟨R, hR, e1, -, -⟩ := addlvl_counters hI none [] ist.root (nodeAt_nil _)
    rw [nodeAt_nil] at hR
    cases hR
    rw [e1, hm.size]
  · intro k hk
    rw [k2, hl] at hk
    rw [k3]
    by_cases hkl : k < ist.lvlcnt
    · have := hm.lvl_ne k hkl
      have hlev := hI1.lvl_mem k (by rw [hl]; omega)
      have hlev0 := hI.lvl_mem k hkl
      obtain ⟨a, ha⟩ := List.exists_mem_of_ne_nil _ this
      obtain ⟨h1, h2⟩ := (hlev0 a).1 ha
      obtain ⟨N, hN⟩ := Option.isSome_iff_exists.1 h2
      obtain ⟨N', hN', -⟩ := addlvl_counters hI none a N hN
      exact List.ne_nil_of_mem ((hlev a).2 ⟨h1, by rw [hN']; rfl⟩)
    · have hke : k = ist.lvlcnt := by omega
      subst hke
      have : deepest (ist_addlvl ist none).1 ≠ [] := by rw [hdeep]; exact hne
      unfold deepest at this
      rw [hl] at this
      simpa using this

theorem Mining_one {db : List (List Int)} {n : Nat} {supp : Int} {ist : ISTREE}
    (hm : Mining db n supp ist) (h1 : (ist_addlvl ist none).2 ≠ 0) :
    Mining db n supp (ist_addlvl ist none).1 ∧
    ∀ X : List Int, X ≠ [] → Tract X → supp ≤ support db X → Repr (ist_addlvl ist none).1 X := by
  have hI := hm.inv
  have hI1 := Inv_addlvl hI none
  have hp := hI.lvl_pos
  obtain ⟨hl, -, hnil⟩ := addlvl_one_lvlcnt hI h1
  have hsupp : (ist_addlvl ist none).1.supp = ist.supp := by
    rcases addlvl_cases_none hI with ⟨r1, -, -, h⟩ | ⟨r1, -, -, h⟩ <;> rw [h]
  have hlev : (ist_addlvl ist none).1.levels = ist.levels := by
    rcases addlvl_cases_none hI with ⟨r1, -, -, h⟩ | ⟨r1, -, -, h⟩
    · rw [h]
    · rw [h] at h1; exact absurd rfl h1
  have hbig : ∀ X : List Int, Tract X → ist.lvlcnt + 1 ≤ X.length →
      ¬ ist.supp ≤ support db X := by
    intro X hX hXl hXs
    have hsub := List.take_sublist (ist.lvlcnt + 1) X
    obtain ⟨a, M, c, hal, hM, hkid, -⟩ := grow_candidate hI hm.exact hm.complete
      (Tract.sublist hsub hX) (by rw [List.length_take]; omega)
      (le_trans hXs (support_mono db (fun z hz => hsub.subset hz)))
    rw [hI.newLevel_nil hnil a M hal hM] at hkid
    simp at hkid
  refine ⟨⟨hI1, Exact_addlvl_one hI hm.exact h1, ?_, ?_, by rw [hsupp]; exact hm.supp_eq, ?_⟩,
    ?_⟩
  · intro X hXne hX hXl hXs
    rw [hl] at hXl
    rw [hsupp] at hXs
    exact Repr_addlvl hI none (hm.complete X hXne hX hXl hXs)
  · obtain ⟨R, hR, e1, -, -⟩ := addlvl_counters hI none [] ist.root (nodeAt_nil _)
    rw [nodeAt_nil] at hR
    cases hR
    rw [e1, hm.size]
  · intro k hk
    rw [hl] at hk
    rw [hlev]
    exact hm.lvl_ne k hk
  · intro X hXne hX hXs
    rw [← hm.supp_eq] at hXs
    by_cases hle : X.length ≤ ist.lvlcnt
    · exact Repr_addlvl hI none (hm.complete X hXne hX hle hXs)
    · exact absurd hXs (hbig X hX (by omega))

/-- The mining run ends within `n + 1` rounds with a tree that has a counter slot for every
frequent item set. -/
theorem mineLoop_spec {db : List (List Int)} {n : Nat} {supp : Int}
    (hdb : ∀ t ∈ db, Tract t) : ∀ (fuel : Nat) (ist : ISTREE), Mining db n supp ist →
    n + 2 ≤ fuel + ist.lvlcnt → 1 ≤ fuel →
    ∃ ist', mineLoop db fuel ist = some ist' ∧ Mining db n supp ist' ∧
      ∀ X : List Int, X ≠ [] → Tract X → supp ≤ support db X → Repr ist' X
  | 0, _, _, _, h => by omega
  | fuel + 1, ist, hm, hf, _ => by
    unfold mineLoop
    by_cases h0 : (ist_addlvl ist none).2 = 0
    · rw [if_pos h0]
      have hb := height_bound hm h0
      have hm1 := Mining_zero hm hdb h0
      have hl : (countAll (ist_addlvl ist none).1 db).lvlcnt = ist.lvlcnt + 1 := by
        obtain ⟨r1, hG, hne, hw1, hw2, s3, hl, -⟩ := addlvl_zero hm.inv none h0
        rw [(countAll_counted db (Inv_addlvl hm.inv none) hdb).2.1, hl]
      exact mineLoop_spec hdb fuel _ hm1 (by rw [hl]; omega) (by omega)
    · rw [if_neg h0, if_pos (addlvl_one_lvlcnt hm.inv h0).2.1]
      exact ⟨_, rfl, Mining_one hm h0⟩


/-! ### The search loop of `ist_set` -/

theorem nodeOut_step {ist : ISTREE} {a : Addr} {M : ISNODE} {j : Nat}
    (hM : nodeAt ist.root a = some M) (hj : j < M.cnts.length) :
    nodeOut ist a j = (slotOut ist a M j).toList ++ nodeOut ist a (j + 1) := by
  unfold nodeOut
  rw [hM]
  simp only
  rw [List.drop_eq_getElem_cons (by simpa using hj), List.filterMap_cons]
  simp only [List.getElem_range]
  cases slotOut ist a M j <;> rfl

theorem nodeOut_end {ist : ISTREE} {a : Addr} {j : Nat}
    (h : ∀ M, nodeAt ist.root a = some M → M.cnts.length ≤ j) : nodeOut ist a j = [] := by
  unfold nodeOut
  cases hM : nodeAt ist.root a with
  | none => rfl
  | some M =>
    simp only
    rw [List.drop_eq_nil_of_le (by simpa using h M hM)]
    rfl

theorem levelOut_nil (ist : ISTREE) : levelOut ist [] = [] := rfl

theorem levelOut_cons (ist : ISTREE) (a : Addr) (l : List Addr) :
    levelOut ist (a :: l) = nodeOut ist a 0 ++ levelOut ist l := by
  unfold levelOut
  rw [List.flatMap_cons]

theorem getD_of_lt {α : Type} (l : List α) (k : Nat) (d : α) (h : k < l.length) :
    l.getD k d = l[k] := by
  rw [List.getD_eq_getElem?_getD, List.getElem?_eq_getElem h]
  rfl

theorem drop_cons_getD {α : Type} (l : List α) (k : Nat) (d : α) (h : k < l.length) :
    l.drop k = l.getD k d :: l.drop (k + 1) := by
  rw [List.drop_eq_getElem_cons h, getD_of_lt l k d h]

theorem getD_mem {α : Type} (l : List α) (k : Nat) (d : α) (h : k < l.length) :
    l.getD k d ∈ l := by
  rw [getD_of_lt l k d h]
  exact List.getElem_mem _

theorem cursorNode_eq {ist : ISTREE} {pos : Nat}
    (h : pos < (ist.levels.getD (ist.size - 1) []).length) :
    cursorNode ist pos = nodeAt ist.root ((ist.levels.getD (ist.size - 1) []).getD pos []) := by
  unfold cursorNode
  generalize ist.levels.getD (ist.size - 1) [] = lvl at h ⊢
  rw [getD_of_lt lvl pos [] h, List.get?_eq_getElem?, List.getElem?_eq_getElem h]
  rfl

theorem Scan.cursor {ist : ISTREE} (hS : Scan ist) {pos : Nat} (hC : Cursor ist pos) :
    ∃ node, cursorNode ist pos = some node ∧
      nodeAt ist.root ((ist.levels.getD (ist.size - 1) []).getD pos []) = some node := by
  have h1 := hC.size_pos
  have h2 := hC.size_le
  have := hS.nodes (ist.size - 1) (by omega) _ (getD_mem _ pos [] hC.pos_lt)
  obtain ⟨node, hn⟩ := Option.isSome_iff_exists.1 this
  exact ⟨node, by rw [cursorNode_eq hC.pos_lt]; exact hn, hn⟩

theorem nodeW_eq {ist : ISTREE} {a : Addr} {M : ISNODE} (hM : nodeAt ist.root a = some M) :
    nodeW ist a = M.cnts.length + 1 := by
  unfold nodeW; rw [hM]

theorem nodeW_pos (ist : ISTREE) (a : Addr) : 1 ≤ nodeW ist a := by
  unfold nodeW; split <;> omega

theorem levelW_cons (ist : ISTREE) (a : Addr) (l : List Addr) :
    levelW ist (a :: l) = nodeW ist a + (l.map (nodeW ist)).sum + 1 := by
  unfold levelW
  rw [List.map_cons, List.sum_cons]

theorem levelOut_head (ist : ISTREE) (l : List Addr) (h : 0 < l.length) :
    levelOut ist l = nodeOut ist (l.getD 0 []) 0 ++ levelOut ist (l.drop (0 + 1)) := by
  cases l with
  | nil => simp at h
  | cons a r => exact levelOut_cons ist a r

theorem levelW_head (ist : ISTREE) (l : List Addr) (h : 0 < l.length) :
    levelW ist l = nodeW ist (l.getD 0 []) + ((l.drop (0 + 1)).map (nodeW ist)).sum + 1 := by
  cases l with
  | nil => simp at h
  | cons a r => exact levelW_cons ist a r

/-- One slot of the node under the cursor is looked at. -/
theorem outFrom_visit {ist : ISTREE} {pos : Nat} (hS : Scan ist) {node : ISNODE}
    (hn : nodeAt ist.root ((ist.levels.getD (ist.size - 1) []).getD pos []) = some node)
    (j : Nat) :
    outFrom ist pos j =
      (if ist.supp ≤ node.cnts.getD j 0 then
        [(pathIds ist.root ((ist.levels.getD (ist.size - 1) []).getD pos []) ++
            [node.offset + (j : Int)], node.cnts.getD j 0)]
       else []) ++ outFrom ist pos (j + 1) ∧
    wFrom ist pos (j + 1) ≤ wFrom ist pos j ∧
    (j < node.cnts.length → wFrom ist pos (j + 1) < wFrom ist pos j) := by
  refine ⟨?_, ?_, ?_⟩
  · unfold outFrom
    by_cases hj : j < node.cnts.length
    · rw [nodeOut_step hn hj]
      unfold slotOut
      split
      · simp only [Option.toList, List.append_assoc]
      · simp only [Option.toList, List.append_assoc]
    · have hz : node.cnts.getD j 0 = 0 := by
        rw [List.getD_eq_getElem?_getD, List.getElem?_eq_none (by omega)]
        rfl
      have := hS.supp_pos
      rw [hz, if_neg (by omega),
        nodeOut_end (fun M hM => by rw [hn] at hM; cases hM; omega),
        nodeOut_end (fun M hM => by rw [hn] at hM; cases hM; omega)]
      rfl
  · unfold wFrom; omega
  · intro hj
    unfold wFrom
    rw [nodeW_eq hn]
    omega

/-- The first statement of the search loop. -/
theorem advance_spec {ist : ISTREE} {pos : Nat} (hS : Scan ist) (hC : Cursor ist pos) :
    (∃ ist', advance ist pos = .done ist' ∧ outFrom ist pos (ist.index + 1).toNat = []) ∨
    (∃ ist1 pos1, advance ist pos = .next ist1 pos1 ∧ Cursor ist1 pos1 ∧ 0 ≤ ist1.index ∧
      SameTree ist ist1 ∧
      outFrom ist1 pos1 ist1.index.toNat = outFrom ist pos (ist.index + 1).toNat ∧
      (wFrom ist1 pos1 ist1.index.toNat < wFrom ist pos (ist.index + 1).toNat ∨
        (wFrom ist1 pos1 ist1.index.toNat = wFrom ist pos (ist.index + 1).toNat ∧
          ∃ node, nodeAt ist1.root ((ist1.levels.getD (ist1.size - 1) []).getD pos1 []) =
            some node ∧ ist1.index.toNat < node.cnts.length))) := by
  obtain ⟨node, hcn, hn⟩ := hS.cursor hC
  have h1 := hC.size_pos
  have h2 := hC.size_le
  have h3 := hC.index_ge
  have hlen := hS.len
  unfold advance
  rw [hcn]
  simp only
  by_cases hA : ist.index + 1 ≥ node.size
  · rw [if_pos hA]
    have hend : nodeOut ist ((ist.levels.getD (ist.size - 1) []).getD pos [])
        (ist.index + 1).toNat = [] :=
      nodeOut_end (fun M hM => by
        rw [hn] at hM; cases hM
        unfold ISNODE.size at hA; omega)
    have hw0 : nodeW ist ((ist.levels.getD (ist.size - 1) []).getD pos []) - 1 -
        (ist.index + 1).toNat = 0 := by
      rw [nodeW_eq hn]
      unfold ISNODE.size at hA; omega
    by_cases hB : pos + 1 < (ist.levels.getD (ist.size - 1) []).length
    · -- the successor in the same level
      rw [if_pos hB]
      have e1 : outFrom { ist with node := some (pos + 1), index := 0 } (pos + 1) (0 : Int).toNat =
          outFrom ist (pos + 1) 0 := rfl
      have e2 : wFrom { ist with node := some (pos + 1), index := 0 } (pos + 1) (0 : Int).toNat =
          wFrom ist (pos + 1) 0 := rfl
      refine Or.inr ⟨_, _, rfl, ⟨h1, h2, hB, rfl, by simp⟩, le_refl _, ⟨rfl, rfl, rfl, rfl⟩, ?_, ?_⟩
      · rw [e1]
        unfold outFrom
        rw [hend, drop_cons_getD _ (pos + 1) [] hB, levelOut_cons, List.nil_append,
          List.append_assoc]
      · left
        rw [e2]
        unfold wFrom
        rw [hw0, drop_cons_getD _ (pos + 1) [] hB, List.map_cons, List.sum_cons]
        have := nodeW_pos ist ((ist.levels.getD (ist.size - 1) []).getD (pos + 1) [])
        omega
    · rw [if_neg hB]
      by_cases hD : ist.size + 1 > ist.lvlcnt
      · -- beyond the deepest level
        rw [if_pos hD]
        refine Or.inl ⟨_, rfl, ?_⟩
        unfold outFrom
        rw [hend, List.drop_eq_nil_of_le (by omega), List.drop_eq_nil_of_le (by omega)]
        rfl
      · -- the first node of the next level
        rw [if_neg hD]
        have hne := hS.ne ist.size (by omega)
        have hpos : 0 < (ist.levels.getD ist.size []).length := List.length_pos.2 hne
        have hsl : ist.size < ist.levels.length := by omega
        have hdl : ist.levels.drop ist.size =
            ist.levels.getD ist.size [] :: ist.levels.drop (ist.size + 1) :=
          drop_cons_getD _ _ _ hsl
        have hdn : (ist.levels.getD (ist.size - 1) []).drop (pos + 1) = [] :=
          List.drop_eq_nil_of_le (by omega)
        have e1 : outFrom { ist with size := ist.size + 1, node := some 0, index := 0 } 0
            (0 : Int).toNat =
            nodeOut ist ((ist.levels.getD ist.size []).getD 0 []) 0 ++
              levelOut ist ((ist.levels.getD ist.size []).drop (0 + 1)) ++
              (ist.levels.drop (ist.size + 1)).flatMap (levelOut ist) := rfl
        have e2 : wFrom { ist with size := ist.size + 1, node := some 0, index := 0 } 0
            (0 : Int).toNat =
            (nodeW ist ((ist.levels.getD ist.size []).getD 0 []) - 1 - 0) +
              (((ist.levels.getD ist.size []).drop (0 + 1)).map (nodeW ist)).sum +
              ((ist.levels.drop (ist.size + 1)).map (levelW ist)).sum + 1 := rfl
        refine Or.inr ⟨_, _, rfl, ⟨Nat.le_add_left 1 ist.size, Nat.not_lt.1 hD, hpos, rfl,
          by simp⟩, le_refl _, ⟨rfl, rfl, rfl, rfl⟩, ?_, ?_⟩
        · rw [e1]
          unfold outFrom
          rw [hend, hdn, hdl, List.flatMap_cons, levelOut_nil, List.nil_append, List.nil_append,
            levelOut_head ist _ hpos]
        · left
          rw [e2]
          unfold wFrom
          rw [hw0, hdn, hdl, List.map_cons, List.sum_cons, List.map_nil, List.sum_nil,
            levelW_head ist _ hpos]
          have := nodeW_pos ist ((ist.levels.getD ist.size []).getD 0 [])
          omega
  · -- the next slot of the same node
    rw [if_neg hA]
    refine Or.inr ⟨_, _, rfl, ⟨h1, h2, hC.pos_lt, hC.node_eq, ?_⟩, ?_,
      ⟨rfl, rfl, rfl, rfl⟩, rfl, Or.inr ⟨rfl, node, hn, ?_⟩⟩
    · show -1 ≤ ist.index + 1
      omega
    · show 0 ≤ ist.index + 1
      omega
    · show (ist.index + 1).toNat < node.cnts.length
      unfold ISNODE.size at hA
      omega


theorem SameTree.scan {ist ist' : ISTREE} (h : SameTree ist ist') (hS : Scan ist) : Scan ist' := by
  obtain ⟨h1, h2, h3, h4⟩ := h
  refine ⟨?_, ?_, ?_, ?_⟩
  · rw [h1, h2, h3]; exact hS.nodes
  · rw [h2, h3]; exact hS.len
  · rw [h2, h3]; exact hS.ne
  · rw [h4]; exact hS.supp_pos

theorem SameTree.trans_same {a b c : ISTREE} (h1 : SameTree a b) (h2 : SameTree b c) :
    SameTree a c :=
  ⟨h2.1.trans h1.1, h2.2.1.trans h1.2.1, h2.2.2.1.trans h1.2.2.1, h2.2.2.2.trans h1.2.2.2⟩

theorem scanFuel_eq (ist : ISTREE) : scanFuel ist = (ist.levels.map (levelW ist)).sum + 1 := rfl

theorem SameTree.scanFuel_same {ist ist' : ISTREE} (h : SameTree ist ist') :
    scanFuel ist' = scanFuel ist := by
  unfold scanFuel
  rw [h.1, h.2.1]

theorem sum_map_ge {α : Type} (f : α → Nat) (l : List α) (k : Nat) (d : α)
    (h : k < l.length) : f (l.getD k d) + ((l.drop (k + 1)).map f).sum ≤ (l.map f).sum := by
  have h1 : l = l.take k ++ l.drop k := (List.take_append_drop k l).symm
  have h2 := drop_cons_getD l k d h
  have h3 : (l.map f).sum = ((l.take k).map f).sum + (f (l.getD k d) +
      ((l.drop (k + 1)).map f).sum) := by
    nth_rewrite 1 [h1]
    rw [List.map_append, List.sum_append, h2, List.map_cons, List.sum_cons]
  omega

theorem wFrom_pos (ist : ISTREE) (pos j : Nat) : 1 ≤ wFrom ist pos j := by
  unfold wFrom; omega

theorem wFrom_le_scanFuel {ist : ISTREE} {pos : Nat} (hS : Scan ist) (hC : Cursor ist pos)
    (j : Nat) : wFrom ist pos j ≤ scanFuel ist := by
  have h1 := hC.size_pos
  have h2 := hC.size_le
  have hlen := hS.len
  rw [scanFuel_eq]
  unfold wFrom
  have a1 := sum_map_ge (nodeW ist) (ist.levels.getD (ist.size - 1) []) pos [] hC.pos_lt
  have a2 := sum_map_ge (levelW ist) ist.levels (ist.size - 1) [] (by omega)
  rw [show ist.size - 1 + 1 = ist.size by omega] at a2
  have a3 : levelW ist (ist.levels.getD (ist.size - 1) []) =
      ((ist.levels.getD (ist.size - 1) []).map (nodeW ist)).sum + 1 := rfl
  omega

theorem setLoop_succ (fuel : Nat) (ist : ISTREE) (pos : Nat) :
    setLoop (fuel + 1) ist pos =
      match advance ist pos with
      | .bad => .abort
      | .done ist1 => .done ist1
      | .next ist1 pos1 =>
        match cursorNode ist1 pos1 with
        | none => .abort
        | some node =>
          if node.cnts.getD ist1.index.toNat 0 ≥ ist1.supp then
            .found ist1
              (pathIds ist1.root ((ist1.levels.getD (ist1.size - 1) []).getD pos1 [])
                ++ [node.offset + ist1.index])
              (node.cnts.getD ist1.index.toNat 0)
          else setLoop fuel ist1 pos1 := rfl

/-- The search loop of `ist_set` finds the next item set to report, or the end. -/
theorem setLoop_spec : ∀ (fuel : Nat) (ist : ISTREE) (pos : Nat), Scan ist → Cursor ist pos →
    wFrom ist pos (ist.index + 1).toNat ≤ fuel →
    (∃ ist', setLoop fuel ist pos = .done ist' ∧ outFrom ist pos (ist.index + 1).toNat = []) ∨
    (∃ ist' pos' set s, setLoop fuel ist pos = .found ist' set s ∧ Cursor ist' pos' ∧
      SameTree ist ist' ∧
      outFrom ist pos (ist.index + 1).toNat = (set, s) :: outFrom ist' pos' (ist'.index + 1).toNat ∧
      wFrom ist' pos' (ist'.index + 1).toNat < wFrom ist pos (ist.index + 1).toNat)
  | 0, ist, pos, _, _, hf => by
    have := wFrom_pos ist pos (ist.index + 1).toNat
    omega
  | fuel + 1, ist, pos, hS, hC, hf => by
    rw [setLoop_succ]
    rcases advance_spec hS hC with ⟨ist', ha, ho⟩ | ⟨ist1, pos1, ha, hC1, hi1, hsame, ho, hw⟩
    · rw [ha]
      exact Or.inl ⟨ist', rfl, ho⟩
    · rw [ha]
      simp only
      have hS1 := hsame.scan hS
      obtain ⟨node, hcn, hn⟩ := hS1.cursor hC1
      rw [hcn]
      simp only
      obtain ⟨v1, v2, v3⟩ := outFrom_visit hS1 hn ist1.index.toNat
      have hj : (ist1.index + 1).toNat = ist1.index.toNat + 1 := by omega
      have hji : ((ist1.index.toNat : Nat) : Int) = ist1.index := Int.toNat_of_nonneg hi1
      have hwlt : wFrom ist1 pos1 (ist1.index + 1).toNat < wFrom ist pos (ist.index + 1).toNat := by
        rw [hj]
        rcases hw with hw | ⟨hw, node', hn', hlt⟩
        · omega
        · rw [hn] at hn'; cases hn'
          have := v3 hlt
          omega
      by_cases hge : node.cnts.getD ist1.index.toNat 0 ≥ ist1.supp
      · rw [if_pos hge]
        refine Or.inr ⟨ist1, pos1, _, _, rfl, hC1, hsame, ?_, hwlt⟩
        rw [← ho, v1, if_pos hge, hj, hji]
        rfl
      · rw [if_neg hge]
        rcases setLoop_spec fuel ist1 pos1 hS1 hC1 (by omega) with ⟨ist', h1, h2⟩ |
            ⟨ist', pos', set, s, h1, h2, h3, h4, h5⟩
        · refine Or.inl ⟨ist', h1, ?_⟩
          rw [← ho, v1, if_neg hge, ← hj, h2]
          rfl
        · refine Or.inr ⟨ist', pos', set, s, h1, h2, hsame.trans_same h3, ?_, by omega⟩
          rw [← ho, v1, if_neg hge, ← hj, h4]
          rfl

/-- The calls of `ist_set` from a cursor position report the remaining item sets. -/
theorem setAll_spec : ∀ (fuel : Nat) (ist : ISTREE) (pos : Nat), Scan ist → Cursor ist pos →
    wFrom ist pos (ist.index + 1).toNat ≤ fuel →
    setAll fuel ist = some (outFrom ist pos (ist.index + 1).toNat)
  | 0, ist, pos, _, _, hf => by
    have := wFrom_pos ist pos (ist.index + 1).toNat
    omega
  | fuel + 1, ist, pos, hS, hC, hf => by
    have hset : ist_set ist = setLoop (scanFuel ist) ist pos := by
      unfold ist_set
      rw [if_neg (by have := hC.size_le; omega), hC.node_eq]
    unfold setAll
    rw [hset]
    rcases setLoop_spec (scanFuel ist) ist pos hS hC (wFrom_le_scanFuel hS hC _) with
        ⟨ist', h1, h2⟩ | ⟨ist', pos', set, s, h1, h2, h3, h4, h5⟩
    · rw [h1, h2]
    · rw [h1]
      simp only
      rw [setAll_spec fuel ist' pos' (h3.scan hS) h2 (by omega), h4]
      rfl

theorem enumSets_eq_outFrom {ist : ISTREE} (hS : Scan ist) (hs : ist.size = 1)
    (hl : 1 ≤ ist.lvlcnt) : outFrom ist 0 0 = enumSets ist := by
  have hne := hS.ne 0 (by omega)
  have hpos : 0 < (ist.levels.getD 0 []).length := List.length_pos.2 hne
  have hlen := hS.len
  unfold outFrom enumSets
  rw [hs, Nat.sub_self, ← levelOut_head ist _ hpos]
  have hd := drop_cons_getD ist.levels 0 [] (by omega)
  rw [List.drop_zero] at hd
  nth_rewrite 3 [hd]
  rw [List.flatMap_cons]

/-- The sequence `ist_init; ist_set*` reports the item sets with a counter of at least `supp`
level by level, node by node and slot by slot. -/
theorem ist_sets_eq {ist : ISTREE} (hS : Scan ist) (hl : 1 ≤ ist.lvlcnt) :
    ist_sets ist = some (enumSets ist) := by
  unfold ist_sets
  have hS0 : Scan { ist_init ist with node := some 0 } :=
    @SameTree.scan ist _ ⟨rfl, rfl, rfl, rfl⟩ hS
  have hne := hS.ne 0 (by omega)
  have hC0 : Cursor { ist_init ist with node := some 0 } 0 :=
    ⟨le_refl _, hl, List.length_pos.2 hne, rfl, le_refl _⟩
  have hfuel : scanFuel ist = (scanFuel ist - 1) + 1 := by
    rw [scanFuel_eq]; omega
  have hset : ist_set (ist_init ist) =
      setLoop (scanFuel ist) { ist_init ist with node := some 0 } 0 := by
    unfold ist_set
    rw [if_neg (by show ¬ 1 > ist.lvlcnt; omega)]
    rfl
  have hout : outFrom { ist_init ist with node := some 0 } 0 ((-1 : Int) + 1).toNat =
      enumSets ist := enumSets_eq_outFrom hS0 rfl hl
  rw [hfuel]
  unfold setAll
  rw [hset]
  have hw := wFrom_le_scanFuel hS0 hC0 ((-1 : Int) + 1).toNat
  have hsf : scanFuel { ist_init ist with node := some 0 } = scanFuel ist := rfl
  rw [hsf] at hw
  rcases setLoop_spec (scanFuel ist) _ 0 hS0 hC0 hw with
      ⟨ist', h1, h2⟩ | ⟨ist', pos', set, s, h1, h2, h3, h4, h5⟩
  · rw [h1]
    simp only
    rw [← hout]
    exact congrArg some h2.symm
  · rw [h1]
    simp only
    rw [setAll_spec (scanFuel ist - 1) ist' pos' (h3.scan hS0) h2 (by
      have : wFrom { ist_init ist with node := some 0 } 0 ((-1 : Int) + 1).toNat ≤ scanFuel ist := hw
      have h5' : wFrom ist' pos' (ist'.index + 1).toNat <
        wFrom { ist_init ist with node := some 0 } 0 ((-1 : Int) + 1).toNat := h5
      omega)]
    rw [← hout]
    exact congrArg some (by
      have h4' : outFrom { ist_init ist with node := some 0 } 0 ((-1 : Int) + 1).toNat =
        (set, s) :: outFrom ist' pos' (ist'.index + 1).toNat := h4
      rw [h4'])

theorem Scan_of_inv {ist : ISTREE} (hI : Inv ist)
    (hne : ∀ k, k < ist.lvlcnt → ist.levels.getD k [] ≠ []) : Scan ist :=
  ⟨fun k hk a ha => ((hI.lvl_mem k hk a).1 ha).2, hI.lvl_len, hne, hI.supp_pos⟩

/-- The reported item sets are those of the counter slots with a counter of at least
`supp`. -/
theorem mem_enumSets {ist : ISTREE} (hI : Inv ist) (X : List Int) (s : Int) :
    (X, s) ∈ enumSets ist ↔
      ∃ a M i, nodeAt ist.root a = some M ∧ i < M.cnts.length ∧ ist.supp ≤ M.cnts.getD i 0 ∧
        X = pathIds ist.root a ++ [M.offset + (i : Int)] ∧ s = M.cnts.getD i 0 := by
  unfold enumSets levelOut
  simp only [List.mem_flatMap]
  constructor
  · rintro ⟨lvl, -, a, -, h⟩
    unfold nodeOut at h
    cases hM : nodeAt ist.root a with
    | none => rw [hM] at h; simp at h
    | some M =>
      rw [hM] at h
      simp only [List.drop_zero, List.mem_filterMap, List.mem_range] at h
      obtain ⟨i, hi, hs⟩ := h
      unfold slotOut at hs
      split at hs
      · rename_i hge
        simp only [Option.some.injEq, Prod.mk.injEq] at hs
        exact ⟨a, M, i, hM, hi, hge, hs.1.symm, hs.2.symm⟩
      · simp at hs
  · rintro ⟨a, M, i, hM, hi, hge, rfl, rfl⟩
    have hal := hI.nodeAt_length hM
    have hp := hI.lvl_pos
    have hk : a.length < ist.lvlcnt := by omega
    refine ⟨ist.levels.getD a.length [], ?_, a, ?_, ?_⟩
    · exact getD_mem _ _ _ (by rw [hI.lvl_len]; exact hk)
    · exact (hI.lvl_mem a.length hk a).2 ⟨rfl, by rw [hM]; rfl⟩
    · unfold nodeOut
      rw [hM]
      simp only [List.drop_zero, List.mem_filterMap, List.mem_range]
      refine ⟨i, hi, ?_⟩
      unfold slotOut
      rw [if_pos hge]


theorem mem_nodeOut {ist : ISTREE} {a : Addr} {X : List Int} {s : Int}
    (h : (X, s) ∈ nodeOut ist a 0) :
    ∃ M i, nodeAt ist.root a = some M ∧ i < M.cnts.length ∧ ist.supp ≤ M.cnts.getD i 0 ∧
      X = pathIds ist.root a ++ [M.offset + (i : Int)] ∧ s = M.cnts.getD i 0 := by
  unfold nodeOut at h
  cases hM : nodeAt ist.root a with
  | none => rw [hM] at h; simp at h
  | some M =>
    rw [hM] at h
    simp only [List.drop_zero, List.mem_filterMap, List.mem_range] at h
    obtain ⟨i, hi, hs⟩ := h
    unfold slotOut at hs
    split at hs
    · rename_i hge
      simp only [Option.some.injEq, Prod.mk.injEq] at hs
      exact ⟨M, i, rfl, hi, hge, hs.1.symm, hs.2.symm⟩
    · simp at hs

theorem nodup_nodeOut (ist : ISTREE) (a : Addr) : (nodeOut ist a 0).Nodup := by
  unfold nodeOut
  cases hM : nodeAt ist.root a with
  | none => exact List.nodup_nil
  | some M =>
    simp only [List.drop_zero]
    refine List.Nodup.filterMap ?_ (List.nodup_range _)
    intro i i' b hb hb'
    unfold slotOut at hb hb'
    split at hb
    · split at hb'
      · simp only [Option.mem_def, Option.some.injEq] at hb hb'
        rw [← hb'] at hb
        simp only [Prod.mk.injEq, List.append_cancel_left_eq, List.cons.injEq, and_true] at hb
        omega
      · simp at hb'
    · simp at hb

/-- No item set is reported twice. -/
theorem nodup_enumSets {ist : ISTREE} (hI : Inv ist) : (enumSets ist).Nodup := by
  obtain ⟨lc, -, hw⟩ := hI.wf
  have key : ∀ (a a' : Addr) (p : List Int × Int), p ∈ nodeOut ist a 0 →
      p ∈ nodeOut ist a' 0 → a = a' := by
    intro a a' p h1 h2
    obtain ⟨M, i, hM, hi, -, hX, -⟩ := mem_nodeOut (X := p.1) (s := p.2) h1
    obtain ⟨M', i', hM', hi', -, hX', -⟩ := mem_nodeOut (X := p.1) (s := p.2) h2
    exact (path_inj hw hM hi hM' hi' (hX.symm.trans hX')).1
  unfold enumSets
  rw [List.nodup_flatMap]
  constructor
  · intro lvl hlvl
    unfold levelOut
    rw [List.nodup_flatMap]
    constructor
    · intro a _
      exact nodup_nodeOut ist a
    · have hnd : lvl.Nodup := by
        obtain ⟨k, hk, rfl⟩ := List.getElem_of_mem hlvl
        have := hI.lvl_nodup k
        rwa [getD_of_lt _ _ _ hk] at this
      refine List.Pairwise.imp ?_ hnd
      intro a a' hne
      rw [Function.onFun, List.disjoint_left]
      intro p h1 h2
      exact hne (key a a' p h1 h2)
  · rw [List.pairwise_iff_getElem]
    intro i j hi hj hij
    rw [Function.onFun, List.disjoint_left]
    intro p h1 h2
    unfold levelOut at h1 h2
    rw [List.mem_flatMap] at h1 h2
    obtain ⟨a, ha, h1⟩ := h1
    obtain ⟨a', ha', h2⟩ := h2
    have hlen := hI.lvl_len
    have e1 := (hI.lvl_mem i (by omega) a).1 (by rw [getD_of_lt _ _ _ hi]; exact ha)
    have e2 := (hI.lvl_mem j (by omega) a').1 (by rw [getD_of_lt _ _ _ hj]; exact ha')
    have := key a a' p h1 h2
    rw [this] at e1
    omega

/-- C1: for every database of transactions (each an ascending list of item ids in `[0,n)`)
and every `supp >= 1`, the mining run (`ist_create`, the seeding of the root counters with the
supports of the items, then `ist_addlvl` followed, when it returns 0, by `ist_count` on every
transaction, until `ist_addlvl` returns 1) ends, and `ist_init; ist_set*` on its tree returns
a sequence without repetition that holds exactly the non-empty item sets (ascending lists of
item ids) whose support in the database is at least `supp`, each with its support. -/
theorem C1_enumeration_complete (db : List (List Int)) (n : Nat) (supp : Int)
    (hn : (n : Int) ≤ INT_MAX) (hs : 1 ≤ supp)
    (hdb : ∀ t ∈ db, Tract t ∧ ∀ x ∈ t, 0 ≤ x ∧ x < (n : Int)) :
    ∃ ist L, mine db n supp = some ist ∧ ist_sets ist = some L ∧ L.Nodup ∧
      ∀ (X : List Int) (s : Int), (X, s) ∈ L ↔
        (X ≠ [] ∧ Tract X ∧ supp ≤ support db X ∧ s = support db X) := by
  have hm0 := Mining_seed db n supp hn hs (fun t ht => (hdb t ht).2)
  have hl0 : (seed db n (ist_create n supp)).lvlcnt = 1 := (seed_fields db n _).1
  obtain ⟨ist, hmine, hm, hfull⟩ := mineLoop_spec (fun t ht => (hdb t ht).1) (n + 1) _ hm0
    (by rw [hl0]) (by omega)
  have hI := hm.inv
  obtain ⟨lc, -, hw⟩ := hI.wf
  refine ⟨ist, enumSets ist, hmine, ist_sets_eq (Scan_of_inv hI hm.lvl_ne) hI.lvl_pos,
    nodup_enumSets hI, fun X s => ?_⟩
  rw [mem_enumSets hI]
  constructor
  · rintro ⟨a, M, i, hM, hi, hge, rfl, rfl⟩
    have hE := hm.exact a M i hM hi
    refine ⟨by simp, (path_sorted a hw hM i hi).1, ?_, hE⟩
    rw [← hE, ← hm.supp_eq]; exact hge
  · rintro ⟨hne, hX, hge, rfl⟩
    obtain ⟨a, M, i, hM, hi, hp⟩ := hfull X hne hX hge
    have hE := hm.exact a M i hM hi
    rw [hp] at hE
    exact ⟨a, M, i, hM, hi, by rw [hE, hm.supp_eq]; exact hge, hp.symm, hE.symm⟩

theorem gapDb_range : ∀ t ∈ gapDb, Tract t ∧ ∀ x ∈ t, 0 ≤ x ∧ x < ((4 : Nat) : Int) := by
  unfold gapDb Tract
  simp

theorem C1_enumeration_complete_witness :
    ∃ ist L, mine gapDb 4 1 = some ist ∧ ist_sets ist = some L ∧ L.Nodup ∧
      ∀ (X : List Int) (s : Int), (X, s) ∈ L ↔
        (X ≠ [] ∧ Tract X ∧ 1 ≤ support gapDb X ∧ s = support gapDb X) :=
  C1_enumeration_complete gapDb 4 1 (by decide) (by decide) gapDb_range


/-! ### Clearing the counters of item sets -/

theorem updateAt_append_of : ∀ (addr : Addr) {r p : ISNODE} (a' : Addr) (g : ISNODE → ISNODE),
    nodeAt r addr = some p →
    updateAt r (addr ++ a') g = updateAt r addr (fun _ => updateAt p a' g)
  | [], r, p, a', g, h => by
    rw [nodeAt_nil] at h; cases h; rfl
  | j :: addr, r, p, a', g, h => by
    obtain ⟨c, hc, hn⟩ := nodeAt_cons_some h
    rw [List.cons_append, updateAt_cons_of hc, updateAt_cons_of hc,
      updateAt_append_of addr a' g hn]

theorem nodeAt_vec_congr {N N' : ISNODE} (h : N.vec = N'.vec) (j : Nat) (a : Addr) :
    nodeAt N (j :: a) = nodeAt N' (j :: a) := by
  cases hg : N.vec[j]? with
  | none =>
    rw [nodeAt_cons_none a (fun c hc => by rw [hg] at hc; simp at hc),
      nodeAt_cons_none a (fun c hc => by rw [← h, hg] at hc; simp at hc)]
  | some oc =>
    cases oc with
    | none =>
      rw [nodeAt_cons_none a (fun c hc => by rw [hg] at hc; simp at hc),
        nodeAt_cons_none a (fun c hc => by rw [← h, hg] at hc; simp at hc)]
    | some c =>
      rw [nodeAt_cons_of hg, nodeAt_cons_of (by rw [← h]; exact hg)]

/-- An assignment to the counters of one node leaves the counters of all other nodes
unchanged. -/
theorem updateAt_cnts_other (f : ISNODE → ISNODE) (hf : ∀ N, (f N).vec = N.vec) :
    ∀ (a2 a : Addr) (r M2 : ISNODE), nodeAt r a2 = some M2 → a2 ≠ a →
    ∃ M2', nodeAt (updateAt r a f) a2 = some M2' ∧ M2'.cnts = M2.cnts
  | [], [], _, _, _, hne => absurd rfl hne
  | [], j :: a', r, M2, h, _ => by
    rw [nodeAt_nil] at h; cases h
    refine ⟨_, nodeAt_nil _, ?_⟩
    cases hg : r.vec[j]? with
    | none => rw [updateAt_cons_none a' f (fun c hc => by rw [hg] at hc; simp at hc)]
    | some oc =>
      cases oc with
      | none => rw [updateAt_cons_none a' f (fun c hc => by rw [hg] at hc; simp at hc)]
      | some c => rw [updateAt_cons_of hg]; simp
  | j2 :: a2', [], r, M2, h, _ => by
    refine ⟨M2, ?_, rfl⟩
    rw [updateAt_nil, nodeAt_vec_congr (hf r)]
    exact h
  | j2 :: a2', j :: a', r, M2, h, hne => by
    cases hg : r.vec[j]? with
    | none =>
      rw [updateAt_cons_none a' f (fun c hc => by rw [hg] at hc; simp at hc)]
      exact ⟨M2, h, rfl⟩
    | some oc =>
      cases oc with
      | none =>
        rw [updateAt_cons_none a' f (fun c hc => by rw [hg] at hc; simp at hc)]
        exact ⟨M2, h, rfl⟩
      | some c =>
        rw [updateAt_cons_of hg]
        obtain ⟨c2, hc2, hn2⟩ := nodeAt_cons_some h
        by_cases hj : j2 = j
        · subst hj
          rw [hg] at hc2
          simp only [Option.some.injEq] at hc2
          subst hc2
          have hne' : a2' ≠ a' := fun e => hne (by rw [e])
          obtain ⟨M2', h1, h2⟩ := updateAt_cnts_other f hf a2' a' c M2 hn2 hne'
          refine ⟨M2', ?_, h2⟩
          have hv : (r.setVec (r.vec.set j2 (some (updateAt c a' f)))).vec[j2]? =
              some (some (updateAt c a' f)) := by
            rw [ISNODE.vec_setVec, List.getElem?_set_self (lt_length_of_getElem? hg)]
          rw [nodeAt_cons_of hv]
          exact h1
        · refine ⟨M2, ?_, rfl⟩
          have hv : (r.setVec (r.vec.set j (some (updateAt c a' f)))).vec[j2]? =
              some (some c2) := by
            rw [ISNODE.vec_setVec, List.getElem?_set_ne (fun e => hj e.symm)]
            exact hc2
          rw [nodeAt_cons_of hv]
          exact hn2

theorem ClrRel_refl (h : Nat) (s : Int) (r : ISNODE) : ClrRel h s (fun _ => False) r r := by
  refine ⟨Shape.refl_shape h r, fun a M M' i hM hM' _ => ?_⟩
  rw [hM] at hM'; cases hM'
  exact ⟨fun hq => absurd hq.1 id, fun _ => rfl⟩

theorem ClrRel_congr {h : Nat} {s : Int} {Q Q' : List Int → Prop} {r r' : ISNODE}
    (hQ : ∀ Y, Q Y ↔ Q' Y) (hc : ClrRel h s Q r r') : ClrRel h s Q' r r' := by
  refine ⟨hc.1, fun a M M' i hM hM' hi => ?_⟩
  have := hc.2 a M M' i hM hM' hi
  rw [hQ] at this
  exact this

/-- One call of `_clrsupp` for the item set of a slot. -/
theorem ClrRel_single {lc : Int} {live : Bool} {h : Nat} {r M : ISNODE} {a : Addr} {i : Nat}
    (s : Int) (hw : WFN lc live h r) (hM : nodeAt r a = some M) (hi : i < M.cnts.length) :
    ClrRel h s (fun Y => Y = pathIds r a ++ [M.offset + (i : Int)]) r
      (updateAt r a (clrSlot i s)) := by
  have hal := (WFN_at a hw hM).1
  refine ⟨Shape_updateAt_cnts h r a _ hal (clrSlot_fields i s), fun a2 M2 M2' i2 hM2 hM2' hi2 => ?_⟩
  by_cases ha : a2 = a
  · subst ha
    rw [hM] at hM2; cases hM2
    rw [nodeAt_updateAt_same a2 _ hM] at hM2'
    cases hM2'
    have hQ : (pathIds r a2 ++ [M.offset + (i2 : Int)] = pathIds r a2 ++ [M.offset + (i : Int)]) ↔
        i2 = i := by
      constructor
      · intro e
        have := List.append_cancel_left e
        simp only [List.cons.injEq, and_true] at this
        omega
      · intro e; rw [e]
    show ((pathIds r a2 ++ [M.offset + (i2 : Int)] = pathIds r a2 ++ [M.offset + (i : Int)]) ∧
        (s < 0 ∨ M.cnts.getD i2 0 = s) → (clrSlot i s M).cnts.getD i2 0 = 0) ∧
      (¬ ((pathIds r a2 ++ [M.offset + (i2 : Int)] = pathIds r a2 ++ [M.offset + (i : Int)]) ∧
        (s < 0 ∨ M.cnts.getD i2 0 = s)) → (clrSlot i s M).cnts.getD i2 0 = M.cnts.getD i2 0)
    rw [hQ]
    unfold clrSlot
    by_cases hii : i2 = i
    · subst hii
      constructor
      · rintro ⟨-, hc⟩
        rw [if_pos hc]
        simp [List.getD_eq_getElem?_getD, hi]
      · intro hn
        have : ¬ (s < 0 ∨ M.cnts.getD i2 0 = s) := fun hc => hn ⟨rfl, hc⟩
        rw [if_neg this]
    · constructor
      · rintro ⟨e, -⟩; exact absurd e hii
      · intro _
        split
        · simp only [ISNODE.cnts_setCnts, List.getD_eq_getElem?_getD]
          rw [List.getElem?_set_ne (fun e => hii e.symm)]
        · rfl
  · obtain ⟨M3, h3, h4⟩ := updateAt_cnts_other (clrSlot i s) (fun N => (clrSlot_fields i s N).2.2.2.2)
      a2 a r M2 hM2 ha
    rw [hM2'] at h3; cases h3
    constructor
    · rintro ⟨e, -⟩
      exact absurd (path_inj hw hM2 hi2 hM hi e).1 ha
    · intro _; rw [h4]

/-- Calls of `_clrsupp` with the same support, one after the other. -/
theorem ClrRel_trans {lc : Int} {live : Bool} {h : Nat} {s : Int} {Q1 Q2 : List Int → Prop}
    {r r1 r2 : ISNODE} (hw : WFN lc live h r) (h1 : ClrRel h s Q1 r r1)
    (h2 : ClrRel h s Q2 r1 r2) : ClrRel h s (fun Y => Q1 Y ∨ Q2 Y) r r2 := by
  refine ⟨h1.1.trans_shape h2.1, fun a M M2 i hM hM2 hi => ?_⟩
  have hal := (WFN_at a hw hM).1
  obtain ⟨M1, hM1, f1, f2, f3, f4⟩ := Shape_node h1.1 hal hM
  obtain ⟨p1, p2⟩ := h1.2 a M M1 i hM hM1 hi
  obtain ⟨q1, q2⟩ := h2.2 a M1 M2 i hM1 hM2 (by rw [f4]; exact hi)
  rw [← Shape_pathIds h1.1 a hal, f3] at q1 q2
  by_cases hc : s < 0 ∨ M.cnts.getD i 0 = s
  · by_cases hq1 : Q1 (pathIds r a ++ [M.offset + (i : Int)])
    · have e1 := p1 ⟨hq1, hc⟩
      have e2 : M2.cnts.getD i 0 = 0 := by
        by_cases hq2 : Q2 (pathIds r a ++ [M.offset + (i : Int)]) ∧
            (s < 0 ∨ M1.cnts.getD i 0 = s)
        · exact q1 hq2
        · rw [q2 hq2, e1]
      exact ⟨fun _ => e2, fun hn => absurd ⟨Or.inl hq1, hc⟩ hn⟩
    · have e1 := p2 (fun hx => hq1 hx.1)
      rw [e1] at q1 q2
      constructor
      · rintro ⟨hq | hq, _⟩
        · exact absurd hq hq1
        · exact q1 ⟨hq, hc⟩
      · intro hn
        rw [q2 (fun hx => hn ⟨Or.inr hx.1, hc⟩)]
  · have e1 := p2 (fun hx => hc hx.2)
    rw [e1] at q1 q2
    constructor
    · rintro ⟨_, hc'⟩; exact absurd hc' hc
    · intro _
      rw [q2 (fun hx => hc hx.2)]

/-- The call `_clrsupp(p, set, k, s)` for the node `p` at address `addr` clears the counter
of the slot with the item set `path(p) ++ set`. -/
theorem clr_at {lc : Int} {live : Bool} {h : Nat} {r p M : ISNODE} {addr a : Addr} {i : Nat}
    {set : List Int} (s : Int) (hw : WFN lc live h r) (hp : nodeAt r addr = some p)
    (hset : set ≠ []) (hM : nodeAt r a = some M) (hi : i < M.cnts.length)
    (he : pathIds r a ++ [M.offset + (i : Int)] = pathIds r addr ++ set) :
    updateAtOpt r addr (fun p => _clrsupp p set s) = some (updateAt r a (clrSlot i s)) := by
  have hloc := locate_of_path hw hM hi
  rw [he, locate_descend addr hw hp hset] at hloc
  rw [updateAtOpt_eq, hp]
  simp only [Option.some_bind]
  rw [clrsupp_eq]
  cases hl : locate p set with
  | none => rw [hl] at hloc; simp at hloc
  | some q =>
    rw [hl] at hloc
    simp only [Option.map_some', Option.some.injEq, Prod.mk.injEq] at hloc ⊢
    rw [← hloc.1, ← hloc.2, updateAt_append_of addr q.1 _ hp]


theorem ReprN_shape {lc : Int} {live : Bool} {h : Nat} {r r' : ISNODE} (hw : WFN lc live h r)
    (hs : Shape h r r') {Y : List Int} (hY : ReprN r Y) : ReprN r' Y := by
  obtain ⟨a, M, i, hM, hi, hp⟩ := hY
  have hal := (WFN_at a hw hM).1
  obtain ⟨M', hM', f1, f2, f3, f4⟩ := Shape_node hs hal hM
  exact ⟨a, M', i, hM', by rw [f4]; exact hi, by rw [← Shape_pathIds hs a hal, f3]; exact hp⟩

theorem nodeAt_snoc {r curr : ISNODE} {pa : Addr} {j : Nat}
    (h : nodeAt r (pa ++ [j]) = some curr) :
    ∃ p, nodeAt r pa = some p ∧ p.vec[j]? = some (some curr) := by
  rw [nodeAt_append] at h
  cases hp : nodeAt r pa with
  | none => rw [hp] at h; simp at h
  | some p =>
    rw [hp] at h
    simp only [Option.some_bind] at h
    rw [nodeAt_single] at h
    refine ⟨p, rfl, ?_⟩
    cases hg : p.vec[j]? with
    | none => rw [hg] at h; simp at h
    | some oc =>
      cases oc with
      | none => rw [hg] at h; simp at h
      | some c => rw [hg] at h; simp at h; rw [h]

theorem eraseIdx_mid (l : List Int) (x : Int) (set : List Int) :
    (l ++ x :: set).eraseIdx l.length = l ++ set := by
  rw [List.eraseIdx_append_of_length_le (le_refl _), Nat.sub_self]
  rfl

/-- The loop of `ist_filter` along the path to the root clears the counters of the item sets
that leave out one of the ids on the path. -/
theorem clrUp_spec {lc : Int} {h : Nat} (s : Int) : ∀ (rc : List Nat) {live : Bool}
    (r curr : ISNODE) (set : List Int),
    WFN lc live h r → nodeAt r rc.reverse = some curr → set ≠ [] →
    (∀ m, m < rc.length → ReprN r ((pathIds r rc.reverse ++ set).eraseIdx m)) →
    ∃ r', clrUp s r rc set = some r' ∧
      ClrRel h s (fun Y => ∃ m, m < rc.length ∧ Y = (pathIds r rc.reverse ++ set).eraseIdx m)
        r r'
  | [], live, r, curr, set, _, _, _, _ => by
    refine ⟨r, clrUp_nil s r set, ClrRel_congr (fun Y => ?_) (ClrRel_refl h s r)⟩
    simp
  | j :: rc, live, r, curr, set, hw, hcurr, hset, hrep => by
    rw [List.reverse_cons] at hcurr hrep ⊢
    obtain ⟨p, hp, hpj⟩ := nodeAt_snoc hcurr
    have hpath := pathIds_append rc.reverse hp hpj
    have hplen : (pathIds r rc.reverse).length = rc.length := by
      rw [length_pathIds hp, List.length_reverse]
    have hX : pathIds r (rc.reverse ++ [j]) ++ set = pathIds r rc.reverse ++ curr.id :: set := by
      rw [hpath, List.append_assoc]; rfl
    have hmid : (pathIds r (rc.reverse ++ [j]) ++ set).eraseIdx rc.length =
        pathIds r rc.reverse ++ set := by
      rw [hX, ← hplen, eraseIdx_mid]
    obtain ⟨a, M, i, hM, hi, hpm⟩ := hrep rc.length (by simp)
    rw [hmid] at hpm
    have hclr := clr_at s hw hp hset hM hi hpm
    have hrel1 := ClrRel_single s hw hM hi
    rw [hpm] at hrel1
    have hw1 := WFN_shape hw hrel1.1
    have hcl := (WFN_at _ hw hcurr).1
    obtain ⟨curr1, hcurr1, g1, -, -, -⟩ := Shape_node hrel1.1 hcl hcurr
    have hpl := (WFN_at _ hw hp).1
    obtain ⟨p1, hp1, -⟩ := Shape_node hrel1.1 hpl hp
    have hpe : pathIds (updateAt r a (clrSlot i s)) rc.reverse = pathIds r rc.reverse :=
      (Shape_pathIds hrel1.1 _ hpl).symm
    obtain ⟨r', hr', hrel2⟩ := clrUp_spec s rc (updateAt r a (clrSlot i s)) p1 (curr1.id :: set)
      hw1 hp1 (by simp) (fun m hm => by
        rw [hpe, g1, ← hX]
        exact ReprN_shape hw hrel1.1 (hrep m (by simp; omega)))
    refine ⟨r', ?_, ?_⟩
    · rw [clrUp_cons, hclr]
      simp only
      rw [List.reverse_cons, hcurr1]
      exact hr'
    · rw [hpe, g1, ← hX] at hrel2
      refine ClrRel_congr (fun Y => ?_) (ClrRel_trans hw hrel1 hrel2)
      constructor
      · rintro (e | ⟨m, hm, e⟩)
        · exact ⟨rc.length, by simp, by rw [hmid]; exact e⟩
        · exact ⟨m, by simp; omega, e⟩
      · rintro ⟨m, hm, e⟩
        by_cases hml : m = rc.length
        · subst hml
          left; rw [e, hmid]
        · right
          exact ⟨m, by simp at hm; omega, e⟩

/-- The body of the loop of `ist_filter` over the counters: for a slot with a counter of at
least `supp` the counters of the item sets that leave out one item are cleared. -/
theorem filterSlot_spec {lc : Int} {live : Bool} {h : Nat} {supp mode : Int} {b : Addr}
    {r N : ISNODE} {j : Nat} (hw : WFN lc live h r) (hb : b ≠ []) (hN : nodeAt r b = some N)
    (hrep : supp ≤ N.cnts.getD j 0 → ∀ m, m < b.length + 1 →
      ReprN r ((pathIds r b ++ [N.offset + (j : Int)]).eraseIdx m)) :
    ∃ r', filterSlot supp mode b r j = some r' ∧
      ClrRel h (if mode = IST_CLOSED then N.cnts.getD j 0 else -1)
        (fun Y => supp ≤ N.cnts.getD j 0 ∧ ∃ m, m < b.length + 1 ∧
          Y = (pathIds r b ++ [N.offset + (j : Int)]).eraseIdx m) r r' := by
  unfold filterSlot
  rw [hN]
  simp only
  by_cases hlt : N.cnts.getD j 0 < supp
  · rw [if_pos hlt]
    refine ⟨r, rfl, ClrRel_congr (fun Y => ?_) (ClrRel_refl h _ r)⟩
    constructor
    · exact fun hf => absurd hf id
    · rintro ⟨hge, -⟩; omega
  · rw [if_neg hlt]
    have hge : supp ≤ N.cnts.getD j 0 := by omega
    generalize hs : (if mode = IST_CLOSED then N.cnts.getD j 0 else -1) = s
    rcases List.eq_nil_or_concat b with e | ⟨pa, jb, e⟩
    · exact absurd e hb
    · rw [List.concat_eq_append] at e
      subst e
      have hrev : (pa ++ [jb]).reverse = jb :: pa.reverse := by simp
      rw [hrev]
      simp only [List.reverse_reverse]
      obtain ⟨p, hp, hpj⟩ := nodeAt_snoc hN
      have hpath := pathIds_append pa hp hpj
      have hplen : (pathIds r pa).length = pa.length := length_pathIds hp
      have hblen : (pa ++ [jb]).length = pa.length + 1 := by simp
      rw [hblen] at hrep ⊢
      have hX : pathIds r (pa ++ [jb]) ++ [N.offset + (j : Int)] =
          pathIds r pa ++ [N.id, N.offset + (j : Int)] := by
        rw [hpath, List.append_assoc]; rfl
      rw [hX] at hrep ⊢
      have hm1 : (pathIds r pa ++ [N.id, N.offset + (j : Int)]).eraseIdx pa.length =
          pathIds r pa ++ [N.offset + (j : Int)] := by
        rw [← hplen, eraseIdx_mid]
      have hm2 : (pathIds r pa ++ [N.id, N.offset + (j : Int)]).eraseIdx (pa.length + 1) =
          pathIds r pa ++ [N.id] := by
        rw [List.eraseIdx_append_of_length_le (by omega), hplen]
        simp
      -- the item set without the id of the node
      obtain ⟨a1, M1, i1, hM1, hi1, hp1⟩ := hrep hge pa.length (by omega)
      rw [hm1] at hp1
      have hclr1 := clr_at s hw hp (by simp) hM1 hi1 hp1
      have hrel1 := ClrRel_single s hw hM1 hi1
      rw [hp1] at hrel1
      have hw1 := WFN_shape hw hrel1.1
      have hpl := (WFN_at _ hw hp).1
      obtain ⟨p1, hpn1, -⟩ := Shape_node hrel1.1 hpl hp
      have hpe1 : pathIds (updateAt r a1 (clrSlot i1 s)) pa = pathIds r pa :=
        (Shape_pathIds hrel1.1 _ hpl).symm
      -- the item set without the item of the slot
      obtain ⟨a2, M2, i2, hM2, hi2, hp2⟩ := ReprN_shape hw hrel1.1 (hrep hge (pa.length + 1)
        (by omega))
      rw [hm2, ← hpe1] at hp2
      have hclr2 := clr_at s hw1 hpn1 (by simp) hM2 hi2 hp2
      have hrel2 := ClrRel_single s hw1 hM2 hi2
      rw [hp2, hpe1] at hrel2
      have hrel12 := ClrRel_trans hw hrel1 hrel2
      have hw2 := WFN_shape hw hrel12.1
      obtain ⟨p2, hpn2, -⟩ := Shape_node hrel12.1 hpl hp
      have hpe2 : pathIds (updateAt (updateAt r a1 (clrSlot i1 s)) a2 (clrSlot i2 s)) pa =
          pathIds r pa := (Shape_pathIds hrel12.1 _ hpl).symm
      -- the item sets without an id of the path
      obtain ⟨r', hr', hrel3⟩ := clrUp_spec s pa.reverse
        (updateAt (updateAt r a1 (clrSlot i1 s)) a2 (clrSlot i2 s)) p2
        [N.id, N.offset + (j : Int)] hw2 (by rw [List.reverse_reverse]; exact hpn2) (by simp)
        (fun m hm => by
          rw [List.reverse_reverse, hpe2]
          exact ReprN_shape hw hrel12.1 (hrep hge m (by simp at hm; omega)))
      rw [List.reverse_reverse, hpe2] at hrel3
      refine ⟨r', ?_, ?_⟩
      · rw [hclr1]
        simp only
        rw [hclr2]
        simp only
        exact hr'
      · refine ClrRel_congr (fun Y => ?_) (ClrRel_trans hw hrel12 hrel3)
        constructor
        · rintro ((e | e) | ⟨m, hm, e⟩)
          · exact ⟨hge, pa.length, by omega, by rw [hm1]; exact e⟩
          · exact ⟨hge, pa.length + 1, by omega, by rw [hm2]; exact e⟩
          · exact ⟨hge, m, by simp at hm; omega, e⟩
        · rintro ⟨-, m, hm, e⟩
          by_cases h1 : m = pa.length
          · subst h1
            left; left; rw [e, hm1]
          · by_cases h2 : m = pa.length + 1
            · subst h2
              left; right; rw [e, hm2]
            · right
              exact ⟨m, by simp; omega, e⟩


/-! ### The loops of `ist_filter` -/

theorem Hit_mono {supp mode : Int} {P P' : Addr → Nat → Prop} {r0 : ISNODE} {X : List Int}
    {c : Int} (hP : ∀ b j, P b j → P' b j) (h : Hit supp mode P r0 X c) :
    Hit supp mode P' r0 X c := by
  obtain ⟨b, N0, j, h1, h2⟩ := h
  exact ⟨b, N0, j, hP b j h1, h2⟩

theorem Filtered_congr {h : Nat} {supp mode : Int} {P P' : Addr → Nat → Prop} {r0 r : ISNODE}
    (hP : ∀ b j, P b j ↔ P' b j) (hF : Filtered h supp mode P r0 r) :
    Filtered h supp mode P' r0 r := by
  refine ⟨hF.1, fun a M0 M i hM0 hM hi => ?_⟩
  obtain ⟨f1, f2⟩ := hF.2 a M0 M i hM0 hM hi
  exact ⟨fun hh => f1 (Hit_mono (fun b j => (hP b j).2) hh),
    fun hh => f2 (fun hx => hh (Hit_mono (fun b j => (hP b j).1) hx))⟩

theorem Filtered_start (h : Nat) (supp mode : Int) (r0 : ISNODE) :
    Filtered h supp mode (fun _ _ => False) r0 r0 := by
  refine ⟨Shape.refl_shape h r0, fun a M0 M i hM0 hM _ => ?_⟩
  rw [hM0] at hM; cases hM
  refine ⟨?_, fun _ => rfl⟩
  rintro ⟨b, N0, j, hf, -⟩
  exact absurd hf id

/-- One slot is handled. -/
theorem Filtered_slot {lc : Int} {live : Bool} {h : Nat} {supp mode : Int}
    {P : Addr → Nat → Prop} {r0 r : ISNODE} {b : Addr} {N0 : ISNODE} {j : Nat}
    (hw : WFN lc live h r0) (hs : 1 ≤ supp) (hsc : SubClosed supp r0)
    (hF : Filtered h supp mode P r0 r) (hb : b ≠ []) (hN0 : nodeAt r0 b = some N0)
    (hj : j < N0.cnts.length) (hP : ∀ b' j', P b' j' → b'.length ≤ b.length) :
    ∃ r', filterSlot supp mode b r j = some r' ∧
      Filtered h supp mode (fun b' j' => P b' j' ∨ (b' = b ∧ j' = j)) r0 r' := by
  have hbl := (WFN_at b hw hN0).1
  have hwr := WFN_shape hw hF.1
  obtain ⟨N, hN, g1, g2, g3, g4⟩ := Shape_node hF.1 hbl hN0
  have hpb : pathIds r b = pathIds r0 b := (Shape_pathIds hF.1 b hbl).symm
  -- the counter of the slot has not been touched
  have hcnt : N.cnts.getD j 0 = N0.cnts.getD j 0 := by
    refine (hF.2 b N0 N j hN0 hN hj).2 ?_
    rintro ⟨b', N', j', hp', hN', -, -, ⟨m, hm, e⟩, -⟩
    have h1 := hP b' j' hp'
    have h2 := congrArg List.length e
    rw [List.length_eraseIdx] at h2
    simp only [List.length_append, length_pathIds hN0, length_pathIds hN', List.length_cons,
      List.length_nil] at h2
    rw [if_pos (by omega)] at h2
    omega
  obtain ⟨r', hr', hrel⟩ := @filterSlot_spec lc live h supp mode b r N j hwr hb hN
    (fun hge m hm => by
      rw [hpb, g3]
      exact ReprN_shape hw hF.1 (hsc b N0 j hb hN0 hj (by rw [← hcnt]; exact hge) m hm))
  rw [hpb, g3, hcnt] at hrel
  refine ⟨r', hr', hF.1.trans_shape hrel.1, fun a M0 M' i hM0 hM' hi => ?_⟩
  have hal := (WFN_at a hw hM0).1
  obtain ⟨M, hM, k1, k2, k3, k4⟩ := Shape_node hF.1 hal hM0
  obtain ⟨f1, f2⟩ := hF.2 a M0 M i hM0 hM hi
  obtain ⟨c1, c2⟩ := hrel.2 a M M' i hM hM' (by rw [k4]; exact hi)
  rw [← Shape_pathIds hF.1 a hal, k3] at c1 c2
  by_cases hhit : Hit supp mode P r0 (pathIds r0 a ++ [M0.offset + (i : Int)]) (M0.cnts.getD i 0)
  · have hcur := f1 hhit
    have hnew : M'.cnts.getD i 0 = 0 := by
      by_cases hq : (supp ≤ N0.cnts.getD j 0 ∧ ∃ m, m < b.length + 1 ∧
          pathIds r0 a ++ [M0.offset + (i : Int)] =
            (pathIds r0 b ++ [N0.offset + (j : Int)]).eraseIdx m) ∧
          ((if mode = IST_CLOSED then N0.cnts.getD j 0 else -1) < 0 ∨
            M.cnts.getD i 0 = if mode = IST_CLOSED then N0.cnts.getD j 0 else -1)
      · exact c1 hq
      · rw [c2 hq, hcur]
    exact ⟨fun _ => hnew, fun hn => absurd (Hit_mono (fun b' j' hp => Or.inl hp) hhit) hn⟩
  · have hcur := f2 hhit
    constructor
    · rintro ⟨b', N', j', hp' | ⟨rfl, rfl⟩, hN', hj', hge', hm', hcl'⟩
      · exact absurd ⟨b', N', j', hp', hN', hj', hge', hm', hcl'⟩ hhit
      · rw [hN0] at hN'; cases hN'
        refine c1 ⟨⟨hge', hm'⟩, ?_⟩
        by_cases hmode : mode = IST_CLOSED
        · right
          rw [if_pos hmode, hcur]
          exact hcl' hmode
        · left
          rw [if_neg hmode]; omega
    · intro hn
      rw [← hcur]
      refine c2 ?_
      rintro ⟨⟨hge', hm'⟩, hcs⟩
      refine hn ⟨b, N0, j, Or.inr ⟨rfl, rfl⟩, hN0, hj, hge', hm', fun hmode => ?_⟩
      rw [if_pos hmode, hcur] at hcs
      rcases hcs with hcs | hcs
      · omega
      · exact hcs

/-- The slots of a node are handled. -/
theorem Filtered_slots {lc : Int} {live : Bool} {h : Nat} {supp mode : Int}
    {r0 : ISNODE} {b : Addr} {N0 : ISNODE}
    (hw : WFN lc live h r0) (hs : 1 ≤ supp) (hsc : SubClosed supp r0)
    (hb : b ≠ []) (hN0 : nodeAt r0 b = some N0) :
    ∀ (l : List Nat) (P : Addr → Nat → Prop) (r : ISNODE), (∀ j ∈ l, j < N0.cnts.length) →
    Filtered h supp mode P r0 r → (∀ b' j', P b' j' → b'.length ≤ b.length) →
    ∃ r', foldOpt (filterSlot supp mode b) r l = some r' ∧
      Filtered h supp mode (fun b' j' => P b' j' ∨ (b' = b ∧ j' ∈ l)) r0 r'
  | [], P, r, _, hF, _ => ⟨r, rfl, Filtered_congr (fun b' j' => by simp) hF⟩
  | j :: l, P, r, hl, hF, hP => by
    obtain ⟨r1, h1, hF1⟩ := Filtered_slot hw hs hsc hF hb hN0 (hl j (List.mem_cons_self _ _)) hP
    obtain ⟨r', h2, hF2⟩ := Filtered_slots hw hs hsc hb hN0 l _ r1
      (fun j' hj' => hl j' (List.mem_cons_of_mem _ hj')) hF1 (fun b' j' hp => by
        rcases hp with hp | ⟨rfl, -⟩
        · exact hP b' j' hp
        · exact le_refl _)
    refine ⟨r', ?_, Filtered_congr (fun b' j' => ?_) hF2⟩
    · unfold foldOpt
      rw [h1]
      exact h2
    · simp only [List.mem_cons]
      tauto

/-- The nodes of a level are handled. -/
theorem Filtered_nodes {lc : Int} {live : Bool} {h : Nat} {supp mode : Int}
    {r0 : ISNODE} (k : Nat) (hk : 1 ≤ k)
    (hw : WFN lc live h r0) (hs : 1 ≤ supp) (hsc : SubClosed supp r0) :
    ∀ (lvl : List Addr) (P : Addr → Nat → Prop) (r : ISNODE),
    (∀ b ∈ lvl, b.length = k ∧ (nodeAt r0 b).isSome = true) →
    Filtered h supp mode P r0 r → (∀ b' j', P b' j' → b'.length ≤ k) →
    ∃ r', filterLevel supp mode r lvl = some r' ∧
      Filtered h supp mode (fun b' j' => P b' j' ∨ b' ∈ lvl) r0 r'
  | [], P, r, _, hF, _ => ⟨r, rfl, Filtered_congr (fun b' j' => by simp) hF⟩
  | b :: lvl, P, r, hl, hF, hP => by
    obtain ⟨hbk, hbs⟩ := hl b (List.mem_cons_self _ _)
    obtain ⟨N0, hN0⟩ := Option.isSome_iff_exists.1 hbs
    have hb : b ≠ [] := by intro e; rw [e] at hbk; simp at hbk; omega
    have hbl := (WFN_at b hw hN0).1
    obtain ⟨N, hN, g1, g2, g3, g4⟩ := Shape_node hF.1 hbl hN0
    obtain ⟨r1, h1, hF1⟩ := @Filtered_slots lc live h supp mode r0 b N0 hw hs hsc hb hN0
      (List.range N0.cnts.length) P r (fun j hj => List.mem_range.1 hj) hF
      (fun b' j' hp => by rw [hbk]; exact hP b' j' hp)
    have hF1' : Filtered h supp mode (fun b' j' => P b' j' ∨ b' = b) r0 r1 := by
      refine ⟨hF1.1, fun a M0 M i hM0 hM hi => ?_⟩
      obtain ⟨f1, f2⟩ := hF1.2 a M0 M i hM0 hM hi
      constructor
      · rintro ⟨b', N', j', hp, hN', hj', rest⟩
        refine f1 ⟨b', N', j', ?_, hN', hj', rest⟩
        rcases hp with hp | rfl
        · exact Or.inl hp
        · rw [hN0] at hN'; cases hN'
          exact Or.inr ⟨rfl, List.mem_range.2 hj'⟩
      · intro hn
        exact f2 (fun hx => hn (Hit_mono (fun b' j' hp => by
          rcases hp with hp | ⟨rfl, -⟩
          · exact Or.inl hp
          · exact Or.inr rfl) hx))
    obtain ⟨r', h2, hF2⟩ := Filtered_nodes k hk hw hs hsc lvl _ r1
      (fun b' hb' => hl b' (List.mem_cons_of_mem _ hb')) hF1' (fun b' j' hp => by
        rcases hp with hp | rfl
        · exact hP b' j' hp
        · omega)
    refine ⟨r', ?_, Filtered_congr (fun b' j' => ?_) hF2⟩
    · unfold filterLevel foldOpt
      have hfn : filterNode supp mode r b = some r1 := by
        unfold filterNode
        rw [hN]
        simp only
        rw [g4]
        exact h1
      rw [hfn]
      exact h2
    · simp only [List.mem_cons]
      tauto

/-- The levels are handled, from the level `k` on. -/
theorem Filtered_levels {lc : Int} {live : Bool} {h : Nat} {supp mode : Int}
    {r0 : ISNODE} (hw : WFN lc live h r0) (hs : 1 ≤ supp) (hsc : SubClosed supp r0) :
    ∀ (lvls : List (List Addr)) (k : Nat) (P : Addr → Nat → Prop) (r : ISNODE), 1 ≤ k →
    (∀ idx, idx < lvls.length → ∀ b ∈ lvls.getD idx [],
      b.length = k + idx ∧ (nodeAt r0 b).isSome = true) →
    Filtered h supp mode P r0 r → (∀ b' j', P b' j' → b'.length ≤ k) →
    ∃ r', foldOpt (filterLevel supp mode) r lvls = some r' ∧
      Filtered h supp mode (fun b' j' => P b' j' ∨ ∃ lvl ∈ lvls, b' ∈ lvl) r0 r'
  | [], k, P, r, _, _, hF, _ => ⟨r, rfl, Filtered_congr (fun b' j' => by simp) hF⟩
  | lvl :: lvls, k, P, r, hk, hl, hF, hP => by
    obtain ⟨r1, h1, hF1⟩ := @Filtered_nodes lc live h supp mode r0 k hk hw hs hsc lvl P r
      (fun b hb => by
        have := hl 0 (by simp) b (by simpa using hb)
        simpa using this) hF hP
    obtain ⟨r', h2, hF2⟩ := Filtered_levels hw hs hsc lvls (k + 1) _ r1 (by omega)
      (fun idx hidx b hb => by
        have := hl (idx + 1) (by simp; omega) b (by simpa using hb)
        rw [show k + 1 + idx = k + (idx + 1) by omega]
        exact this) hF1 (fun b' j' hp => by
        rcases hp with hp | hp
        · have := hP b' j' hp; omega
        · have := (hl 0 (by simp) b' (by simpa using hp)).1
          omega)
    refine ⟨r', ?_, Filtered_congr (fun b' j' => ?_) hF2⟩
    · unfold foldOpt
      rw [h1]
      exact h2
    · simp only [List.mem_cons, exists_eq_or_imp]
      tauto


/-! ### The effect of `ist_filter` -/

theorem levels_drop_getD {ist : ISTREE} (hI : Inv ist) (idx : Nat) :
    ((ist.levels.take ist.lvlcnt).drop 1).getD idx [] = ist.levels.getD (idx + 1) [] := by
  rw [← hI.lvl_len, List.take_length]
  simp only [List.getD_eq_getElem?_getD, List.getElem?_drop]
  rw [Nat.add_comm]

/-- The effect of `ist_filter` on a tree in which the item sets of the frequent slots have
slots for their subsets: the call succeeds, and a counter is cleared exactly when some slot
with a counter of at least `supp` holds the item set with one more item (in the mode
`IST_CLOSED`: and the same counter). -/
theorem filter_spec {ist : ISTREE} (mode : Int) (hI : Inv ist)
    (hsc : SubClosed ist.supp ist.root) :
    ∃ ist', ist_filter ist mode = some ist' ∧ ist' = { ist with root := ist'.root } ∧
      Filtered (ist.lvlcnt - 1) ist.supp mode (fun _ _ => True) ist.root ist'.root := by
  obtain ⟨lc, -, hw⟩ := hI.wf
  have hp := hI.lvl_pos
  have hlen := hI.lvl_len
  obtain ⟨r', hr', hF⟩ := @Filtered_levels lc true (ist.lvlcnt - 1) ist.supp mode ist.root hw
    hI.supp_pos hsc ((ist.levels.take ist.lvlcnt).drop 1) 1 (fun _ _ => False) ist.root
    (le_refl _) (fun idx hidx b hb => by
      rw [levels_drop_getD hI] at hb
      have hlt : idx + 1 < ist.lvlcnt := by
        simp only [List.length_drop, List.length_take] at hidx
        omega
      have := (hI.lvl_mem (idx + 1) hlt b).1 hb
      exact ⟨by omega, this.2⟩)
    (Filtered_start _ _ _ _) (fun b' j' hf => absurd hf id)
  refine ⟨{ ist with root := r' }, ?_, rfl, hF.1, fun a M0 M i hM0 hM hi => ?_⟩
  · unfold ist_filter
    rw [hr']
    rfl
  · obtain ⟨f1, f2⟩ := hF.2 a M0 M i hM0 hM hi
    constructor
    · rintro ⟨b, N0, j, -, hN0, hj, hge, ⟨m, hm, e⟩, hcl⟩
      refine f1 ⟨b, N0, j, Or.inr ?_, hN0, hj, hge, ⟨m, hm, e⟩, hcl⟩
      have hbl := hI.nodeAt_length hN0
      have h2 := congrArg List.length e
      rw [List.length_eraseIdx] at h2
      simp only [List.length_append, length_pathIds hN0, length_pathIds hM0, List.length_cons,
        List.length_nil] at h2
      rw [if_pos (by omega)] at h2
      have hb1 : 1 ≤ b.length := by omega
      refine ⟨ist.levels.getD b.length [], ?_, ?_⟩
      · have := levels_drop_getD hI (b.length - 1)
        rw [show b.length - 1 + 1 = b.length by omega] at this
        rw [← this]
        exact getD_mem _ _ _ (by
          simp only [List.length_drop, List.length_take]
          omega)
      · exact (hI.lvl_mem b.length (by omega) b).2 ⟨rfl, by rw [hN0]; rfl⟩
    · intro hn
      exact f2 (fun hx => hn (Hit_mono (fun _ _ _ => trivial) hx))

theorem mine_spec (db : List (List Int)) (n : Nat) (supp : Int)
    (hn : (n : Int) ≤ INT_MAX) (hs : 1 ≤ supp)
    (hdb : ∀ t ∈ db, Tract t ∧ ∀ x ∈ t, 0 ≤ x ∧ x < (n : Int)) :
    ∃ ist, mine db n supp = some ist ∧ Mining db n supp ist ∧
      ∀ X : List Int, X ≠ [] → Tract X → supp ≤ support db X → Repr ist X := by
  have hm0 := Mining_seed db n supp hn hs (fun t ht => (hdb t ht).2)
  have hl0 : (seed db n (ist_create n supp)).lvlcnt = 1 := (seed_fields db n _).1
  exact mineLoop_spec (fun t ht => (hdb t ht).1) (n + 1) _ hm0 (by rw [hl0]) (by omega)

theorem eraseIdx_subset {α : Type} (l : List α) (m : Nat) : ∀ z ∈ l.eraseIdx m, z ∈ l :=
  fun _ hz => (List.eraseIdx_sublist l m).subset hz

/-- The tree of the mining run has slots for the subsets of its frequent item sets. -/
theorem Mining.subClosed {db : List (List Int)} {n : Nat} {supp : Int} {ist : ISTREE}
    (hm : Mining db n supp ist)
    (hfull : ∀ X : List Int, X ≠ [] → Tract X → supp ≤ support db X → Repr ist X) :
    SubClosed ist.supp ist.root := by
  obtain ⟨lc, -, hw⟩ := hm.inv.wf
  intro b N0 j hb hN0 hj hge m hm'
  have hE := hm.exact b N0 j hN0 hj
  have hX := (path_sorted b hw hN0 j hj).1
  have hbl : 1 ≤ b.length := List.length_pos.2 hb
  refine hfull _ ?_ (Tract.sublist (List.eraseIdx_sublist _ m) hX) ?_
  · intro e
    have := congrArg List.length e
    rw [List.length_eraseIdx] at this
    simp only [List.length_append, length_pathIds hN0, List.length_cons, List.length_nil] at this
    rw [if_pos (by omega)] at this
    omega
  · rw [← hm.supp_eq]
    refine le_trans ?_ (support_mono db (eraseIdx_subset _ m))
    rw [← hE]; exact hge

theorem SubClosed_filtered {lc : Int} {live : Bool} {h : Nat} {supp mode : Int}
    {P : Addr → Nat → Prop} {r0 r : ISNODE} (hw : WFN lc live h r0) (hs : 1 ≤ supp)
    (hsc : SubClosed supp r0) (hF : Filtered h supp mode P r0 r) : SubClosed supp r := by
  intro b N j hb hN hj hge m hm
  obtain ⟨N0, hN0, -⟩ := (TRel_nodeAt b hF.1 (WFN_at b (WFN_shape hw hF.1) hN).1).2.2 N hN
  have hbl := (WFN_at b hw hN0).1
  obtain ⟨N', hN', g1, g2, g3, g4⟩ := Shape_node hF.1 hbl hN0
  rw [hN] at hN'; cases hN'
  rw [g4] at hj
  obtain ⟨f1, f2⟩ := hF.2 b N0 N j hN0 hN hj
  have horig : N.cnts.getD j 0 = N0.cnts.getD j 0 := by
    by_cases hh : Hit supp mode P r0 (pathIds r0 b ++ [N0.offset + (j : Int)]) (N0.cnts.getD j 0)
    · have := f1 hh
      omega
    · exact f2 hh
  rw [← Shape_pathIds hF.1 b hbl, g3]
  exact ReprN_shape hw hF.1 (hsc b N0 j hb hN0 hj (by rw [← horig]; exact hge) m hm)

theorem cnts_ext {c1 c2 : List Int} (hl : c1.length = c2.length)
    (h : ∀ i, i < c1.length → c1.getD i 0 = c2.getD i 0) : c1 = c2 := by
  apply List.ext_getElem hl
  intro i h1 h2
  have := h i h1
  rw [getD_of_lt c1 i 0 h1, getD_of_lt c2 i 0 h2] at this
  exact this

/-- C8: on the tree of the mining run `ist_filter` with the mode `IST_MAXFRQ` succeeds, and a
second call with this mode returns the tree of the first call unchanged, so that the
enumeration after two calls is the enumeration after one. -/
theorem C8_maxfrq_idempotent (db : List (List Int)) (n : Nat) (supp : Int)
    (hn : (n : Int) ≤ INT_MAX) (hs : 1 ≤ supp)
    (hdb : ∀ t ∈ db, Tract t ∧ ∀ x ∈ t, 0 ≤ x ∧ x < (n : Int)) :
    ∃ ist ist1, mine db n supp = some ist ∧ ist_filter ist IST_MAXFRQ = some ist1 ∧
      ist_filter ist1 IST_MAXFRQ = some ist1 ∧
      (ist_filter ist1 IST_MAXFRQ).bind ist_sets = ist_sets ist1 := by
  obtain ⟨ist, hmine, hm, hfull⟩ := mine_spec db n supp hn hs hdb
  have hI := hm.inv
  obtain ⟨lc, -, hw⟩ := hI.wf
  have hsc := hm.subClosed hfull
  obtain ⟨ist1, hf1, he1, hF1⟩ := filter_spec IST_MAXFRQ hI hsc
  have hI1 := Inv_filter hI hf1
  have hl1 : ist1.lvlcnt = ist.lvlcnt := by rw [he1]
  have hs1 : ist1.supp = ist.supp := by rw [he1]
  have hsc1 : SubClosed ist1.supp ist1.root := by
    rw [hs1]
    exact SubClosed_filtered hw hI.supp_pos hsc hF1
  obtain ⟨ist2, hf2, he2, hF2⟩ := filter_spec IST_MAXFRQ hI1 hsc1
  have hroot : ist1.root = ist2.root := by
    refine Shape_ext hF2.1 (fun a M1 M2 hM1 hM2 => ?_)
    have hal1 := hI1.nodeAt_length hM1
    obtain ⟨M2', hM2', -, -, -, g4⟩ := Shape_node hF2.1 hal1 hM1
    rw [hM2] at hM2'; cases hM2'
    refine cnts_ext g4.symm (fun i hi => ?_)
    obtain ⟨f1, f2⟩ := hF2.2 a M1 M2 i hM1 hM2 hi
    by_cases hh : Hit ist1.supp IST_MAXFRQ (fun _ _ => True) ist1.root
        (pathIds ist1.root a ++ [M1.offset + (i : Int)]) (M1.cnts.getD i 0)
    · rw [f1 hh]
      -- the reason to clear the counter was one in the first call
      obtain ⟨b, N1, j, -, hN1, hj, hge, ⟨m, hm', e⟩, -⟩ := hh
      rw [hl1] at hal1
      obtain ⟨M0, hM0, -⟩ := (TRel_nodeAt a hF1.1 hal1).2.2 M1 hM1
      obtain ⟨M1', hM1', k1, k2, k3, k4⟩ := Shape_node hF1.1 hal1 hM0
      rw [hM1] at hM1'; cases hM1'
      have hbl1 := hI1.nodeAt_length hN1
      rw [hl1] at hbl1
      obtain ⟨N0, hN0, -⟩ := (TRel_nodeAt b hF1.1 hbl1).2.2 N1 hN1
      obtain ⟨N1', hN1', q1, q2, q3, q4⟩ := Shape_node hF1.1 hbl1 hN0
      rw [hN1] at hN1'; cases hN1'
      rw [q4] at hj
      rw [k4] at hi
      have hpos := hI.supp_pos
      have horig : N1.cnts.getD j 0 = N0.cnts.getD j 0 := by
        obtain ⟨u1, u2⟩ := hF1.2 b N0 N1 j hN0 hN1 hj
        by_cases hh0 : Hit ist.supp IST_MAXFRQ (fun _ _ => True) ist.root
            (pathIds ist.root b ++ [N0.offset + (j : Int)]) (N0.cnts.getD j 0)
        · have := u1 hh0
          rw [hs1] at hge
          omega
        · exact u2 hh0
      refine (hF1.2 a M0 M1 i hM0 hM1 hi).1 ⟨b, N0, j, trivial, hN0, hj, ?_, ⟨m, hm', ?_⟩,
        fun hmode => absurd hmode (by decide)⟩
      · rw [← horig, ← hs1]; exact hge
      · rw [Shape_pathIds hF1.1 a hal1, Shape_pathIds hF1.1 b hbl1, ← k3, ← q3]
        exact e
    · rw [f2 hh]
  have h21 : ist2 = ist1 := by
    rw [he2, ← hroot]
  rw [h21] at hf2
  exact ⟨ist, ist1, hmine, hf1, hf2, by rw [hf2]; rfl⟩

theorem C8_maxfrq_idempotent_witness :
    ∃ ist ist1, mine gapDb 4 1 = some ist ∧ ist_filter ist IST_MAXFRQ = some ist1 ∧
      ist_filter ist1 IST_MAXFRQ = some ist1 ∧
      (ist_filter ist1 IST_MAXFRQ).bind ist_sets = ist_sets ist1 :=
  C8_maxfrq_idempotent gapDb 4 1 (by decide) (by decide) gapDb_range


/-! ### The maximal and the closed item sets -/

theorem Tract.nodup {t : List Int} (h : Tract t) : t.Nodup :=
  List.Pairwise.imp (fun hlt => ne_of_lt hlt) h

/-- An item set in ascending order with one more item. -/
theorem insert_sorted (y : Int) : ∀ (X : List Int), Tract X → y ∉ X →
    ∃ Z m, Tract Z ∧ m < Z.length ∧ Z.eraseIdx m = X ∧ ∀ z, z ∈ Z ↔ (z = y ∨ z ∈ X)
  | [], _, _ => ⟨[y], 0, by simp [Tract], by simp, rfl, fun z => by simp⟩
  | x :: X, hX, hy => by
    have hne : y ≠ x := fun e => hy (by rw [e]; exact List.mem_cons_self _ _)
    by_cases hlt : y < x
    · refine ⟨y :: x :: X, 0, ?_, by simp, rfl, fun z => by simp⟩
      unfold Tract at hX ⊢
      rw [List.pairwise_cons]
      refine ⟨fun z hz => ?_, hX⟩
      rcases List.mem_cons.1 hz with e | hz'
      · rw [e]; exact hlt
      · have := (List.pairwise_cons.1 hX).1 z hz'
        omega
    · obtain ⟨Z, m, hZ, hm, he, hmem⟩ := insert_sorted y X hX.tail
        (fun h => hy (List.mem_cons_of_mem _ h))
      refine ⟨x :: Z, m + 1, ?_, by simp; omega, by simp [he], fun z => ?_⟩
      · unfold Tract at hZ ⊢
        rw [List.pairwise_cons]
        refine ⟨fun z hz => ?_, hZ⟩
        rcases (hmem z).1 hz with e | hz'
        · rw [e]; omega
        · exact hX.head_lt z hz'
      · simp only [List.mem_cons, hmem]
        tauto

theorem proper_of_erase {Z : List Int} (hZ : Tract Z) {m : Nat} (hm : m < Z.length) :
    ∃ y ∈ Z, y ∉ Z.eraseIdx m := by
  by_contra hcon
  push_neg at hcon
  have hsub : Z ⊆ Z.eraseIdx m := fun y hy => hcon y hy
  have := (List.subperm_of_subset hZ.nodup hsub).length_le
  rw [List.length_eraseIdx, if_pos hm] at this
  omega

/-- The reasons to clear a counter in the tree of the mining run. -/
theorem hit_iff {db : List (List Int)} {n : Nat} {supp : Int} {ist : ISTREE}
    (hm : Mining db n supp ist)
    (hfull : ∀ X : List Int, X ≠ [] → Tract X → supp ≤ support db X → Repr ist X)
    (mode : Int) (X : List Int) (c : Int) :
    Hit ist.supp mode (fun _ _ => True) ist.root X c ↔
      ∃ Z, Tract Z ∧ (∃ m, m < Z.length ∧ X = Z.eraseIdx m) ∧ supp ≤ support db Z ∧
        (mode = IST_CLOSED → c = support db Z) := by
  obtain ⟨lc, -, hw⟩ := hm.inv.wf
  constructor
  · rintro ⟨b, N0, j, -, hN0, hj, hge, ⟨m, hm', e⟩, hcl⟩
    have hE := hm.exact b N0 j hN0 hj
    refine ⟨_, (path_sorted b hw hN0 j hj).1, ⟨m, ?_, e⟩, ?_, fun hmode => ?_⟩
    · simp only [List.length_append, length_pathIds hN0, List.length_cons, List.length_nil]
      exact hm'
    · rw [← hE, ← hm.supp_eq]; exact hge
    · rw [← hE]; exact hcl hmode
  · rintro ⟨Z, hZ, ⟨m, hm', e⟩, hge, hcl⟩
    have hne : Z ≠ [] := by intro h; rw [h] at hm'; simp at hm'
    obtain ⟨b, N0, j, hN0, hj, hp⟩ := hfull Z hne hZ hge
    have hE := hm.exact b N0 j hN0 hj
    rw [hp] at hE
    refine ⟨b, N0, j, trivial, hN0, hj, by rw [hE, hm.supp_eq]; exact hge, ⟨m, ?_, by rw [hp]; exact e⟩,
      fun hmode => by rw [hE]; exact hcl hmode⟩
    have := congrArg List.length hp
    simp only [List.length_append, length_pathIds hN0, List.length_cons, List.length_nil] at this
    omega

/-- The item sets that `ist_init; ist_set*` reports after `ist_filter` on the tree of the
mining run. -/
theorem filtered_sets {db : List (List Int)} {n : Nat} {supp : Int} {ist : ISTREE}
    (hm : Mining db n supp ist)
    (hfull : ∀ X : List Int, X ≠ [] → Tract X → supp ≤ support db X → Repr ist X)
    (mode : Int) :
    ∃ ist1, ist_filter ist mode = some ist1 ∧ ist_sets ist1 = some (enumSets ist1) ∧
      (enumSets ist1).Nodup ∧
      ∀ (X : List Int) (s : Int), (X, s) ∈ enumSets ist1 ↔
        (X ≠ [] ∧ Tract X ∧ supp ≤ support db X ∧ s = support db X ∧
          ¬ ∃ Z, Tract Z ∧ (∃ m, m < Z.length ∧ X = Z.eraseIdx m) ∧ supp ≤ support db Z ∧
            (mode = IST_CLOSED → support db X = support db Z)) := by
  have hI := hm.inv
  obtain ⟨lc, -, hw⟩ := hI.wf
  have hpos := hI.supp_pos
  obtain ⟨ist1, hf1, he1, hF1⟩ := filter_spec mode hI (hm.subClosed hfull)
  have hI1 := Inv_filter hI hf1
  have hl1 : ist1.lvlcnt = ist.lvlcnt := by rw [he1]
  have hs1 : ist1.supp = ist.supp := by rw [he1]
  have hv1 : ist1.levels = ist.levels := by rw [he1]
  have hscan : Scan ist1 := Scan_of_inv hI1 (fun k hk => by
    rw [hv1]; exact hm.lvl_ne k (by rw [← hl1]; exact hk))
  refine ⟨ist1, hf1, ist_sets_eq hscan hI1.lvl_pos, nodup_enumSets hI1, fun X s => ?_⟩
  rw [mem_enumSets hI1, ← hit_iff hm hfull mode X (support db X)]
  constructor
  · rintro ⟨a, M, i, hM, hi, hge, rfl, rfl⟩
    have hal1 := hI1.nodeAt_length hM
    rw [hl1] at hal1
    obtain ⟨M0, hM0, -⟩ := (TRel_nodeAt a hF1.1 hal1).2.2 M hM
    obtain ⟨M', hM', k1, k2, k3, k4⟩ := Shape_node hF1.1 hal1 hM0
    rw [hM] at hM'; cases hM'
    rw [k4] at hi
    have hE := hm.exact a M0 i hM0 hi
    obtain ⟨f1, f2⟩ := hF1.2 a M0 M i hM0 hM hi
    rw [← Shape_pathIds hF1.1 a hal1, k3]
    have hnh : ¬ Hit ist.supp mode (fun _ _ => True) ist.root
        (pathIds ist.root a ++ [M0.offset + (i : Int)]) (M0.cnts.getD i 0) := by
      intro hh
      have := f1 hh
      rw [hs1] at hge
      omega
    have hval := f2 hnh
    refine ⟨by simp, (path_sorted a hw hM0 i hi).1, ?_, by rw [hval, hE], by rw [← hE]; exact hnh⟩
    rw [← hE, ← hval, ← hm.supp_eq, ← hs1]
    exact hge
  · rintro ⟨hne, hX, hge, rfl, hnh⟩
    obtain ⟨a, M0, i, hM0, hi, hp⟩ := hfull X hne hX hge
    have hal := hI.nodeAt_length hM0
    obtain ⟨M, hM, k1, k2, k3, k4⟩ := Shape_node hF1.1 hal hM0
    have hE := hm.exact a M0 i hM0 hi
    rw [hp] at hE
    obtain ⟨f1, f2⟩ := hF1.2 a M0 M i hM0 hM hi
    rw [hp, hE] at f2
    have hval := f2 hnh
    refine ⟨a, M, i, hM, by rw [k4]; exact hi, ?_, ?_, hval.symm⟩
    · rw [hval, hs1, hm.supp_eq]; exact hge
    · rw [← Shape_pathIds hF1.1 a hal, k3, hp]

/-- C6: after the mining run on a database followed by `ist_filter` with the mode
`IST_MAXFRQ`, `ist_init; ist_set*` returns a sequence without repetition that holds exactly
the maximal frequent item sets with their supports: a non-empty item set is returned if and
only if it is frequent and no proper superset of it is frequent. -/
theorem C6_maximal_filter (db : List (List Int)) (n : Nat) (supp : Int)
    (hn : (n : Int) ≤ INT_MAX) (hs : 1 ≤ supp)
    (hdb : ∀ t ∈ db, Tract t ∧ ∀ x ∈ t, 0 ≤ x ∧ x < (n : Int)) :
    ∃ ist ist1 L, mine db n supp = some ist ∧ ist_filter ist IST_MAXFRQ = some ist1 ∧
      ist_sets ist1 = some L ∧ L.Nodup ∧
      ∀ (X : List Int) (s : Int), (X, s) ∈ L ↔
        (X ≠ [] ∧ Tract X ∧ supp ≤ support db X ∧ s = support db X ∧
          ∀ Y : List Int, (∀ x ∈ X, x ∈ Y) → (∃ y ∈ Y, y ∉ X) → support db Y < supp) := by
  obtain ⟨ist, hmine, hm, hfull⟩ := mine_spec db n supp hn hs hdb
  obtain ⟨ist1, hf1, hsets, hnd, hmem⟩ := filtered_sets hm hfull IST_MAXFRQ
  refine ⟨ist, ist1, enumSets ist1, hmine, hf1, hsets, hnd, fun X s => ?_⟩
  rw [hmem]
  constructor
  · rintro ⟨hne, hX, hge, hsv, hnz⟩
    refine ⟨hne, hX, hge, hsv, fun Y hsub ⟨y, hyY, hyX⟩ => ?_⟩
    by_contra hcon
    obtain ⟨Z, m, hZ, hm', he, hZm⟩ := insert_sorted y X hX hyX
    have hY : supp ≤ support db Y := by omega
    refine hnz ⟨Z, hZ, ⟨m, hm', he.symm⟩, ?_, fun hmode => absurd hmode (by decide)⟩
    refine le_trans hY (support_mono db (fun z hz => ?_))
    rcases (hZm z).1 hz with e | hz'
    · rw [e]; exact hyY
    · exact hsub z hz'
  · rintro ⟨hne, hX, hge, hsv, hall⟩
    refine ⟨hne, hX, hge, hsv, ?_⟩
    rintro ⟨Z, hZ, ⟨m, hm', e⟩, hgeZ, -⟩
    obtain ⟨y, hy, hyn⟩ := proper_of_erase hZ hm'
    have := hall Z (fun x hx => by rw [e] at hx; exact eraseIdx_subset Z m x hx)
      ⟨y, hy, by rw [e]; exact hyn⟩
    omega

theorem C6_maximal_filter_witness :
    ∃ ist ist1 L, mine gapDb 4 1 = some ist ∧ ist_filter ist IST_MAXFRQ = some ist1 ∧
      ist_sets ist1 = some L ∧ L.Nodup ∧
      ∀ (X : List Int) (s : Int), (X, s) ∈ L ↔
        (X ≠ [] ∧ Tract X ∧ 1 ≤ support gapDb X ∧ s = support gapDb X ∧
          ∀ Y : List Int, (∀ x ∈ X, x ∈ Y) → (∃ y ∈ Y, y ∉ X) → support gapDb Y < 1) :=
  C6_maximal_filter gapDb 4 1 (by decide) (by decide) gapDb_range

/-- C7: after the mining run on a database followed by `ist_filter` with the mode
`IST_CLOSED`, `ist_init; ist_set*` returns a sequence without repetition that holds exactly
the closed frequent item sets with their supports: a non-empty item set is returned if and
only if it is frequent and no proper superset of it has the same support. -/
theorem C7_closed_filter (db : List (List Int)) (n : Nat) (supp : Int)
    (hn : (n : Int) ≤ INT_MAX) (hs : 1 ≤ supp)
    (hdb : ∀ t ∈ db, Tract t ∧ ∀ x ∈ t, 0 ≤ x ∧ x < (n : Int)) :
    ∃ ist ist1 L, mine db n supp = some ist ∧ ist_filter ist IST_CLOSED = some ist1 ∧
      ist_sets ist1 = some L ∧ L.Nodup ∧
      ∀ (X : List Int) (s : Int), (X, s) ∈ L ↔
        (X ≠ [] ∧ Tract X ∧ supp ≤ support db X ∧ s = support db X ∧
          ∀ Y : List Int, (∀ x ∈ X, x ∈ Y) → (∃ y ∈ Y, y ∉ X) →
            support db Y ≠ support db X) := by
  obtain ⟨ist, hmine, hm, hfull⟩ := mine_spec db n supp hn hs hdb
  obtain ⟨ist1, hf1, hsets, hnd, hmem⟩ := filtered_sets hm hfull IST_CLOSED
  refine ⟨ist, ist1, enumSets ist1, hmine, hf1, hsets, hnd, fun X s => ?_⟩
  rw [hmem]
  constructor
  · rintro ⟨hne, hX, hge, hsv, hnz⟩
    refine ⟨hne, hX, hge, hsv, fun Y hsub ⟨y, hyY, hyX⟩ heq => ?_⟩
    obtain ⟨Z, m, hZ, hm', he, hZm⟩ := insert_sorted y X hX hyX
    have h1 : support db Y ≤ support db Z := support_mono db (fun z hz => by
      rcases (hZm z).1 hz with e | hz'
      · rw [e]; exact hyY
      · exact hsub z hz')
    have h2 : support db Z ≤ support db X :=
      support_mono db (fun x hx => (hZm x).2 (Or.inr hx))
    exact hnz ⟨Z, hZ, ⟨m, hm', he.symm⟩, by omega, fun _ => by omega⟩
  · rintro ⟨hne, hX, hge, hsv, hall⟩
    refine ⟨hne, hX, hge, hsv, ?_⟩
    rintro ⟨Z, hZ, ⟨m, hm', e⟩, hgeZ, heq⟩
    obtain ⟨y, hy, hyn⟩ := proper_of_erase hZ hm'
    exact hall Z (fun x hx => by rw [e] at hx; exact eraseIdx_subset Z m x hx)
      ⟨y, hy, by rw [e]; exact hyn⟩ (heq rfl).symm

theorem C7_closed_filter_witness :
    ∃ ist ist1 L, mine gapDb 4 1 = some ist ∧ ist_filter ist IST_CLOSED = some ist1 ∧
      ist_sets ist1 = some L ∧ L.Nodup ∧
      ∀ (X : List Int) (s : Int), (X, s) ∈ L ↔
        (X ≠ [] ∧ Tract X ∧ 1 ≤ support gapDb X ∧ s = support gapDb X ∧
          ∀ Y : List Int, (∀ x ∈ X, x ∈ Y) → (∃ y ∈ Y, y ∉ X) →
            support gapDb Y ≠ support gapDb X) :=
  C7_closed_filter gapDb 4 1 (by decide) (by decide) gapDb_range


/-! ### Counting a transaction tree -/

theorem WFT_leaf (fuel : Nat) (lb cnt max : Int) (items : List Int) :
    WFT (fuel + 1) lb (.leaf cnt max items) ↔
      (0 ≤ cnt ∧ Tract items ∧ (∀ x ∈ items, lb < x) ∧ (items.length : Int) ≤ max) := Iff.rfl

theorem WFT_node (fuel : Nat) (lb cnt max : Int) (kids : List (Int × TATREE)) :
    WFT (fuel + 1) lb (.node cnt max kids) ↔
      (0 ≤ max ∧ (kids.map (fun kc => kc.1)).Pairwise (fun x y => x < y) ∧
      (kids.map (fun kc => tat_cnt kc.2)).sum ≤ cnt ∧
      ∀ kc ∈ kids, lb < kc.1 ∧ WFT fuel kc.1 kc.2 ∧ tat_max kc.2 + 1 ≤ max) := Iff.rfl

theorem tat_tracts_node (fuel : Nat) (cnt max : Int) (kids : List (Int × TATREE)) :
    tat_tracts (fuel + 1) (.node cnt max kids) =
      List.replicate (cnt - (kids.map (fun kc => tat_cnt kc.2)).sum).toNat [] ++
        withEdges fuel kids := rfl

/-- The transactions of a transaction tree are ascending, lie above the bound of the tree and
are not longer than `tat_max` says. -/
theorem tracts_props : ∀ (fuel : Nat) (lb : Int) (T : TATREE), WFT fuel lb T →
    ∀ t ∈ tat_tracts fuel T, (t.length : Int) ≤ tat_max T ∧ Tract t ∧ ∀ x ∈ t, lb < x
  | 0, _, _, h, _, _ => absurd h id
  | fuel + 1, lb, .leaf cnt max items, h, t, ht => by
    rw [WFT_leaf] at h
    have : t = items := List.eq_of_mem_replicate ht
    subst this
    exact ⟨h.2.2.2, h.2.1, h.2.2.1⟩
  | fuel + 1, lb, .node cnt max kids, h, t, ht => by
    rw [WFT_node] at h
    rw [tat_tracts_node, List.mem_append] at ht
    rcases ht with ht | ht
    · have : t = [] := List.eq_of_mem_replicate ht
      subst this
      exact ⟨by simpa [tat_max] using h.1, by simp [Tract], by simp⟩
    · unfold withEdges at ht
      rw [List.mem_flatMap] at ht
      obtain ⟨kc, hkc, ht⟩ := ht
      rw [List.mem_map] at ht
      obtain ⟨t', ht', rfl⟩ := ht
      obtain ⟨h1, h2, h3⟩ := h.2.2.2 kc hkc
      obtain ⟨p1, p2, p3⟩ := tracts_props fuel kc.1 kc.2 h2 t' ht'
      refine ⟨?_, ?_, ?_⟩
      · simp only [List.length_cons, tat_max]
        push_cast
        omega
      · unfold Tract at p2 ⊢
        rw [List.pairwise_cons]
        exact ⟨p3, p2⟩
      · intro x hx
        rcases List.mem_cons.1 hx with e | hx'
        · rw [e]; exact h1
        · have := p3 x hx'; omega

/-- The multiplicity of a transaction tree is the number of its transactions. -/
theorem tracts_cnt : ∀ (fuel : Nat) (lb : Int) (T : TATREE), WFT fuel lb T →
    ((tat_tracts fuel T).length : Int) = tat_cnt T
  | 0, _, _, h => absurd h id
  | fuel + 1, lb, .leaf cnt max items, h => by
    rw [WFT_leaf] at h
    simp only [tat_tracts, List.length_replicate, tat_cnt]
    omega
  | fuel + 1, lb, .node cnt max kids, h => by
    rw [WFT_node] at h
    have hk : ∀ (ks : List (Int × TATREE)), (∀ kc ∈ ks, WFT fuel kc.1 kc.2) →
        ((withEdges fuel ks).length : Int) = (ks.map (fun kc => tat_cnt kc.2)).sum := by
      intro ks
      induction ks with
      | nil => intro _; rfl
      | cons kc ks ih =>
        intro hks
        unfold withEdges at ih ⊢
        rw [List.flatMap_cons, List.length_append, List.length_map, List.map_cons, List.sum_cons]
        push_cast
        rw [ih (fun k hk => hks k (List.mem_cons_of_mem _ hk)),
          tracts_cnt fuel kc.1 kc.2 (hks kc (List.mem_cons_self _ _))]
    rw [tat_tracts_node, List.length_append, List.length_replicate]
    push_cast
    rw [hk kids (fun kc hkc => (h.2.2.2 kc hkc).2.1),
      show tat_cnt (.node cnt max kids) = cnt from rfl]
    omega

theorem support_eq_zero {ts : List (List Int)} {X : List Int}
    (h : ∀ t ∈ ts, contains t X = false) : support ts X = 0 := by
  unfold support
  rw [List.filter_eq_nil_iff.2 (fun t ht => by rw [h t ht]; simp)]
  rfl

theorem contains_length {t X : List Int} (hX : Tract X) (h : contains t X = true) :
    X.length ≤ t.length := by
  rw [contains_iff] at h
  exact (List.subperm_of_subset hX.nodup (fun x hx => h x hx)).length_le

/-- Transactions with fewer items than the subtree has levels change no counter. -/
theorem Counted_short {lc : Int} {live : Bool} {h : Nat} {N : ISNODE} {ts : List (List Int)}
    (hw : WFN lc live h N) (hs : ∀ t ∈ ts, t.length < h + 1) : Counted ts h N N := by
  refine ⟨Shape.refl_shape h N, fun a M M' hM hM' i hi => ?_⟩
  rw [hM] at hM'; cases hM'
  by_cases h0 : M.chcnt = 0
  · rw [if_pos h0]
    obtain ⟨hal, l, hwM⟩ := WFN_at a hw hM
    have hz := (WFN_chcnt_zero hwM h0).1
    have hX := (path_sorted a hw hM i hi).1
    rw [support_eq_zero, add_zero]
    intro t ht
    by_contra hc
    have hc' : contains t (pathIds N a ++ [M.offset + (i : Int)]) = true := by
      cases hcc : contains t (pathIds N a ++ [M.offset + (i : Int)]) with
      | true => rfl
      | false => exact absurd hcc hc
    have := contains_length hX hc'
    simp only [List.length_append, length_pathIds hM, List.length_cons, List.length_nil] at this
    have := hs t ht
    omega
  · rw [if_neg h0, add_zero]

/-- In a subtree without a node with `chcnt = 0` the counted transactions do not matter. -/
theorem Counted_dead {ts ts' : List (List Int)} {h : Nat} {N N' : ISNODE}
    (hd : ∀ a M, nodeAt N a = some M → M.chcnt ≠ 0) (hc : Counted ts h N N') :
    Counted ts' h N N' := by
  refine ⟨hc.1, fun a M M' hM hM' i hi => ?_⟩
  have := hc.2 a M M' hM hM' i hi
  rw [if_neg (hd a M hM)] at this ⊢
  exact this

theorem support_perm_append (ts1 ts2 : List (List Int)) (X : List Int) :
    support (ts1 ++ ts2) X = support (ts2 ++ ts1) X := by
  rw [support_append, support_append, add_comm]

/-- The support in the transactions of the children of a node: the transactions behind the
edge of the first item, and the transactions that hold the item set behind their edge. -/
theorem support_withEdges (fuel : Nat) (y : Int) (Q : List Int) (hQ : ∀ q ∈ Q, y < q) :
    ∀ (kids : List (Int × TATREE)), (∀ kc ∈ kids, WFT fuel kc.1 kc.2) →
    support (withEdges fuel kids) (y :: Q) =
      support (heads fuel y kids) Q + support (tails fuel kids) (y :: Q)
  | [], _ => rfl
  | kc :: kids, hk => by
    have ih := support_withEdges fuel y Q hQ kids (fun k hk' => hk k (List.mem_cons_of_mem _ hk'))
    have hp := tracts_props fuel kc.1 kc.2 (hk kc (List.mem_cons_self _ _))
    have hone : ∀ (l : List (List Int)), (∀ t ∈ l, ∀ x ∈ t, kc.1 < x) →
        support (l.map (fun t => kc.1 :: t)) (y :: Q) =
          support (if kc.1 = y then l else []) Q + support l (y :: Q) := by
      intro l
      induction l with
      | nil => intro _; split <;> rfl
      | cons t l ihl =>
        intro hl
        have ht := hl t (List.mem_cons_self _ _)
        have ihl' := ihl (fun t' ht' => hl t' (List.mem_cons_of_mem _ ht'))
        rw [List.map_cons, support_cons, support_cons, ihl']
        by_cases hxy : kc.1 = y
        · rw [if_pos hxy, if_pos hxy, support_cons]
          have hyt : y ∉ t := fun hy => by have := ht y hy; omega
          have e1 : contains (kc.1 :: t) (y :: Q) = contains t Q := by
            rw [Bool.eq_iff_iff, contains_iff, contains_iff]
            constructor
            · intro hall q hq
              have := hall q (List.mem_cons_of_mem _ hq)
              rcases List.mem_cons.1 this with e | h'
              · have := hQ q hq; omega
              · exact h'
            · intro hall q hq
              rcases List.mem_cons.1 hq with e | h'
              · rw [e, hxy]; exact List.mem_cons_self _ _
              · exact List.mem_cons_of_mem _ (hall q h')
          have e2 : contains t (y :: Q) = false := by
            cases hc : contains t (y :: Q) with
            | false => rfl
            | true =>
              rw [contains_iff] at hc
              exact absurd (hc y (List.mem_cons_self _ _)) hyt
          rw [e1, e2]
          simp only [Bool.false_eq_true, if_false]
          ring
        · rw [if_neg hxy, if_neg hxy]
          have e1 : contains (kc.1 :: t) (y :: Q) = contains t (y :: Q) := by
            rw [Bool.eq_iff_iff, contains_iff, contains_iff]
            constructor
            · intro hall
              have hy : y ∈ t := by
                rcases List.mem_cons.1 (hall y (List.mem_cons_self _ _)) with e | h'
                · exact absurd e.symm hxy
                · exact h'
              intro q hq
              rcases List.mem_cons.1 (hall q hq) with e | h'
              · rcases List.mem_cons.1 hq with e' | hq'
                · rw [e']; exact hy
                · have := hQ q hq'
                  have := ht y hy
                  omega
              · exact h'
            · intro hall q hq
              exact List.mem_cons_of_mem _ (hall q hq)
          rw [e1]
          simp only [support_nil]
          ring
    unfold withEdges heads tails at ih ⊢
    rw [List.flatMap_cons, List.flatMap_cons, List.flatMap_cons, support_append, support_append,
      support_append, ih, hone _ (fun t ht => (hp t ht).2.2)]
    ring

theorem support_replicate_nil (k : Nat) (x : Int) (X : List Int) :
    support (List.replicate k []) (x :: X) = 0 :=
  support_eq_zero (fun t ht => by
    have : t = [] := List.eq_of_mem_replicate ht
    subst this
    cases hc : contains [] (x :: X) with
    | false => rfl
    | true =>
      rw [contains_iff] at hc
      exact absurd (hc x (List.mem_cons_self _ _)) (by simp))

theorem support_empty_set (ts : List (List Int)) : support ts [] = (ts.length : Int) := by
  unfold support
  rw [List.filter_eq_self.2 (fun t _ => by simp [contains])]


theorem length_addAt (cnts : List Int) (i m : Int) : (addAt cnts i m).length = cnts.length := by
  unfold addAt
  split <;> simp

theorem getD_addAt (cnts : List Int) (i m : Int) (hi : 0 ≤ i) (j : Nat) (hj : j < cnts.length) :
    (addAt cnts i m).getD j 0 = cnts.getD j 0 + if i = (j : Int) then m else 0 := by
  unfold addAt
  have h0 : ¬ (i < 0) := by omega
  rw [if_neg h0]
  by_cases hk : i.toNat = j
  · have : i = (j : Int) := by omega
    rw [if_pos this]
    subst hk
    simp [List.getD_eq_getElem?_getD, List.getElem?_set, hj]
  · have : ¬ (i = (j : Int)) := by omega
    rw [if_neg this]
    simp [List.getD_eq_getElem?_getD, List.getElem?_set, hk]

/-- The second loop of `_countx` in a node without children: every counter grows by the
multiplicities of the edges that carry its item. -/
theorem countxLeaf_spec (n : Int) : ∀ (kids : List (Int × TATREE)) (cnts : List Int),
    (kids.map (fun kc => kc.1)).Pairwise (fun x y => x < y) →
    (countxLeaf n kids cnts).1.length = cnts.length ∧
    ((countxLeaf n kids cnts).2 = true → ∃ kc ∈ kids, kc.1 < n) ∧
    ∀ i : Nat, i < cnts.length → (countxLeaf n kids cnts).1.getD i 0 =
      cnts.getD i 0 +
        (kids.map (fun kc => if kc.1 = n + (i : Int) then tat_cnt kc.2 else 0)).sum
  | [], cnts, _ => ⟨rfl, fun h => by simp [countxLeaf] at h, fun i _ => by simp [countxLeaf]⟩
  | (x, c) :: rest, cnts, hp => by
    rw [List.map_cons, List.pairwise_cons] at hp
    obtain ⟨ih1, ih2, ih3⟩ := countxLeaf_spec n rest cnts hp.2
    have hx : ∀ kc ∈ rest, x < kc.1 := fun kc hkc =>
      hp.1 kc.1 (List.mem_map.2 ⟨kc, hkc, rfl⟩)
    rw [countxLeaf]
    rcases hr : countxLeaf n rest cnts with ⟨c1, b⟩
    rw [hr] at ih1 ih2 ih3
    simp only at ih1 ih2 ih3
    have hskip : x < n → ∀ i : Nat, i < cnts.length → c1.getD i 0 = cnts.getD i 0 +
        (((x, c) :: rest).map
          (fun kc => if kc.1 = n + (i : Int) then tat_cnt kc.2 else 0)).sum := by
      intro hxn i hi
      rw [ih3 i hi, List.map_cons, List.sum_cons, if_neg (by simp only; omega), zero_add]
    cases b with
    | true =>
      obtain ⟨kc, hkc, hlt⟩ := ih2 rfl
      have := hx kc hkc
      exact ⟨ih1, fun _ => ⟨kc, List.mem_cons_of_mem _ hkc, hlt⟩, hskip (by omega)⟩
    | false =>
      simp only
      by_cases h1 : x - n < 0
      · rw [if_pos h1]
        exact ⟨ih1, fun _ => ⟨(x, c), List.mem_cons_self _ _, by simp only; omega⟩,
          hskip (by omega)⟩
      · rw [if_neg h1]
        by_cases h2 : x - n < (c1.length : Int)
        · rw [if_pos h2]
          refine ⟨by simp only [length_addAt]; exact ih1, fun h => by simp at h, fun i hi => ?_⟩
          simp only
          rw [getD_addAt c1 (x - n) _ (by omega) i (by omega), ih3 i hi, List.map_cons,
            List.sum_cons]
          by_cases hxi : x = n + (i : Int)
          · rw [if_pos (by omega), if_pos (by simpa using hxi)]; ring
          · rw [if_neg (by omega), if_neg (by simpa using hxi)]; ring
        · rw [if_neg h2]
          refine ⟨ih1, fun h => by simp at h, fun i hi => ?_⟩
          simp only
          rw [ih3 i hi, List.map_cons, List.sum_cons, if_neg (by simp only; omega), zero_add]

/-- The second loop of `_countx` in a node with children: every child is replaced by the
result of the recursive calls for the edges that carry its item. -/
theorem countxVec_spec (rec : ISNODE → TATREE → ISNODE) (n : Int) :
    ∀ (kids : List (Int × TATREE)) (vec : List (Option ISNODE)),
    (kids.map (fun kc => kc.1)).Pairwise (fun x y => x < y) →
    (countxVec rec n (vec.length : Int) kids vec).1.length = vec.length ∧
    ((countxVec rec n (vec.length : Int) kids vec).2 = true → ∃ kc ∈ kids, kc.1 < n) ∧
    ∀ j : Nat, (countxVec rec n (vec.length : Int) kids vec).1[j]? =
      (vec[j]?).map (Option.map (fun ch =>
        kids.foldr (fun kc d => if kc.1 = n + (j : Int) then rec d kc.2 else d) ch))
  | [], vec, _ => ⟨rfl, fun h => by simp [countxVec] at h, fun j => by
      simp only [countxVec, List.foldr_nil]
      cases vec[j]? with
      | none => rfl
      | some oc => cases oc <;> rfl⟩
  | (x, c) :: rest, vec, hp => by
    rw [List.map_cons, List.pairwise_cons] at hp
    obtain ⟨ih1, ih2, ih3⟩ := countxVec_spec rec n rest vec hp.2
    have hx : ∀ kc ∈ rest, x < kc.1 := fun kc hkc =>
      hp.1 kc.1 (List.mem_map.2 ⟨kc, hkc, rfl⟩)
    rw [countxVec]
    rcases hr : countxVec rec n (vec.length : Int) rest vec with ⟨v1, b⟩
    rw [hr] at ih1 ih2 ih3
    simp only at ih1 ih2 ih3
    have hne : ∀ j : Nat, x ≠ n + (j : Int) → v1[j]? =
        (vec[j]?).map (Option.map (fun ch => ((x, c) :: rest).foldr
          (fun kc d => if kc.1 = n + (j : Int) then rec d kc.2 else d) ch)) := by
      intro j hj
      rw [ih3 j]
      simp only [List.foldr_cons, if_neg hj]
    cases b with
    | true =>
      obtain ⟨kc, hkc, hlt⟩ := ih2 rfl
      have := hx kc hkc
      exact ⟨ih1, fun _ => ⟨kc, List.mem_cons_of_mem _ hkc, hlt⟩,
        fun j => hne j (by omega)⟩
    | false =>
      simp only
      by_cases h1 : x - n < 0
      · rw [if_pos h1]
        exact ⟨ih1, fun _ => ⟨(x, c), List.mem_cons_self _ _, by simp only; omega⟩,
          fun j => hne j (by omega)⟩
      · rw [if_neg h1]
        by_cases h2 : x - n < (vec.length : Int)
        · rw [if_pos h2]
          have hj0 : (x - n).toNat < v1.length := by omega
          have hxj : x = n + ((x - n).toNat : Int) := by omega
          cases hv : vecAt v1 (x - n) with
          | none =>
            simp only
            refine ⟨ih1, fun h => by simp at h, fun j => ?_⟩
            by_cases hj : x = n + (j : Int)
            · have hjj : (x - n).toNat = j := by omega
              have hv' := (vecAt_none (by omega)).1 hv
              rw [hjj, ih3 j] at hv'
              rw [ih3 j]
              cases hvj : vec[j]? with
              | none => rfl
              | some oc =>
                cases oc with
                | none => rfl
                | some d => rw [hvj] at hv'; simp at hv'
            · exact hne j hj
          | some ch =>
            simp only
            have hv' := (vecAt_some.1 hv).2
            refine ⟨by rw [List.length_set]; exact ih1, fun h => by simp at h, fun j => ?_⟩
            by_cases hj : (x - n).toNat = j
            · subst hj
              rw [List.getElem?_set_self hj0]
              rw [ih3] at hv'
              cases hvj : vec[(x - n).toNat]? with
              | none => rw [hvj] at hv'; simp at hv'
              | some oc =>
                cases oc with
                | none => rw [hvj] at hv'; simp at hv'
                | some d =>
                  rw [hvj] at hv'
                  simp only [Option.map_some', Option.some.injEq] at hv'
                  simp only [Option.map_some', List.foldr_cons, if_pos hxj, hv']
            · rw [List.getElem?_set_ne hj]
              exact hne j (by omega)
        · rw [if_neg h2]
          refine ⟨ih1, fun h => by simp at h, fun j => ?_⟩
          by_cases hj : x = n + (j : Int)
          · have hjl : vec.length ≤ j := by omega
            have hjl1 : v1.length ≤ j := by omega
            rw [List.getElem?_eq_none hjl, List.getElem?_eq_none hjl1]
            rfl
          · exact hne j hj


theorem heads_length (fuel : Nat) (y : Int) : ∀ (kids : List (Int × TATREE)),
    (∀ kc ∈ kids, WFT fuel kc.1 kc.2) →
    ((heads fuel y kids).length : Int) =
      (kids.map (fun kc => if kc.1 = y then tat_cnt kc.2 else 0)).sum
  | [], _ => rfl
  | kc :: kids, hk => by
    have ih := heads_length fuel y kids (fun k hk' => hk k (List.mem_cons_of_mem _ hk'))
    unfold heads at ih ⊢
    rw [List.flatMap_cons, List.length_append, List.map_cons, List.sum_cons]
    push_cast
    rw [ih]
    by_cases hy : kc.1 = y
    · rw [if_pos hy, if_pos hy, tracts_cnt fuel kc.1 kc.2 (hk kc (List.mem_cons_self _ _))]
    · rw [if_neg hy, if_neg hy]; rfl

/-- Below a node with a negative `chcnt` there is no node with `chcnt = 0`. -/
theorem dead_below {lc : Int} {live : Bool} {h : Nat} {N : ISNODE} (hw : WFN lc live h N)
    (hn : N.chcnt < 0) : ∀ (a : Addr) (M : ISNODE), nodeAt N a = some M → M.chcnt ≠ 0 := by
  intro a M hM
  cases a with
  | nil =>
    rw [nodeAt_nil] at hM; cases hM
    omega
  | cons j a =>
    obtain ⟨d, hd, hM'⟩ := nodeAt_cons_some hM
    cases h with
    | zero => rw [WFN_zero] at hw; rw [hw.2.1] at hd; simp at hd
    | succ h =>
      obtain ⟨_, _, _, _, hwd, _⟩ := WFN_child hw hd
      have : ¬ (0 < N.chcnt) := by omega
      simp only [this, decide_False, Bool.and_false] at hwd
      have := dead_at a hwd hM'
      omega

/-- The calls of `_countx` for the selected edges of a transaction tree node, given the effect
of one call. -/
theorem countx_pass {lc : Int} (fuel : Nat) {live : Bool} {h : Nat} (sel : Int → Prop)
    [DecidablePred sel]
    (ih : ∀ (T : TATREE) (lb : Int) (N : ISNODE), WFN lc live h N → WFT fuel lb T →
      UnitLeaves fuel T → Counted (tat_tracts fuel T) h N (_countx fuel N T ((h : Int) + 1))) :
    ∀ (kids : List (Int × TATREE)) (N : ISNODE), WFN lc live h N →
    (∀ kc ∈ kids, WFT fuel kc.1 kc.2 ∧ UnitLeaves fuel kc.2) →
    Counted (kids.flatMap (fun kc => if sel kc.1 then tat_tracts fuel kc.2 else [])) h N
      (kids.foldr (fun kc nd => if sel kc.1 then _countx fuel nd kc.2 ((h : Int) + 1) else nd) N)
  | [], N, _, _ => Counted_refl h N
  | kc :: kids, N, hw, hk => by
    have h1 := countx_pass fuel sel ih kids N hw (fun k hk' => hk k (List.mem_cons_of_mem _ hk'))
    have hw1 := WFN_shape hw h1.1
    rw [List.foldr_cons, List.flatMap_cons]
    refine Counted_congr (fun X => support_perm_append _ _ X) ?_
    refine Counted_trans hw h1 ?_
    by_cases hs : sel kc.1
    · rw [if_pos hs, if_pos hs]
      exact ih kc.2 kc.1 _ hw1 (hk kc (List.mem_cons_self _ _)).1 (hk kc (List.mem_cons_self _ _)).2
    · rw [if_neg hs, if_neg hs]
      exact Counted_refl h _

/-- The support of an item set that begins with `y` in the transactions of a transaction tree
node. -/
theorem support_node (fuel : Nat) (lb cnt max : Int) (kids : List (Int × TATREE))
    (hT : WFT (fuel + 1) lb (.node cnt max kids)) (y : Int) (Q : List Int)
    (hQ : ∀ q ∈ Q, y < q) :
    support (tat_tracts (fuel + 1) (.node cnt max kids)) (y :: Q) =
      support (heads fuel y kids) Q + support (tails fuel kids) (y :: Q) := by
  rw [WFT_node] at hT
  rw [tat_tracts_node, support_append, support_replicate_nil, zero_add,
    support_withEdges fuel y Q hQ kids (fun kc hkc => (hT.2.2.2 kc hkc).2.1)]

/-- The effect of `_countx`: the counters grow by the supports of their item sets in the
transactions of the transaction tree, provided every leaf with items stands for one
transaction. -/
theorem countx_counted {lc : Int} (hlc : lc ≤ 0) : ∀ (fuel : Nat) {live : Bool} {h : Nat}
    (T : TATREE) (lb : Int) (N : ISNODE), WFN lc live h N → WFT fuel lb T → UnitLeaves fuel T →
    Counted (tat_tracts fuel T) h N (_countx fuel N T ((h : Int) + 1))
  | 0, _, _, _, _, _, _, hT, _ => absurd hT id
  | fuel + 1, live, h, T, lb, N, hw, hT, hU => by
    unfold _countx
    by_cases hmax : tat_max T < (h : Int) + 1
    · rw [if_pos hmax]
      exact Counted_short hw (fun t ht => by
        have := (tracts_props _ _ _ hT t ht).1
        omega)
    · rw [if_neg hmax]
      cases T with
      | leaf cnt max items =>
        have hsz : tat_size (.leaf cnt max items) ≤ 0 := by simp [tat_size]
        rw [if_pos hsz]
        by_cases hneg : tat_size (.leaf cnt max items) < 0
        · rw [if_pos hneg]
          have hne : items ≠ [] := by
            intro e; rw [e] at hneg; simp [tat_size] at hneg
          have hc : cnt = 1 := hU hne
          have e1 : tat_tracts (fuel + 1) (.leaf cnt max items) = [items] := by
            simp [tat_tracts, hc]
          have e2 : ((h : Int) + 1).toNat = h + 1 := by omega
          rw [e1, e2]
          exact count_counted hlc hw ((WFT_leaf _ _ _ _ _).1 hT).2.1
        · rw [if_neg hneg]
          have he : items = [] := by
            cases items with
            | nil => rfl
            | cons x r => simp [tat_size] at hneg; omega
          refine Counted_short hw (fun t ht => ?_)
          have : t = items := List.eq_of_mem_replicate ht
          rw [this, he]; simp
      | node cnt max kids =>
        by_cases hsz : tat_size (.node cnt max kids) ≤ 0
        · rw [if_pos hsz]
          have hk : kids = [] := by
            cases kids with
            | nil => rfl
            | cons x r => simp [tat_size] at hsz; omega
          have hn : ¬ (tat_size (.node cnt max kids) < 0) := by simp [tat_size]
          rw [if_neg hn]
          refine Counted_short hw (fun t ht => ?_)
          rw [tat_tracts_node, hk, List.mem_append] at ht
          rcases ht with ht | ht
          · have : t = [] := List.eq_of_mem_replicate ht
            rw [this]; simp
          · simp [withEdges] at ht
        · rw [if_neg hsz]
          have hT' := (WFT_node _ _ _ _ _).1 hT
          obtain ⟨-, hpw, -, hkids⟩ := hT'
          have hU' : ∀ kc ∈ kids, UnitLeaves fuel kc.2 := hU
          have hkk : ∀ kc ∈ kids, WFT fuel kc.1 kc.2 ∧ UnitLeaves fuel kc.2 :=
            fun kc hkc => ⟨(hkids kc hkc).2.1, hU' kc hkc⟩
          have hfirst : Counted (tails fuel kids) h N
              (kids.foldr (fun kc nd => _countx fuel nd kc.2 ((h : Int) + 1)) N) := by
            have := countx_pass fuel (fun _ => True)
              (fun T lb N hw hT hU => countx_counted hlc fuel T lb N hw hT hU) kids N hw hkk
            simpa only [if_true] using this
          have key : ∀ node1 : ISNODE, Counted (tails fuel kids) h N node1 →
              Counted (tat_tracts (fuel + 1) (.node cnt max kids)) h N
                (if node1.chcnt = 0 then
                  node1.setCnts (countxLeaf node1.offset kids node1.cnts).1
                else if node1.chcnt > 0 then
                  match node1.vec with
                  | some first :: _ =>
                    node1.setVec (countxVec (fun ch c => _countx fuel ch c ((h : Int) + 1 - 1))
                      first.id node1.chcnt kids node1.vec).1
                  | _ => node1
                else node1) := by
            intro node1 hc1
            have hw1 := WFN_shape hw hc1.1
            have hf := Shape.fields_shape hc1.1
            by_cases h0 : node1.chcnt = 0
            · rw [if_pos h0]
              obtain ⟨hh, -, -, hvec⟩ := WFN_chcnt_zero hw1 h0
              subst hh
              obtain ⟨l1, -, l3⟩ := countxLeaf_spec node1.offset kids node1.cnts hpw
              have s1 := TRel_zero.1 hc1.1
              refine ⟨TRel_zero.2 ⟨?_, ?_, ?_, ?_, ?_⟩, fun a M M' hM hM' i hi => ?_⟩
              · rw [ISNODE.id_setCnts]; exact s1.1
              · rw [ISNODE.chcnt_setCnts]; exact s1.2.1
              · rw [ISNODE.offset_setCnts]; exact s1.2.2.1
              · rw [ISNODE.cnts_setCnts, l1]; exact s1.2.2.2.1
              · rw [ISNODE.vec_setCnts]; exact s1.2.2.2.2
              · cases a with
                | nil =>
                  rw [nodeAt_nil] at hM hM'
                  cases hM; cases hM'
                  have hi1 : i < node1.cnts.length := by rw [← s1.2.2.2.1]; exact hi
                  have c1 := hc1.2 [] N node1 (nodeAt_nil _) (nodeAt_nil _) i hi
                  have hN0 : N.chcnt = 0 := by rw [s1.2.1]; exact h0
                  rw [if_pos hN0, pathIds_nil, List.nil_append] at c1 ⊢
                  rw [ISNODE.cnts_setCnts, l3 i hi1, c1,
                    support_node fuel lb cnt max kids hT _ [] (by simp), support_empty_set,
                    heads_length fuel _ kids (fun kc hkc => (hkids kc hkc).2.1), s1.2.2.1]
                  ring
                | cons j a =>
                  obtain ⟨d, hd, -⟩ := nodeAt_cons_some hM
                  rw [s1.2.2.2.2, hvec] at hd
                  simp at hd
            · rw [if_neg h0]
              by_cases hpos : node1.chcnt > 0
              · rw [if_pos hpos]
                cases h with
                | zero =>
                  rw [WFN_zero] at hw1
                  omega
                | succ h =>
                  have hw1' := hw1
                  rw [WFN_succ] at hw1'
                  rcases hw1' with hx | ⟨first, rest, hv, hl, hx | hx⟩
                  · rw [hx.2] at hpos; unfold F_SKIP at hpos; omega
                  · obtain ⟨hlive, hch, hchild⟩ := hx
                    subst hlive
                    have hm : ((h + 1 : Nat) : Int) + 1 - 1 = (h : Int) + 1 := by
                      push_cast; ring
                    have e : (match node1.vec with
                        | some first :: _ =>
                          node1.setVec (countxVec
                            (fun ch c => _countx fuel ch c (((h + 1 : Nat) : Int) + 1 - 1))
                            first.id node1.chcnt kids node1.vec).1
                        | _ => node1) =
                        node1.setVec (countxVec (fun ch c => _countx fuel ch c ((h : Int) + 1))
                          first.id (node1.vec.length : Int) kids node1.vec).1 := by
                      rw [hm, hch, hv]
                    rw [e]
                    obtain ⟨-, -, v3⟩ := countxVec_spec
                      (fun ch c => _countx fuel ch c ((h : Int) + 1)) first.id kids node1.vec hpw
                    generalize (countxVec (fun ch c => _countx fuel ch c ((h : Int) + 1))
                      first.id (node1.vec.length : Int) kids node1.vec).1 = V at v3 ⊢
                    have hs1 := TRel_succ.1 hc1.1
                    obtain ⟨hns, hvr1, hvr2, hvr3⟩ := hs1
                    -- the children of `node1` and their successors
                    have hkid : ∀ (j : Nat) (d1 : ISNODE), node1.vec[j]? = some (some d1) →
                        ∃ d2, V[j]? = some (some d2) ∧ d1.id = first.id + (j : Int) ∧
                          Counted (heads fuel (first.id + (j : Int)) kids) h d1 d2 := by
                      intro j d1 hd1
                      obtain ⟨hok, hwd⟩ := hchild j d1 (by simpa using hd1)
                      refine ⟨_, by rw [v3 j, hd1]; rfl, hok.1, ?_⟩
                      exact countx_pass fuel (fun k => k = first.id + (j : Int))
                        (fun T lb N hw hT hU => countx_counted hlc fuel T lb N hw hT hU)
                        kids d1 hwd hkk
                    refine ⟨TRel_succ.2 ⟨?_, ?_, ?_, ?_⟩, fun a M M' hM hM' i hi => ?_⟩
                    · exact ⟨by rw [ISNODE.id_setVec]; exact hns.1,
                        by rw [ISNODE.chcnt_setVec]; exact hns.2.1,
                        by rw [ISNODE.offset_setVec]; exact hns.2.2.1,
                        by rw [ISNODE.cnts_setVec]; exact hns.2.2.2⟩
                    · intro j
                      rw [ISNODE.vec_setVec, v3 j, hvr1 j]
                      cases node1.vec[j]? <;> simp
                    · intro j
                      rw [ISNODE.vec_setVec, v3 j, hvr2 j]
                      cases hq : node1.vec[j]? with
                      | none => simp
                      | some oc => cases oc <;> simp
                    · intro j c hc
                      obtain ⟨d1, hd1, hs⟩ := hvr3 j c hc
                      obtain ⟨d2, hd2, -, hcd⟩ := hkid j d1 hd1
                      exact ⟨d2, by rw [ISNODE.vec_setVec]; exact hd2, Shape.trans_shape hs hcd.1⟩
                    · cases a with
                      | nil =>
                        rw [nodeAt_nil] at hM hM'
                        cases hM; cases hM'
                        have c1 := hc1.2 [] N node1 (nodeAt_nil _) (nodeAt_nil _) i hi
                        have hN0 : ¬ (N.chcnt = 0) := by rw [hns.2.1]; exact h0
                        rw [if_neg hN0] at c1 ⊢
                        rw [ISNODE.cnts_setVec]; exact c1
                      | cons j a =>
                        obtain ⟨c, hc, hMc⟩ := nodeAt_cons_some hM
                        obtain ⟨d1, hd1, hs⟩ := hvr3 j c hc
                        obtain ⟨d2, hd2, hid, hcd⟩ := hkid j d1 hd1
                        obtain ⟨_, _, _, _, hwc, _⟩ := WFN_child hw hc
                        have hal := (WFN_at a hwc hMc).1
                        obtain ⟨M1, hM1, f1, f2, f3, f4⟩ := Shape_node hs hal hMc
                        have hM2 : nodeAt d2 a = some M' := by
                          rw [← hM']
                          exact (nodeAt_cons_of (by rw [ISNODE.vec_setVec]; exact hd2) a).symm
                        have c1 := hc1.2 (j :: a) M M1 hM
                          (by rw [nodeAt_cons_of hd1]; exact hM1) i hi
                        have c2 := hcd.2 a M1 M' hM1 hM2 i (by rw [f4]; exact hi)
                        have hcid : c.id = first.id + (j : Int) := by
                          rw [← hid]; exact (Shape.fields_shape hs).1
                        have hps := (path_sorted (j :: a) hw hM i hi).1
                        rw [pathIds_cons_of hc] at c1 hps ⊢
                        rw [List.cons_append] at c1 hps ⊢
                        unfold Tract at hps
                        rw [List.pairwise_cons] at hps
                        rw [c2, c1, f2, f3, ← Shape_pathIds hs a hal, ← hcid]
                        by_cases hM0 : M.chcnt = 0
                        · rw [if_pos hM0, if_pos hM0, if_pos hM0,
                            support_node fuel lb cnt max kids hT _ _ hps.1]
                          ring
                        · rw [if_neg hM0, if_neg hM0, if_neg hM0]
                          ring
                  · rw [hx.1] at hpos; unfold INT_MAX at hl; unfold F_SKIP at hpos; omega
              · rw [if_neg hpos]
                have hneg : N.chcnt < 0 := by rw [hf.2.1]; omega
                exact Counted_dead (dead_below hw hneg) hc1
          exact key _ hfirst


/-- The counters after counting a list of transactions are determined by the tree before. -/
theorem Counted_unique {lc : Int} {live : Bool} {ts : List (List Int)} {h : Nat}
    {N A B : ISNODE} (hw : WFN lc live h N) (hA : Counted ts h N A) (hB : Counted ts h N B) :
    A = B := by
  have hs : Shape h A B := Shape.trans_shape (Shape_symm hA.1) hB.1
  refine Shape_ext hs (fun a MA MB hMA hMB => ?_)
  have hwA := WFN_shape hw hA.1
  have hal := (WFN_at a hwA hMA).1
  obtain ⟨M, hM, -, -, -, f4⟩ := Shape_node (Shape_symm hA.1) hal hMA
  obtain ⟨MB', hMB', -, -, -, g4⟩ := Shape_node hB.1 hal hM
  rw [hMB] at hMB'; cases hMB'
  refine cnts_ext (by rw [← f4, g4]) (fun i hi => ?_)
  rw [hA.2 a M MA hM hMA i (by omega), hB.2 a M MB hM hMB i (by omega)]

/-- C4 (amended): `ist_countx` has the same effect as per-transaction counting.  For every
tree reachable through the public operations and every transaction tree that satisfies the
collaborator interface (`WFT`: the edges of an internal node ordered by ascending item, the
items below an edge larger than the item of the edge, `cnt` of a node at least the sum of
`cnt` of its children, the rest being transactions that end in the node, `max` a bound of
the remaining transaction length, a leaf holding an ascending item sequence and a
multiplicity) and in which every leaf that holds a non-empty item sequence has multiplicity
1 (`UnitLeaves`), the tree of nodes after `ist_countx` is the tree of nodes after one call
of `ist_count` for every transaction that the transaction tree represents. -/
theorem C4_countx_equiv (fuel : Nat) (lb : Int) (ist : ISTREE) (T : TATREE)
    (hr : Reachable ist) (hT : WFT fuel lb T) (hU : UnitLeaves fuel T) :
    (ist_countx fuel ist T).root = (countAll ist (tat_tracts fuel T)).root := by
  have hI := Inv_of_reachable hr
  obtain ⟨lc, hlc, hw⟩ := hI.wf
  have hp := hI.lvl_pos
  have hmin : (ist.lvlcnt : Int) = ((ist.lvlcnt - 1 : Nat) : Int) + 1 := by omega
  have h1 := countx_counted (wf_lc_le hlc) fuel T lb ist.root hw hT hU
  rw [← hmin] at h1
  have h2 := (countAll_counted (tat_tracts fuel T) hI
    (fun t ht => (tracts_props fuel lb T hT t ht).2.1)).2.2.2.2
  exact Counted_unique hw h1 h2

/-- C4, counterexample: the transaction tree `twinLeaf` is a leaf that holds the item
sequence `[0]` with the multiplicity 2, so it represents the transaction `[0]` twice.
On the tree `ist_create 1 1`, `ist_countx` raises the counter of item 0 to 1, two calls of
`ist_count` raise it to 2: `_countx` hands the item sequence of a leaf to `_count` once and
does not read the multiplicity of the leaf. -/
theorem C4_leaf_multiplicity :
    Reachable (ist_create 1 1) ∧ WFT 1 (-1) twinLeaf ∧
    tat_tracts 1 twinLeaf = [[0], [0]] ∧
    (ist_countx 1 (ist_create 1 1) twinLeaf).root.cnts = [1] ∧
    (countAll (ist_create 1 1) (tat_tracts 1 twinLeaf)).root.cnts = [2] ∧
    (ist_countx 1 (ist_create 1 1) twinLeaf).root ≠
      (countAll (ist_create 1 1) (tat_tracts 1 twinLeaf)).root := by
  refine ⟨Reachable.create 1 1 (by decide) (by decide), ?_, rfl, by decide, by decide,
    fun h => absurd (congrArg ISNODE.cnts h) (by decide)⟩
  simp [twinLeaf, WFT, Tract]

theorem gapTat_wft : WFT 3 (-1) gapTat := by
  simp [gapTat, WFT, Tract, tat_cnt, tat_max]

theorem gapTat_unit : UnitLeaves 3 gapTat := by
  simp [gapTat, UnitLeaves]

theorem C4_countx_equiv_witness :
    Reachable gapTree ∧ WFT 3 (-1) gapTat ∧ UnitLeaves 3 gapTat ∧
    tat_tracts 3 gapTat = gapDb ∧
    (ist_countx 3 gapTree gapTat).root = (countAll gapTree (tat_tracts 3 gapTat)).root :=
  ⟨gapTree_reachable, gapTat_wft, gapTat_unit, by decide,
    C4_countx_equiv 3 (-1) gapTree gapTat gapTree_reachable gapTat_wft gapTat_unit⟩


/-! ### The structural invariant -/

/-- C16: in every tree reachable through `ist_create`, `ist_setcnt`, `ist_count`,
`ist_addlvl`, `ist_filter` (and `ist_init`), every non-root node `c` with the parent `P` has
`size >= 1` and `offset > id`, its id lies in the counter range
`[P.offset, P.offset + P.size)` of the parent and its counter range is contained in that of the
parent; the ids along every path from the root to a node (root excluded) are strictly
increasing, and every item covered by the counters of a node is greater than every id on the
path to the node. -/
theorem C16_structural_invariant (ist : ISTREE) (hr : Reachable ist) :
    (∀ (a : Addr) (j : Nat) (P c : ISNODE), nodeAt ist.root a = some P →
      nodeAt ist.root (a ++ [j]) = some c →
      1 ≤ c.size ∧ c.id < c.offset ∧ P.offset ≤ c.id ∧ c.id < P.offset + P.size ∧
        P.offset ≤ c.offset ∧ c.offset + c.size ≤ P.offset + P.size) ∧
    (∀ (a : Addr) (M : ISNODE), nodeAt ist.root a = some M →
      Tract (pathIds ist.root a) ∧
      ∀ i : Nat, i < M.cnts.length → ∀ x ∈ pathIds ist.root a, x < M.offset + (i : Int)) := by
  have hI := Inv_of_reachable hr
  obtain ⟨lc, -, hw⟩ := hI.wf
  have hkid : ∀ (a : Addr) (j : Nat) (P c : ISNODE), nodeAt ist.root a = some P →
      nodeAt ist.root (a ++ [j]) = some c →
      1 ≤ c.size ∧ c.id < c.offset ∧ P.offset ≤ c.id ∧ c.id < P.offset + P.size ∧
        P.offset ≤ c.offset ∧ c.offset + c.size ≤ P.offset + P.size := by
    intro a j P c hP hc
    obtain ⟨P', hP', hcj⟩ := nodeAt_snoc hc
    rw [hP] at hP'; cases hP'
    obtain ⟨-, l, hwP⟩ := WFN_at a hw hP
    obtain ⟨h', -, -, hh, -, -, -, -, -, -, -⟩ := WFN_vec hwP hcj
    rw [hh] at hwP
    obtain ⟨first, rest, -, hok, -⟩ := WFN_child hwP hcj
    obtain ⟨o1, o2, o3, o4, o5⟩ := hok
    have hsz : 1 ≤ c.size := by
      unfold ISNODE.size
      cases hcc : c.cnts with
      | nil => exact absurd hcc o4
      | cons _ _ => simp
    refine ⟨hsz, o3, o2, ?_, ?_, o5⟩ <;> omega
  refine ⟨hkid, fun a M hM => ?_⟩
  have hall : ∀ i : Nat, i < M.cnts.length →
      Tract (pathIds ist.root a) ∧ ∀ x ∈ pathIds ist.root a, x < M.offset + (i : Int) := by
    intro i hi
    have hs := (path_sorted a hw hM i hi).1
    unfold Tract at hs ⊢
    rw [List.pairwise_append] at hs
    exact ⟨hs.1, fun x hx => hs.2.2 x hx _ (List.mem_singleton.2 rfl)⟩
  refine ⟨?_, fun i hi => (hall i hi).2⟩
  rcases List.eq_nil_or_concat a with e | ⟨a', j, e⟩
  · subst e; rw [pathIds_nil]; unfold Tract; exact List.Pairwise.nil
  · rw [List.concat_eq_append] at e
    subst e
    obtain ⟨P, hP, -⟩ := nodeAt_snoc hM
    have h1 := (hkid a' j P M hP hM).1
    unfold ISNODE.size at h1
    exact (hall 0 (by omega)).1

theorem C16_structural_invariant_witness :
    Reachable (ist_addlvl gapTree none).1 ∧
    ∀ (a : Addr) (M : ISNODE), nodeAt (ist_addlvl gapTree none).1.root a = some M →
      Tract (pathIds (ist_addlvl gapTree none).1.root a) ∧
      ∀ i : Nat, i < M.cnts.length →
        ∀ x ∈ pathIds (ist_addlvl gapTree none).1.root a, x < M.offset + (i : Int) :=
  ⟨Reachable.addlvl gapTree none gapTree_reachable,
    (C16_structural_invariant (ist_addlvl gapTree none).1
      (Reachable.addlvl gapTree none gapTree_reachable)).2⟩

/-! ### The counters of a new level -/

/-- C15: after `ist_addlvl` has returned 0 (and before any counting), the new deepest level
is not empty, and every node of it has `chcnt = 0`, no children, and only counters that
are 0. -/
theorem C15_new_counters_zero (ist : ISTREE) (mem : Option Nat) (hr : Reachable ist)
    (h0 : (ist_addlvl ist mem).2 = 0) :
    deepest (ist_addlvl ist mem).1 ≠ [] ∧
    (∀ b ∈ deepest (ist_addlvl ist mem).1, b.length = ist.lvlcnt ∧
      ∃ c, nodeAt (ist_addlvl ist mem).1.root b = some c) ∧
    ∀ (b : Addr) (c : ISNODE), b.length = ist.lvlcnt →
      nodeAt (ist_addlvl ist mem).1.root b = some c →
      c.chcnt = 0 ∧ c.vec = [] ∧ ∀ i : Nat, c.cnts.getD i 0 = 0 := by
  have hI := Inv_of_reachable hr
  have hI1 := Inv_addlvl hI mem
  obtain ⟨r1, -, hne, -, -, -, hlc, -, hdeep⟩ := addlvl_zero hI mem h0
  refine ⟨by rw [hdeep]; exact hne, fun b hb => ?_, fun b c hb hc => ?_⟩
  · have := (hI1.deepest_mem b).1 hb
    rw [hlc] at this
    exact ⟨by omega, Option.isSome_iff_exists.1 this.2⟩
  · obtain ⟨a, j, N, -, -, -, -, hk, -⟩ := addlvl_new_node hI mem h0 b c hb hc
    obtain ⟨i, -, hch⟩ := mem_kidsOf.1 hk
    obtain ⟨-, -, -, c4, c5, -, -, -, c9, -⟩ := childOf_some hch
    refine ⟨c4, c5, fun k => ?_⟩
    by_cases hk' : k < c.cnts.length
    · rw [getD_of_lt c.cnts k 0 hk']
      exact c9 _ (List.getElem_mem _)
    · rw [List.getD_eq_getElem?_getD, List.getElem?_eq_none (by omega)]
      rfl

theorem C15_new_counters_zero_witness :
    Reachable gapTree ∧ (ist_addlvl gapTree none).2 = 0 ∧
    deepest (ist_addlvl gapTree none).1 ≠ [] :=
  ⟨gapTree_reachable, by decide,
    (C15_new_counters_zero gapTree none gapTree_reachable (by decide)).1⟩

/-! ### The order of the counted transactions -/

theorem ist_count_fields (ist : ISTREE) (t : List Int) :
    (ist_count ist t).tacnt = ist.tacnt + 1 ∧ (ist_count ist t).lvlvsz = ist.lvlvsz ∧
    (ist_count ist t).lvlcnt = ist.lvlcnt ∧ (ist_count ist t).levels = ist.levels ∧
    (ist_count ist t).supp = ist.supp ∧ (ist_count ist t).size = ist.size ∧
    (ist_count ist t).node = ist.node ∧ (ist_count ist t).index = ist.index := by
  unfold ist_count
  split <;> exact ⟨rfl, rfl, rfl, rfl, rfl, rfl, rfl, rfl⟩

theorem countAll_fields : ∀ (db : List (List Int)) (ist : ISTREE),
    (countAll ist db).tacnt = ist.tacnt + (db.length : Int) ∧
    (countAll ist db).lvlvsz = ist.lvlvsz ∧
    (countAll ist db).lvlcnt = ist.lvlcnt ∧ (countAll ist db).levels = ist.levels ∧
    (countAll ist db).supp = ist.supp ∧ (countAll ist db).size = ist.size ∧
    (countAll ist db).node = ist.node ∧ (countAll ist db).index = ist.index
  | [], ist => ⟨by simp [countAll], rfl, rfl, rfl, rfl, rfl, rfl, rfl⟩
  | t :: db, ist => by
    obtain ⟨a1, a2, a3, a4, a5, a6, a7, a8⟩ := countAll_fields db (ist_count ist t)
    obtain ⟨b1, b2, b3, b4, b5, b6, b7, b8⟩ := ist_count_fields ist t
    have e : countAll ist (t :: db) = countAll (ist_count ist t) db := rfl
    rw [e]
    refine ⟨?_, by rw [a2, b2], by rw [a3, b3], by rw [a4, b4], by rw [a5, b5], by rw [a6, b6],
      by rw [a7, b7], by rw [a8, b8]⟩
    rw [a1, b1, List.length_cons]
    push_cast
    ring

theorem ISTREE.ext_tree {x y : ISTREE} (h1 : x.tacnt = y.tacnt) (h2 : x.lvlvsz = y.lvlvsz)
    (h3 : x.lvlcnt = y.lvlcnt) (h4 : x.levels = y.levels) (h5 : x.root = y.root)
    (h6 : x.supp = y.supp) (h7 : x.size = y.size) (h8 : x.node = y.node)
    (h9 : x.index = y.index) : x = y := by
  cases x; cases y
  simp only at h1 h2 h3 h4 h5 h6 h7 h8 h9
  subst h1 h2 h3 h4 h5 h6 h7 h8 h9
  rfl

theorem support_perm {db db' : List (List Int)} (hp : db.Perm db') (X : List Int) :
    support db X = support db' X := by
  unfold support
  rw [(hp.filter _).length_eq]

/-- A counting pass does not depend on the order of the transactions. -/
theorem countAll_perm {ist : ISTREE} (hI : Inv ist) {db db' : List (List Int)}
    (hp : db.Perm db') (hdb : ∀ t ∈ db, Tract t) : countAll ist db = countAll ist db' := by
  obtain ⟨lc, -, hw⟩ := hI.wf
  obtain ⟨a1, a2, a3, a4, a5, a6, a7, a8⟩ := countAll_fields db ist
  obtain ⟨b1, b2, b3, b4, b5, b6, b7, b8⟩ := countAll_fields db' ist
  have c1 := (countAll_counted db hI hdb).2.2.2.2
  have c2 := (countAll_counted db' hI (fun t ht => hdb t (hp.mem_iff.2 ht))).2.2.2.2
  refine ISTREE.ext_tree ?_ (by rw [a2, b2]) (by rw [a3, b3]) (by rw [a4, b4]) ?_
    (by rw [a5, b5]) (by rw [a6, b6]) (by rw [a7, b7]) (by rw [a8, b8])
  · rw [a1, b1, hp.length_eq]
  · exact Counted_unique hw c1 (Counted_congr (fun X => (support_perm hp X).symm) c2)

/-- C19: counting is order-insensitive.  For every tree reachable through the public
operations and any two transactions `t1`, `t2` (item ids ascending), `ist_count` of `t1`
followed by `ist_count` of `t2` leaves the same tree, with the same counters and the same
`tacnt`, as `ist_count` of `t2` followed by `ist_count` of `t1`; and the tree after a
counting pass (`ist_count` on every transaction of a list) is the same for every order of
the transactions. -/
theorem C19_count_order (ist : ISTREE) (hr : Reachable ist) :
    (∀ t1 t2 : List Int, Tract t1 → Tract t2 →
      ist_count (ist_count ist t1) t2 = ist_count (ist_count ist t2) t1) ∧
    (∀ db db' : List (List Int), db.Perm db' → (∀ t ∈ db, Tract t) →
      countAll ist db = countAll ist db') := by
  have hI := Inv_of_reachable hr
  refine ⟨fun t1 t2 h1 h2 => ?_, fun db db' hp hdb => countAll_perm hI hp hdb⟩
  have := @countAll_perm ist hI [t1, t2] [t2, t1] (List.Perm.swap t2 t1 [])
    (fun t ht => by
      rcases List.mem_cons.1 ht with e | ht
      · rw [e]; exact h1
      · rw [List.mem_singleton.1 ht]; exact h2)
  exact this

theorem C19_count_order_witness :
    Reachable gapTree ∧
    ∀ t1 t2 : List Int, Tract t1 → Tract t2 →
      ist_count (ist_count gapTree t1) t2 = ist_count (ist_count gapTree t2) t1 :=
  ⟨gapTree_reachable, (C19_count_order gapTree gapTree_reachable).1⟩


/-! ### The skip flags and `_getsupp` -/

theorem clearSkip_fields (k : Nat) (N : ISNODE) :
    (clearSkip k N).id = N.id ∧ (clearSkip k N).chcnt = unskip N.chcnt ∧
    (clearSkip k N).offset = N.offset ∧ (clearSkip k N).cnts = N.cnts := by
  cases k with
  | zero => unfold clearSkip; simp
  | succ k => unfold clearSkip; simp

theorem clearSkip_vec_zero (N : ISNODE) : (clearSkip 0 N).vec = N.vec := by
  unfold clearSkip; simp

theorem clearSkip_vec_succ (k : Nat) (N : ISNODE) :
    (clearSkip (k + 1) N).vec = N.vec.map (Option.map (clearSkip k)) := by
  conv => lhs; unfold clearSkip
  simp

theorem unskip_idem {c : Int} (h : F_SKIP ≤ c) : unskip (unskip c) = unskip c := by
  unfold unskip F_SKIP at *
  by_cases h0 : c < 0
  · rw [if_pos h0, if_neg (by omega)]
  · rw [if_neg h0, if_neg h0]

theorem WFN_chcnt_ge {lc : Int} (hlc : F_SKIP ≤ lc) {live : Bool} {h : Nat} {N : ISNODE}
    (hw : WFN lc live h N) : F_SKIP ≤ N.chcnt := by
  cases h with
  | zero => rw [WFN_zero] at hw; rw [hw.2.2]; exact hlc
  | succ h =>
    rw [WFN_succ] at hw
    rcases hw with hw | ⟨first, rest, hv, hl, hw | hw⟩
    · rw [hw.2]
    · rw [hw.2.1]; unfold F_SKIP; omega
    · rw [hw.1]; omega

theorem vecAt_map (f : ISNODE → ISNODE) (v : List (Option ISNODE)) (i : Int) :
    vecAt (v.map (Option.map f)) i = (vecAt v i).map f := by
  unfold vecAt
  split
  · rfl
  · simp only [List.get?_eq_getElem?, List.getElem?_map]
    cases v[i.toNat]? with
    | none => rfl
    | some oc => cases oc <;> rfl

/-- The result of `_getsupp` does not depend on the skip flags. -/
theorem getsupp_clearSkip {lc : Int} (hlc : F_SKIP ≤ lc) : ∀ (s : List Int) (k : Nat)
    {live : Bool} {h : Nat} {N : ISNODE}, WFN lc live h N →
    _getsupp (clearSkip k N) s = _getsupp N s
  | [], _, _, _, _, _ => by rw [getsupp_nil, getsupp_nil]
  | [x], k, _, _, N, _ => by
    obtain ⟨-, -, f3, f4⟩ := clearSkip_fields k N
    rw [getsupp_single, getsupp_single]
    unfold ISNODE.size
    rw [f3, f4]
  | x :: y :: rest, k, live, h, N, hw => by
    obtain ⟨-, f2, -, -⟩ := clearSkip_fields k N
    rw [getsupp_cons, getsupp_cons, f2, unskip_idem (WFN_chcnt_ge hlc hw)]
    by_cases h0 : unskip N.chcnt = 0
    · rw [if_pos h0, if_pos h0]
    · rw [if_neg h0, if_neg h0]
      cases k with
      | zero => rw [clearSkip_vec_zero]
      | succ k =>
        rw [clearSkip_vec_succ]
        cases hv : N.vec with
        | nil => rfl
        | cons o rest' =>
          cases o with
          | none => rfl
          | some first =>
            simp only [List.map_cons, Option.map_some']
            rw [(clearSkip_fields k first).1]
            by_cases hx : x - first.id < 0 ∨ x - first.id ≥ unskip N.chcnt
            · rw [if_pos hx, if_pos hx]
            · rw [if_neg hx, if_neg hx]
              have e : (some (clearSkip k first) :: List.map (Option.map (clearSkip k)) rest') =
                  (some first :: rest').map (Option.map (clearSkip k)) := rfl
              rw [e, vecAt_map]
              cases hc : vecAt (some first :: rest') (x - first.id) with
              | none => rfl
              | some c =>
                simp only [Option.map_some']
                rw [← hv] at hc
                obtain ⟨-, hcj⟩ := vecAt_some.1 hc
                obtain ⟨h', -, -, hh, -, -, -, -, -, -, hwc⟩ := WFN_vec hw hcj
                exact getsupp_clearSkip hlc (y :: rest) k hwc

/-- C13: for a node `A` of a tree reachable through the public operations and a non-empty item
sequence `s`, `_getsupp(A, s)` returns the counter of the slot `i` of the node `M` that is
reached from `A` along the children with the ids `s[0], ..., s[c-2]` and whose counter range
holds `s[c-1]` at index `i` (the ids on the path from `A` to `M`, then `M.offset + i`, are
`s`), which is the counter stored for the ids on the path to `A` followed by `s`; when there
is no such node and slot it returns `-1`, which is below the minimal support; and the result
is the same on the subtree with the skip flags cleared. -/
theorem C13_getsupp (ist : ISTREE) (hr : Reachable ist) (b : Addr) (A : ISNODE)
    (hA : nodeAt ist.root b = some A) (s : List Int) (_hs : s ≠ []) :
    (∀ (a : Addr) (M : ISNODE) (i : Nat), nodeAt A a = some M → i < M.cnts.length →
      pathIds A a ++ [M.offset + (i : Int)] = s →
      _getsupp A s = M.cnts.getD i 0 ∧ nodeAt ist.root (b ++ a) = some M ∧
        pathIds ist.root (b ++ a) ++ [M.offset + (i : Int)] = pathIds ist.root b ++ s) ∧
    ((¬ ∃ (a : Addr) (M : ISNODE) (i : Nat), nodeAt A a = some M ∧ i < M.cnts.length ∧
      pathIds A a ++ [M.offset + (i : Int)] = s) → _getsupp A s = -1) ∧
    -1 < ist.supp ∧
    ∀ k : Nat, _getsupp (clearSkip k A) s = _getsupp A s := by
  have hI := Inv_of_reachable hr
  obtain ⟨lc, hlc, hw⟩ := hI.wf
  obtain ⟨-, l, hwA⟩ := WFN_at b hw hA
  have hge : F_SKIP ≤ lc := by
    rcases hlc with e | e
    · rw [e]; unfold F_SKIP; omega
    · rw [e]
  refine ⟨fun a M i hM hi he => ⟨?_, ?_, ?_⟩, fun hno => ?_, ?_, fun k => ?_⟩
  · rw [← he]; exact getsupp_of_path hwA hM hi
  · rw [nodeAt_append, hA]; exact hM
  · have h1 := getsupp_descend b (S := pathIds A a ++ [M.offset + (i : Int)]) hw hA (by simp)
    have hMr : nodeAt ist.root (b ++ a) = some M := by rw [nodeAt_append, hA]; exact hM
    have h2 := locate_of_path hw hMr hi
    have h3 := locate_descend b (S := pathIds A a ++ [M.offset + (i : Int)]) hw hA (by simp)
    rw [locate_of_path hwA hM hi] at h3
    simp only [Option.map_some'] at h3
    have h4 := locate_path _ hw h3
    obtain ⟨M', hM', hi', e⟩ := h4
    rw [hMr] at hM'; cases hM'
    rw [e, he]
  · cases hl : locate A s with
    | none => exact getsupp_locate_none s A hl
    | some p =>
      obtain ⟨M, hM, hi, e⟩ := locate_path s hwA (a := p.1) (i := p.2) hl
      exact absurd ⟨p.1, M, p.2, hM, hi, e⟩ hno
  · have := hI.supp_pos; omega
  · exact getsupp_clearSkip hge s k hwA

theorem C13_getsupp_witness :
    Reachable gapTree ∧ nodeAt gapTree.root [] = some gapTree.root ∧ ([1] : List Int) ≠ [] ∧
    ∀ k : Nat, _getsupp (clearSkip k gapTree.root) [1] = _getsupp gapTree.root [1] :=
  ⟨gapTree_reachable, rfl, by decide,
    (C13_getsupp gapTree gapTree_reachable [] gapTree.root rfl [1] (by decide)).2.2.2⟩


/-! ### The frame of `ist_filter` -/

theorem Faded_refl (h : Nat) (r : ISNODE) : Faded h r r := by
  refine ⟨Shape.refl_shape h r, fun a M M' hM hM' => ?_⟩
  rw [hM] at hM'; cases hM'
  exact ⟨fun _ => rfl, fun _ => Or.inl rfl⟩

theorem Faded_trans {lc : Int} {live : Bool} {h : Nat} {r r1 r2 : ISNODE}
    (hw : WFN lc live h r) (h1 : Faded h r r1) (h2 : Faded h r1 r2) : Faded h r r2 := by
  refine ⟨h1.1.trans_shape h2.1, fun a M M2 hM hM2 => ?_⟩
  have hal := (WFN_at a hw hM).1
  obtain ⟨M1, hM1, -⟩ := Shape_node h1.1 hal hM
  obtain ⟨f1, f2⟩ := h1.2 a M M1 hM hM1
  obtain ⟨g1, g2⟩ := h2.2 a M1 M2 hM1 hM2
  refine ⟨fun e => by rw [g1 e, f1 e], fun i => ?_⟩
  rcases g2 i with e | e
  · rw [e]; exact f2 i
  · exact Or.inr e

theorem getD_clrSlot (i : Nat) (s : Int) (M : ISNODE) (k : Nat) :
    (clrSlot i s M).cnts.getD k 0 = M.cnts.getD k 0 ∨ (clrSlot i s M).cnts.getD k 0 = 0 := by
  unfold clrSlot
  split
  · rw [ISNODE.cnts_setCnts]
    by_cases hk : i = k
    · subst hk
      by_cases hi : i < M.cnts.length
      · right; simp [List.getD_eq_getElem?_getD, hi]
      · left; rw [List.set_eq_of_length_le (by omega)]
    · left
      simp only [List.getD_eq_getElem?_getD]
      rw [List.getElem?_set_ne hk]
  · exact Or.inl rfl

/-- One counter above the deepest level is cleared. -/
theorem Faded_single {lc : Int} {live : Bool} {h : Nat} {r M : ISNODE} {a : Addr} (i : Nat)
    (s : Int) (_hw : WFN lc live h r) (hM : nodeAt r a = some M) (ha : a.length < h) :
    Faded h r (updateAt r a (clrSlot i s)) := by
  refine ⟨Shape_updateAt_cnts h r a _ (by omega) (clrSlot_fields i s),
    fun a2 M2 M2' hM2 hM2' => ?_⟩
  by_cases hne : a2 = a
  · subst hne
    rw [hM] at hM2; cases hM2
    rw [nodeAt_updateAt_same a2 _ hM] at hM2'
    cases hM2'
    exact ⟨fun e => by omega, fun k => getD_clrSlot i s M k⟩
  · obtain ⟨M3, h3, h4⟩ := updateAt_cnts_other (clrSlot i s)
      (fun N => (clrSlot_fields i s N).2.2.2.2) a2 a r M2 hM2 hne
    rw [hM2'] at h3; cases h3
    exact ⟨fun _ => h4, fun k => Or.inl (by rw [h4])⟩

/-- One call of `_clrsupp` from `ist_filter`. -/
theorem clrsupp_faded {lc : Int} {live : Bool} {h : Nat} {r r' : ISNODE} {addr : Addr}
    {set : List Int} {s : Int} (hw : WFN lc live h r)
    (hu : updateAtOpt r addr (fun p => _clrsupp p set s) = some r')
    (hl : addr.length + set.length ≤ h) : Faded h r r' := by
  rw [updateAtOpt_eq] at hu
  cases hN : nodeAt r addr with
  | none => rw [hN] at hu; simp at hu
  | some N =>
    rw [hN] at hu
    simp only [Option.some_bind] at hu
    rw [clrsupp_eq] at hu
    cases hp : locate N set with
    | none => rw [hp] at hu; simp at hu
    | some p =>
      rw [hp] at hu
      simp only [Option.map_some', Option.some_bind, Option.some.injEq] at hu
      obtain ⟨hpl, M, hM, -, -⟩ := locate_some set (a := p.1) (i := p.2) hp
      rw [← updateAt_append_of addr p.1 (clrSlot p.2 s) hN] at hu
      rw [← hu]
      refine Faded_single p.2 s hw (a := addr ++ p.1) (M := M) ?_ ?_
      · rw [nodeAt_append, hN]; exact hM
      · rw [List.length_append]; omega

theorem clrUp_faded {lc : Int} {live : Bool} (supp : Int) (h : Nat) :
    ∀ (raddr : List Nat) (root root' : ISNODE) (set : List Int), WFN lc live h root →
    clrUp supp root raddr set = some root' → 1 ≤ set.length →
    set.length + raddr.length ≤ h + 1 → Faded h root root'
  | [], root, root', set, _, hc, _, _ => by
    rw [clrUp_nil] at hc
    cases hc
    exact Faded_refl _ _
  | i :: rpar, root, root', set, hw, hc, h1, h2 => by
    rw [clrUp_cons] at hc
    cases hu : updateAtOpt root rpar.reverse (fun p => _clrsupp p set supp) with
    | none => rw [hu] at hc; simp at hc
    | some root1 =>
      rw [hu] at hc
      simp only at hc
      have hs1 : Faded h root root1 :=
        clrsupp_faded hw hu (by simp at h2 ⊢; omega)
      cases hn : nodeAt root1 (i :: rpar).reverse with
      | none => rw [hn] at hc; simp at hc
      | some curr =>
        rw [hn] at hc
        simp only at hc
        exact Faded_trans hw hs1 (clrUp_faded supp h rpar root1 root' (curr.id :: set)
          (WFN_shape hw hs1.1) hc (by simp) (by simp at h2 ⊢; omega))

theorem filterSlot_faded {lc : Int} {live : Bool} {supp mode : Int} {a : Addr}
    {root root' : ISNODE} {i : Nat} {h : Nat} (hw : WFN lc live h root)
    (hf : filterSlot supp mode a root i = some root') (ha : a.length ≤ h) :
    Faded h root root' := by
  unfold filterSlot at hf
  cases hn : nodeAt root a with
  | none => rw [hn] at hf; simp at hf
  | some node =>
    rw [hn] at hf
    simp only at hf
    split at hf
    · cases hf; exact Faded_refl _ _
    · cases hr : a.reverse with
      | nil => rw [hr] at hf; simp at hf
      | cons j rpar =>
        rw [hr] at hf
        simp only at hf
        have hlen : rpar.length + 1 = a.length := by
          have := congrArg List.length hr
          simp at this
          omega
        cases hu1 : updateAtOpt root rpar.reverse (fun p => _clrsupp p [node.offset + (i : Int)]
            (if mode = IST_CLOSED then node.cnts.getD i 0 else -1)) with
        | none => rw [hu1] at hf; simp at hf
        | some root1 =>
          rw [hu1] at hf
          simp only at hf
          cases hu2 : updateAtOpt root1 rpar.reverse (fun p => _clrsupp p [node.id]
              (if mode = IST_CLOSED then node.cnts.getD i 0 else -1)) with
          | none => rw [hu2] at hf; simp at hf
          | some root2 =>
            rw [hu2] at hf
            simp only at hf
            have s1 : Faded h root root1 := clrsupp_faded hw hu1 (by simp; omega)
            have hw1 := WFN_shape hw s1.1
            have s2 : Faded h root1 root2 := clrsupp_faded hw1 hu2 (by simp; omega)
            have hw2 := WFN_shape hw1 s2.1
            exact Faded_trans hw (Faded_trans hw s1 s2)
              (clrUp_faded _ h rpar root2 root' _ hw2 hf (by simp) (by simp; omega))

theorem foldOpt_faded {lc : Int} {live : Bool} {h : Nat} {β : Type}
    (f : ISNODE → β → Option ISNODE) (l : List β) (x0 y0 : ISNODE)
    (hstep : ∀ x b y, b ∈ l → WFN lc live h x → f x b = some y → Faded h x y)
    (hw : WFN lc live h x0) (hf : foldOpt f x0 l = some y0) : Faded h x0 y0 := by
  have := foldOpt_rel (fun x y => WFN lc live h x → Faded h x y) (fun x _ => Faded_refl h x)
    (fun _ _ _ h1 h2 hx => Faded_trans hx (h1 hx) (h2 (WFN_shape hx (h1 hx).1))) f l x0 y0
    (fun x b y hb hxy hx => hstep x b y hb hx hxy) hf
  exact this hw

theorem filterNode_faded {lc : Int} {live : Bool} {supp mode : Int} {a : Addr}
    {root root' : ISNODE} {h : Nat} (hw : WFN lc live h root)
    (hf : filterNode supp mode root a = some root') (ha : a.length ≤ h) :
    Faded h root root' := by
  unfold filterNode at hf
  cases hn : nodeAt root a with
  | none => rw [hn] at hf; simp at hf
  | some node =>
    rw [hn] at hf
    simp only at hf
    exact foldOpt_faded _ _ _ _ (fun x b y _ hx hxy => filterSlot_faded hx hxy ha) hw hf

theorem filterLevel_faded {lc : Int} {live : Bool} {supp mode : Int} {lvl : List Addr}
    {root root' : ISNODE} {h : Nat} (hw : WFN lc live h root)
    (hf : filterLevel supp mode root lvl = some root') (ha : ∀ a ∈ lvl, a.length ≤ h) :
    Faded h root root' :=
  foldOpt_faded _ _ _ _ (fun x b y hb hx hxy => filterNode_faded hx hxy (ha b hb)) hw hf

/-- The effect of `ist_filter`: some counters above the deepest level are set to 0. -/
theorem ist_filter_faded {ist ist1 : ISTREE} {mode : Int} (hI : Inv ist)
    (hf : ist_filter ist mode = some ist1) :
    Faded (ist.lvlcnt - 1) ist.root ist1.root := by
  obtain ⟨lc, -, hw⟩ := hI.wf
  unfold ist_filter at hf
  cases hfo : foldOpt (filterLevel ist.supp mode) ist.root
      ((ist.levels.take ist.lvlcnt).drop 1) with
  | none => rw [hfo] at hf; simp at hf
  | some r =>
    rw [hfo] at hf
    simp only [Option.map_some', Option.some.injEq] at hf
    subst hf
    refine foldOpt_faded _ _ _ _ (fun x b y hb hx hxy => ?_) hw hfo
    refine filterLevel_faded hx hxy (hI.level_length ?_)
    exact List.mem_of_mem_take (List.mem_of_mem_drop hb)

theorem isSome_getD {α : Type} {o : Option α} (d : α) (h : o.isSome = true) :
    o = some (o.getD d) := by
  cases o with
  | none => simp at h
  | some x => rfl

/-- C20: `ist_filter` (in either mode) performs no structural change.  When `ist_filter` on a
tree reachable through the public operations returns the tree `ist1` (no call of `_clrsupp`
has left the child vectors or the counter vector), then `ist1` differs from the tree before
only in the nodes (height, minimal support, level lists with their sibling links and all other
fields are unchanged), a node exists at an address after the call exactly when it existed
before (parent and child links are unchanged), every node keeps its id, `chcnt`, offset, size
and the length of its child vector, every counter either keeps its value or is 0, and no
counter of a node of the deepest level is changed. -/
theorem C20_filter_frame (ist ist1 : ISTREE) (mode : Int) (hr : Reachable ist)
    (hf : ist_filter ist mode = some ist1) :
    ist1 = { ist with root := ist1.root } ∧
    (∀ a : Addr, (nodeAt ist1.root a).isSome = (nodeAt ist.root a).isSome) ∧
    (∀ (a : Addr) (M : ISNODE), nodeAt ist.root a = some M →
      ∃ M', nodeAt ist1.root a = some M' ∧ M'.id = M.id ∧ M'.chcnt = M.chcnt ∧
        M'.offset = M.offset ∧ M'.size = M.size ∧ M'.vec.length = M.vec.length ∧
        (∀ i : Nat, M'.cnts.getD i 0 = M.cnts.getD i 0 ∨ M'.cnts.getD i 0 = 0) ∧
        (a.length + 1 = ist.lvlcnt → M'.cnts = M.cnts)) := by
  have hI := Inv_of_reachable hr
  obtain ⟨lc, -, hw⟩ := hI.wf
  have hp := hI.lvl_pos
  obtain ⟨hs, he⟩ := ist_filter_shape hI hf
  have hF := ist_filter_faded hI hf
  have hI1 := Inv_filter hI hf
  have hl1 : ist1.lvlcnt = ist.lvlcnt := by rw [he]
  refine ⟨he, fun a => ?_, fun a M hM => ?_⟩
  · by_cases ha : a.length ≤ ist.lvlcnt - 1
    · exact Shape_nodeAt_isSome hs a ha
    · cases h1 : nodeAt ist1.root a with
      | some M1 => have := hI1.nodeAt_length h1; omega
      | none =>
        cases h0 : nodeAt ist.root a with
        | some M0 => have := hI.nodeAt_length h0; omega
        | none => rfl
  · have hal := hI.nodeAt_length hM
    obtain ⟨M', hM', f1, f2, f3, f4⟩ := Shape_node hs hal hM
    obtain ⟨g1, g2⟩ := hF.2 a M M' hM hM'
    obtain ⟨-, hM2, hsh⟩ := TRel_nodeAt a hs hal
    obtain ⟨M2, hM2', hsh2⟩ := hM2 M hM
    rw [hM'] at hM2'; cases hM2'
    refine ⟨M', hM', f1, f2, f3, by unfold ISNODE.size; rw [f4],
      (Shape.vec_length hsh2).symm, g2, fun e => g1 (by omega)⟩

theorem soloTree_reachable : Reachable soloTree := by
  have h1 : Reachable (ist_addlvl (seed soloDb 3 (ist_create 3 1)) none).1 :=
    Reachable.addlvl _ none
      (seed_reachable soloDb 3 _ (Reachable.create 3 1 (by decide) (by decide)))
  exact Reachable.count _ [2] (Reachable.count _ [0, 1] h1 (by unfold Tract; simp))
    (by unfold Tract; simp)

theorem C20_filter_frame_witness :
    Reachable soloTree ∧
    ist_filter soloTree IST_MAXFRQ =
      some ((ist_filter soloTree IST_MAXFRQ).getD soloTree) ∧
    (∀ a : Addr, (nodeAt ((ist_filter soloTree IST_MAXFRQ).getD soloTree).root a).isSome =
      (nodeAt soloTree.root a).isSome) :=
  ⟨soloTree_reachable, isSome_getD soloTree (by decide),
    (C20_filter_frame soloTree _ IST_MAXFRQ soloTree_reachable
      (isSome_getD soloTree (by decide))).2.1⟩


/-! ### Counting on the tree with the skip flags cleared -/

theorem clearFlags_zero (N : ISNODE) : clearFlags 0 N = N := rfl

theorem clearFlags_nil (k : Nat) {N : ISNODE} (hv : N.vec = []) : clearFlags k N = N := by
  cases k with
  | zero => rfl
  | succ k => unfold clearFlags; rw [hv]

theorem clearFlags_cons (k : Nat) {N : ISNODE} {o : Option ISNODE} {rest : List (Option ISNODE)}
    (hv : N.vec = o :: rest) :
    clearFlags (k + 1) N =
      (N.setChcnt (unskip N.chcnt)).setVec (N.vec.map (Option.map (clearFlags k))) := by
  conv => lhs; unfold clearFlags
  rw [hv]

theorem clearFlags_fields (k : Nat) (N : ISNODE) :
    (clearFlags k N).id = N.id ∧ (clearFlags k N).offset = N.offset ∧
    (clearFlags k N).cnts = N.cnts ∧ (clearFlags k N).vec.length = N.vec.length := by
  cases k with
  | zero => exact ⟨rfl, rfl, rfl, rfl⟩
  | succ k =>
    cases hv : N.vec with
    | nil => rw [clearFlags_nil _ hv]; exact ⟨rfl, rfl, rfl, by rw [hv]⟩
    | cons o rest =>
      rw [clearFlags_cons k hv]
      simp [hv]

theorem clearFlags_vec_get (k : Nat) (N : ISNODE) (j : Nat) :
    (clearFlags (k + 1) N).vec[j]? = (N.vec[j]?).map (Option.map (clearFlags k)) := by
  cases hv : N.vec with
  | nil => rw [clearFlags_nil _ hv, hv]; rfl
  | cons o rest =>
    rw [clearFlags_cons k hv, ISNODE.vec_setVec, List.getElem?_map, hv]

theorem nodeAt_clearFlags : ∀ (a : Addr) (k : Nat) (N : ISNODE),
    nodeAt (clearFlags k N) a = (nodeAt N a).map (clearFlags (k - a.length))
  | [], k, N => by simp [nodeAt_nil]
  | j :: a, 0, N => by
    rw [clearFlags_zero]
    cases nodeAt N (j :: a) with
    | none => rfl
    | some M => simp [clearFlags_zero]
  | j :: a, k + 1, N => by
    have hv := clearFlags_vec_get k N j
    cases hj : N.vec[j]? with
    | none =>
      rw [hj] at hv
      rw [nodeAt_cons_none a (fun c hc => by rw [hv] at hc; simp at hc),
        nodeAt_cons_none a (fun c hc => by rw [hj] at hc; simp at hc)]
      rfl
    | some oc =>
      cases oc with
      | none =>
        rw [hj] at hv
        rw [nodeAt_cons_none a (fun c hc => by rw [hv] at hc; simp at hc),
          nodeAt_cons_none a (fun c hc => by rw [hj] at hc; simp at hc)]
        rfl
      | some c =>
        rw [hj] at hv
        simp only [Option.map_some'] at hv
        rw [nodeAt_cons_of hv, nodeAt_cons_of hj, nodeAt_clearFlags a k c]
        simp

theorem pathIds_clearFlags : ∀ (a : Addr) (k : Nat) (N : ISNODE),
    pathIds (clearFlags k N) a = pathIds N a
  | [], k, N => by rw [pathIds_nil, pathIds_nil]
  | j :: a, 0, N => by rw [clearFlags_zero]
  | j :: a, k + 1, N => by
    have hv := clearFlags_vec_get k N j
    cases hj : N.vec[j]? with
    | none =>
      rw [hj] at hv
      rw [pathIds_cons_none a (fun c hc => by rw [hv] at hc; simp at hc),
        pathIds_cons_none a (fun c hc => by rw [hj] at hc; simp at hc)]
    | some oc =>
      cases oc with
      | none =>
        rw [hj] at hv
        rw [pathIds_cons_none a (fun c hc => by rw [hv] at hc; simp at hc),
          pathIds_cons_none a (fun c hc => by rw [hj] at hc; simp at hc)]
      | some c =>
        rw [hj] at hv
        simp only [Option.map_some'] at hv
        rw [pathIds_cons_of hv, pathIds_cons_of hj, pathIds_clearFlags a k c,
          (clearFlags_fields k c).1]

/-- The tree with the skip flags cleared in the nodes with children is well formed. -/
theorem WFN_clearFlags {lc : Int} : ∀ {h : Nat} (k : Nat) {live : Bool} {N : ISNODE},
    WFN lc live h N → WFN lc true h (clearFlags k N)
  | 0, k, live, N, hw => by
    rw [WFN_zero] at hw
    rw [clearFlags_nil k hw.2.1, WFN_zero]
    exact ⟨rfl, hw.2.1, hw.2.2⟩
  | h + 1, 0, live, N, hw => by rw [clearFlags_zero]; exact WFN_live hw
  | h + 1, k + 1, live, N, hw => by
    have hw0 := hw
    rw [WFN_succ] at hw
    rcases hw with hw | ⟨first, rest, hv, hl, hw⟩
    · rw [clearFlags_nil _ hw.1]; exact WFN_live hw0
    · have hlen0 : (0 : Int) ≤ (N.vec.length : Int) := by omega
      have hun : unskip N.chcnt = (N.vec.length : Int) := by
        rcases hw with hw | hw
        · rw [hw.2.1]; exact (unskip_len hlen0 hl).1
        · rw [hw.1]; exact (unskip_len hlen0 hl).2
      have hkids : ∀ j c, N.vec.get? j = some (some c) →
          ChildOK N first.id j c ∧ ∃ l, WFN lc l h c := by
        intro j c hc
        rcases hw with hw | hw
        · exact ⟨(hw.2.2 j c hc).1, true, (hw.2.2 j c hc).2⟩
        · exact ⟨(hw.2 j c hc).1, false, (hw.2 j c hc).2⟩
      rw [clearFlags_cons k hv, WFN_succ]
      refine Or.inr ⟨clearFlags k first, rest.map (Option.map (clearFlags k)), ?_, ?_,
        Or.inl ⟨rfl, ?_, ?_⟩⟩
      · rw [ISNODE.vec_setVec, hv]; rfl
      · rw [ISNODE.vec_setVec, List.length_map]; exact hl
      · rw [ISNODE.chcnt_setVec, ISNODE.chcnt_setChcnt, ISNODE.vec_setVec, List.length_map]
        exact hun
      · intro j c' hc'
        rw [ISNODE.vec_setVec, List.get?_eq_getElem?, List.getElem?_map] at hc'
        cases hj : N.vec[j]? with
        | none => rw [hj] at hc'; simp at hc'
        | some oc =>
          cases oc with
          | none => rw [hj] at hc'; simp at hc'
          | some c =>
            rw [hj] at hc'
            simp only [Option.map_some', Option.some.injEq] at hc'
            subst hc'
            obtain ⟨hok, l, hwc⟩ := hkids j c (by simpa using hj)
            obtain ⟨f1, f2, f3, -⟩ := clearFlags_fields k c
            refine ⟨?_, WFN_clearFlags k hwc⟩
            rw [(clearFlags_fields k first).1]
            exact ChildOK_fields (N := N) (c := c) ⟨by simp, by simp⟩
              ⟨f1.symm, f2.symm, by rw [f3]⟩ hok

theorem clearFlags_chcnt_zero {lc : Int} {live : Bool} {h : Nat} {N : ISNODE} (k : Nat)
    (hw : WFN lc live h N) : (clearFlags k N).chcnt = 0 ↔ N.chcnt = 0 := by
  cases k with
  | zero => rfl
  | succ k =>
    cases hv : N.vec with
    | nil => rw [clearFlags_nil _ hv]
    | cons o rest =>
      rw [clearFlags_cons k hv, ISNODE.chcnt_setVec, ISNODE.chcnt_setChcnt]
      cases h with
      | zero => rw [WFN_zero] at hw; rw [hw.2.1] at hv; simp at hv
      | succ h =>
        rw [WFN_succ] at hw
        rcases hw with hw | ⟨first, rest', hv', hl, hw⟩
        · rw [hw.1] at hv; simp at hv
        · have hpos : (1 : Int) ≤ (N.vec.length : Int) := by rw [hv']; simp
          rcases hw with hw | hw
          · rw [hw.2.1, (unskip_len (by omega) hl).1]
          · rw [hw.1, (unskip_len (by omega) hl).2]
            unfold F_SKIP; unfold INT_MAX at hl
            constructor <;> intro e <;> omega

theorem VecRel_map {R S : ISNODE → ISNODE → Prop} (f : ISNODE → ISNODE)
    {v w : List (Option ISNODE)} (h : VecRel R v w) (hf : ∀ a b, R a b → S (f a) (f b)) :
    VecRel S (v.map (Option.map f)) (w.map (Option.map f)) := by
  obtain ⟨h1, h2, h3⟩ := h
  refine ⟨fun j => ?_, fun j => ?_, fun j c hc => ?_⟩
  · rw [List.getElem?_map, List.getElem?_map, Option.map_eq_none', Option.map_eq_none']
    exact h1 j
  · rw [List.getElem?_map, List.getElem?_map]
    constructor
    · intro e
      cases hv : v[j]? with
      | none => rw [hv] at e; simp at e
      | some oc =>
        cases oc with
        | none => rw [(h2 j).1 hv]; rfl
        | some c => rw [hv] at e; simp at e
    · intro e
      cases hv : w[j]? with
      | none => rw [hv] at e; simp at e
      | some oc =>
        cases oc with
        | none => rw [(h2 j).2 hv]; rfl
        | some c => rw [hv] at e; simp at e
  · rw [List.getElem?_map] at hc
    cases hv : v[j]? with
    | none => rw [hv] at hc; simp at hc
    | some oc =>
      cases oc with
      | none => rw [hv] at hc; simp at hc
      | some c0 =>
        rw [hv] at hc
        simp only [Option.map_some', Option.some.injEq] at hc
        subst hc
        obtain ⟨d, hd, hr⟩ := h3 j c0 hv
        exact ⟨f d, by rw [List.getElem?_map, hd]; rfl, hf c0 d hr⟩

theorem Shape_clearFlags : ∀ {h : Nat} (k : Nat) {N N' : ISNODE}, Shape h N N' →
    Shape h (clearFlags k N) (clearFlags k N')
  | h, 0, N, N', hs => hs
  | 0, k + 1, N, N', hs => by
    obtain ⟨s1, s2, s3, s4, s5⟩ := TRel_zero.1 hs
    cases hv : N.vec with
    | nil =>
      rw [clearFlags_nil _ hv, clearFlags_nil _ (by rw [← s5]; exact hv)]
      exact hs
    | cons o rest =>
      rw [clearFlags_cons k hv, clearFlags_cons k (by rw [← s5]; exact hv)]
      refine TRel_zero.2 ⟨by simpa using s1, by simp [s2], by simpa using s3, by simpa using s4,
        by simp [s5]⟩
  | h + 1, k + 1, N, N', hs => by
    obtain ⟨⟨s1, s2, s3, s4⟩, hv⟩ := TRel_succ.1 hs
    have hlen := hv.length_vec
    cases hvn : N.vec with
    | nil =>
      have hvn' : N'.vec = [] := by
        rw [hvn] at hlen
        exact List.length_eq_zero.1 hlen.symm
      rw [clearFlags_nil _ hvn, clearFlags_nil _ hvn']
      exact hs
    | cons o rest =>
      cases hvn' : N'.vec with
      | nil => rw [hvn, hvn'] at hlen; simp at hlen
      | cons o' rest' =>
        rw [clearFlags_cons k hvn, clearFlags_cons k hvn']
        refine TRel_succ.2 ⟨⟨by simpa using s1, by simp [s2], by simpa using s3,
          by simpa using s4⟩, ?_⟩
        rw [ISNODE.vec_setVec, ISNODE.vec_setVec]
        exact VecRel_map (clearFlags k) hv (fun a b hab => Shape_clearFlags k hab)

/-- The skip flags of the nodes with children do not matter for the counted transactions. -/
theorem Counted_clearFlags {lc : Int} {live : Bool} {ts : List (List Int)} {h : Nat}
    {N N' : ISNODE} (k : Nat) (hw : WFN lc live h N) (hc : Counted ts h N N') :
    Counted ts h (clearFlags k N) (clearFlags k N') := by
  refine ⟨Shape_clearFlags k hc.1, fun a Mc Mc' hMc hMc' i hi => ?_⟩
  rw [nodeAt_clearFlags] at hMc hMc'
  cases hM : nodeAt N a with
  | none => rw [hM] at hMc; simp at hMc
  | some M =>
    cases hM' : nodeAt N' a with
    | none => rw [hM'] at hMc'; simp at hMc'
    | some M' =>
      rw [hM] at hMc; rw [hM'] at hMc'
      simp only [Option.map_some', Option.some.injEq] at hMc hMc'
      subst hMc hMc'
      obtain ⟨-, l, hwM⟩ := WFN_at a hw hM
      obtain ⟨-, f2, f3, -⟩ := clearFlags_fields (k - a.length) M
      obtain ⟨-, -, g3, -⟩ := clearFlags_fields (k - a.length) M'
      rw [f3] at hi
      have := hc.2 a M M' hM hM' i hi
      rw [g3, f3, f2, pathIds_clearFlags, this]
      by_cases h0 : M.chcnt = 0
      · rw [if_pos h0, if_pos ((clearFlags_chcnt_zero _ hwM).2 h0)]
      · rw [if_neg h0, if_neg (fun e => h0 ((clearFlags_chcnt_zero _ hwM).1 e))]

/-- Counting a transaction and clearing the skip flags of the nodes with children
commute. -/
theorem count_clearFlags {lc : Int} (hlc : lc ≤ 0) {live : Bool} {h : Nat} {N : ISNODE}
    (k : Nat) {t : List Int} (hw : WFN lc live h N) (ht : Tract t) :
    _count (h + 1) (clearFlags k N) t ((h : Int) + 1) =
      clearFlags k (_count (h + 1) N t ((h : Int) + 1)) := by
  have hw' := WFN_clearFlags k hw
  exact Counted_unique hw' (count_counted hlc hw' ht)
    (Counted_clearFlags k hw (count_counted hlc hw ht))

theorem ist_count_withRoot {lc : Int} {live : Bool} (ist : ISTREE) (R : ISNODE)
    (hp : 1 ≤ ist.lvlcnt) (hw : WFN lc live (ist.lvlcnt - 1) R) (t : List Int) :
    (ist_count (ist.withRoot R) t).root = _count ist.lvlcnt R t ist.lvlcnt := by
  unfold ist_count ISTREE.withRoot
  split
  · rfl
  · rename_i hlt
    simp only at hlt
    have := count_short hw t (ist.lvlcnt : Int) (by omega) (by omega)
    have he : ist.lvlcnt - 1 + 1 = ist.lvlcnt := by omega
    rw [he] at this
    rw [this]

/-- C14 (amended): skip safety.  For every tree reachable through the public operations, so
for every tree produced by `ist_addlvl`, and every transaction (item ids ascending),
`ist_count` on the tree in which the skip flag is cleared in every node that has a child
vector (`chcnt` masked to the length of the child vector; a node without a child vector keeps
its `chcnt`) yields the result of `ist_count` on the tree with its skip flags, with those
flags cleared: every counter of every node is the same in the two results. -/
theorem C14_skip_safety (ist : ISTREE) (t : List Int) (hr : Reachable ist) (ht : Tract t) :
    (ist_count (ist.withRoot (clearFlags ist.lvlcnt ist.root)) t).root =
      clearFlags ist.lvlcnt (ist_count ist t).root ∧
    ∀ (a : Addr) (M : ISNODE), nodeAt (ist_count ist t).root a = some M →
      ∃ M', nodeAt (ist_count (ist.withRoot (clearFlags ist.lvlcnt ist.root)) t).root a =
        some M' ∧ M'.cnts = M.cnts := by
  have hI := Inv_of_reachable hr
  obtain ⟨lc, hlc, hw⟩ := hI.wf
  have hp := hI.lvl_pos
  have he : ist.lvlcnt - 1 + 1 = ist.lvlcnt := by omega
  have hmin : (ist.lvlcnt : Int) = ((ist.lvlcnt - 1 : Nat) : Int) + 1 := by omega
  have key : (ist_count (ist.withRoot (clearFlags ist.lvlcnt ist.root)) t).root =
      clearFlags ist.lvlcnt (ist_count ist t).root := by
    rw [ist_count_withRoot ist _ hp (WFN_clearFlags ist.lvlcnt hw), ist_count_root hI]
    have := count_clearFlags (wf_lc_le hlc) ist.lvlcnt hw ht
    rw [he, ← hmin] at this
    exact this
  refine ⟨key, fun a M hM => ?_⟩
  rw [key, nodeAt_clearFlags, hM]
  exact ⟨_, rfl, (clearFlags_fields _ M).2.2.1⟩

theorem chainTree_reachable : Reachable chainTree :=
  Reachable.addlvl _ none
    (Reachable.count _ [0, 1, 2]
      (Reachable.addlvl _ none
        (seed_reachable chainDb 4 _ (Reachable.create 4 1 (by decide) (by decide))))
      (by unfold Tract; simp))

theorem tract_chain : Tract [1, 2, 3] := by
  unfold Tract; simp

/-- C14, counterexample: `chainTree` is the tree of a mining run after the second call of
`ist_addlvl`, which returned 0.  Its node for item 1 on the second level has got no child, so
`ist_addlvl` has stored `chcnt = F_SKIP` in it.  `ist_count` of the transaction `[1, 2, 3]`
leaves the counter of this node at 1; on the tree with the skip bits cleared in all nodes
(`chcnt & ~F_SKIP`, which is 0 for this node) `ist_count` takes the node for a node of the
deepest level and raises the counter to 2. -/
theorem C14_cleared_leaf_counts :
    Reachable chainTree ∧ Tract [1, 2, 3] ∧
    (nodeAt chainTree.root [1]).map (fun M => (M.chcnt, M.vec.length)) = some (F_SKIP, 0) ∧
    (nodeAt (clearSkip 3 chainTree.root) [1]).map ISNODE.chcnt = some 0 ∧
    (nodeAt chainTree.root [1]).map ISNODE.cnts = some [1] ∧
    (nodeAt (ist_count chainTree [1, 2, 3]).root [1]).map ISNODE.cnts = some [1] ∧
    (nodeAt (ist_count (chainTree.withRoot (clearSkip 3 chainTree.root)) [1, 2, 3]).root
      [1]).map ISNODE.cnts = some [2] :=
  ⟨chainTree_reachable, tract_chain, by decide, by decide, by decide, by decide, by decide⟩

theorem C14_skip_safety_witness :
    Reachable chainTree ∧ Tract [1, 2, 3] ∧
    (ist_count (chainTree.withRoot (clearFlags chainTree.lvlcnt chainTree.root))
      [1, 2, 3]).root = clearFlags chainTree.lvlcnt (ist_count chainTree [1, 2, 3]).root :=
  ⟨chainTree_reachable, tract_chain,
    (C14_skip_safety chainTree [1, 2, 3] chainTree_reachable tract_chain).1⟩


/-! ### The counters of the slots that are no candidates -/

theorem support_single (t X : List Int) :
    support [t] X = if contains t X = true then 1 else 0 := by
  rw [support_cons, support_nil]
  split <;> simp

/-- C18 (amended): a counter slot of a node that `ist_addlvl` has created, also one whose
item lies inside the range `[offset, offset+size)` of the node but was not accepted as a
candidate by `_child`, is 0 when `ist_addlvl` returns, but not permanently: a later
`ist_count` of a transaction (item ids ascending) adds 1 to it exactly when the transaction
contains the item set of the slot, and a later `ist_countx` adds the number of the
transactions of the transaction tree that contain it (for a transaction tree that satisfies
the collaborator interface and whose leaves with items have multiplicity 1). -/
theorem C18_slot_counted (ist : ISTREE) (mem : Option Nat) (hr : Reachable ist)
    (h0 : (ist_addlvl ist mem).2 = 0) (b : Addr) (c : ISNODE) (hb : b.length = ist.lvlcnt)
    (hc : nodeAt (ist_addlvl ist mem).1.root b = some c) (i : Nat) (hi : i < c.cnts.length) :
    c.cnts.getD i 0 = 0 ∧
    (∀ t : List Int, Tract t →
      ∃ c', nodeAt (ist_count (ist_addlvl ist mem).1 t).root b = some c' ∧
        c'.cnts.getD i 0 =
          if contains t (pathIds (ist_addlvl ist mem).1.root b ++ [c.offset + (i : Int)]) = true
          then 1 else 0) ∧
    (∀ (fuel : Nat) (lb : Int) (T : TATREE), WFT fuel lb T → UnitLeaves fuel T →
      ∃ c', nodeAt (ist_countx fuel (ist_addlvl ist mem).1 T).root b = some c' ∧
        c'.cnts.getD i 0 = support (tat_tracts fuel T)
          (pathIds (ist_addlvl ist mem).1.root b ++ [c.offset + (i : Int)])) := by
  have hI := Inv_of_reachable hr
  have hI1 := Inv_addlvl hI mem
  obtain ⟨lc, hlc, hw⟩ := hI1.wf
  have hp := hI1.lvl_pos
  have hal := hI1.nodeAt_length hc
  obtain ⟨a, j, N, -, -, -, -, hk, -⟩ := addlvl_new_node hI mem h0 b c hb hc
  obtain ⟨i0, -, hch⟩ := mem_kidsOf.1 hk
  obtain ⟨-, -, -, c4, -, -, -, -, c9, -⟩ := childOf_some hch
  have hz : c.cnts.getD i 0 = 0 := by
    rw [getD_of_lt c.cnts i 0 hi]
    exact c9 _ (List.getElem_mem _)
  refine ⟨hz, fun t ht => ?_, fun fuel lb T hT hU => ?_⟩
  · have hC := (countAll_counted [t] hI1 (fun t' ht' => by
      rw [List.mem_singleton.1 ht']; exact ht)).2.2.2.2
    have e : countAll (ist_addlvl ist mem).1 [t] = ist_count (ist_addlvl ist mem).1 t := rfl
    rw [e] at hC
    obtain ⟨c', hc', -⟩ := Shape_node hC.1 hal hc
    refine ⟨c', hc', ?_⟩
    rw [hC.2 b c c' hc hc' i hi, hz, if_pos c4, support_single, zero_add]
  · have hmin : ((ist_addlvl ist mem).1.lvlcnt : Int) =
        (((ist_addlvl ist mem).1.lvlcnt - 1 : Nat) : Int) + 1 := by omega
    have hC := countx_counted (wf_lc_le hlc) fuel T lb (ist_addlvl ist mem).1.root hw hT hU
    rw [← hmin] at hC
    have e : (ist_countx fuel (ist_addlvl ist mem).1 T).root =
        _countx fuel (ist_addlvl ist mem).1.root T (ist_addlvl ist mem).1.lvlcnt := rfl
    rw [e]
    obtain ⟨c', hc', -⟩ := Shape_node hC.1 hal hc
    refine ⟨c', hc', ?_⟩
    rw [hC.2 b c c' hc hc' i hi, hz, if_pos c4, zero_add]

/-- C18, counterexample: in the tree `gapTree` the root slot of item 0 gets a child for the
candidates 1 and 3; the item 2 lies inside the range of the child and is no candidate.
`ist_count` of the transaction `[0, 2]` raises the counter of its slot from 0 to 1. -/
theorem C18_gap_counted :
    Reachable gapTree ∧ (ist_addlvl gapTree none).2 = 0 ∧
    candidates gapTree.supp [] gapTree.root 0 = [1, 3] ∧
    (nodeAt (ist_addlvl gapTree none).1.root [0]).map (fun M => (M.id, M.offset, M.cnts)) =
      some (0, 1, [0, 0, 0]) ∧
    Tract [0, 2] ∧
    (nodeAt (ist_count (ist_addlvl gapTree none).1 [0, 2]).root [0]).map ISNODE.cnts =
      some [0, 1, 0] :=
  ⟨gapTree_reachable, by decide, by decide, by decide, by unfold Tract; simp, by decide⟩

theorem C18_slot_counted_witness :
    Reachable gapTree ∧ (ist_addlvl gapTree none).2 = 0 ∧
    ([0] : Addr).length = gapTree.lvlcnt ∧
    nodeAt (ist_addlvl gapTree none).1.root [0] = some (.mk 0 0 1 [0, 0, 0] []) ∧
    (1 : Nat) < (ISNODE.mk 0 0 1 [0, 0, 0] []).cnts.length ∧
    (ISNODE.mk 0 0 1 [0, 0, 0] []).offset + ((1 : Nat) : Int) ∉
      candidates gapTree.supp [] gapTree.root 0 ∧
    (ISNODE.mk 0 0 1 [0, 0, 0] []).cnts.getD 1 0 = 0 :=
  ⟨gapTree_reachable, by decide, by decide, rfl, by decide, by decide,
    (C18_slot_counted gapTree none gapTree_reachable (by decide) [0] (.mk 0 0 1 [0, 0, 0] [])
      (by decide) rfl 1 (by decide)).1⟩


/-! ### Successive calls of `ist_set` -/

theorem ist_count_levels (ist : ISTREE) (t : List Int) :
    (ist_count ist t).lvlcnt = ist.lvlcnt ∧ (ist_count ist t).levels = ist.levels := by
  unfold ist_count
  split <;> exact ⟨rfl, rfl⟩

/-- No level of a tree that the public operations produce is empty. -/
theorem levels_ne_of_reachable {ist : ISTREE} (hr : Reachable ist) :
    ∀ k, k < ist.lvlcnt → ist.levels.getD k [] ≠ [] := by
  induction hr with
  | create itemcnt supp hn hs =>
    intro k hk
    have hk0 : k = 0 := by
      have : (ist_create itemcnt supp).lvlcnt = 1 := rfl
      omega
    subst hk0
    simp [ist_create, ist_init]
  | setcnt ist item cnt _ ih =>
    unfold ist_setcnt
    split
    · exact ih
    · exact ih
  | count ist t _ _ ih =>
    rw [(ist_count_levels ist t).1, (ist_count_levels ist t).2]
    exact ih
  | addlvl ist mem hr ih =>
    have hI := Inv_of_reachable hr
    have hlen := hI.lvl_len
    unfold ist_addlvl
    split
    · exact ih
    · split
      · exact ih
      · split
        · exact ih
        · rename_i hne
          intro k hk
          simp only at hk ⊢
          by_cases hkl : k < ist.lvlcnt
          · rw [List.getD_eq_getElem?_getD, List.getElem?_append_left (by omega),
              ← List.getD_eq_getElem?_getD]
            exact ih k hkl
          · have hk' : k = ist.levels.length := by omega
            subst hk'
            simpa [List.getD_eq_getElem?_getD] using hne
  | filter ist ist1 mode hr hf ih =>
    obtain ⟨-, he⟩ := ist_filter_shape (Inv_of_reachable hr) hf
    rw [he]
    exact ih
  | init ist _ ih => exact ih

theorem LevelLen_of_inv {ist : ISTREE} (hI : Inv ist) : LevelLen ist :=
  fun k hk a ha => ((hI.lvl_mem k hk a).1 ha).1

theorem SameTree.levelLen {ist ist' : ISTREE} (h : SameTree ist ist') (hL : LevelLen ist) :
    LevelLen ist' := by
  obtain ⟨-, h2, h3, -⟩ := h
  unfold LevelLen
  rw [h2, h3]
  exact hL

theorem advance_done {ist ist' : ISTREE} {pos : Nat} (h : advance ist pos = .done ist') :
    ist'.lvlcnt < ist'.size ∧ SameTree ist ist' := by
  unfold advance at h
  split at h
  · cases h
  · split at h
    · split at h
      · cases h
      · split at h
        · rename_i hD
          cases h
          exact ⟨hD, rfl, rfl, rfl, rfl⟩
        · cases h
    · cases h

/-- The state in which the search loop of `ist_set` ends, and the size of the item set that
it reports. -/
theorem setLoop_sizes : ∀ (fuel : Nat) (ist : ISTREE) (pos : Nat), Scan ist → Cursor ist pos →
    LevelLen ist →
    (∀ ist', setLoop fuel ist pos = .done ist' → ist'.lvlcnt < ist'.size ∧ SameTree ist ist') ∧
    (∀ ist' set s, setLoop fuel ist pos = .found ist' set s → set.length = ist'.size)
  | 0, ist, pos, _, _, _ => by
    have e : setLoop 0 ist pos = .abort := rfl
    rw [e]
    exact ⟨fun _ h => (by cases h), fun _ _ _ h => (by cases h)⟩
  | fuel + 1, ist, pos, hS, hC, hL => by
    rw [setLoop_succ]
    rcases advance_spec hS hC with ⟨ist1, ha, -⟩ | ⟨ist1, pos1, ha, hC1, -, hsame, -, -⟩
    · rw [ha]
      simp only
      refine ⟨fun ist' h => ?_, fun _ _ _ h => (by cases h)⟩
      cases h
      exact advance_done ha
    · rw [ha]
      simp only
      have hS1 := hsame.scan hS
      have hL1 := hsame.levelLen hL
      obtain ⟨node, hcn, hn⟩ := hS1.cursor hC1
      rw [hcn]
      simp only
      by_cases hge : node.cnts.getD ist1.index.toNat 0 ≥ ist1.supp
      · rw [if_pos hge]
        refine ⟨fun _ h => (by cases h), fun ist' set s h => ?_⟩
        cases h
        have h1 := hC1.size_pos
        have h2 := hC1.size_le
        have hmem := getD_mem (ist1.levels.getD (ist1.size - 1) []) pos1 [] hC1.pos_lt
        have := hL1 (ist1.size - 1) (by omega) _ hmem
        rw [List.length_append, length_pathIds hn, this]
        simp only [List.length_cons, List.length_nil]
        omega
      · rw [if_neg hge]
        obtain ⟨i1, i2⟩ := setLoop_sizes fuel ist1 pos1 hS1 hC1 hL1
        refine ⟨fun ist' h => ?_, i2⟩
        obtain ⟨q1, q2⟩ := i1 ist' h
        exact ⟨q1, hsame.trans_same q2⟩

theorem setCalls_succ (k : Nat) (ist : ISTREE) :
    setCalls (k + 1) ist = SetRes.out (ist_set ist) :: setCalls k (SetRes.state ist (ist_set ist)) :=
  rfl

theorem setState_succ (k : Nat) (ist : ISTREE) :
    setState (k + 1) ist = setState k (SetRes.state ist (ist_set ist)) := rfl

/-- Beyond the deepest level every call of `ist_set` returns `-1` and changes nothing. -/
theorem done_calls : ∀ (k : Nat) {ist : ISTREE}, ist.lvlcnt < ist.size →
    setCalls k ist = List.replicate k (some (-1, [], 0)) ∧ setState k ist = ist
  | 0, _, _ => ⟨rfl, rfl⟩
  | k + 1, ist, h => by
    have e : ist_set ist = .done ist := by
      unfold ist_set
      rw [if_pos h]
    have hs : SetRes.state ist (ist_set ist) = ist := by rw [e]; rfl
    have ho : SetRes.out (ist_set ist) = some (-1, [], 0) := by rw [e]; rfl
    rw [setCalls_succ, setState_succ, hs, ho, (done_calls k h).1, (done_calls k h).2]
    exact ⟨rfl, rfl⟩

theorem take_pad {α : Type} (L : List α) (k : Nat) (d : α) :
    (L ++ List.replicate (k + 1) d).take k = (L ++ List.replicate k d).take k := by
  rw [List.replicate_succ', ← List.append_assoc, List.take_append_of_le_length (by simp)]

/-- The calls of `ist_set` from a cursor position: the remaining item sets, then `-1`. -/
theorem setCalls_from : ∀ (k : Nat) (ist0 ist : ISTREE) (pos : Nat), Scan ist →
    Cursor ist pos → LevelLen ist → ist_set ist0 = setLoop (scanFuel ist) ist pos →
    setCalls k ist0 =
      (((outFrom ist pos (ist.index + 1).toNat).map callOut) ++
        List.replicate k (some (-1, [], 0))).take k ∧
    SameTree ist (setState (k + 1) ist0)
  | k, ist0, ist, pos, hS, hC, hL, hset => by
    have hz := setLoop_sizes (scanFuel ist) ist pos hS hC hL
    rcases setLoop_spec (scanFuel ist) ist pos hS hC (wFrom_le_scanFuel hS hC _) with
        ⟨ist', h1, h2⟩ | ⟨ist', pos', set, s, h1, h2, h3, h4, h5⟩
    · obtain ⟨hlt, hsame⟩ := hz.1 ist' h1
      have hstate : SetRes.state ist0 (ist_set ist0) = ist' := by rw [hset, h1]; rfl
      have hout : SetRes.out (ist_set ist0) = some (-1, [], 0) := by rw [hset, h1]; rfl
      refine ⟨?_, ?_⟩
      · cases k with
        | zero => rfl
        | succ k =>
          rw [setCalls_succ, hout, hstate, (done_calls k hlt).1, h2]
          simp [List.replicate_succ]
      · rw [setState_succ, hstate, (done_calls k hlt).2]
        exact hsame
    · have hsz := hz.2 ist' set s h1
      have hstate : SetRes.state ist0 (ist_set ist0) = ist' := by rw [hset, h1]; rfl
      have hout : SetRes.out (ist_set ist0) = callOut (set, s) := by
        rw [hset, h1]
        show some ((ist'.size : Int), set, s) = some ((set.length : Int), set, s)
        rw [hsz]
      have hS' := h3.scan hS
      have hL' := h3.levelLen hL
      have hset' : ist_set ist' = setLoop (scanFuel ist') ist' pos' := by
        unfold ist_set
        rw [if_neg (by have := h2.size_le; omega), h2.node_eq]
      refine ⟨?_, ?_⟩
      · cases k with
        | zero => rfl
        | succ k =>
          have ih := (setCalls_from k ist' ist' pos' hS' h2 hL' hset').1
          rw [setCalls_succ, hout, hstate, ih, h4, List.map_cons, List.cons_append,
            List.take_succ_cons, take_pad]
      · rw [setState_succ, hstate]
        cases k with
        | zero => exact h3
        | succ k =>
          exact h3.trans_same (setCalls_from k ist' ist' pos' hS' h2 hL' hset').2

/-- The calls of `ist_set` after `ist_init`. -/
theorem setCalls_init {ist : ISTREE} (hS : Scan ist) (hL : LevelLen ist) (hl : 1 ≤ ist.lvlcnt)
    (k : Nat) :
    setCalls k (ist_init ist) =
      (((enumSets ist).map callOut) ++ List.replicate k (some (-1, [], 0))).take k ∧
    SameTree ist (setState k (ist_init ist)) := by
  have hS0 : Scan { ist_init ist with node := some 0 } :=
    @SameTree.scan ist _ ⟨rfl, rfl, rfl, rfl⟩ hS
  have hL0 : LevelLen { ist_init ist with node := some 0 } :=
    @SameTree.levelLen ist _ ⟨rfl, rfl, rfl, rfl⟩ hL
  have hne := hS.ne 0 (by omega)
  have hC0 : Cursor { ist_init ist with node := some 0 } 0 :=
    ⟨le_refl _, hl, List.length_pos.2 hne, rfl, le_refl _⟩
  have hset : ist_set (ist_init ist) =
      setLoop (scanFuel { ist_init ist with node := some 0 })
        { ist_init ist with node := some 0 } 0 := by
    unfold ist_set
    rw [if_neg (by show ¬ 1 > ist.lvlcnt; omega)]
    rfl
  have hout : outFrom { ist_init ist with node := some 0 } 0 ((-1 : Int) + 1).toNat =
      enumSets ist := enumSets_eq_outFrom hS0 rfl hl
  obtain ⟨c1, c2⟩ := setCalls_from k (ist_init ist) _ 0 hS0 hC0 hL0 hset
  have hout' : outFrom { ist_init ist with node := some 0 } 0
      (({ ist_init ist with node := some 0 } : ISTREE).index + 1).toNat = enumSets ist := hout
  rw [hout'] at c1
  refine ⟨c1, ?_⟩
  cases k with
  | zero => exact ⟨rfl, rfl, rfl, rfl⟩
  | succ k =>
    have c3 := (setCalls_from k (ist_init ist) _ 0 hS0 hC0 hL0 hset).2
    exact c3

/-! ### The slots in the order of their enumeration -/

theorem mem_nodeSlots {ist : ISTREE} {a : Addr} {p : Addr × Nat} :
    p ∈ nodeSlots ist a ↔ p.1 = a ∧ ∃ M, nodeAt ist.root a = some M ∧ p.2 < M.cnts.length ∧
      ist.supp ≤ M.cnts.getD p.2 0 := by
  unfold nodeSlots
  cases hM : nodeAt ist.root a with
  | none => simp
  | some M =>
    simp only [List.mem_map, List.mem_filter, List.mem_range, decide_eq_true_eq,
      Option.some.injEq, exists_eq_left']
    constructor
    · rintro ⟨i, ⟨hi, hs⟩, rfl⟩
      exact ⟨rfl, hi, hs⟩
    · rintro ⟨e, hi, hs⟩
      exact ⟨p.2, ⟨hi, hs⟩, by rw [← e]⟩

theorem mem_slotList {ist : ISTREE} (hI : Inv ist) (a : Addr) (i : Nat) :
    (a, i) ∈ slotList ist ↔
      ∃ M, nodeAt ist.root a = some M ∧ i < M.cnts.length ∧ ist.supp ≤ M.cnts.getD i 0 := by
  unfold slotList
  simp only [List.mem_flatMap]
  constructor
  · rintro ⟨lvl, -, a', -, h⟩
    obtain ⟨e, M, hM, hi, hs⟩ := mem_nodeSlots.1 h
    simp only at e
    subst e
    exact ⟨M, hM, hi, hs⟩
  · rintro ⟨M, hM, hi, hs⟩
    have hal := hI.nodeAt_length hM
    have hp := hI.lvl_pos
    have hlen := hI.lvl_len
    refine ⟨ist.levels.getD a.length [], getD_mem _ _ _ (by omega), a, ?_, ?_⟩
    · exact (hI.lvl_mem a.length (by omega) a).2 ⟨rfl, by rw [hM]; rfl⟩
    · exact mem_nodeSlots.2 ⟨rfl, M, hM, hi, hs⟩

theorem nodeOut_slots (ist : ISTREE) (a : Addr) :
    (nodeOut ist a 0).map callOut = (nodeSlots ist a).map (slotRes ist) := by
  unfold nodeOut nodeSlots
  cases hM : nodeAt ist.root a with
  | none => rfl
  | some M =>
    simp only [List.drop_zero]
    generalize List.range M.cnts.length = l
    induction l with
    | nil => rfl
    | cons i l ih =>
      rw [List.filterMap_cons, List.filter_cons]
      unfold slotOut
      by_cases hs : ist.supp ≤ M.cnts.getD i 0
      · rw [if_pos hs, if_pos (by simpa using hs)]
        simp only [List.map_cons]
        unfold slotOut at ih
        rw [ih]
        congr 1
        unfold callOut slotRes
        rw [hM]
        simp only [Option.map_some', List.length_append, length_pathIds hM, List.length_cons,
          List.length_nil]
        push_cast
        rfl
      · rw [if_neg hs, if_neg (by simpa using hs)]
        unfold slotOut at ih
        exact ih

theorem enumSets_slots (ist : ISTREE) :
    (enumSets ist).map callOut = (slotList ist).map (slotRes ist) := by
  unfold enumSets slotList levelOut
  rw [List.map_flatMap, List.map_flatMap]
  congr 1
  funext lvl
  rw [List.map_flatMap, List.map_flatMap]
  congr 1
  funext a
  exact nodeOut_slots ist a

theorem mem_level_slots {ist : ISTREE} {lvl : List Addr} {p : Addr × Nat}
    (h : p ∈ lvl.flatMap (nodeSlots ist)) : p.1 ∈ lvl := by
  obtain ⟨a, ha, hp⟩ := List.mem_flatMap.1 h
  rw [(mem_nodeSlots.1 hp).1]
  exact ha

theorem indexOf_getElem_nodup : ∀ (l : List Addr) (i : Nat) (hi : i < l.length), l.Nodup →
    List.indexOf l[i] l = i
  | b :: l, 0, _, _ => by simp [List.indexOf_cons]
  | b :: l, i + 1, hi, hnd => by
    rw [List.nodup_cons] at hnd
    have hi' : i < l.length := by simpa using hi
    have hne : b ≠ l[i] := fun e => hnd.1 (by rw [e]; exact List.getElem_mem _)
    have ih := indexOf_getElem_nodup l i hi' hnd.2
    have hb : (b == l[i]) = false := by
      cases hq : (b == l[i]) with
      | false => rfl
      | true => exact absurd (eq_of_beq hq) hne
    simp only [List.getElem_cons_succ, List.indexOf_cons]
    rw [ih, hb]
    rfl

/-- The slots are listed by increasing level, within a level in the order of the node list,
within a node by ascending index. -/
theorem slotList_sorted {ist : ISTREE} (hI : Inv ist) :
    (slotList ist).Pairwise (slotBefore ist) := by
  have hlen := hI.lvl_len
  have hget : ∀ (k : Nat) (hk : k < ist.levels.length), ist.levels[k] = ist.levels.getD k [] :=
    fun k hk => (getD_of_lt _ _ _ hk).symm
  unfold slotList
  rw [List.pairwise_flatMap]
  constructor
  · intro lvl hlvl
    obtain ⟨k, hk, e⟩ := List.mem_iff_getElem.1 hlvl
    rw [hget k hk] at e
    rw [List.pairwise_flatMap]
    constructor
    · intro a _
      unfold nodeSlots
      cases nodeAt ist.root a with
      | none => exact List.Pairwise.nil
      | some M =>
        simp only
        rw [List.pairwise_map]
        exact ((List.pairwise_lt_range _).filter _).imp (fun h => Or.inr (Or.inr ⟨rfl, h⟩))
    · rw [List.pairwise_iff_getElem]
      intro i j hi hj hij x hx y hy
      have e1 := (mem_nodeSlots.1 hx).1
      have e2 := (mem_nodeSlots.1 hy).1
      have hnd : lvl.Nodup := by rw [← e]; exact hI.lvl_nodup k
      have l1 : x.1.length = k := by
        rw [e1]
        exact ((hI.lvl_mem k (by omega) _).1 (by rw [e]; exact List.getElem_mem _)).1
      have l2 : y.1.length = k := by
        rw [e2]
        exact ((hI.lvl_mem k (by omega) _).1 (by rw [e]; exact List.getElem_mem _)).1
      refine Or.inr (Or.inl ⟨by rw [l1, l2], ?_⟩)
      unfold levelPos
      rw [l1, l2, e, e1, e2, indexOf_getElem_nodup lvl i hi hnd, indexOf_getElem_nodup lvl j hj hnd]
      exact hij
  · rw [List.pairwise_iff_getElem]
    intro i j hi hj hij x hx y hy
    have m1 := mem_level_slots hx
    have m2 := mem_level_slots hy
    rw [hget i hi] at m1
    rw [hget j hj] at m2
    have l1 := ((hI.lvl_mem i (by omega) _).1 m1).1
    have l2 := ((hI.lvl_mem j (by omega) _).1 m2).1
    exact Or.inl (by rw [l1, l2]; exact hij)

theorem slotBefore_ne {ist : ISTREE} {p q : Addr × Nat} (h : slotBefore ist p q) : p ≠ q := by
  intro e
  subst e
  rcases h with h | h | h
  · omega
  · omega
  · omega

/-- C12: path decoding.  For every node `N` of a tree reachable through the public operations
and every slot `i` of it with a counter of at least `supp`, one of the calls of `ist_set` after
`ist_init` stops at the slot: it returns the level of `N` plus 1 and writes that many items,
the ids on the path from the root to `N` (root excluded) followed by `N.offset + i`, with the
counter as the support; this sequence is strictly ascending, free of duplicates, and its last
element is `N.offset + i`. -/
theorem C12_path_decoding (ist : ISTREE) (hr : Reachable ist) (a : Addr) (N : ISNODE)
    (i : Nat) (hN : nodeAt ist.root a = some N) (hi : i < N.cnts.length)
    (hs : ist.supp ≤ N.cnts.getD i 0) :
    (∃ k : Nat, (setCalls (k + 1) (ist_init ist))[k]? =
      some (some ((a.length : Int) + 1, pathIds ist.root a ++ [N.offset + (i : Int)],
        N.cnts.getD i 0))) ∧
    (pathIds ist.root a ++ [N.offset + (i : Int)]).length = a.length + 1 ∧
    Tract (pathIds ist.root a ++ [N.offset + (i : Int)]) ∧
    (pathIds ist.root a ++ [N.offset + (i : Int)]).Nodup ∧
    (pathIds ist.root a ++ [N.offset + (i : Int)]).getLast? = some (N.offset + (i : Int)) := by
  have hI := Inv_of_reachable hr
  have hS := Scan_of_inv hI (levels_ne_of_reachable hr)
  have hL := LevelLen_of_inv hI
  obtain ⟨lc, -, hw⟩ := hI.wf
  have hT := (path_sorted a hw hN i hi).1
  refine ⟨?_, by simp [length_pathIds hN], hT, hT.nodup, by simp⟩
  have hmem := (mem_slotList hI a i).2 ⟨N, hN, hi, hs⟩
  obtain ⟨k, hk, e⟩ := List.mem_iff_getElem.1 hmem
  refine ⟨k, ?_⟩
  rw [(setCalls_init hS hL hI.lvl_pos (k + 1)).1, enumSets_slots, List.getElem?_take,
    if_pos (by omega), List.getElem?_append_left (by simpa using hk), List.getElem?_map,
    List.getElem?_eq_getElem hk, e]
  unfold slotRes
  simp only [Option.map_some', hN]

theorem C12_path_decoding_witness :
    Reachable gapTree ∧ nodeAt gapTree.root [] = some gapTree.root ∧
    (3 : Nat) < gapTree.root.cnts.length ∧ gapTree.supp ≤ gapTree.root.cnts.getD 3 0 ∧
    Tract (pathIds gapTree.root [] ++ [gapTree.root.offset + ((3 : Nat) : Int)]) :=
  ⟨gapTree_reachable, rfl, by decide, by decide,
    (C12_path_decoding gapTree gapTree_reachable [] gapTree.root 3 rfl (by decide)
      (by decide)).2.2.1⟩


/-! ### The item usage check -/

theorem length_mark (m : List Int) (i : Int) : (mark m i).length = m.length := by
  unfold mark
  split <;> simp

theorem Marked_refl (m : List Int) : Marked (fun _ => False) m m :=
  ⟨rfl, fun _ => ⟨fun h => absurd h.2 id, fun _ => rfl⟩⟩

theorem Marked_congr {U V : Int → Prop} {m m' : List Int} (h : ∀ x, U x ↔ V x)
    (hm : Marked U m m') : Marked V m m' :=
  ⟨hm.1, fun x => ⟨fun hx => (hm.2 x).1 ⟨hx.1, (h _).2 hx.2⟩,
    fun hx => (hm.2 x).2 (fun hh => hx ⟨hh.1, (h _).1 hh.2⟩)⟩⟩

theorem Marked_trans {U V : Int → Prop} {m m1 m2 : List Int} (h1 : Marked U m m1)
    (h2 : Marked V m1 m2) : Marked (fun x => U x ∨ V x) m m2 := by
  refine ⟨h2.1.trans h1.1, fun x => ⟨fun h => ?_, fun h => ?_⟩⟩
  · obtain ⟨hx, hu⟩ := h
    by_cases hv : V (x : Int)
    · exact (h2.2 x).1 ⟨by rw [h1.1]; exact hx, hv⟩
    · rw [(h2.2 x).2 (fun hh => hv hh.2)]
      rcases hu with hu | hu
      · exact (h1.2 x).1 ⟨hx, hu⟩
      · exact absurd hu hv
  · rw [(h2.2 x).2 (fun hh => h ⟨by rw [← h1.1]; exact hh.1, Or.inr hh.2⟩),
      (h1.2 x).2 (fun hh => h ⟨hh.1, Or.inl hh.2⟩)]

theorem Marked_mark (m : List Int) (i : Int) : Marked (fun x => x = i) m (mark m i) := by
  refine ⟨length_mark m i, fun x => ⟨fun h => ?_, fun h => ?_⟩⟩
  · obtain ⟨hx, e⟩ := h
    unfold mark
    rw [if_neg (by omega)]
    have : i.toNat = x := by omega
    rw [this]
    simp [List.getD_eq_getElem?_getD, hx]
  · unfold mark
    split
    · rfl
    · by_cases hx : x < m.length
      · have hne : i.toNat ≠ x := fun e => h ⟨hx, by omega⟩
        simp only [List.getD_eq_getElem?_getD]
        rw [List.getElem?_set_ne hne]
      · rw [List.getD_eq_getElem?_getD, List.getD_eq_getElem?_getD,
          List.getElem?_eq_none (by simp; omega), List.getElem?_eq_none (by omega)]

theorem checkLeaf_zero (supp n : Int) (cnts marks : List Int) :
    checkLeaf supp n cnts 0 marks = (marks, 0) := rfl

theorem checkLeaf_succ (supp n : Int) (cnts : List Int) (k : Nat) (marks : List Int) :
    checkLeaf supp n cnts (k + 1) marks =
      if cnts.getD k 0 ≥ supp then
        ((checkLeaf supp n cnts k (mark marks (n + k))).1, 1)
      else checkLeaf supp n cnts k marks := rfl

/-- The loop of `_check` over the counters of a node without children. -/
theorem checkLeaf_spec (supp n : Int) (cnts : List Int) : ∀ (k : Nat) (marks : List Int),
    Marked (fun x => ∃ i : Nat, i < k ∧ supp ≤ cnts.getD i 0 ∧ x = n + (i : Int)) marks
      (checkLeaf supp n cnts k marks).1 ∧
    ((checkLeaf supp n cnts k marks).2 ≠ 0 ↔ ∃ i : Nat, i < k ∧ supp ≤ cnts.getD i 0)
  | 0, marks => by
    rw [checkLeaf_zero]
    exact ⟨Marked_congr (fun x => by simp) (Marked_refl marks), by simp⟩
  | k + 1, marks => by
    rw [checkLeaf_succ]
    by_cases hs : cnts.getD k 0 ≥ supp
    · rw [if_pos hs]
      obtain ⟨ih1, -⟩ := checkLeaf_spec supp n cnts k (mark marks (n + k))
      refine ⟨Marked_congr (fun x => ?_) (Marked_trans (Marked_mark marks (n + k)) ih1), ?_⟩
      · constructor
        · rintro (e | ⟨i, hi, hsi, e⟩)
          · exact ⟨k, by omega, hs, e⟩
          · exact ⟨i, by omega, hsi, e⟩
        · rintro ⟨i, hi, hsi, e⟩
          by_cases hik : i = k
          · left; rw [e, hik]
          · right; exact ⟨i, by omega, hsi, e⟩
      · simp only [ne_eq, one_ne_zero, not_false_eq_true, true_iff]
        exact ⟨k, by omega, hs⟩
    · rw [if_neg hs]
      obtain ⟨ih1, ih2⟩ := checkLeaf_spec supp n cnts k marks
      refine ⟨Marked_congr (fun x => ?_) ih1, ih2.trans ?_⟩
      · constructor
        · rintro ⟨i, hi, hsi, e⟩
          exact ⟨i, by omega, hsi, e⟩
        · rintro ⟨i, hi, hsi, e⟩
          have : i ≠ k := fun e' => hs (by rw [← e']; exact hsi)
          exact ⟨i, by omega, hsi, e⟩
      · constructor
        · rintro ⟨i, hi, hsi⟩
          exact ⟨i, by omega, hsi⟩
        · rintro ⟨i, hi, hsi⟩
          have : i ≠ k := fun e' => hs (by rw [← e']; exact hsi)
          exact ⟨i, by omega, hsi⟩

theorem Used_iff (supp : Int) (N : ISNODE) (hp : Bool) (x : Int) :
    Used supp N hp x ↔ (Used supp N false x ∨ (hp = true ∧ x = N.id ∧ Hot supp N)) := by
  unfold Used Hot
  constructor
  · rintro ⟨a, M, i, h1, h2, h3, h4, h5 | ⟨h5, h6⟩⟩
    · exact Or.inl ⟨a, M, i, h1, h2, h3, h4, Or.inl h5⟩
    · exact Or.inr ⟨h5, h6, a, M, i, h1, h2, h3, h4⟩
  · rintro (⟨a, M, i, h1, h2, h3, h4, h5 | ⟨h5, -⟩⟩ | ⟨h5, h6, a, M, i, h1, h2, h3, h4⟩)
    · exact ⟨a, M, i, h1, h2, h3, h4, Or.inl h5⟩
    · exact absurd h5 (by simp)
    · exact ⟨a, M, i, h1, h2, h3, h4, Or.inr ⟨h5, h6⟩⟩

theorem nodeAt_leaf {N M : ISNODE} {a : Addr} (hv : N.vec = []) (h : nodeAt N a = some M) :
    a = [] ∧ M = N := by
  cases a with
  | nil => rw [nodeAt_nil] at h; cases h; exact ⟨rfl, rfl⟩
  | cons j a =>
    obtain ⟨c, hc, -⟩ := nodeAt_cons_some h
    rw [hv] at hc; simp at hc

theorem Hot_leaf (supp : Int) {N : ISNODE} (hv : N.vec = []) (h0 : N.chcnt = 0) :
    Hot supp N ↔ ∃ i : Nat, i < N.cnts.length ∧ supp ≤ N.cnts.getD i 0 := by
  unfold Hot
  constructor
  · rintro ⟨a, M, i, h1, -, h3, h4⟩
    obtain ⟨-, rfl⟩ := nodeAt_leaf hv h1
    exact ⟨i, h3, h4⟩
  · rintro ⟨i, h3, h4⟩
    exact ⟨[], N, i, nodeAt_nil _, h0, h3, h4⟩

theorem Used_leaf (supp : Int) {N : ISNODE} (hv : N.vec = []) (h0 : N.chcnt = 0) (x : Int) :
    Used supp N false x ↔
      ∃ i : Nat, i < N.cnts.length ∧ supp ≤ N.cnts.getD i 0 ∧ x = N.offset + (i : Int) := by
  unfold Used
  constructor
  · rintro ⟨a, M, i, h1, -, h3, h4, h5 | ⟨h5, -⟩⟩
    · obtain ⟨rfl, rfl⟩ := nodeAt_leaf hv h1
      rw [pathIds_nil, List.nil_append, List.mem_singleton] at h5
      exact ⟨i, h3, h4, h5⟩
    · exact absurd h5 (by simp)
  · rintro ⟨i, h3, h4, h5⟩
    exact ⟨[], N, i, nodeAt_nil _, h0, h3, h4, Or.inl (by
      rw [pathIds_nil, List.nil_append, List.mem_singleton]; exact h5)⟩

theorem Hot_kids (supp : Int) {N : ISNODE} (h0 : N.chcnt ≠ 0) :
    Hot supp N ↔ ∃ c, some c ∈ N.vec ∧ Hot supp c := by
  unfold Hot
  constructor
  · rintro ⟨a, M, i, h1, h2, h3, h4⟩
    cases a with
    | nil => rw [nodeAt_nil] at h1; cases h1; exact absurd h2 h0
    | cons j a =>
      obtain ⟨c, hc, hM⟩ := nodeAt_cons_some h1
      exact ⟨c, List.mem_iff_getElem?.2 ⟨j, hc⟩, a, M, i, hM, h2, h3, h4⟩
  · rintro ⟨c, hc, a, M, i, h1, h2, h3, h4⟩
    obtain ⟨j, hj⟩ := List.mem_iff_getElem?.1 hc
    exact ⟨j :: a, M, i, by rw [nodeAt_cons_of hj]; exact h1, h2, h3, h4⟩

theorem Used_kids (supp : Int) {N : ISNODE} (h0 : N.chcnt ≠ 0) (x : Int) :
    Used supp N false x ↔ ∃ c, some c ∈ N.vec ∧ Used supp c true x := by
  unfold Used
  constructor
  · rintro ⟨a, M, i, h1, h2, h3, h4, h5 | ⟨h5, -⟩⟩
    · cases a with
      | nil => rw [nodeAt_nil] at h1; cases h1; exact absurd h2 h0
      | cons j a =>
        obtain ⟨c, hc, hM⟩ := nodeAt_cons_some h1
        rw [pathIds_cons_of hc, List.cons_append, List.mem_cons] at h5
        refine ⟨c, List.mem_iff_getElem?.2 ⟨j, hc⟩, a, M, i, hM, h2, h3, h4, ?_⟩
        rcases h5 with h5 | h5
        · exact Or.inr ⟨rfl, h5⟩
        · exact Or.inl h5
    · exact absurd h5 (by simp)
  · rintro ⟨c, hc, a, M, i, h1, h2, h3, h4, h5⟩
    obtain ⟨j, hj⟩ := List.mem_iff_getElem?.1 hc
    refine ⟨j :: a, M, i, by rw [nodeAt_cons_of hj]; exact h1, h2, h3, h4, Or.inl ?_⟩
    rw [pathIds_cons_of hj, List.cons_append, List.mem_cons]
    rcases h5 with h5 | ⟨-, h5⟩
    · exact Or.inr h5
    · exact Or.inl h5

theorem check_succ (fuel : Nat) (node : ISNODE) (hp : Bool) (marks : List Int) (supp : Int) :
    _check (fuel + 1) node hp marks supp =
      (fun mr : List Int × Int =>
        if mr.2 ≠ 0 ∧ hp = true then (mark mr.1 node.id, mr.2) else mr)
      (if node.chcnt = 0 then checkLeaf supp node.offset node.cnts node.cnts.length marks
       else if node.chcnt > 0 then
        node.vec.foldr (fun c acc =>
          match c with
          | some ch =>
            ((_check fuel ch true acc.1 supp).1,
             if (_check fuel ch true acc.1 supp).2 ≠ 0 then 1 else acc.2)
          | none => acc) (marks, 0)
       else (marks, 0)) := rfl

/-- The last statement of `_check`: the id of the node is marked when the check of the node
has found a counter of at least `supp`. -/
theorem check_final (supp : Int) (N : ISNODE) (hp : Bool) (marks : List Int)
    (mr : List Int × Int) (h1 : Marked (Used supp N false) marks mr.1)
    (h2 : mr.2 ≠ 0 ↔ Hot supp N) :
    Marked (Used supp N hp) marks
      ((fun mr : List Int × Int =>
        if mr.2 ≠ 0 ∧ hp = true then (mark mr.1 N.id, mr.2) else mr) mr).1 ∧
    (((fun mr : List Int × Int =>
        if mr.2 ≠ 0 ∧ hp = true then (mark mr.1 N.id, mr.2) else mr) mr).2 ≠ 0 ↔
      Hot supp N) := by
  simp only
  by_cases hc : mr.2 ≠ 0 ∧ hp = true
  · rw [if_pos hc]
    refine ⟨Marked_congr (fun x => ?_) (Marked_trans h1 (Marked_mark mr.1 N.id)), h2⟩
    rw [Used_iff supp N hp x]
    constructor
    · rintro (h | h)
      · exact Or.inl h
      · exact Or.inr ⟨hc.2, h, h2.1 hc.1⟩
    · rintro (h | ⟨-, h, -⟩)
      · exact Or.inl h
      · exact Or.inr h
  · rw [if_neg hc]
    refine ⟨Marked_congr (fun x => ?_) h1, h2⟩
    rw [Used_iff supp N hp x]
    constructor
    · exact Or.inl
    · rintro (h | ⟨h3, -, h5⟩)
      · exact h
      · exact absurd ⟨h2.2 h5, h3⟩ hc

/-- The loop of `_check` over the children of a node. -/
theorem check_kids {lc : Int} (supp : Int) (h : Nat)
    (ih : ∀ (c : ISNODE) (marks : List Int), WFN lc true h c →
      Marked (Used supp c true) marks (_check (h + 1) c true marks supp).1 ∧
      ((_check (h + 1) c true marks supp).2 ≠ 0 ↔ Hot supp c))
    (marks : List Int) : ∀ (v : List (Option ISNODE)), (∀ c, some c ∈ v → WFN lc true h c) →
    Marked (fun x => ∃ c, some c ∈ v ∧ Used supp c true x) marks
      (v.foldr (fun c acc =>
          match c with
          | some ch =>
            ((_check (h + 1) ch true acc.1 supp).1,
             if (_check (h + 1) ch true acc.1 supp).2 ≠ 0 then 1 else acc.2)
          | none => acc) (marks, (0 : Int))).1 ∧
    ((v.foldr (fun c acc =>
          match c with
          | some ch =>
            ((_check (h + 1) ch true acc.1 supp).1,
             if (_check (h + 1) ch true acc.1 supp).2 ≠ 0 then 1 else acc.2)
          | none => acc) (marks, (0 : Int))).2 ≠ 0 ↔ ∃ c, some c ∈ v ∧ Hot supp c)
  | [], _ => ⟨Marked_congr (fun x => by simp) (Marked_refl marks), by simp⟩
  | o :: v, hv => by
    obtain ⟨i1, i2⟩ := check_kids supp h ih marks v (fun c hc => hv c (List.mem_cons_of_mem _ hc))
    rw [List.foldr_cons]
    cases o with
    | none =>
      simp only
      refine ⟨Marked_congr (fun x => ?_) i1, i2.trans ?_⟩
      · simp
      · simp
    | some ch =>
      simp only
      obtain ⟨j1, j2⟩ := ih ch
        (v.foldr (fun c acc =>
          match c with
          | some ch =>
            ((_check (h + 1) ch true acc.1 supp).1,
             if (_check (h + 1) ch true acc.1 supp).2 ≠ 0 then 1 else acc.2)
          | none => acc) (marks, (0 : Int))).1 (hv ch (List.mem_cons_self _ _))
      refine ⟨Marked_congr (fun x => ?_) (Marked_trans i1 j1), ?_⟩
      · constructor
        · rintro (⟨c, hc, hu⟩ | hu)
          · exact ⟨c, List.mem_cons_of_mem _ hc, hu⟩
          · exact ⟨ch, List.mem_cons_self _ _, hu⟩
        · rintro ⟨c, hc, hu⟩
          rcases List.mem_cons.1 hc with e | hc
          · cases e; exact Or.inr hu
          · exact Or.inl ⟨c, hc, hu⟩
      · by_cases hr : (_check (h + 1) ch true
            (v.foldr (fun c acc =>
              match c with
              | some ch =>
                ((_check (h + 1) ch true acc.1 supp).1,
                 if (_check (h + 1) ch true acc.1 supp).2 ≠ 0 then 1 else acc.2)
              | none => acc) (marks, (0 : Int))).1 supp).2 ≠ 0
        · rw [if_pos hr]
          simp only [ne_eq, one_ne_zero, not_false_eq_true, true_iff]
          exact ⟨ch, List.mem_cons_self _ _, j2.1 hr⟩
        · rw [if_neg hr, i2]
          constructor
          · rintro ⟨c, hc, hu⟩
            exact ⟨c, List.mem_cons_of_mem _ hc, hu⟩
          · rintro ⟨c, hc, hu⟩
            rcases List.mem_cons.1 hc with e | hc
            · cases e; exact absurd (j2.2 hu) hr
            · exact ⟨c, hc, hu⟩

theorem check_dead (supp : Int) {N : ISNODE} (marks : List Int)
    (hd : ∀ (a : Addr) (M : ISNODE), nodeAt N a = some M → M.chcnt ≠ 0) :
    Marked (Used supp N false) marks marks ∧ (((0 : Int) ≠ 0) ↔ Hot supp N) := by
  have hn : ¬ Hot supp N := by
    rintro ⟨a, M, i, h1, h2, -⟩
    exact hd a M h1 h2
  refine ⟨Marked_congr (fun x => ?_) (Marked_refl marks), by simpa using hn⟩
  constructor
  · exact fun h => absurd h id
  · rintro ⟨a, M, i, h1, h2, -⟩
    exact hd a M h1 h2

/-- The effect of `_check`: the items that are used below the node are marked, and the result
tells whether there is a counter of at least `supp` in a node with `chcnt = 0`. -/
theorem check_spec {lc : Int} (hlc : lc ≤ 0) (supp : Int) : ∀ (h : Nat) {live : Bool}
    (N : ISNODE) (hp : Bool) (marks : List Int), WFN lc live h N →
    Marked (Used supp N hp) marks (_check (h + 1) N hp marks supp).1 ∧
    ((_check (h + 1) N hp marks supp).2 ≠ 0 ↔ Hot supp N)
  | 0, live, N, hp, marks, hw => by
    rw [check_succ]
    rw [WFN_zero] at hw
    obtain ⟨-, hv, hc⟩ := hw
    by_cases h0 : N.chcnt = 0
    · rw [if_pos h0]
      obtain ⟨c1, c2⟩ := checkLeaf_spec supp N.offset N.cnts N.cnts.length marks
      exact check_final supp N hp marks _
        (Marked_congr (fun x => (Used_leaf supp hv h0 x).symm) c1)
        (c2.trans (Hot_leaf supp hv h0).symm)
    · rw [if_neg h0, if_neg (by omega)]
      obtain ⟨d1, d2⟩ := check_dead supp marks (fun a M hM => by
        obtain ⟨-, rfl⟩ := nodeAt_leaf hv hM
        exact h0)
      exact check_final supp N hp marks (marks, 0) d1 d2
  | h + 1, live, N, hp, marks, hw => by
    rw [check_succ]
    have hw0 := hw
    rw [WFN_succ] at hw
    rcases hw with hw | ⟨first, rest, hv, hl, hw | hw⟩
    · have hneg : N.chcnt < 0 := by rw [hw.2]; unfold F_SKIP; omega
      rw [if_neg (by omega), if_neg (by omega)]
      obtain ⟨d1, d2⟩ := check_dead supp marks (dead_below hw0 hneg)
      exact check_final supp N hp marks (marks, 0) d1 d2
    · obtain ⟨-, hch, hkids⟩ := hw
      have hpos : 0 < N.chcnt := by rw [hch, hv]; simp
      rw [if_neg (by omega), if_pos hpos]
      obtain ⟨k1, k2⟩ := check_kids supp h
        (fun c m hwc => check_spec hlc supp h c true m hwc) marks N.vec
        (fun c hc => by
          obtain ⟨j, hj⟩ := List.mem_iff_getElem?.1 hc
          exact (hkids j c (by simpa using hj)).2)
      exact check_final supp N hp marks _
        (Marked_congr (fun x => (Used_kids supp (by omega) x).symm) k1)
        (k2.trans (Hot_kids supp (by omega)).symm)
    · have hneg : N.chcnt < 0 := by
        rw [hw.1]; unfold INT_MAX at hl; unfold F_SKIP; omega
      rw [if_neg (by omega), if_neg (by omega)]
      obtain ⟨d1, d2⟩ := check_dead supp marks (dead_below hw0 hneg)
      exact check_final supp N hp marks (marks, 0) d1 d2


theorem countP_marks : ∀ (l : List Int), (∀ x ∈ l, x = 0 ∨ x = 1) →
    l.countP (fun m => decide (m ≠ 0)) = l.count 1
  | [], _ => rfl
  | x :: l, h => by
    have ih := countP_marks l (fun y hy => h y (List.mem_cons_of_mem _ hy))
    rcases h x (List.mem_cons_self _ _) with e | e
    · subst e
      rw [List.countP_cons_of_neg _ _ (by simp), List.count_cons_of_ne (by decide), ih]
    · subst e
      rw [List.countP_cons_of_pos _ _ (by simp), List.count_cons_self, ih]

/-- Claim C17 fails as stated: in the tree `soloTree`, which is built by the operations of the
module, the counter of the one-element set with item 2 in the root is 1 and the minimal support
is 1, but `ist_check` leaves the marker of item 2 at 0 and returns 2. -/
theorem C17_unmarked_item :
    Reachable soloTree ∧ soloTree.supp = 1 ∧
    (nodeAt soloTree.root []).map (fun M => (pathIds soloTree.root [] ++ [M.offset + 2],
      M.cnts.getD 2 0)) = some ([2], 1) ∧
    ist_check soloTree = ([1, 1, 0], 2) :=
  ⟨soloTree_reachable, by decide, by decide, by decide⟩

/-- Claim C17, amended: after `ist_check` the marker vector has one entry per item, the marker
of item `x` is 1 exactly when `x` occurs in an item set whose counter is at least `supp` in a
node with `chcnt = 0`, every other marker is 0, such a node lies on the deepest level, and the
result is the number of markers that are 1. -/
theorem C17_check_marks (ist : ISTREE) (hr : Reachable ist) :
    (ist_check ist).1.length = ist.root.cnts.length ∧
    (∀ x : Nat, ((ist_check ist).1.getD x 0 = 1 ↔
        ∃ (a : Addr) (M : ISNODE) (i : Nat), nodeAt ist.root a = some M ∧ M.chcnt = 0 ∧
          i < M.cnts.length ∧ ist.supp ≤ M.cnts.getD i 0 ∧
          (x : Int) ∈ pathIds ist.root a ++ [M.offset + (i : Int)]) ∧
      ((ist_check ist).1.getD x 0 = 0 ∨ (ist_check ist).1.getD x 0 = 1)) ∧
    (∀ (a : Addr) (M : ISNODE), nodeAt ist.root a = some M → M.chcnt = 0 →
      a.length + 1 = ist.lvlcnt) ∧
    (ist_check ist).2 = (ist_check ist).1.count 1 := by
  have hI := Inv_of_reachable hr
  obtain ⟨lc, hlc, hw⟩ := hI.wf
  have hlc0 : lc ≤ 0 := by
    rcases hlc with e | e
    · omega
    · rw [e]; unfold F_SKIP; omega
  have hl : ist.lvlcnt = ist.lvlcnt - 1 + 1 := by have := hI.lvl_pos; omega
  obtain ⟨hm, -⟩ := check_spec hlc0 ist.supp (ist.lvlcnt - 1) ist.root false
    (List.replicate ist.root.cnts.length 0) hw
  rw [← hl] at hm
  have e1 : (ist_check ist).1 = (_check ist.lvlcnt ist.root false
      (List.replicate ist.root.cnts.length 0) ist.supp).1 := rfl
  have e2 : (ist_check ist).2 = (ist_check ist).1.countP (fun m => decide (m ≠ 0)) := rfl
  have hU : ∀ x : Int, Used ist.supp ist.root false x ↔
      ∃ (a : Addr) (M : ISNODE) (i : Nat), nodeAt ist.root a = some M ∧ M.chcnt = 0 ∧
        i < M.cnts.length ∧ ist.supp ≤ M.cnts.getD i 0 ∧
        x ∈ pathIds ist.root a ++ [M.offset + (i : Int)] := by
    intro x
    unfold Used
    constructor
    · rintro ⟨a, M, i, h1, h2, h3, h4, h5 | ⟨h5, -⟩⟩
      · exact ⟨a, M, i, h1, h2, h3, h4, h5⟩
      · exact absurd h5 (by simp)
    · rintro ⟨a, M, i, h1, h2, h3, h4, h5⟩
      exact ⟨a, M, i, h1, h2, h3, h4, Or.inl h5⟩
  have hrange : ∀ x : Nat, Used ist.supp ist.root false (x : Int) →
      x < ist.root.cnts.length := by
    rintro x ⟨a, M, i, h1, -, h3, -, h5 | ⟨h5, -⟩⟩
    · have := ((path_sorted a hw h1 i h3).2 _ h5).2
      rw [hI.root_off] at this
      unfold ISNODE.size at this
      omega
    · exact absurd h5 (by simp)
  have hlen : (ist_check ist).1.length = ist.root.cnts.length := by
    rw [e1, hm.1, List.length_replicate]
  have hval : ∀ x : Nat, ((ist_check ist).1.getD x 0 = 1 ↔ Used ist.supp ist.root false (x : Int)) ∧
      ((ist_check ist).1.getD x 0 = 0 ∨ (ist_check ist).1.getD x 0 = 1) := by
    intro x
    rw [e1]
    by_cases hu : Used ist.supp ist.root false (x : Int)
    · have h1 := (hm.2 x).1 ⟨by rw [List.length_replicate]; exact hrange x hu, hu⟩
      exact ⟨⟨fun _ => hu, fun _ => h1⟩, Or.inr h1⟩
    · have h1 := (hm.2 x).2 (fun hh => hu hh.2)
      have h0 : (List.replicate ist.root.cnts.length (0 : Int)).getD x 0 = 0 := by
        rw [List.getD_eq_getElem?_getD]
        by_cases hx : x < ist.root.cnts.length
        · rw [List.getElem?_replicate, if_pos hx]; rfl
        · rw [List.getElem?_eq_none (by rw [List.length_replicate]; omega)]; rfl
      rw [h0] at h1
      exact ⟨⟨fun h => absurd (h1.symm.trans h) (by decide), fun h => absurd h hu⟩, Or.inl h1⟩
  refine ⟨hlen, fun x => ⟨(hval x).1.trans (hU _), (hval x).2⟩,
    fun a M hM h0 => hI.chcnt_zero_deepest hM h0, ?_⟩
  rw [e2]
  apply countP_marks
  intro y hy
  obtain ⟨n, hn, rfl⟩ := List.getElem_of_mem hy
  have := (hval n).2
  rw [List.getD_eq_getElem?_getD, List.getElem?_eq_getElem hn] at this
  exact this

theorem C17_check_marks_witness :
    Reachable soloTree ∧ (ist_check soloTree).2 = (ist_check soloTree).1.count 1 :=
  ⟨soloTree_reachable, (C17_check_marks soloTree soloTree_reachable).2.2.2⟩


/-! ### The fresh tree -/

theorem create_scan (itemcnt : Nat) (supp : Int) (hs : 1 ≤ supp) :
    Scan (ist_create itemcnt supp) ∧ LevelLen (ist_create itemcnt supp) := by
  refine ⟨⟨fun k hk a ha => ?_, rfl, fun k hk => ?_, hs⟩, fun k hk a ha => ?_⟩
  · have hk0 : k = 0 := by
      have : (ist_create itemcnt supp).lvlcnt = 1 := rfl
      omega
    subst hk0
    have : a = [] := by simpa [ist_create, ist_init] using ha
    subst this
    rfl
  · have hk0 : k = 0 := by
      have : (ist_create itemcnt supp).lvlcnt = 1 := rfl
      omega
    subst hk0
    simp [ist_create, ist_init]
  · have hk0 : k = 0 := by
      have : (ist_create itemcnt supp).lvlcnt = 1 := rfl
      omega
    subst hk0
    have : a = [] := by simpa [ist_create, ist_init] using ha
    subst this
    rfl

theorem create_enumSets (itemcnt : Nat) (supp : Int) (hs : 1 ≤ supp) :
    enumSets (ist_create itemcnt supp) = [] := by
  have hl : (ist_create itemcnt supp).levels = [[[]]] := rfl
  have hroot : nodeAt (ist_create itemcnt supp).root [] =
      some (.mk 0 0 0 (List.replicate itemcnt 0) []) := rfl
  unfold enumSets levelOut
  rw [hl]
  simp only [List.flatMap_cons, List.flatMap_nil, List.append_nil]
  unfold nodeOut
  rw [hroot]
  simp only [List.drop_zero]
  rw [List.filterMap_eq_nil_iff]
  intro i _
  unfold slotOut
  have hc : (ISNODE.mk 0 0 0 (List.replicate itemcnt 0) []).cnts.getD i 0 = 0 := by
    show (List.replicate itemcnt (0 : Int)).getD i 0 = 0
    rw [List.getD_eq_getElem?_getD]
    by_cases hi : i < itemcnt
    · rw [List.getElem?_replicate, if_pos hi]; rfl
    · rw [List.getElem?_eq_none (by rw [List.length_replicate]; omega)]; rfl
  rw [hc, if_neg (by
    have : (ist_create itemcnt supp).supp = supp := rfl
    rw [this]; omega)]

/-- C21: `ist_create(itemcnt, supp)` with `supp >= 1` (and `itemcnt >= 0`, a natural number
here) yields a tree of height 1 whose only level list holds the root alone, the root being the
only node, with id 0, offset 0, `chcnt = 0`, `itemcnt` counters that are all 0 and no child
vector; `tacnt` is 0 and the minimal support is `supp`.  The first call of `ist_set` on this
tree returns `-1`. -/
theorem C21_create (itemcnt : Nat) (supp : Int) (hs : 1 ≤ supp) :
    (ist_create itemcnt supp).lvlcnt = 1 ∧
    (ist_create itemcnt supp).levels = [[[]]] ∧
    (∀ (a : Addr) (M : ISNODE), nodeAt (ist_create itemcnt supp).root a = some M → a = []) ∧
    (ist_create itemcnt supp).root.id = 0 ∧
    (ist_create itemcnt supp).root.offset = 0 ∧
    (ist_create itemcnt supp).root.chcnt = 0 ∧
    (ist_create itemcnt supp).root.size = (itemcnt : Int) ∧
    (ist_create itemcnt supp).root.vec = [] ∧
    (ist_create itemcnt supp).root.cnts = List.replicate itemcnt 0 ∧
    (∀ i : Nat, (ist_create itemcnt supp).root.cnts.getD i 0 = 0) ∧
    (ist_create itemcnt supp).tacnt = 0 ∧
    (ist_create itemcnt supp).supp = supp ∧
    SetRes.out (ist_set (ist_create itemcnt supp)) = some (-1, [], 0) := by
  refine ⟨rfl, rfl, fun a M hM =>
    (nodeAt_leaf (show (ist_create itemcnt supp).root.vec = [] from rfl) hM).1, rfl, rfl, rfl, ?_, rfl, rfl,
    fun i => ?_, rfl, rfl, ?_⟩
  · show ((List.replicate itemcnt (0 : Int)).length : Int) = itemcnt
    rw [List.length_replicate]
  · show (List.replicate itemcnt (0 : Int)).getD i 0 = 0
    rw [List.getD_eq_getElem?_getD]
    by_cases hi : i < itemcnt
    · rw [List.getElem?_replicate, if_pos hi]; rfl
    · rw [List.getElem?_eq_none (by rw [List.length_replicate]; omega)]; rfl
  · obtain ⟨hS, hL⟩ := create_scan itemcnt supp hs
    have h1 := (setCalls_init hS hL (le_refl 1) 1).1
    rw [create_enumSets itemcnt supp hs] at h1
    have hi : ist_init (ist_create itemcnt supp) = ist_create itemcnt supp := rfl
    rw [hi, setCalls_succ] at h1
    simpa using congrArg List.head? h1

theorem C21_create_witness :
    (1 : Int) ≤ 2 ∧ (ist_create 3 2).root.cnts = [0, 0, 0] ∧
    SetRes.out (ist_set (ist_create 3 2)) = some (-1, [], 0) :=
  ⟨by decide, (C21_create 3 2 (by decide)).2.2.2.2.2.2.2.2.1,
    (C21_create 3 2 (by decide)).2.2.2.2.2.2.2.2.2.2.2.2⟩

/-! ### Setting a counter of the root -/

/-- The effect of `ist_setcnt` on a tree reachable through the public operations, for the
node that is the root: for `0 <= item < itemcnt` the counter of the item in the root becomes
`c` and nothing else changes, no other counter, no other field of the root, no other node and
no other field of the tree; for an item outside that range nothing changes. -/
theorem setcnt_frame (ist : ISTREE) (item cnt : Int) (hr : Reachable ist) :
    ((0 ≤ item ∧ item < (ist.root.cnts.length : Int)) →
      ist_setcnt ist item cnt =
        { ist with root := ist.root.setCnts (ist.root.cnts.set item.toNat cnt) } ∧
      (ist_setcnt ist item cnt).root.cnts.getD item.toNat 0 = cnt ∧
      (ist_setcnt ist item cnt).root.cnts.length = ist.root.cnts.length ∧
      (∀ i : Nat, i ≠ item.toNat →
        (ist_setcnt ist item cnt).root.cnts.getD i 0 = ist.root.cnts.getD i 0) ∧
      (ist_setcnt ist item cnt).root.id = ist.root.id ∧
      (ist_setcnt ist item cnt).root.chcnt = ist.root.chcnt ∧
      (ist_setcnt ist item cnt).root.offset = ist.root.offset ∧
      (ist_setcnt ist item cnt).root.vec = ist.root.vec) ∧
    (¬ (0 ≤ item ∧ item < (ist.root.cnts.length : Int)) → ist_setcnt ist item cnt = ist) := by
  have hI := Inv_of_reachable hr
  have ho := hI.root_off
  constructor
  · intro hin
    have e : ist_setcnt ist item cnt =
        { ist with root := ist.root.setCnts (ist.root.cnts.set item.toNat cnt) } := by
      unfold ist_setcnt
      rw [ho, if_pos (by unfold ISNODE.size; omega)]
      simp
    refine ⟨e, ?_, ?_, ?_, ?_, ?_, ?_, ?_⟩ <;> rw [e]
    · simp only [ISNODE.cnts_setCnts, List.getD_eq_getElem?_getD]
      rw [List.getElem?_set_self (by omega)]; rfl
    · simp
    · intro i hi
      simp only [ISNODE.cnts_setCnts, List.getD_eq_getElem?_getD]
      rw [List.getElem?_set_ne (fun h => hi h.symm)]
    · simp
    · simp
    · simp
    · simp
  · intro hout
    unfold ist_setcnt
    rw [ho, if_neg (by unfold ISNODE.size; omega)]


/-! ### The pointer that `ist_setcnt` reads -/

/-- After the call of `ist_addlvl` that gives the root its child vector, `ist->curr` is still
the block that `calloc` returned in `ist_create`.  When `realloc` has returned another block
`q` for the root, `ist_setcnt` reads and writes the released block; when `realloc` has left
the root in its block, `ist_setcnt` has its effect on the root. -/
theorem setcnt_stale_curr (p q : Nat) (hpq : q ≠ p) :
    Reachable seededTree ∧ seededTree.lvlcnt = 1 ∧ (ist_addlvl seededTree none).2 = 0 ∧
    addlvl_ptrs seededTree none q (create_ptrs p) = { levels0 := q, curr := p } ∧
    setcnt_ptrs (addlvl_ptrs seededTree none q (create_ptrs p))
      (ist_addlvl seededTree none).1 0 5 = none ∧
    setcnt_ptrs (addlvl_ptrs seededTree none p (create_ptrs p))
      (ist_addlvl seededTree none).1 0 5 = some (ist_setcnt (ist_addlvl seededTree none).1 0 5) ∧
    setcnt_ptrs (create_ptrs p) seededTree 0 5 = some (ist_setcnt seededTree 0 5) := by
  have h1 : seededTree.lvlcnt = 1 := rfl
  have h2 : (ist_addlvl seededTree none).2 = 0 := by decide
  have e : ∀ r : Nat, addlvl_ptrs seededTree none r (create_ptrs p) =
      { levels0 := r, curr := p } := by
    intro r
    unfold addlvl_ptrs
    rw [if_pos ⟨h1, h2⟩]
    rfl
  refine ⟨seededTree_reachable, h1, h2, e q, ?_, ?_, ?_⟩
  · rw [e q]
    unfold setcnt_ptrs
    rw [if_neg (fun h : p = q => hpq h.symm)]
  · rw [e p]
    unfold setcnt_ptrs
    rw [if_pos rfl]
  · unfold setcnt_ptrs create_ptrs
    rw [if_pos rfl]

/-! ### The scenarios -/

set_option maxRecDepth 1000000 in
/-- C23: scenario S1.  The mining run on the transactions `{1 2 3}, {1 2}, {1 3}, {2 3},
{1 2 3}` with `supp = 2` ends with a tree of 3 levels, and `ist_init; ist_set*` emits
exactly `{1}:4, {2}:4, {3}:4, {1,2}:3, {1,3}:3, {2,3}:3, {1,2,3}:2`, in this order; this
holds with the items as their own ids (four items, item 0 in no transaction) and with the
items coded by the ids 0, 1, 2. -/
theorem C23_scenario_s1 :
    (mine (s1Db id) 4 2).map ISTREE.lvlcnt = some 3 ∧
    runSets (s1Db id) 4 2 none =
      some [([1], 4), ([2], 4), ([3], 4), ([1, 2], 3), ([1, 3], 3), ([2, 3], 3),
        ([1, 2, 3], 2)] ∧
    decoded (fun x => x + 1) (runSets (s1Db (fun x => x - 1)) 3 2 none) =
      some [([1], 4), ([2], 4), ([3], 4), ([1, 2], 3), ([1, 3], 3), ([2, 3], 3),
        ([1, 2, 3], 2)] := by
  decide

set_option maxRecDepth 1000000 in
/-- C24: scenario S3.  The mining run on the transactions `{1 2 3}, {1 2}, {1 3}, {2 3},
{1 2 3}` with `supp = 3`, then `ist_filter(IST_MAXFRQ)`: `ist_init; ist_set*` emits exactly
the sets `{1,2}, {1,3}, {2,3}` (each with the support 3); without the filter the three single
items are emitted too. -/
theorem C24_scenario_s3 :
    runSets (s1Db id) 4 3 (some IST_MAXFRQ) = some [([1, 2], 3), ([1, 3], 3), ([2, 3], 3)] ∧
    decoded (fun x => x + 1) (runSets (s1Db (fun x => x - 1)) 3 3 (some IST_MAXFRQ)) =
      some [([1, 2], 3), ([1, 3], 3), ([2, 3], 3)] ∧
    runSets (s1Db id) 4 3 none =
      some [([1], 4), ([2], 4), ([3], 4), ([1, 2], 3), ([1, 3], 3), ([2, 3], 3)] := by
  decide

set_option maxRecDepth 1000000 in
/-- C25, counterexample: in scenario S4 with the items `a, b, c` coded by 0, 1, 2 the sets
`{a}` and `{a,b}` both have the support 3 before the filter, `ist_filter(IST_CLOSED)` clears
the counter of `{a}`, and the emitted sets are `{a,b}:3, {a,b,c}:2`, not
`{a}:3, {a,b}:3, {a,b,c}:2`. -/
theorem C25_single_not_closed :
    runSets (s4Db 0 1 2) 3 2 none =
      some [([0], 3), ([1], 3), ([2], 2), ([0, 1], 3), ([0, 2], 2), ([1, 2], 2),
        ([0, 1, 2], 2)] ∧
    (mine (s4Db 0 1 2) 3 2).map (fun t => _getsupp t.root [0]) = some 3 ∧
    ((mine (s4Db 0 1 2) 3 2).bind (fun t => ist_filter t IST_CLOSED)).map
      (fun t => _getsupp t.root [0]) = some 0 ∧
    runSets (s4Db 0 1 2) 3 2 (some IST_CLOSED) ≠
      some [([0], 3), ([0, 1], 3), ([0, 1, 2], 2)] := by
  decide

set_option maxRecDepth 1000000 in
/-- C25 (amended): scenario S4.  The mining run on the transactions `{a b c}, {a b c}, {a b}`
with `supp = 2`, then `ist_filter(IST_CLOSED)`: `ist_init; ist_set*` emits exactly the sets
`{a,b}:3, {a,b,c}:2`, for every coding of the items `a, b, c` by the ids 0, 1, 2. -/
theorem C25_scenario_s4 (p : Int × Int × Int) (hp : p ∈ codings3) :
    runSets (s4Db p.1 p.2.1 p.2.2) 3 2 (some IST_CLOSED) =
      some [(sortItems [p.1, p.2.1], 3), (sortItems [p.1, p.2.1, p.2.2], 2)] := by
  revert p
  decide

theorem C25_scenario_s4_witness :
    ((1 : Int), (2 : Int), (0 : Int)) ∈ codings3 ∧
    runSets (s4Db 1 2 0) 3 2 (some IST_CLOSED) = some [([1, 2], 3), ([0, 1, 2], 2)] :=
  ⟨by decide, C25_scenario_s4 (1, 2, 0) (by decide)⟩

set_option maxRecDepth 1000000 in
/-- C26: scenario S6.  The mining run on the transactions `{1 2}, {3 4}` with `supp = 1`
emits exactly the four single items and the pairs `{1,2}:1` and `{3,4}:1`; the pairs `{1,3}`,
`{1,4}`, `{2,3}`, `{2,4}` have a counter in the tree, which is 0, and are not emitted; the
first call of `ist_addlvl` returns 0, the call after the pairs are counted returns 1, and the
tree keeps 2 levels.  This holds with the items as their own ids (five items, item 0 in no
transaction) and with the items coded by the ids 0 to 3. -/
theorem C26_scenario_s6 :
    runSets (s6Db id) 5 1 none =
      some [([1], 1), ([2], 1), ([3], 1), ([4], 1), ([1, 2], 1), ([3, 4], 1)] ∧
    decoded (fun x => x + 1) (runSets (s6Db (fun x => x - 1)) 4 1 none) =
      some [([1], 1), ([2], 1), ([3], 1), ([4], 1), ([1, 2], 1), ([3, 4], 1)] ∧
    (∀ X ∈ [[1, 3], [1, 4], [2, 3], [2, 4]],
      (mine (s6Db id) 5 1).map (fun t => _getsupp t.root X) = some 0 ∧
      ∀ out, runSets (s6Db id) 5 1 none = some out → X ∉ out.map Prod.fst) ∧
    (ist_addlvl (seed (s6Db id) 5 (ist_create 5 1)) none).2 = 0 ∧
    (ist_addlvl (countAll (ist_addlvl (seed (s6Db id) 5 (ist_create 5 1)) none).1
      (s6Db id)) none).2 = 1 ∧
    (mine (s6Db id) 5 1).map ISTREE.lvlcnt = some 2 := by
  have h1 : runSets (s6Db id) 5 1 none =
      some [([1], 1), ([2], 1), ([3], 1), ([4], 1), ([1, 2], 1), ([3, 4], 1)] := by decide
  refine ⟨h1, by decide, ?_, by decide, by decide, by decide⟩
  intro X hX
  refine ⟨?_, fun out ho => ?_⟩
  · revert X
    decide
  · rw [h1] at ho
    cases ho
    revert X
    decide


/-! ### The candidate test of `_child` -/

theorem accepted_eq (supp : Int) (anc : List ISNODE) (node : ISNODE) (index : Nat) :
    accepted supp anc node index =
      if node.cnts.getD index 0 < supp then [] else candidates supp anc node index := rfl

theorem childOf_none_iff (supp : Int) (anc : List ISNODE) (node : ISNODE) (index : Nat) :
    childOf supp anc node index = none ↔ accepted supp anc node index = [] := by
  unfold childOf
  rw [accepted_eq]
  by_cases h : node.cnts.getD index 0 < supp
  · rw [if_pos h, if_pos h]; simp
  · rw [if_neg h, if_neg h]
    cases candidates supp anc node index with
    | nil => simp
    | cons f m => simp

theorem childOf_accepted {supp : Int} {anc : List ISNODE} {node : ISNODE} {index : Nat}
    {c : ISNODE} (h : childOf supp anc node index = some c) :
    accepted supp anc node index = candidates supp anc node index := by
  rw [accepted_eq]
  by_cases hc : node.cnts.getD index 0 < supp
  · unfold childOf at h
    rw [if_pos hc] at h
    simp at h
  · rw [if_neg hc]

theorem Tract.head_le {x : Int} {l : List Int} (h : Tract (x :: l)) : ∀ y ∈ x :: l, x ≤ y := by
  intro y hy
  rcases List.mem_cons.1 hy with e | hy
  · omega
  · exact le_of_lt ((List.pairwise_cons.1 h).1 y hy)

/-- C27: the candidate test of `_child`.  For a node `N` of a tree reachable through the
public operations, a slot `index` of it and the item set `S` of the slot (the ids on the path
to `N`, then `N.offset + index`): an item `k` is accepted exactly when it is `N.offset + i`
for a slot `i > index`, the counters of the slots `index` and `i` are at least `supp`, and for
every item on the path to `N` the set `S ∪ {k}` without this item is the item set of a slot
of the tree whose counter is at least `supp`.  `_child` returns `NULL` exactly when no item
is accepted; when an item is accepted it returns the new node if `malloc` succeeds and the
error value if not; the new node has the id `N.offset + index`, `chcnt = 0`, counters that are
all 0, the smallest accepted item as its offset and the size `largest - smallest + 1`, so that
its first and its last slot are accepted items. -/
theorem C27_child_test (ist : ISTREE) (hr : Reachable ist) (a : Addr) (N : ISNODE)
    (hN : nodeAt ist.root a = some N) (index : Nat) (mem : Option Nat) :
    (∀ k : Int, k ∈ accepted ist.supp (ancOf ist.root a) N index ↔
      ∃ i : Nat, index < i ∧ i < N.cnts.length ∧ k = N.offset + (i : Int) ∧
        ist.supp ≤ N.cnts.getD index 0 ∧ ist.supp ≤ N.cnts.getD i 0 ∧
        ∀ m : Nat, m < a.length →
          ∃ (a' : Addr) (M' : ISNODE) (i' : Nat), nodeAt ist.root a' = some M' ∧
            i' < M'.cnts.length ∧
            pathIds ist.root a' ++ [M'.offset + (i' : Int)] =
              (pathIds ist.root a ++ [N.offset + (index : Int), k]).eraseIdx m ∧
            ist.supp ≤ M'.cnts.getD i' 0) ∧
    ((_child ist.supp (ancOf ist.root a) N index mem).1 = ChildRes.null ↔
      accepted ist.supp (ancOf ist.root a) N index = []) ∧
    (accepted ist.supp (ancOf ist.root a) N index ≠ [] → alloc mem ≠ none →
      ∃ c, (_child ist.supp (ancOf ist.root a) N index mem).1 = ChildRes.node c) ∧
    (accepted ist.supp (ancOf ist.root a) N index ≠ [] → alloc mem = none →
      (_child ist.supp (ancOf ist.root a) N index mem).1 = ChildRes.fail) ∧
    (∀ c, (_child ist.supp (ancOf ist.root a) N index mem).1 = ChildRes.node c →
      c.id = N.offset + (index : Int) ∧ c.chcnt = 0 ∧ c.vec = [] ∧ (∀ x ∈ c.cnts, x = 0) ∧
      ∃ first more, accepted ist.supp (ancOf ist.root a) N index = first :: more ∧
        c.offset = first ∧
        c.size = (first :: more).getLast (List.cons_ne_nil first more) - first + 1 ∧
        (∀ k ∈ first :: more,
          first ≤ k ∧ k ≤ (first :: more).getLast (List.cons_ne_nil first more)) ∧
        c.offset ∈ accepted ist.supp (ancOf ist.root a) N index ∧
        c.offset + c.size - 1 ∈ accepted ist.supp (ancOf ist.root a) N index) := by
  have hI := Inv_of_reachable hr
  obtain ⟨lc, hlc, hw⟩ := hI.wf
  have hplen := length_pathIds hN
  refine ⟨fun k => ?_, ?_, ?_, ?_, ?_⟩
  · rw [accepted_eq]
    constructor
    · intro hk
      by_cases hc : N.cnts.getD index 0 < ist.supp
      · rw [if_pos hc] at hk; simp at hk
      · rw [if_neg hc] at hk
        obtain ⟨i, hi, hlt, hsi, hchk, hx⟩ := mem_candidates.1 hk
        refine ⟨i, hlt, hi, hx, by omega, hsi, fun m hm => ?_⟩
        have := (checkAnc_tree ist.supp a hw hN (by simp)).1 hchk m hm
        obtain ⟨a', M, i', hM, hi', hp', hs'⟩ := getsupp_ge hw hI.supp_pos this
        refine ⟨a', M, i', hM, hi', ?_, hs'⟩
        rw [hp', List.eraseIdx_append_of_lt_length (by omega), hx]
    · rintro ⟨i, hlt, hi, hx, hs0, hsi, hsub⟩
      rw [if_neg (by omega)]
      refine mem_candidates.2 ⟨i, hi, hlt, hsi, ?_, hx⟩
      refine (checkAnc_tree ist.supp a hw hN (by simp)).2 (fun m hm => ?_)
      obtain ⟨a', M', i', hM', hi', hp', hs'⟩ := hsub m hm
      rw [List.eraseIdx_append_of_lt_length (by omega), hx] at hp'
      rw [← hp', getsupp_of_path hw hM' hi']
      exact hs'
  · rw [child_eq, ← childOf_none_iff]
    cases hc : childOf ist.supp (ancOf ist.root a) N index with
    | none => simp
    | some c =>
      cases alloc mem <;> simp
  · intro hne hal
    rw [child_eq]
    cases hc : childOf ist.supp (ancOf ist.root a) N index with
    | none => exact absurd ((childOf_none_iff _ _ _ _).1 hc) hne
    | some c =>
      cases hm : alloc mem with
      | none => exact absurd hm hal
      | some m1 => exact ⟨c, rfl⟩
  · intro hne hal
    rw [child_eq]
    cases hc : childOf ist.supp (ancOf ist.root a) N index with
    | none => exact absurd ((childOf_none_iff _ _ _ _).1 hc) hne
    | some c => simp only [hal]
  · intro c hres
    rw [child_eq] at hres
    cases hc : childOf ist.supp (ancOf ist.root a) N index with
    | none => rw [hc] at hres; simp at hres
    | some c' =>
      rw [hc] at hres
      cases hm : alloc mem with
      | none => rw [hm] at hres; simp at hres
      | some m1 =>
        rw [hm] at hres
        simp only [ChildRes.node.injEq] at hres
        subst hres
        obtain ⟨-, -, k3, k4, k5, -, -, -, k9, first, more, hcand, ho, hlast⟩ := childOf_some hc
        rw [childOf_accepted hc, hcand]
        have hs := candidates_sorted ist.supp (ancOf ist.root a) N index
        rw [hcand] at hs
        refine ⟨k3, k4, k5, k9, first, more, rfl, ho, by omega, fun k hk =>
          ⟨hs.head_le k hk, hs.le_getLast k hk⟩, by rw [ho]; exact List.mem_cons_self _ _, ?_⟩
        rw [show c'.offset + c'.size - 1 =
          (first :: more).getLast (List.cons_ne_nil first more) by omega]
        exact getLast_mem_cons first more

theorem C27_child_test_witness :
    Reachable gapTree ∧ nodeAt gapTree.root [] = some gapTree.root ∧
    accepted gapTree.supp (ancOf gapTree.root []) gapTree.root 0 = [1, 3] ∧
    ((_child gapTree.supp (ancOf gapTree.root []) gapTree.root 0 none).1 = ChildRes.null ↔
      accepted gapTree.supp (ancOf gapTree.root []) gapTree.root 0 = []) :=
  ⟨gapTree_reachable, rfl, by decide,
    (C27_child_test gapTree gapTree_reachable [] gapTree.root rfl 0 none).2.1⟩


/-! ### The child vector built by `ist_addlvl` -/

theorem VecRel_eq {nodeR leafR : ISNODE → ISNODE → Prop} (hl : ∀ a b, leafR a b → a = b)
    {v w : List (Option ISNODE)} (h : VecRel (TRel nodeR leafR 0) v w) : v = w := by
  apply List.ext_getElem?
  intro j
  cases hv : v[j]? with
  | none => exact ((h.1 j).1 hv).symm
  | some oc =>
    cases oc with
    | none => exact ((h.2.1 j).1 hv).symm
    | some c =>
      obtain ⟨d, hd, hcd⟩ := h.2.2 j c hv
      rw [hd, hl c d (TRel_zero.1 hcd)]

theorem mem_kidsOf_child {supp : Int} {anc : List ISNODE} {node c : ISNODE} :
    c ∈ kidsOf supp anc node ↔
      ∃ i, i < node.cnts.length ∧ (_child supp anc node i none).1 = ChildRes.node c := by
  rw [mem_kidsOf]
  constructor
  · rintro ⟨i, hi, hc⟩
    refine ⟨i, hi, ?_⟩
    rw [child_eq, hc, alloc_none]
  · rintro ⟨i, hi, hc⟩
    refine ⟨i, hi, ?_⟩
    rw [child_eq] at hc
    cases hco : childOf supp anc node i with
    | none => rw [hco] at hc; simp at hc
    | some c' =>
      rw [hco, alloc_none] at hc
      simp only [ChildRes.node.injEq] at hc
      rw [hc]

/-- C28: dense child vector.  After `ist_addlvl` has returned 0, for every node of the former
deepest level, with `kids` the children that `_child` has created for its slots: when there
is no child the node has `chcnt = F_SKIP` (the bare skip flag, child count 0) and no child
vector; when there are children, `chcnt` is `last.id - first.id + 1`, which is the length of
the child vector, every created child `c` stands at index `c.id - first.id` of the vector and
is the child of the node at that index, every entry that is not null is a created child at
this index, and the first and the last entry are the first and the last created child. -/
theorem C28_dense_vector (ist : ISTREE) (mem : Option Nat) (hr : Reachable ist)
    (h0 : (ist_addlvl ist mem).2 = 0) (a : Addr) (N : ISNODE)
    (ha : a.length + 1 = ist.lvlcnt) (hN : nodeAt ist.root a = some N) :
    ∃ N', nodeAt (ist_addlvl ist mem).1.root a = some N' ∧
      (∀ c, c ∈ kidsOf ist.supp (ancOf ist.root a) N ↔
        ∃ i, i < N.cnts.length ∧
          (_child ist.supp (ancOf ist.root a) N i none).1 = ChildRes.node c) ∧
      (kidsOf ist.supp (ancOf ist.root a) N = [] →
        N'.chcnt = F_SKIP ∧ unskip N'.chcnt = 0 ∧ N'.vec = []) ∧
      (∀ frst more, kidsOf ist.supp (ancOf ist.root a) N = frst :: more →
        N'.chcnt = ((frst :: more).getLast (List.cons_ne_nil frst more)).id - frst.id + 1 ∧
        (N'.vec.length : Int) = N'.chcnt ∧
        (∀ c ∈ frst :: more, frst.id ≤ c.id ∧
          N'.vec[(c.id - frst.id).toNat]? = some (some c) ∧
          nodeAt (ist_addlvl ist mem).1.root (a ++ [(c.id - frst.id).toNat]) = some c) ∧
        (∀ (j : Nat) (c : ISNODE), N'.vec[j]? = some (some c) →
          c ∈ frst :: more ∧ j = (c.id - frst.id).toNat) ∧
        N'.vec.head? = some (some frst) ∧
        N'.vec.getLast? =
          some (some ((frst :: more).getLast (List.cons_ne_nil frst more)))) := by
  have hI := Inv_of_reachable hr
  obtain ⟨lc, hlc, hw⟩ := hI.wf
  obtain ⟨r1, hG, hne, hw1, hw2, s3, hl, hsupp, hdeep⟩ := addlvl_zero hI mem h0
  have hal : a.length = ist.lvlcnt - 1 := by omega
  have hv : N.vec = [] := (WFN_leaf hw hN hal).1
  have h1 := hG.2 a N hal hN
  obtain ⟨N', hN', hrel⟩ := (TRel_nodeAt a s3 (by omega)).2.1 _ h1
  have hd : ist.lvlcnt - a.length = 0 + 1 := by omega
  rw [hd] at hrel
  have hvec : (attach (kidsOf ist.supp (ancOf ist.root a) N) N).vec = N'.vec :=
    VecRel_eq (fun _ _ h => h) (TRel_succ.1 hrel).2
  obtain ⟨-, l, hwN⟩ := WFN_at a hw2 hN'
  rw [hd] at hwN
  refine ⟨N', hN', fun c => mem_kidsOf_child, fun hk => ?_, fun frst more hk => ?_⟩
  · rw [hk, attach_nil] at hvec
    simp only [ISNODE.vec_setChcnt, hv] at hvec
    rw [WFN_succ] at hwN
    rcases hwN with ⟨-, hc⟩ | ⟨first, rest, hv', -⟩
    · exact ⟨hc, by rw [hc]; decide, hvec.symm⟩
    · rw [← hvec] at hv'; simp at hv'
  · have hsorted := kidsOf_sorted ist.supp (ancOf ist.root a) N
    rw [hk] at hsorted
    obtain ⟨b1, b2, b3⟩ := buildVec_spec frst more hsorted
    have hav : (attach (frst :: more) N).vec =
        buildVec frst.id (((frst :: more).getLast (List.cons_ne_nil frst more)).id - frst.id + 1)
          (frst :: more) := by
      simp [attach]
    rw [hk, hav] at hvec
    rw [hvec] at b1 b2
    have hfrst : N'.vec[0]? = some (some frst) :=
      (b2 0 frst).2 ⟨List.mem_cons_self _ _, by simp⟩
    have hlen : (N'.vec.length : Int) =
        ((frst :: more).getLast (List.cons_ne_nil frst more)).id - frst.id + 1 := by
      rw [b1]; omega
    have hch : N'.chcnt =
        ((frst :: more).getLast (List.cons_ne_nil frst more)).id - frst.id + 1 := by
      have hwN0 := hwN
      rw [WFN_succ] at hwN
      rcases hwN with ⟨hv', -⟩ | ⟨first, rest, -, -, ⟨-, hc, -⟩ | ⟨hc, -⟩⟩
      · rw [hv'] at hfrst; simp at hfrst
      · rw [hc, hlen]
      · exfalso
        have hneg : N'.chcnt < 0 := by
          rw [hc, hlen]
          have := WFN_succ.1 hwN0
          rcases this with ⟨hv', -⟩ | ⟨_, _, _, hmax, _⟩
          · rw [hv'] at hfrst; simp at hfrst
          · unfold INT_MAX at hmax; unfold F_SKIP; omega
        have hf0 : frst.chcnt = 0 := by
          obtain ⟨i, -, hci⟩ := mem_kidsOf.1 (by rw [hk]; exact List.mem_cons_self _ _ :
            frst ∈ kidsOf ist.supp (ancOf ist.root a) N)
          exact (childOf_some hci).2.2.2.1
        exact dead_below hwN0 hneg [0] frst (by rw [nodeAt_cons_of hfrst, nodeAt_nil]) hf0
    refine ⟨hch, by rw [hlen, hch], fun c hc => ?_, fun j c hj => ?_, ?_, ?_⟩
    · have hle : frst.id ≤ c.id := by
        rcases List.mem_cons.1 hc with e | hm
        · rw [e]
        · exact le_of_lt ((List.pairwise_cons.1 hsorted).1 c hm)
      have hcv : N'.vec[(c.id - frst.id).toNat]? = some (some c) :=
        (b2 _ c).2 ⟨hc, by omega⟩
      refine ⟨hle, hcv, ?_⟩
      rw [nodeAt_append, hN']
      simp only [Option.some_bind]
      rw [nodeAt_cons_of hcv, nodeAt_nil]
    · have := (b2 j c).1 hj
      exact ⟨this.1, by omega⟩
    · rw [List.head?_eq_getElem?]; exact hfrst
    · rw [List.getLast?_eq_getElem?]
      refine (b2 _ _).2 ⟨getLast_mem_cons frst more, ?_⟩
      have : (N'.vec.length : Int) ≥ 1 := by omega
      omega

theorem C28_dense_vector_witness :
    Reachable gapTree ∧ (ist_addlvl gapTree none).2 = 0 ∧
    ([] : Addr).length + 1 = gapTree.lvlcnt ∧
    ∃ N', nodeAt (ist_addlvl gapTree none).1.root [] = some N' ∧
      (kidsOf gapTree.supp (ancOf gapTree.root []) gapTree.root = [] →
        N'.chcnt = F_SKIP ∧ unskip N'.chcnt = 0 ∧ N'.vec = []) := by
  obtain ⟨N', h1, -, h2, -⟩ :=
    C28_dense_vector gapTree none gapTree_reachable (by decide) [] gapTree.root (by decide) rfl
  exact ⟨gapTree_reachable, by decide, by decide, N', h1, h2⟩


/-! ### The nodes that carry the skip flag -/

theorem stskip_fold_zero (g : ISNODE → ISNODE × Int) : ∀ (vec : List (Option ISNODE)),
    (vec.foldr (fun c acc =>
      match c with
      | some ch => ((some (g ch).1) :: acc.1, if (g ch).2 = 0 then 0 else acc.2)
      | none => (none :: acc.1, acc.2)) (([] : List (Option ISNODE)), (-1 : Int))).2 = 0 →
    ∃ ch, some ch ∈ vec ∧ (g ch).2 = 0
  | [], h => by simp at h
  | none :: vec, h => by
    simp only [List.foldr_cons] at h
    obtain ⟨ch, h1, h2⟩ := stskip_fold_zero g vec h
    exact ⟨ch, List.mem_cons_of_mem _ h1, h2⟩
  | some c :: vec, h => by
    simp only [List.foldr_cons] at h
    by_cases hc : (g c).2 = 0
    · exact ⟨c, List.mem_cons_self _ _, hc⟩
    · rw [if_neg hc] at h
      obtain ⟨ch, h1, h2⟩ := stskip_fold_zero g vec h
      exact ⟨ch, List.mem_cons_of_mem _ h1, h2⟩

/-- After `_stskip` every node without the skip flag has a node with `chcnt = 0` in its
subtree, and a result of 0 leaves the node without the flag. -/
theorem stskip_tight : ∀ {h : Nat} {N : ISNODE}, WFN 0 true h N →
    ((_stskip (h + 1) N).2 = 0 → 0 ≤ (_stskip (h + 1) N).1.chcnt) ∧
    ∀ (a : Addr) (M : ISNODE), nodeAt (_stskip (h + 1) N).1 a = some M → 0 ≤ M.chcnt →
      HasNew M
  | 0, N, hw => by
    have h0 := (WFN_zero.1 hw).2.2
    have hv := (WFN_zero.1 hw).2.1
    rw [stskip_succ_eq, if_pos h0]
    refine ⟨fun _ => by simp only; omega, fun a M hM _ => ?_⟩
    obtain ⟨-, rfl⟩ := nodeAt_leaf hv hM
    exact ⟨[], M, nodeAt_nil _, h0⟩
  | h + 1, N, hw => by
    have hw0 := hw
    rw [WFN_succ] at hw
    rw [stskip_succ_eq]
    rcases hw with ⟨hv, hc⟩ | ⟨first, rest, hv, hl, ⟨-, hc, hk⟩ | ⟨hc, hk⟩⟩
    · have h1 : ¬ (N.chcnt = 0) := by rw [hc]; unfold F_SKIP; omega
      have h2 : N.chcnt < 0 := by rw [hc]; unfold F_SKIP; omega
      rw [if_neg h1, if_pos h2]
      refine ⟨fun h => by simp at h, fun a M hM hM0 => ?_⟩
      obtain ⟨-, rfl⟩ := nodeAt_leaf hv hM
      omega
    · have hlen : 0 < N.vec.length := by rw [hv]; simp
      have h1 : ¬ (N.chcnt = 0) := by omega
      have h2 : ¬ (N.chcnt < 0) := by omega
      rw [if_neg h1, if_neg h2]
      obtain ⟨f1, f2⟩ := stskip_foldr (_stskip (h + 1)) N.vec
      have hz := stskip_fold_zero (_stskip (h + 1)) N.vec
      have hkid : ∀ (j : Nat) (a : Addr) (M : ISNODE) (X : ISNODE),
          X.vec = N.vec.map (fun oc => oc.map (fun ch => (_stskip (h + 1) ch).1)) →
          nodeAt X (j :: a) = some M → 0 ≤ M.chcnt → HasNew M := by
        intro j a M X hX hM hM0
        obtain ⟨c', hc', hM'⟩ := nodeAt_cons_some hM
        rw [hX] at hc'
        obtain ⟨c, hcj, rfl⟩ := getElem?_map_some_some hc'
        exact (stskip_tight (hk j c (by simpa using hcj)).2).2 a M hM' hM0
      rw [f1]
      rcases f2 with f2 | ⟨f2, -⟩
      · rw [if_pos f2]
        refine ⟨fun _ => by simp only [ISNODE.chcnt_setVec]; omega, fun a M hM hM0 => ?_⟩
        cases a with
        | nil =>
          rw [nodeAt_nil] at hM
          cases hM
          obtain ⟨ch, hch, hr⟩ := hz f2
          obtain ⟨j, hj⟩ := List.getElem?_of_mem hch
          obtain ⟨t1, t2⟩ := stskip_tight (hk j ch (by simpa using hj)).2
          obtain ⟨b, L, hb, hL⟩ := t2 [] _ (nodeAt_nil _) (t1 hr)
          refine ⟨j :: b, L, ?_, hL⟩
          rw [nodeAt_cons_of (c := (_stskip (h + 1) ch).1)
            (by simp only [ISNODE.vec_setVec, List.getElem?_map, hj]; rfl)]
          exact hb
        | cons j a => exact hkid j a M _ (by simp) hM hM0
      · have hne : ¬ ((-1 : Int) = 0) := by omega
        rw [f2, if_neg hne]
        refine ⟨fun h => by simp at h, fun a M hM hM0 => ?_⟩
        cases a with
        | nil =>
          rw [nodeAt_nil] at hM
          cases hM
          simp only [ISNODE.chcnt_setChcnt] at hM0
          unfold setskip at hM0
          rw [if_neg h2] at hM0
          unfold INT_MAX at hl; unfold F_SKIP at hM0
          omega
        | cons j a => exact hkid j a M _ (by simp) hM hM0
    · have h2 : N.chcnt < 0 := by rw [hc]; unfold INT_MAX at hl; unfold F_SKIP; omega
      have h1 : ¬ (N.chcnt = 0) := by omega
      rw [if_neg h1, if_pos h2]
      refine ⟨fun h => by simp at h, fun a M hM hM0 => ?_⟩
      cases a with
      | nil =>
        rw [nodeAt_nil] at hM
        cases hM
        have hM1 : 0 ≤ N.chcnt := hM0
        omega
      | cons j a =>
        obtain ⟨c, hcj, hM'⟩ := nodeAt_cons_some hM
        have := dead_at a (hk j c (by simpa using hcj)).2 hM'
        omega

theorem addlvl_zero_root {ist : ISTREE} (hI : Inv ist) (mem : Option Nat)
    (h0 : (ist_addlvl ist mem).2 = 0) :
    ∃ r1, WFN 0 true ist.lvlcnt r1 ∧
      (ist_addlvl ist mem).1.root = (_stskip (ist.lvlcnt + 1) r1).1 := by
  obtain ⟨lc, hlc, hw⟩ := hI.wf
  have hp := hI.lvl_pos
  rcases addlvl_cases hI mem with ⟨h, -⟩ | ⟨r1, done, hL, -, h⟩ | ⟨r1, hG, he, h⟩ | ⟨r1, hG, hne, h⟩
  · rw [h] at h0; simp at h0
  · rw [h] at h0; simp at h0
  · rw [h] at h0; simp at h0
  · have hw1 : WFN 0 true (ist.lvlcnt - 1 + 1) r1 := Grown_wf hw hI.root_off hI.root_size hG
    have hd : ist.lvlcnt - 1 + 1 = ist.lvlcnt := by omega
    rw [hd] at hw1
    exact ⟨r1, hw1, by rw [h]⟩

/-- C29: the skip flags.  After `ist_addlvl` has returned 0: a node carries the skip flag
(`chcnt < 0`) exactly when its subtree holds no node with `chcnt = 0`; the nodes with
`chcnt = 0` are the nodes of the new deepest level; no node on the path from the root to a
node of the new level carries the flag; and in a flagged node `chcnt` without the flag is the
length of the child vector. -/
theorem C29_skip_flags (ist : ISTREE) (mem : Option Nat) (hr : Reachable ist)
    (h0 : (ist_addlvl ist mem).2 = 0) :
    (∀ (a : Addr) (M : ISNODE), nodeAt (ist_addlvl ist mem).1.root a = some M →
      (M.chcnt < 0 ↔ ¬ HasNew M)) ∧
    (∀ (a : Addr) (M : ISNODE), nodeAt (ist_addlvl ist mem).1.root a = some M →
      (M.chcnt = 0 ↔ a.length = ist.lvlcnt)) ∧
    (∀ (b : Addr) (c : ISNODE), b.length = ist.lvlcnt →
      nodeAt (ist_addlvl ist mem).1.root b = some c →
      ∀ (k : Nat) (M : ISNODE), nodeAt (ist_addlvl ist mem).1.root (b.take k) = some M →
        0 ≤ M.chcnt) ∧
    (∀ (a : Addr) (M : ISNODE), nodeAt (ist_addlvl ist mem).1.root a = some M →
      M.chcnt < 0 →
      M.chcnt = (M.vec.length : Int) + F_SKIP ∧ unskip M.chcnt = (M.vec.length : Int)) := by
  have hI := Inv_of_reachable hr
  have hI' := Inv_addlvl hI mem
  obtain ⟨r0, -, -, -, hw2, -, hl, -, -⟩ := addlvl_zero hI mem h0
  obtain ⟨r1, hw1, hroot⟩ := addlvl_zero_root hI mem h0
  have hflag : ∀ (a : Addr) (M : ISNODE), nodeAt (ist_addlvl ist mem).1.root a = some M →
      (M.chcnt < 0 ↔ ¬ HasNew M) := by
    intro a M hM
    constructor
    · rintro hneg ⟨b, L, hb, hL⟩
      obtain ⟨-, l, hwM⟩ := WFN_at a hw2 hM
      exact dead_below hwM hneg b L hb hL
    · intro hno
      by_contra hge
      rw [hroot] at hM
      exact hno ((stskip_tight hw1).2 a M hM (by omega))
  have hzero : ∀ (a : Addr) (M : ISNODE), nodeAt (ist_addlvl ist mem).1.root a = some M →
      (M.chcnt = 0 ↔ a.length = ist.lvlcnt) := by
    intro a M hM
    constructor
    · intro hz
      have := hI'.chcnt_zero_deepest hM hz
      omega
    · intro hal
      exact (WFN_leaf hw2 hM hal).2
  refine ⟨hflag, hzero, fun b c hb hc k M hM => ?_, fun a M hM hneg => ?_⟩
  · by_contra hneg
    refine (hflag _ M hM).1 (by omega) ⟨b.drop k, c, ?_, (hzero b c hc).2 hb⟩
    have := nodeAt_append (b.take k) (b.drop k) (ist_addlvl ist mem).1.root
    rw [List.take_append_drop, hc, hM] at this
    exact this.symm
  · obtain ⟨-, l, hwM⟩ := WFN_at a hw2 hM
    have hm : M.chcnt = (M.vec.length : Int) + F_SKIP := by
      cases hh : ist.lvlcnt - a.length with
      | zero =>
        rw [hh, WFN_zero] at hwM
        omega
      | succ h' =>
        rw [hh, WFN_succ] at hwM
        rcases hwM with ⟨hv, hc⟩ | ⟨first, rest, hv, hmax, ⟨-, hc, -⟩ | ⟨hc, -⟩⟩
        · rw [hv, hc]; simp
        · omega
        · exact hc
    refine ⟨hm, ?_⟩
    unfold unskip
    rw [if_pos hneg, hm]
    omega

theorem C29_skip_flags_witness :
    Reachable gapTree ∧ (ist_addlvl gapTree none).2 = 0 ∧
    ∀ (a : Addr) (M : ISNODE), nodeAt (ist_addlvl gapTree none).1.root a = some M →
      (M.chcnt = 0 ↔ a.length = gapTree.lvlcnt) :=
  ⟨gapTree_reachable, by decide, (C29_skip_flags gapTree none gapTree_reachable (by decide)).2.1⟩


/-! ### The lexicographic order -/

theorem lexLt_nil_nil {α : Type} (lt : α → α → Prop) : ¬ lexLt lt ([] : List α) [] := by
  unfold lexLt
  exact id

theorem lexLt_cons {α : Type} (lt : α → α → Prop) (x y : α) (s t : List α) :
    lexLt lt (x :: s) (y :: t) ↔ (lt x y ∨ (x = y ∧ lexLt lt s t)) := by
  rw [lexLt]

theorem lexLt_single {α : Type} (lt : α → α → Prop) (x y : α) :
    lexLt lt [x] [y] ↔ lt x y := by
  rw [lexLt_cons]
  constructor
  · rintro (h | ⟨-, h⟩)
    · exact h
    · exact absurd h (lexLt_nil_nil lt)
  · exact Or.inl

theorem lexLt_append_left {α : Type} (lt : α → α → Prop) : ∀ (a s t : List α),
    lexLt lt s t → lexLt lt (a ++ s) (a ++ t)
  | [], _, _, h => h
  | x :: a, s, t, h => by
    rw [List.cons_append, List.cons_append, lexLt_cons]
    exact Or.inr ⟨rfl, lexLt_append_left lt a s t h⟩

theorem lexLt_append_right {α : Type} (lt : α → α → Prop) : ∀ (a b s t : List α),
    a.length = b.length → lexLt lt a b → lexLt lt (a ++ s) (b ++ t)
  | [], [], _, _, _, h => absurd h (lexLt_nil_nil lt)
  | [], _ :: _, _, _, hl, _ => by simp at hl
  | _ :: _, [], _, _, hl, _ => by simp at hl
  | x :: a, y :: b, s, t, hl, h => by
    rw [List.cons_append, List.cons_append, lexLt_cons]
    rcases (lexLt_cons lt x y a b).1 h with h | ⟨e, h⟩
    · exact Or.inl h
    · exact Or.inr ⟨e, lexLt_append_right lt a b s t (by simpa using hl) h⟩

theorem lexLt_irrefl {α : Type} (lt : α → α → Prop) (hlt : ∀ x, ¬ lt x x) :
    ∀ s : List α, ¬ lexLt lt s s
  | [] => lexLt_nil_nil lt
  | x :: s => by
    rw [lexLt_cons]
    rintro (h | ⟨-, h⟩)
    · exact hlt x h
    · exact lexLt_irrefl lt hlt s h

theorem setBefore_ne {X Y : List Int} (h : setBefore X Y) : X ≠ Y := by
  intro e
  subst e
  rcases h with h | ⟨-, h⟩
  · omega
  · exact lexLt_irrefl _ (fun x => lt_irrefl x) X h

/-! ### The order of the node lists -/

theorem setcnt_levels (ist : ISTREE) (item cnt : Int) :
    (ist_setcnt ist item cnt).levels = ist.levels := by
  unfold ist_setcnt
  split <;> rfl

theorem filter_levels {ist ist1 : ISTREE} {mode : Int} (hf : ist_filter ist mode = some ist1) :
    ist1.levels = ist.levels := by
  unfold ist_filter at hf
  cases h : foldOpt (filterLevel ist.supp mode) ist.root ((ist.levels.take ist.lvlcnt).drop 1) with
  | none => rw [h] at hf; simp at hf
  | some r =>
    rw [h] at hf
    simp only [Option.map_some', Option.some.injEq] at hf
    rw [← hf]

theorem kidAddrs_ordered (supp : Int) (anc : List ISNODE) (N : ISNODE) (a : Addr) :
    (kidAddrs a (kidsOf supp anc N)).Pairwise (lexLt (fun i j : Nat => i < j)) := by
  unfold kidAddrs
  have hsorted := kidsOf_sorted supp anc N
  cases hk : kidsOf supp anc N with
  | nil => exact List.Pairwise.nil
  | cons frst more =>
    rw [hk] at hsorted
    simp only
    rw [List.pairwise_map]
    refine List.Pairwise.imp_of_mem ?_ hsorted
    intro x y hx _ hxy
    have hx' : frst.id ≤ x.id := by
      rcases List.mem_cons.1 hx with h | h
      · rw [h]
      · have := (List.pairwise_cons.1 hsorted).1 x h; omega
    apply lexLt_append_left
    rw [lexLt_single]
    omega

theorem newLevel_ordered (supp : Int) (r0 : ISNODE) {L : List Addr} {d : Nat}
    (hlen : ∀ a ∈ L, a.length = d) (hL : L.Pairwise (lexLt (fun i j : Nat => i < j))) :
    (newLevel supp r0 L).Pairwise (lexLt (fun i j : Nat => i < j)) := by
  unfold newLevel
  rw [List.pairwise_flatMap]
  refine ⟨fun a _ => ?_, List.Pairwise.imp_of_mem ?_ hL⟩
  · cases nodeAt r0 a with
    | none => exact List.Pairwise.nil
    | some N => exact kidAddrs_ordered supp _ N a
  · intro a a' ha ha' hlt x hx y hy
    cases h1 : nodeAt r0 a with
    | none => rw [h1] at hx; simp at hx
    | some N =>
      cases h2 : nodeAt r0 a' with
      | none => rw [h2] at hy; simp at hy
      | some N' =>
        rw [h1] at hx
        rw [h2] at hy
        obtain ⟨_, _, c, _, _, e1⟩ := mem_kidAddrs.1 hx
        obtain ⟨_, _, c', _, _, e2⟩ := mem_kidAddrs.1 hy
        rw [e1, e2]
        exact lexLt_append_right _ a a' _ _ (by rw [hlen a ha, hlen a' ha']) hlt

theorem Ordered_addlvl {ist : ISTREE} (hI : Inv ist) (hO : Ordered ist) (mem : Option Nat) :
    Ordered (ist_addlvl ist mem).1 := by
  rcases addlvl_cases hI mem with ⟨h, -⟩ | ⟨r1, done, hL, -, h⟩ | ⟨r1, hG, he, h⟩ | ⟨r1, hG, hne, h⟩
  · rw [h]; exact hO
  · rw [h]; exact fun k => hO k
  · rw [h]; exact fun k => hO k
  · rw [h]
    intro k
    show ((ist.levels ++ [newLevel ist.supp ist.root (deepest ist)]).getD k []).Pairwise _
    rw [List.getD_eq_getElem?_getD]
    by_cases hk : k < ist.levels.length
    · rw [List.getElem?_append_left hk, ← List.getD_eq_getElem?_getD]
      exact hO k
    · rw [List.getElem?_append_right (by omega)]
      by_cases hk0 : k - ist.levels.length = 0
      · rw [hk0]
        simp only [List.getElem?_cons_zero, Option.getD_some]
        exact newLevel_ordered ist.supp ist.root
          (fun a ha => ((hI.deepest_mem a).1 ha).1) (hO (ist.lvlcnt - 1))
      · rw [List.getElem?_eq_none (by simp; omega)]
        exact List.Pairwise.nil

theorem Ordered_of_reachable {ist : ISTREE} (hr : Reachable ist) : Ordered ist := by
  induction hr with
  | create itemcnt supp hn hs =>
    intro k
    show (([[[]]] : List (List Addr)).getD k []).Pairwise _
    cases k with
    | zero => simp
    | succ k => simp
  | setcnt ist item cnt _ ih =>
    intro k
    rw [setcnt_levels]
    exact ih k
  | count ist t _ ht ih =>
    intro k
    rw [(ist_count_levels ist t).2]
    exact ih k
  | addlvl ist mem hr ih => exact Ordered_addlvl (Inv_of_reachable hr) ih mem
  | filter ist ist1 mode _ hf ih =>
    intro k
    rw [filter_levels hf]
    exact ih k
  | init ist _ ih => exact fun k => ih k

/-- Nodes of one level whose addresses are in lexicographic order have their paths in
lexicographic order. -/
theorem path_lex {lc : Int} : ∀ (a b : Addr) {live : Bool} {h : Nat} {N M M' : ISNODE},
    WFN lc live h N → nodeAt N a = some M → nodeAt N b = some M' → a.length = b.length →
    lexLt (fun i j : Nat => i < j) a b →
    lexLt (fun x y : Int => x < y) (pathIds N a) (pathIds N b)
  | [], [], _, _, _, _, _, _, _, _, _, h => absurd h (lexLt_nil_nil _)
  | [], _ :: _, _, _, _, _, _, _, _, _, hl, _ => by simp at hl
  | _ :: _, [], _, _, _, _, _, _, _, _, hl, _ => by simp at hl
  | j :: a, k :: b, live, h, N, M, M', hw, hM, hM', hl, hlt => by
    obtain ⟨c, hc, hMc⟩ := nodeAt_cons_some hM
    obtain ⟨d, hd, hMd⟩ := nodeAt_cons_some hM'
    rw [pathIds_cons_of hc, pathIds_cons_of hd, lexLt_cons]
    cases h with
    | zero => rw [WFN_zero] at hw; rw [hw.2.1] at hc; simp at hc
    | succ h =>
      obtain ⟨f1, r1, hv1, ok1, hwc, -⟩ := WFN_child hw hc
      obtain ⟨f2, r2, hv2, ok2, -, -⟩ := WFN_child hw hd
      have hf : f1 = f2 := by
        rw [hv1] at hv2
        simp only [List.cons.injEq, Option.some.injEq] at hv2
        exact hv2.1
      subst hf
      rcases (lexLt_cons _ j k a b).1 hlt with hjk | ⟨e, hlt'⟩
      · left
        have e1 := ok1.1
        have e2 := ok2.1
        omega
      · right
        subst e
        have hcd : c = d := by
          rw [hc] at hd
          simpa using hd
        subst hcd
        exact ⟨rfl, path_lex a b hwc hMc hMd (by simpa using hl) hlt'⟩

/-! ### The order of the emitted item sets -/

theorem nodeOut_ordered (ist : ISTREE) (a : Addr) :
    (nodeOut ist a 0).Pairwise (fun p q => setBefore p.1 q.1) := by
  unfold nodeOut
  cases nodeAt ist.root a with
  | none => exact List.Pairwise.nil
  | some M =>
    simp only [List.drop_zero]
    refine List.Pairwise.filterMap _ ?_ (List.pairwise_lt_range M.cnts.length)
    intro i j hij p hp q hq
    unfold slotOut at hp hq
    split at hp
    · split at hq
      · simp only [Option.mem_def, Option.some.injEq] at hp hq
        rw [← hp, ← hq]
        right
        refine ⟨by simp, ?_⟩
        apply lexLt_append_left
        rw [lexLt_single]
        omega
      · simp at hq
    · simp at hp

theorem levelOut_ordered {ist : ISTREE} (hI : Inv ist) (hO : Ordered ist) (k : Nat)
    (hk : k < ist.lvlcnt) :
    (levelOut ist (ist.levels.getD k [])).Pairwise (fun p q => setBefore p.1 q.1) := by
  obtain ⟨lc, -, hw⟩ := hI.wf
  unfold levelOut
  rw [List.pairwise_flatMap]
  refine ⟨fun a _ => nodeOut_ordered ist a, List.Pairwise.imp_of_mem ?_ (hO k)⟩
  intro a b ha hb hlt p hp q hq
  obtain ⟨M, i, hM, hi, -, hX, -⟩ := mem_nodeOut (X := p.1) (s := p.2) hp
  obtain ⟨M', i', hM', hi', -, hY, -⟩ := mem_nodeOut (X := q.1) (s := q.2) hq
  have hal := ((hI.lvl_mem k hk a).1 ha).1
  have hbl := ((hI.lvl_mem k hk b).1 hb).1
  right
  rw [hX, hY]
  refine ⟨by simp [length_pathIds hM, length_pathIds hM', hal, hbl], ?_⟩
  exact lexLt_append_right _ _ _ _ _ (by rw [length_pathIds hM, length_pathIds hM', hal, hbl])
    (path_lex a b hw hM hM' (by rw [hal, hbl]) hlt)

theorem enumSets_ordered {ist : ISTREE} (hI : Inv ist) (hO : Ordered ist) :
    (enumSets ist).Pairwise (fun p q => setBefore p.1 q.1) := by
  unfold enumSets
  rw [List.pairwise_flatMap]
  have hget : ∀ (k : Nat) (hk : k < ist.levels.length), ist.levels[k] = ist.levels.getD k [] := by
    intro k hk
    rw [List.getD_eq_getElem?_getD, List.getElem?_eq_getElem hk]
    rfl
  have hsize : ∀ (k : Nat) (hk : k < ist.levels.length) (p : List Int × Int),
      p ∈ levelOut ist ist.levels[k] → p.1.length = k + 1 := by
    intro k hk p hp
    unfold levelOut at hp
    obtain ⟨a, ha, hpa⟩ := List.mem_flatMap.1 hp
    obtain ⟨M, i, hM, -, -, hX, -⟩ := mem_nodeOut (X := p.1) (s := p.2) hpa
    rw [hget k hk] at ha
    have := ((hI.lvl_mem k (by rw [← hI.lvl_len]; exact hk) a).1 ha).1
    rw [hX]
    simp [length_pathIds hM, this]
  constructor
  · intro lvl hlvl
    obtain ⟨k, hk, rfl⟩ := List.getElem_of_mem hlvl
    rw [hget k hk]
    exact levelOut_ordered hI hO k (by rw [← hI.lvl_len]; exact hk)
  · rw [List.pairwise_iff_getElem]
    intro i j hi hj hij p hp q hq
    left
    rw [hsize i hi p hp, hsize j hj q hq]
    omega

/-- C30: lexicographic order and uniqueness.  In every tree reachable through the public
operations the node list of each level is in strictly increasing lexicographic order of the
paths of the nodes (the ids from the root to the node); `ist_init; ist_set*` emits the item
sets by increasing size and the sets of each size in strictly increasing lexicographic order;
no item set is emitted twice, and no item set is the item set of two different counters. -/
theorem C30_lex_order (ist : ISTREE) (hr : Reachable ist) :
    (∀ k : Nat, (ist.levels.getD k []).Pairwise (fun a b =>
      lexLt (fun x y : Int => x < y) (pathIds ist.root a) (pathIds ist.root b))) ∧
    (∃ out, ist_sets ist = some out ∧ out.Pairwise (fun p q => setBefore p.1 q.1) ∧
      (∀ n : Nat, ((out.map Prod.fst).filter (fun X => decide (X.length = n))).Pairwise
        (lexLt (fun x y : Int => x < y))) ∧
      (out.map Prod.fst).Nodup) ∧
    (∀ (a a' : Addr) (M M' : ISNODE) (i i' : Nat), nodeAt ist.root a = some M →
      i < M.cnts.length → nodeAt ist.root a' = some M' → i' < M'.cnts.length →
      pathIds ist.root a ++ [M.offset + (i : Int)] =
        pathIds ist.root a' ++ [M'.offset + (i' : Int)] → a = a' ∧ i = i') := by
  have hI := Inv_of_reachable hr
  have hO := Ordered_of_reachable hr
  obtain ⟨lc, -, hw⟩ := hI.wf
  have hS := Scan_of_inv hI (levels_ne_of_reachable hr)
  refine ⟨fun k => ?_, ⟨enumSets ist, ist_sets_eq hS hI.lvl_pos, enumSets_ordered hI hO,
    fun n => ?_, ?_⟩, fun a a' M M' i i' hM hi hM' hi' he => path_inj hw hM hi hM' hi' he⟩
  · by_cases hk : k < ist.lvlcnt
    · refine List.Pairwise.imp_of_mem ?_ (hO k)
      intro a b ha hb hlt
      obtain ⟨hal, has⟩ := (hI.lvl_mem k hk a).1 ha
      obtain ⟨hbl, hbs⟩ := (hI.lvl_mem k hk b).1 hb
      obtain ⟨M, hM⟩ := Option.isSome_iff_exists.1 has
      obtain ⟨M', hM'⟩ := Option.isSome_iff_exists.1 hbs
      exact path_lex a b hw hM hM' (by rw [hal, hbl]) hlt
    · rw [List.getD_eq_getElem?_getD, List.getElem?_eq_none (by rw [hI.lvl_len]; omega)]
      exact List.Pairwise.nil
  · rw [List.pairwise_filter, List.pairwise_map]
    refine List.Pairwise.imp ?_ (enumSets_ordered hI hO)
    intro p q hpq h1 h2
    rcases hpq with h | ⟨-, h⟩
    · omega
    · exact h
  · rw [List.Nodup, List.pairwise_map]
    exact (enumSets_ordered hI hO).imp (fun h => setBefore_ne h)

theorem C30_lex_order_witness :
    Reachable gapTree ∧
    ∃ out, ist_sets gapTree = some out ∧ (out.map Prod.fst).Nodup := by
  obtain ⟨out, h1, -, -, h2⟩ := (C30_lex_order gapTree gapTree_reachable).2.1
  exact ⟨gapTree_reachable, out, h1, h2⟩


/-! ### The driver's flag for the empty item set -/

/-- The result of the loop over the items: `-1` when no item has the frequency `tacnt`, else
the largest item with this frequency. -/
theorem emptyScan_spec (frq : ItemFrq) (tacnt : Int) : ∀ n : Nat,
    (emptyScan frq tacnt n = -1 ∧ ∀ k, k < n → frq k ≠ tacnt) ∨
    (∃ k : Nat, k < n ∧ emptyScan frq tacnt n = (k : Int) ∧ frq k = tacnt ∧
      ∀ j, k < j → j < n → frq j ≠ tacnt)
  | 0 => Or.inl ⟨rfl, fun k hk => absurd hk (Nat.not_lt_zero k)⟩
  | n + 1 => by
    have e : emptyScan frq tacnt (n + 1) =
        if frq n = tacnt then (n : Int) else emptyScan frq tacnt n := rfl
    by_cases h : frq n = tacnt
    · rw [e, if_pos h]
      exact Or.inr ⟨n, Nat.lt_succ_self n, rfl, h, fun j h1 h2 => by omega⟩
    · rw [e, if_neg h]
      rcases emptyScan_spec frq tacnt n with ⟨h1, h2⟩ | ⟨k, hk, h1, h2, h3⟩
      · refine Or.inl ⟨h1, fun k hk => ?_⟩
        by_cases hkn : k = n
        · rw [hkn]; exact h
        · exact h2 k (by omega)
      · refine Or.inr ⟨k, by omega, h1, h2, fun j hj1 hj2 => ?_⟩
        by_cases hjn : j = n
        · rw [hjn]; exact h
        · exact h3 j hj1 (by omega)

/-- The flag `empty` of the CLOSED build is 1 exactly when no item other than item 0 has the
frequency `tacnt`: the test `k <= 0` also holds when the loop has stopped at item 0. -/
theorem emptyClosed_spec (frq : ItemFrq) (tacnt : Int) (n : Nat) :
    (emptyClosed frq tacnt n = 1 ↔ ∀ k, 1 ≤ k → k < n → frq k ≠ tacnt) ∧
    (emptyClosed frq tacnt n = 0 ↔ ∃ k, 1 ≤ k ∧ k < n ∧ frq k = tacnt) := by
  unfold emptyClosed
  rcases emptyScan_spec frq tacnt n with ⟨h1, h2⟩ | ⟨k, hk, h1, h2, h3⟩
  · rw [h1, if_pos (by omega)]
    refine ⟨⟨fun _ k _ hk => h2 k hk, fun _ => rfl⟩, ⟨fun h => absurd h (by decide), ?_⟩⟩
    rintro ⟨k, -, hk, e⟩
    exact absurd e (h2 k hk)
  · rw [h1]
    by_cases hk0 : k = 0
    · subst hk0
      rw [if_pos (by simp)]
      refine ⟨⟨fun _ j hj1 hj2 => h3 j (by omega) hj2, fun _ => rfl⟩,
        ⟨fun h => absurd h (by decide), ?_⟩⟩
      rintro ⟨j, hj1, hj2, e⟩
      exact absurd e (h3 j (by omega) hj2)
    · rw [if_neg (by omega)]
      refine ⟨⟨fun h => absurd h (by decide), fun h => absurd h2 (h k (by omega) hk)⟩,
        ⟨fun _ => ⟨k, by omega, hk, h2⟩, fun _ => rfl⟩⟩

/-- With one item that occurs in both of two transactions the loop stops at item 0 and the
flag `empty` is 1, although the item has the frequency `tacnt`. -/
theorem emptyClosed_item_zero :
    emptyScan (fun _ => 2) 2 1 = 0 ∧ emptyClosed (fun _ => 2) 2 1 = 1 ∧
    support [[0], [0]] [0] = 2 ∧ ([[0], [0]] : List (List Int)).length = 2 := by
  decide

/-! ### The filter for closed item sets, applied twice -/

/-- C32: on the tree of the mining run `ist_filter` with the mode `IST_CLOSED` succeeds, and
a second call with this mode returns the tree of the first call unchanged: it changes no
counter. -/
theorem C32_closed_idempotent (db : List (List Int)) (n : Nat) (supp : Int)
    (hn : (n : Int) ≤ INT_MAX) (hs : 1 ≤ supp)
    (hdb : ∀ t ∈ db, Tract t ∧ ∀ x ∈ t, 0 ≤ x ∧ x < (n : Int)) :
    ∃ ist ist1, mine db n supp = some ist ∧ ist_filter ist IST_CLOSED = some ist1 ∧
      ist_filter ist1 IST_CLOSED = some ist1 ∧
      ∀ ist2, ist_filter ist1 IST_CLOSED = some ist2 →
        ∀ (a : Addr) (M1 M2 : ISNODE), nodeAt ist1.root a = some M1 →
          nodeAt ist2.root a = some M2 → M2.cnts = M1.cnts := by
  obtain ⟨ist, hmine, hm, hfull⟩ := mine_spec db n supp hn hs hdb
  have hI := hm.inv
  obtain ⟨lc, -, hw⟩ := hI.wf
  have hsc := hm.subClosed hfull
  obtain ⟨ist1, hf1, he1, hF1⟩ := filter_spec IST_CLOSED hI hsc
  have hI1 := Inv_filter hI hf1
  have hl1 : ist1.lvlcnt = ist.lvlcnt := by rw [he1]
  have hs1 : ist1.supp = ist.supp := by rw [he1]
  have hsc1 : SubClosed ist1.supp ist1.root := by
    rw [hs1]
    exact SubClosed_filtered hw hI.supp_pos hsc hF1
  obtain ⟨ist2, hf2, he2, hF2⟩ := filter_spec IST_CLOSED hI1 hsc1
  have hroot : ist1.root = ist2.root := by
    refine Shape_ext hF2.1 (fun a M1 M2 hM1 hM2 => ?_)
    have hal1 := hI1.nodeAt_length hM1
    obtain ⟨M2', hM2', -, -, -, g4⟩ := Shape_node hF2.1 hal1 hM1
    rw [hM2] at hM2'; cases hM2'
    refine cnts_ext g4.symm (fun i hi => ?_)
    obtain ⟨f1, f2⟩ := hF2.2 a M1 M2 i hM1 hM2 hi
    by_cases hh : Hit ist1.supp IST_CLOSED (fun _ _ => True) ist1.root
        (pathIds ist1.root a ++ [M1.offset + (i : Int)]) (M1.cnts.getD i 0)
    · rw [f1 hh]
      -- a reason to clear the counter in the second call was one in the first call
      obtain ⟨b, N1, j, -, hN1, hj, hge, ⟨m, hm', e⟩, hcl⟩ := hh
      have hM1eq : M1.cnts.getD i 0 = N1.cnts.getD j 0 := hcl rfl
      rw [hl1] at hal1
      obtain ⟨M0, hM0, -⟩ := (TRel_nodeAt a hF1.1 hal1).2.2 M1 hM1
      obtain ⟨M1', hM1', k1, k2, k3, k4⟩ := Shape_node hF1.1 hal1 hM0
      rw [hM1] at hM1'; cases hM1'
      have hbl1 := hI1.nodeAt_length hN1
      rw [hl1] at hbl1
      obtain ⟨N0, hN0, -⟩ := (TRel_nodeAt b hF1.1 hbl1).2.2 N1 hN1
      obtain ⟨N1', hN1', q1, q2, q3, q4⟩ := Shape_node hF1.1 hbl1 hN0
      rw [hN1] at hN1'; cases hN1'
      rw [q4] at hj
      rw [k4] at hi
      have hpos := hI.supp_pos
      have horig : N1.cnts.getD j 0 = N0.cnts.getD j 0 := by
        obtain ⟨u1, u2⟩ := hF1.2 b N0 N1 j hN0 hN1 hj
        by_cases hh0 : Hit ist.supp IST_CLOSED (fun _ _ => True) ist.root
            (pathIds ist.root b ++ [N0.offset + (j : Int)]) (N0.cnts.getD j 0)
        · have := u1 hh0
          rw [hs1] at hge
          omega
        · exact u2 hh0
      by_cases hh0 : Hit ist.supp IST_CLOSED (fun _ _ => True) ist.root
          (pathIds ist.root a ++ [M0.offset + (i : Int)]) (M0.cnts.getD i 0)
      · exact (hF1.2 a M0 M1 i hM0 hM1 hi).1 hh0
      · have hM : M1.cnts.getD i 0 = M0.cnts.getD i 0 := (hF1.2 a M0 M1 i hM0 hM1 hi).2 hh0
        exfalso
        refine hh0 ⟨b, N0, j, trivial, hN0, hj, ?_, ⟨m, hm', ?_⟩, fun _ => ?_⟩
        · rw [← horig, ← hs1]; exact hge
        · rw [Shape_pathIds hF1.1 a hal1, Shape_pathIds hF1.1 b hbl1, ← k3, ← q3]
          exact e
        · rw [← hM, hM1eq, horig]
    · rw [f2 hh]
  have h21 : ist2 = ist1 := by
    rw [he2, ← hroot]
  rw [h21] at hf2
  refine ⟨ist, ist1, hmine, hf1, hf2, fun ist3 hf3 a M1 M2 hM1 hM2 => ?_⟩
  rw [hf2] at hf3
  cases hf3
  rw [hM1] at hM2
  cases hM2
  rfl

theorem C32_closed_idempotent_witness :
    ∃ ist ist1, mine gapDb 4 1 = some ist ∧ ist_filter ist IST_CLOSED = some ist1 ∧
      ist_filter ist1 IST_CLOSED = some ist1 := by
  obtain ⟨ist, ist1, h1, h2, h3, -⟩ :=
    C32_closed_idempotent gapDb 4 1 (by decide) (by decide) gapDb_range
  exact ⟨ist, ist1, h1, h2, h3⟩

/-! ### The descent of `_clrsupp` -/

/-- A call of `_clrsupp` that returns has followed existing children and has ended at a
counter of the node it has reached: the item set leads along the ids of the children to a
node and to one of its slots. -/
theorem clrsupp_some {lc : Int} {live : Bool} {h : Nat} {P P' : ISNODE} {set : List Int}
    {s : Int} (hw : WFN lc live h P) (hc : _clrsupp P set s = some P') :
    ∃ (a : Addr) (M : ISNODE) (i : Nat), nodeAt P a = some M ∧ i < M.cnts.length ∧
      a.length + 1 = set.length ∧ pathIds P a ++ [M.offset + (i : Int)] = set := by
  rw [clrsupp_eq] at hc
  cases hl : locate P set with
  | none => rw [hl] at hc; simp at hc
  | some p =>
    obtain ⟨a, i⟩ := p
    obtain ⟨M, hM, hi, hp⟩ := locate_path set hw hl
    exact ⟨a, M, i, hM, hi, (locate_some set hl).1, hp⟩

/-- C34: safety of the descent in `_clrsupp`.  On the tree of the mining run `ist_filter`
(in either mode) returns a tree: no call of `_clrsupp` in it leaves the child vectors, meets a
null pointer or ends outside the counter vector, which is what the result `none` of
`_clrsupp` stands for.  A call of `_clrsupp` on a well-formed subtree that returns has
followed the item set along existing children to a slot within the counter vector of the
node it has reached. -/
theorem C34_clrsupp_safe (db : List (List Int)) (n : Nat) (supp : Int) (mode : Int)
    (hn : (n : Int) ≤ INT_MAX) (hs : 1 ≤ supp)
    (hdb : ∀ t ∈ db, Tract t ∧ ∀ x ∈ t, 0 ≤ x ∧ x < (n : Int)) :
    (∃ ist ist1, mine db n supp = some ist ∧ ist_filter ist mode = some ist1) ∧
    (∀ (lc : Int) (live : Bool) (h : Nat) (P P' : ISNODE) (set : List Int) (s : Int),
      WFN lc live h P → _clrsupp P set s = some P' →
      ∃ (a : Addr) (M : ISNODE) (i : Nat), nodeAt P a = some M ∧ i < M.cnts.length ∧
        a.length + 1 = set.length ∧ pathIds P a ++ [M.offset + (i : Int)] = set) ∧
    (∀ (P : ISNODE) (s : Int), _clrsupp P [] s = none) := by
  obtain ⟨ist, hmine, hm, hfull⟩ := mine_spec db n supp hn hs hdb
  obtain ⟨ist1, hf1, -, -⟩ := filter_spec mode hm.inv (hm.subClosed hfull)
  exact ⟨⟨ist, ist1, hmine, hf1⟩, fun lc live h P P' set s hw hc => clrsupp_some hw hc,
    fun P s => rfl⟩

theorem C34_clrsupp_safe_witness :
    ∃ ist ist1, mine gapDb 4 1 = some ist ∧ ist_filter ist IST_CLOSED = some ist1 :=
  (C34_clrsupp_safe gapDb 4 1 IST_CLOSED (by decide) (by decide) gapDb_range).1


/-! ### The item usage check on a marker vector with arbitrary content -/

theorem clearMarks_succ (i : Nat) (marks : List Int) :
    clearMarks (i + 1) marks = clearMarks i (marks.set i 0) := rfl

theorem clearMarks_length : ∀ (n : Nat) (marks : List Int),
    (clearMarks n marks).length = marks.length
  | 0, _ => rfl
  | n + 1, marks => by
    rw [clearMarks_succ, clearMarks_length n, List.length_set]

theorem clearMarks_getD : ∀ (n : Nat) (marks : List Int) (x : Nat),
    (clearMarks n marks).getD x 0 = if x < n then 0 else marks.getD x 0
  | 0, marks, x => by simp [clearMarks]
  | n + 1, marks, x => by
    rw [clearMarks_succ, clearMarks_getD n]
    by_cases h1 : x < n
    · rw [if_pos h1, if_pos (by omega)]
    · rw [if_neg h1]
      by_cases h2 : x = n
      · subst h2
        rw [if_pos (by omega), List.getD_eq_getElem?_getD]
        by_cases h3 : x < marks.length
        · rw [List.getElem?_set_self h3]; rfl
        · rw [List.getElem?_eq_none (by rw [List.length_set]; omega)]; rfl
      · rw [if_neg (by omega), List.getD_eq_getElem?_getD, List.getD_eq_getElem?_getD,
          List.getElem?_set_ne (fun e => h2 e.symm)]

theorem getD_take {l : List Int} {n x : Nat} (h : x < n) : (l.take n).getD x 0 = l.getD x 0 := by
  rw [List.getD_eq_getElem?_getD, List.getD_eq_getElem?_getD, List.getElem?_take_of_lt h]

/-- The markers after `ist_check` on a marker vector that has a marker for every item: the
marker of an item is 1 when the item is used and 0 when not, the markers behind those of the
items keep their values. -/
theorem check_on_marks {ist : ISTREE} (hI : Inv ist) (marks : List Int)
    (hlen : ist.root.cnts.length ≤ marks.length) :
    (ist_check_on ist marks).1.length = marks.length ∧
    (∀ x : Nat, Used ist.supp ist.root false (x : Int) → x < ist.root.cnts.length) ∧
    (∀ x : Nat, Used ist.supp ist.root false (x : Int) →
      (ist_check_on ist marks).1.getD x 0 = 1) ∧
    (∀ x : Nat, x < ist.root.cnts.length → ¬ Used ist.supp ist.root false (x : Int) →
      (ist_check_on ist marks).1.getD x 0 = 0) ∧
    (∀ x : Nat, ist.root.cnts.length ≤ x →
      (ist_check_on ist marks).1.getD x 0 = marks.getD x 0) := by
  obtain ⟨lc, hlc, hw⟩ := hI.wf
  have hlc0 : lc ≤ 0 := by
    rcases hlc with e | e
    · omega
    · rw [e]; unfold F_SKIP; omega
  have hl : ist.lvlcnt = ist.lvlcnt - 1 + 1 := by have := hI.lvl_pos; omega
  obtain ⟨hm, -⟩ := check_spec hlc0 ist.supp (ist.lvlcnt - 1) ist.root false
    (clearMarks ist.root.cnts.length marks) hw
  rw [← hl] at hm
  have e1 : (ist_check_on ist marks).1 = (_check ist.lvlcnt ist.root false
      (clearMarks ist.root.cnts.length marks) ist.supp).1 := rfl
  have hrange : ∀ x : Nat, Used ist.supp ist.root false (x : Int) →
      x < ist.root.cnts.length := by
    rintro x ⟨a, M, i, h1, -, h3, -, h5 | ⟨h5, -⟩⟩
    · have := ((path_sorted a hw h1 i h3).2 _ h5).2
      rw [hI.root_off] at this
      unfold ISNODE.size at this
      omega
    · exact absurd h5 (by simp)
  refine ⟨by rw [e1, hm.1, clearMarks_length], hrange, fun x hu => ?_, fun x hx hu => ?_,
    fun x hx => ?_⟩
  · rw [e1]
    exact (hm.2 x).1 ⟨by rw [clearMarks_length]; have := hrange x hu; omega, hu⟩
  · rw [e1, (hm.2 x).2 (fun hh => hu hh.2), clearMarks_getD, if_pos hx]
  · rw [e1, (hm.2 x).2 (fun hh => by have := hrange x hh.2; omega), clearMarks_getD,
      if_neg (by omega)]

/-- C33: what `ist_check` computes.  For a tree reachable through the public operations and
a marker vector with a marker for every item: the markers of the items and the return value
do not depend on the previous content of the vector; the marker of an item `x` is 1 exactly
when `x` belongs to an item set whose counter is at least `supp` in a node with `chcnt = 0`
(`x` is the item of the slot or an id on the path to the node), every other marker of an item
is 0, the markers behind those of the items are not touched, and the return value is the
number of markers of items that are 1.  When no node with `chcnt = 0` has a counter of at
least `supp`, all markers of items are 0 and the return value is 0, whatever the counters of
the nodes with children or with the skip flag are. -/
theorem C33_check_computes (ist : ISTREE) (hr : Reachable ist) (marks : List Int)
    (hlen : ist.root.cnts.length ≤ marks.length) :
    (∀ marks' : List Int, ist.root.cnts.length ≤ marks'.length →
      (ist_check_on ist marks').1.take ist.root.cnts.length =
        (ist_check_on ist marks).1.take ist.root.cnts.length ∧
      (ist_check_on ist marks').2 = (ist_check_on ist marks).2) ∧
    (∀ x : Nat, x < ist.root.cnts.length →
      ((ist_check_on ist marks).1.getD x 0 = 1 ↔
        ∃ (a : Addr) (M : ISNODE) (i : Nat), nodeAt ist.root a = some M ∧ M.chcnt = 0 ∧
          i < M.cnts.length ∧ ist.supp ≤ M.cnts.getD i 0 ∧
          ((x : Int) = M.offset + (i : Int) ∨ (x : Int) ∈ pathIds ist.root a)) ∧
      ((ist_check_on ist marks).1.getD x 0 = 0 ∨ (ist_check_on ist marks).1.getD x 0 = 1)) ∧
    (∀ x : Nat, ist.root.cnts.length ≤ x →
      (ist_check_on ist marks).1.getD x 0 = marks.getD x 0) ∧
    (ist_check_on ist marks).2 =
      ((ist_check_on ist marks).1.take ist.root.cnts.length).count 1 ∧
    ((∀ (a : Addr) (M : ISNODE) (i : Nat), nodeAt ist.root a = some M → M.chcnt = 0 →
        i < M.cnts.length → M.cnts.getD i 0 < ist.supp) →
      (∀ x : Nat, x < ist.root.cnts.length → (ist_check_on ist marks).1.getD x 0 = 0) ∧
      (ist_check_on ist marks).2 = 0) := by
  have hI := Inv_of_reachable hr
  have hU : ∀ x : Int, Used ist.supp ist.root false x ↔
      ∃ (a : Addr) (M : ISNODE) (i : Nat), nodeAt ist.root a = some M ∧ M.chcnt = 0 ∧
        i < M.cnts.length ∧ ist.supp ≤ M.cnts.getD i 0 ∧
        (x = M.offset + (i : Int) ∨ x ∈ pathIds ist.root a) := by
    intro x
    unfold Used
    constructor
    · rintro ⟨a, M, i, h1, h2, h3, h4, h5 | ⟨h5, -⟩⟩
      · refine ⟨a, M, i, h1, h2, h3, h4, ?_⟩
        rcases List.mem_append.1 h5 with h | h
        · exact Or.inr h
        · exact Or.inl (List.mem_singleton.1 h)
      · exact absurd h5 (by simp)
    · rintro ⟨a, M, i, h1, h2, h3, h4, h5 | h5⟩
      · exact ⟨a, M, i, h1, h2, h3, h4, Or.inl (List.mem_append.2 (Or.inr (by rw [h5]; simp)))⟩
      · exact ⟨a, M, i, h1, h2, h3, h4, Or.inl (List.mem_append.2 (Or.inl h5))⟩
  have hval : ∀ (mk : List Int), ist.root.cnts.length ≤ mk.length →
      ∀ x : Nat, x < ist.root.cnts.length →
      ((ist_check_on ist mk).1.getD x 0 = 1 ↔ Used ist.supp ist.root false (x : Int)) ∧
      ((ist_check_on ist mk).1.getD x 0 = 0 ∨ (ist_check_on ist mk).1.getD x 0 = 1) := by
    intro mk hmk x hx
    obtain ⟨-, -, c1, c0, -⟩ := check_on_marks hI mk hmk
    by_cases hu : Used ist.supp ist.root false (x : Int)
    · exact ⟨⟨fun _ => hu, fun _ => c1 x hu⟩, Or.inr (c1 x hu)⟩
    · have h0 := c0 x hx hu
      exact ⟨⟨fun h => absurd (h0.symm.trans h) (by decide), fun h => absurd h hu⟩, Or.inl h0⟩
  have htl : ∀ (mk : List Int), ist.root.cnts.length ≤ mk.length →
      ((ist_check_on ist mk).1.take ist.root.cnts.length).length = ist.root.cnts.length := by
    intro mk hmk
    rw [List.length_take, (check_on_marks hI mk hmk).1]
    omega
  have e2 : ∀ mk : List Int, (ist_check_on ist mk).2 =
      ((ist_check_on ist mk).1.take ist.root.cnts.length).countP
        (fun x => decide (x ≠ 0)) := fun _ => rfl
  have hcnt : ∀ (mk : List Int), ist.root.cnts.length ≤ mk.length →
      (ist_check_on ist mk).2 = ((ist_check_on ist mk).1.take ist.root.cnts.length).count 1 := by
    intro mk hmk
    rw [e2]
    apply countP_marks
    intro y hy
    obtain ⟨k, hk, rfl⟩ := List.getElem_of_mem hy
    have hk' : k < ist.root.cnts.length := by rw [htl mk hmk] at hk; exact hk
    have := (hval mk hmk k hk').2
    rw [← getD_take hk', getD_of_lt _ k 0 hk] at this
    exact this
  have htake : ∀ marks' : List Int, ist.root.cnts.length ≤ marks'.length →
      (ist_check_on ist marks').1.take ist.root.cnts.length =
        (ist_check_on ist marks).1.take ist.root.cnts.length := by
    intro marks' hm'
    refine cnts_ext (by rw [htl marks' hm', htl marks hlen]) (fun i hi => ?_)
    rw [htl marks' hm'] at hi
    rw [getD_take hi, getD_take hi]
    obtain ⟨a1, a2⟩ := hval marks' hm' i hi
    obtain ⟨b1, b2⟩ := hval marks hlen i hi
    by_cases hu : Used ist.supp ist.root false (i : Int)
    · rw [a1.2 hu, b1.2 hu]
    · have ha : (ist_check_on ist marks').1.getD i 0 = 0 := by
        rcases a2 with h | h
        · exact h
        · exact absurd (a1.1 h) hu
      have hb : (ist_check_on ist marks).1.getD i 0 = 0 := by
        rcases b2 with h | h
        · exact h
        · exact absurd (b1.1 h) hu
      rw [ha, hb]
  refine ⟨fun marks' hm' => ⟨htake marks' hm', ?_⟩,
    fun x hx => ⟨(hval marks hlen x hx).1.trans (hU _), (hval marks hlen x hx).2⟩,
    (check_on_marks hI marks hlen).2.2.2.2, hcnt marks hlen, fun hno => ?_⟩
  · rw [hcnt marks' hm', hcnt marks hlen, htake marks' hm']
  · have hz : ∀ x : Nat, x < ist.root.cnts.length →
        (ist_check_on ist marks).1.getD x 0 = 0 := by
      intro x hx
      refine (check_on_marks hI marks hlen).2.2.2.1 x hx ?_
      rintro ⟨a, M, i, h1, h2, h3, h4, -⟩
      have := hno a M i h1 h2 h3
      omega
    refine ⟨hz, ?_⟩
    rw [hcnt marks hlen, List.count_eq_zero]
    intro h1
    obtain ⟨k, hk, e⟩ := List.getElem_of_mem h1
    have hk' : k < ist.root.cnts.length := by rw [htl marks hlen] at hk; exact hk
    have := hz k hk'
    rw [← getD_take hk', getD_of_lt _ k 0 hk, e] at this
    exact absurd this (by decide)

theorem C33_check_computes_witness :
    Reachable soloTree ∧ soloTree.root.cnts.length ≤ ([7, 7, 7, 7] : List Int).length ∧
    ist_check_on soloTree [7, 7, 7, 7] = ([1, 1, 0, 7], 2) ∧
    (ist_check_on soloTree [7, 7, 7, 7]).2 =
      ((ist_check_on soloTree [7, 7, 7, 7]).1.take soloTree.root.cnts.length).count 1 :=
  ⟨soloTree_reachable, by decide, by decide,
    (C33_check_computes soloTree soloTree_reachable [7, 7, 7, 7] (by decide)).2.2.2.1⟩


/-! ### The indices of the path buffer -/

theorem checkAncIdx_bound (supp : Int) : ∀ (anc : List ISNODE) (id : Int) (set : List Int)
    (p : Int), ∀ x ∈ checkAncIdx supp id anc set p, p - (anc.length : Int) ≤ x ∧ x < p
  | [], _, _, _, x, hx => by simp [checkAncIdx] at hx
  | par :: up, id, set, p, x, hx => by
    unfold checkAncIdx at hx
    by_cases h : _getsupp par set < supp
    · rw [if_pos h] at hx; simp at hx
    · rw [if_neg h] at hx
      rcases List.mem_cons.1 hx with e | hx'
      · subst e
        simp only [List.length_cons, Nat.cast_add, Nat.cast_one]
        omega
      · have := checkAncIdx_bound supp up par.id (id :: set) (p - 1) x hx'
        simp only [List.length_cons, Nat.cast_add, Nat.cast_one]
        omega

/-- When every subset test succeeds the loop of `_child` over the path writes one index per
node above the node, down to `p - anc.length`. -/
theorem checkAncIdx_full (supp : Int) : ∀ (anc : List ISNODE) (id : Int) (set : List Int)
    (p : Int), checkAnc supp id anc set = true →
    checkAncIdx supp id anc set p = (List.range anc.length).map (fun j : Nat => p - 1 - (j : Int))
  | [], _, _, _, _ => rfl
  | par :: up, id, set, p, hc => by
    unfold checkAnc at hc
    unfold checkAncIdx
    by_cases h : _getsupp par set < supp
    · rw [if_pos h] at hc; simp at hc
    · rw [if_neg h] at hc
      rw [if_neg h, checkAncIdx_full supp up par.id (id :: set) (p - 1) hc, List.length_cons,
        List.range_succ_eq_map, List.map_cons, List.map_map]
      congr 1
      · simp
      · apply List.map_congr_left
        intro j _
        simp only [Function.comp_apply, Nat.succ_eq_add_one, Nat.cast_add, Nat.cast_one]
        omega

theorem childBufIdx_bound (supp : Int) (vsz : Nat) (anc : List ISNODE) (node : ISNODE)
    (index : Nat) : ∀ x ∈ childBufIdx supp vsz anc node index,
    (vsz : Int) - 2 - (anc.length : Int) ≤ x ∧ x ≤ (vsz : Int) - 1 := by
  intro x hx
  unfold childBufIdx at hx
  by_cases h : node.cnts.getD index 0 < supp
  · rw [if_pos h] at hx; simp at hx
  · rw [if_neg h] at hx
    rcases List.mem_cons.1 hx with e | hx'
    · omega
    · obtain ⟨i, -, hi⟩ := List.mem_flatMap.1 hx'
      rcases List.mem_cons.1 hi with e | hi'
      · omega
      · have := checkAncIdx_bound supp anc node.id _ _ x hi'
        omega

theorem clrUpIdx_eq : ∀ (rpar : List Nat) (p : Int),
    clrUpIdx rpar p = (List.range rpar.length).map (fun j : Nat => p - 1 - (j : Int))
  | [], _ => rfl
  | _ :: rpar, p => by
    unfold clrUpIdx
    rw [clrUpIdx_eq rpar (p - 1), List.length_cons, List.range_succ_eq_map, List.map_cons,
      List.map_map]
    congr 1
    · simp
    · apply List.map_congr_left
      intro j _
      simp only [Function.comp_apply, Nat.succ_eq_add_one, Nat.cast_add, Nat.cast_one]
      omega

theorem filterBufIdx_eq (vsz : Nat) (a : Addr) (ha : a ≠ []) :
    filterBufIdx vsz a = (List.range (a.length + 1)).map (fun j : Nat => (vsz : Int) - 1 - (j : Int)) := by
  unfold filterBufIdx
  cases hr : a.reverse with
  | nil =>
    have := congrArg List.length hr
    simp only [List.length_reverse, List.length_nil] at this
    exact absurd (List.length_eq_zero.1 this) ha
  | cons x rpar =>
    have hl : a.length = rpar.length + 1 := by
      have := congrArg List.length hr
      simpa using this
    simp only
    rw [clrUpIdx_eq, hl, List.range_succ_eq_map, List.map_cons, List.map_map,
      List.range_succ_eq_map, List.map_cons, List.map_map]
    congr 1
    · simp
    · congr 1
      · simp
        omega
      · apply List.map_congr_left
        intro j _
        simp only [Function.comp_apply, Nat.succ_eq_add_one, Nat.cast_add, Nat.cast_one]
        omega

theorem filter_range_gt (p : Nat → Bool) (index : Nat) (hp : ∀ i, p i = true → index < i) :
    ∀ n : Nat, ((List.range n).filter p).length ≤ n - (index + 1)
  | 0 => by simp
  | n + 1 => by
    rw [List.range_succ, List.filter_append, List.length_append]
    have ih := filter_range_gt p index hp n
    by_cases h : p n = true
    · have := hp n h
      simp only [List.filter_cons, h, if_true, List.filter_nil, List.length_cons,
        List.length_nil]
      omega
    · simp only [List.filter_cons, h, List.filter_nil, List.length_nil]
      simp
      omega

theorem candidates_length (supp : Int) (anc : List ISNODE) (node : ISNODE) (index : Nat) :
    (candidates supp anc node index).length ≤ node.cnts.length - (index + 1) := by
  unfold candidates
  rw [List.length_map]
  apply filter_range_gt
  intro i hi
  simp only [Bool.and_eq_true, decide_eq_true_eq] at hi
  exact hi.1.1

/-- C35: the bounds of the scratch buffers.  For a tree reachable through the public
operations: (1) in `ist_addlvl`, where `lvlvsz` has the value `grownVsz` after the first
step, the calls of `_child` for a node of the deepest level (at depth `lvlcnt - 1`, with as
many nodes above it) access only indices of `buf` between `lvlvsz - 2 - depth`, which is not
negative, and `lvlvsz - 1`; when all subset tests succeed the loop over the path writes the
indices `lvlvsz - 3` down to `lvlvsz - 2 - depth`; (2) `ist_filter` uses for a node at depth
`L >= 1` the `L + 1` indices `lvlvsz - 1` down to `lvlvsz - 1 - L`, which lie in
`[0, lvlvsz)`; (3) a call of `_child` writes fewer items to `map` than the root has
counters. -/
theorem C35_buffer_bounds (ist : ISTREE) (hr : Reachable ist) :
    (∀ (r : ISNODE) (a : Addr) (N : ISNODE) (index : Nat), a.length + 1 = ist.lvlcnt →
      nodeAt r a = some N →
      (ancOf r a).length = a.length ∧
      0 ≤ (grownVsz ist : Int) - 2 - (a.length : Int) ∧
      (∀ x ∈ childBufIdx ist.supp (grownVsz ist) (ancOf r a) N index,
        (grownVsz ist : Int) - 2 - (a.length : Int) ≤ x ∧ 0 ≤ x ∧ x < (grownVsz ist : Int)) ∧
      (∀ set : List Int, checkAnc ist.supp N.id (ancOf r a) set = true →
        checkAncIdx ist.supp N.id (ancOf r a) set ((grownVsz ist : Int) - 2) =
          (List.range a.length).map (fun j : Nat => (grownVsz ist : Int) - 3 - (j : Int)))) ∧
    (∀ (a : Addr) (N : ISNODE), a ≠ [] → nodeAt ist.root a = some N →
      filterBufIdx ist.lvlvsz a =
        (List.range (a.length + 1)).map (fun j : Nat => (ist.lvlvsz : Int) - 1 - (j : Int)) ∧
      ∀ x ∈ filterBufIdx ist.lvlvsz a, 0 ≤ x ∧ x < (ist.lvlvsz : Int)) ∧
    (∀ (a : Addr) (N : ISNODE) (anc : List ISNODE) (index : Nat),
      nodeAt ist.root a = some N → index < N.cnts.length →
      (candidates ist.supp anc N index).length < ist.root.cnts.length ∧
      (accepted ist.supp anc N index).length < ist.root.cnts.length) := by
  have hI := Inv_of_reachable hr
  obtain ⟨lc, -, hw⟩ := hI.wf
  have hg := (grownVsz_ge ist).2 hI.lvl_vsz
  refine ⟨fun r a N index ha hN => ?_, fun a N ha hN => ?_, fun a N anc index hN hidx => ?_⟩
  · have hanc := length_ancOf hN
    refine ⟨hanc, by omega, fun x hx => ?_, fun set hc => ?_⟩
    · have := childBufIdx_bound ist.supp (grownVsz ist) (ancOf r a) N index x hx
      rw [hanc] at this
      omega
    · rw [checkAncIdx_full ist.supp _ _ _ _ hc, hanc]
      apply List.map_congr_left
      intro j _
      omega
  · have he := filterBufIdx_eq ist.lvlvsz a ha
    refine ⟨he, fun x hx => ?_⟩
    rw [he] at hx
    obtain ⟨j, hj, e⟩ := List.mem_map.1 hx
    have hj' := List.mem_range.1 hj
    have hal := hI.nodeAt_length hN
    have := hI.lvl_vsz
    have := hI.lvl_pos
    omega
  · have h1 := candidates_length ist.supp anc N index
    have h2 := (size_le_root hw hN)
    unfold ISNODE.size at h2
    have hc : (candidates ist.supp anc N index).length < ist.root.cnts.length := by omega
    refine ⟨hc, ?_⟩
    rw [accepted_eq]
    split
    · simp only [List.length_nil]; omega
    · exact hc

theorem C35_buffer_bounds_witness :
    Reachable gapTree ∧
    filterBufIdx (ist_addlvl gapTree none).1.lvlvsz [0] = [31, 30] ∧
    childBufIdx gapTree.supp (grownVsz gapTree) (ancOf gapTree.root []) gapTree.root 0 =
      [30, 31, 31] ∧
    (candidates gapTree.supp (ancOf gapTree.root []) gapTree.root 0).length <
      gapTree.root.cnts.length :=
  ⟨gapTree_reachable, by decide, by decide,
    ((C35_buffer_bounds gapTree gapTree_reachable).2.2 [] gapTree.root
      (ancOf gapTree.root []) 0 rfl (by decide)).1⟩

/-! ### Counting with counters of the type `int` -/

theorem length_incrInt (cnts : List Int) (i : Int) : (incrInt cnts i).length = cnts.length := by
  unfold incrInt
  split <;> simp

theorem getD_incrInt (cnts : List Int) (i : Int) (j : Nat) :
    (incrInt cnts i).getD j 0 =
      if 0 ≤ i ∧ j = i.toNat ∧ j < cnts.length then wrapInt (cnts.getD j 0 + 1)
      else cnts.getD j 0 := by
  unfold incrInt
  by_cases hi : i < 0
  · have : ¬ (0 ≤ i) := by omega
    simp [hi, this]
  · simp only [hi, if_false]
    have h0 : 0 ≤ i := by omega
    simp only [h0, true_and]
    by_cases hj : j = i.toNat
    · subst hj
      by_cases hl : i.toNat < cnts.length
      · simp [List.getD_eq_getElem?_getD, List.getElem?_set, hl]
      · have hge : cnts.length ≤ i.toNat := by omega
        simp [List.getD_eq_getElem?_getD, List.getElem?_set, hl, List.getElem?_eq_none hge]
    · have : ¬ (i.toNat = j) := fun h => hj h.symm
      simp [List.getD_eq_getElem?_getD, List.getElem?_set, hj, this]

theorem countLeafInt_spec (n : Int) (s : List Int) : ∀ (cnts : List Int), Tract s →
    (∀ x ∈ s, n ≤ x) →
    (countLeafInt n cnts s).length = cnts.length ∧
    ∀ i : Nat, (countLeafInt n cnts s).getD i 0 =
      if i < cnts.length ∧ n + (i : Int) ∈ s then wrapInt (cnts.getD i 0 + 1)
      else cnts.getD i 0 := by
  induction s with
  | nil => intro cnts _ _; simp [countLeafInt]
  | cons x rest ih =>
    intro cnts hs hge
    have hx : n ≤ x := hge x (List.mem_cons_self _ _)
    have hlt := hs.head_lt
    unfold countLeafInt
    by_cases hc : x - n ≥ (cnts.length : Int)
    · simp only [hc, if_true, true_and]
      intro i
      have : ¬ (i < cnts.length ∧ n + (i : Int) ∈ x :: rest) := by
        rintro ⟨h1, h2⟩
        rcases List.mem_cons.1 h2 with h | h
        · omega
        · have := hlt _ h; omega
      rw [if_neg this]
    · simp only [hc, if_false]
      have ih' := ih (incrInt cnts (x - n)) hs.tail (fun y hy => by have := hlt y hy; omega)
      rw [length_incrInt] at ih'
      refine ⟨ih'.1, fun i => ?_⟩
      rw [ih'.2 i, getD_incrInt]
      have hxn : x ∉ rest := hs.not_mem
      by_cases hi : i < cnts.length
      · by_cases hix : n + (i : Int) = x
        · have h1 : i = (x - n).toNat := by omega
          have h2 : n + (i : Int) ∉ rest := by rw [hix]; exact hxn
          have h3 : 0 ≤ x - n := by omega
          rw [if_neg (fun h => h2 h.2), if_pos ⟨h3, h1, hi⟩,
            if_pos ⟨hi, by rw [hix]; exact List.mem_cons_self _ _⟩]
        · have h1 : ¬ (0 ≤ x - n ∧ i = (x - n).toNat ∧ i < cnts.length) := by
            rintro ⟨_, h, _⟩; omega
          rw [if_neg h1]
          by_cases hr : n + (i : Int) ∈ rest
          · rw [if_pos ⟨hi, hr⟩, if_pos ⟨hi, List.mem_cons_of_mem _ hr⟩]
          · rw [if_neg (fun h => hr h.2), if_neg]
            rintro ⟨_, h⟩
            rcases List.mem_cons.1 h with h | h
            · exact hix h
            · exact hr h
      · have h1 : ¬ (0 ≤ x - n ∧ i = (x - n).toNat ∧ i < cnts.length) := by
          rintro ⟨_, _, h⟩; exact hi h
        rw [if_neg (fun h => hi h.1), if_neg h1, if_neg (fun h => hi h.1)]


/-- A transaction with fewer items than levels below the node changes nothing, also with
counters of the type `int`. -/
theorem countInt_short {lc : Int} {live : Bool} {h : Nat} {N : ISNODE} (hw : WFN lc live h N)
    (s : List Int) (min : Int) (hm : min = (h : Int) + 1) (hs : s.length < h + 1) :
    _countInt (h + 1) N s min = N := by
  unfold _countInt
  by_cases h0 : N.chcnt = 0
  · rw [if_pos h0]
    obtain ⟨hh, -, -, -⟩ := WFN_chcnt_zero hw h0
    subst hh
    have : s = [] := by
      cases s with
      | nil => rfl
      | cons x r => simp at hs
    subst this
    simp [skipItems, countLeafInt, ISNODE.setCnts_cnts]
  · rw [if_neg h0]
    by_cases h1 : N.chcnt > 0
    · rw [if_pos h1]
      split
      · rw [countVec_short, ISNODE.setVec_vec]
        have := length_skipItems_le (ISNODE.id ‹ISNODE›) (min - 1) s
        omega
      · rfl
    · rw [if_neg h1]

theorem countInt_succ_eq (fuel : Nat) (node : ISNODE) (set : List Int) (min : Int) :
    _countInt (fuel + 1) node set min =
      if node.chcnt = 0 then
        node.setCnts (countLeafInt node.offset node.cnts (skipItems node.offset 0 set))
      else if node.chcnt > 0 then
        match node.vec with
        | some first :: _ =>
          node.setVec (countVec (fun c s => _countInt fuel c s (min - 1)) first.id node.chcnt
            (min - 1) node.vec (skipItems first.id (min - 1) set))
        | _ => node
      else node := by
  rfl

/-- The effect of `_countInt` on a well-formed node: the counters of a node without children
are incremented, as values of the type `int`, for the items of the transaction, the children
whose id is in the transaction are counted with the items after the id. -/
theorem countInt_node {lc : Int} {live : Bool} {h : Nat} {N : ISNODE} (hw : WFN lc live h N)
    (hlc : lc ≤ 0) {t : List Int} (ht : Tract t) (min : Int) (hm : min = (h : Int) + 1) :
    (_countInt (h + 1) N t min).id = N.id ∧ (_countInt (h + 1) N t min).chcnt = N.chcnt ∧
    (_countInt (h + 1) N t min).offset = N.offset ∧
    (_countInt (h + 1) N t min).cnts.length = N.cnts.length ∧
    (∀ i : Nat, (_countInt (h + 1) N t min).cnts.getD i 0 =
      if N.chcnt = 0 ∧ i < N.cnts.length ∧ N.offset + (i : Int) ∈ t
      then wrapInt (N.cnts.getD i 0 + 1) else N.cnts.getD i 0) ∧
    (_countInt (h + 1) N t min).vec.length = N.vec.length ∧
    (∀ j : Nat, (_countInt (h + 1) N t min).vec[j]? = (N.vec[j]?).map (fun oc => oc.map (fun c =>
        if 0 < N.chcnt ∧ c.id ∈ t then _countInt h c (after c.id t) (min - 1) else c))) := by
  have hmapid : ∀ (j : Nat) (P : ISNODE → Prop) [DecidablePred P] (f : ISNODE → ISNODE),
      (∀ c, N.vec[j]? = some (some c) → ¬ P c) →
      N.vec[j]? = (N.vec[j]?).map (fun oc => oc.map (fun c => if P c then f c else c)) := by
    intro j P _ f hP
    cases hg : N.vec[j]? with
    | none => rfl
    | some oc =>
      cases oc with
      | none => rfl
      | some c => simp [hP c hg]
  rw [countInt_succ_eq]
  by_cases h0 : N.chcnt = 0
  · rw [if_pos h0]
    obtain ⟨hh, -, -, hv⟩ := WFN_chcnt_zero hw h0
    obtain ⟨s1, s2, s3, s4⟩ := skipItems_spec N.offset 0 t ht
    have hall : ∀ y ∈ skipItems N.offset 0 t, N.offset ≤ y := by
      rcases s4 with s4 | s4
      · exact s4
      · have : skipItems N.offset 0 t = [] := by
          cases hsk : skipItems N.offset 0 t with
          | nil => rfl
          | cons a b => rw [hsk] at s4; simp at s4; omega
        rw [this]; simp
    obtain ⟨c1, c2⟩ := countLeafInt_spec N.offset _ N.cnts s1 hall
    refine ⟨by simp, by simp, by simp, by simpa using c1, fun i => ?_, by simp, fun j => ?_⟩
    · simp only [ISNODE.cnts_setCnts]
      rw [c2 i]
      by_cases hi : i < N.cnts.length
      · have := s2 (N.offset + (i : Int)) (by omega)
        simp only [h0, hi, true_and, this]
      · simp [hi]
    · simp [hv]
  · rw [if_neg h0]
    by_cases h1 : N.chcnt > 0
    · rw [if_pos h1]
      obtain ⟨h', hh, hl, hch, first, rest, hv⟩ := WFN_chcnt_pos hw hlc h1
      subst hh
      have hcond : ¬ (N.chcnt = 0) := h0
      simp only [hv]
      rw [← hv]
      obtain ⟨s1, s2, s3, s4⟩ := skipItems_spec first.id (min - 1) t ht
      have hkid : ∀ (j : Nat) (c : ISNODE), N.vec[j]? = some (some c) →
          c.id = first.id + (j : Int) := by
        intro j c hc
        obtain ⟨f2, r2, hv2, hok, -⟩ := WFN_child hw hc
        rw [hv] at hv2
        simp only [List.cons.injEq, Option.some.injEq] at hv2
        rw [hv2.1]; exact hok.1
      rcases s4 with s4 | s4
      · obtain ⟨c1, c2⟩ := countVec_spec (fun c s => _countInt (h' + 1) c s (min - 1)) first.id
          N.chcnt (min - 1) _ N.vec s1 s4 hch
        refine ⟨by simp, by simp, by simp, by simp, fun i => by simp [h0], by simpa using c1,
          fun j => ?_⟩
        simp only [ISNODE.vec_setVec]
        rw [c2 j]
        cases hg : N.vec[j]? with
        | none => rfl
        | some oc =>
          cases oc with
          | none => rfl
          | some c =>
            have hid := hkid j c hg
            obtain ⟨f2, r2, hv2, hok, hwc, -⟩ := WFN_child hw hg
            simp only [Option.map_some']
            have e2 : after (first.id + (j : Int)) (skipItems first.id (min - 1) t) =
                after c.id t := by
              rw [← hid, s3 c.id (by rw [hid]; omega)]
            have e1 : (first.id + (j : Int) ∈ skipItems first.id (min - 1) t ∧
                min - 1 ≤ ((after (first.id + (j : Int))
                  (skipItems first.id (min - 1) t)).length : Int)) ↔
                (c.id ∈ t ∧ min - 1 ≤ ((after c.id t).length : Int)) := by
              rw [e2, ← hid, s2 c.id (by rw [hid]; omega)]
            rw [if_congr e1 (congrArg (fun s => _countInt (h' + 1) c s (min - 1)) e2) rfl]
            by_cases hin : c.id ∈ t
            · by_cases hlen : min - 1 ≤ ((after c.id t).length : Int)
              · rw [if_pos ⟨hin, hlen⟩, if_pos ⟨h1, hin⟩]
              · rw [if_neg (fun h => hlen h.2), if_pos ⟨h1, hin⟩]
                rw [countInt_short hwc _ _ (by omega) (by omega)]
            · rw [if_neg (fun h => hin h.1), if_neg (fun h => hin h.2)]
      · rw [countVec_short _ _ _ _ _ _ s4]
        refine ⟨by simp, by simp, by simp, by simp, fun i => by simp [h0], by simp, fun j => ?_⟩
        simp only [ISNODE.vec_setVec]
        cases hg : N.vec[j]? with
        | none => rfl
        | some oc =>
          cases oc with
          | none => rfl
          | some c =>
            have hid := hkid j c hg
            obtain ⟨f2, r2, hv2, hok, hwc, -⟩ := WFN_child hw hg
            simp only [Option.map_some']
            by_cases hin : c.id ∈ t
            · rw [if_pos ⟨h1, hin⟩]
              have hins : c.id ∈ skipItems first.id (min - 1) t :=
                (s2 c.id (by rw [hid]; omega)).2 hin
              have h5 := length_after_lt s1 hins
              rw [s3 c.id (by rw [hid]; omega)] at h5
              rw [countInt_short hwc _ _ (by omega) (by omega)]
            · rw [if_neg (fun h => hin h.2)]
    · rw [if_neg h1]
      refine ⟨rfl, rfl, rfl, rfl, fun i => by simp [h0], rfl, fun j => ?_⟩
      exact hmapid j _ _ (fun c _ h => h1 h.1)


/-- The effect of `_countInt` on the node at an address: a counter is incremented, as a value
of the type `int`, exactly when the node has no children (`chcnt = 0`) and the transaction
contains the item set of the counter. -/
theorem countInt_at {lc : Int} (hlc : lc ≤ 0) : ∀ (a : Addr) {live : Bool} {h : Nat} {N M : ISNODE}
    {t : List Int} (min : Int), WFN lc live h N → Tract t → min = (h : Int) + 1 →
    nodeAt N a = some M →
    ∃ M', nodeAt (_countInt (h + 1) N t min) a = some M' ∧ M'.id = M.id ∧ M'.chcnt = M.chcnt ∧
      M'.offset = M.offset ∧ M'.cnts.length = M.cnts.length ∧ M'.vec.length = M.vec.length ∧
      pathIds (_countInt (h + 1) N t min) a = pathIds N a ∧
      ∀ i : Nat, M'.cnts.getD i 0 =
        if M.chcnt = 0 ∧ i < M.cnts.length ∧ (∀ x ∈ pathIds N a ++ [M.offset + (i : Int)], x ∈ t)
        then wrapInt (M.cnts.getD i 0 + 1) else M.cnts.getD i 0
  | [], live, h, N, M, t, min, hw, ht, hm, hn => by
    rw [nodeAt_nil] at hn
    cases hn
    obtain ⟨c1, c2, c3, c4, c5, c6, c7⟩ := countInt_node hw hlc ht min hm
    refine ⟨_, nodeAt_nil _, c1, c2, c3, c4, c6, by simp [pathIds_nil], fun i => ?_⟩
    rw [c5 i]
    simp [pathIds_nil]
  | j :: a, live, h, N, M, t, min, hw, ht, hm, hn => by
    obtain ⟨c, hc, hn'⟩ := nodeAt_cons_some hn
    cases h with
    | zero => rw [WFN_zero] at hw; rw [hw.2.1] at hc; simp at hc
    | succ h =>
      obtain ⟨first, rest, hv, hok, hwc, hl, hch, hdead⟩ := WFN_child hw hc
      obtain ⟨c1, c2, c3, c4, c5, c6, c7⟩ := countInt_node hw hlc ht min hm
      have hc' := c7 j
      rw [hc] at hc'
      simp only [Option.map_some'] at hc'
      by_cases hit : 0 < N.chcnt ∧ c.id ∈ t
      · rw [if_pos hit] at hc'
        have hlive : live = true := by
          cases live with
          | true => rfl
          | false => have := hdead rfl; omega
        obtain ⟨M', m1, m2, m3, m4, m5, m6, m7, m8⟩ :=
          countInt_at hlc a (t := after c.id t) (min - 1) hwc (ht.after c.id) (by push_cast at hm; omega) hn'
        obtain ⟨d1, d2, d3, d4, d5, d6, d7⟩ := countInt_node hwc hlc (ht.after c.id) (min - 1)
          (by push_cast at hm; omega)
        refine ⟨M', by rw [nodeAt_cons_of hc']; exact m1, m2, m3, m4, m5, m6, ?_, fun i => ?_⟩
        · rw [pathIds_cons_of hc', pathIds_cons_of hc, m7, d1]
        · rw [m8 i, pathIds_cons_of hc]
          by_cases hi : i < M.cnts.length
          · obtain ⟨p1, p2⟩ := path_sorted a hwc hn' i hi
            have hiff : (∀ x ∈ pathIds c a ++ [M.offset + (i : Int)], x ∈ after c.id t) ↔
                (∀ x ∈ c.id :: pathIds c a ++ [M.offset + (i : Int)], x ∈ t) := by
              constructor
              · intro hall x hx
                simp only [List.cons_append] at hx
                rcases List.mem_cons.1 hx with hx | hx
                · subst hx; exact hit.2
                · exact ((mem_after ht).1 (hall x hx)).1
              · intro hall x hx
                refine (mem_after ht).2 ⟨hall x (by simp only [List.cons_append]; exact List.mem_cons_of_mem _ hx), ?_⟩
                have := p2 x hx
                have := hok.2.2.1
                omega
            simp only [hiff]
          · simp [hi]
      · rw [if_neg hit] at hc'
        refine ⟨M, by rw [nodeAt_cons_of hc']; exact hn', rfl, rfl, rfl, rfl, rfl, ?_, fun i => ?_⟩
        · rw [pathIds_cons_of hc', pathIds_cons_of hc]
        · have : ¬ (M.chcnt = 0 ∧ i < M.cnts.length ∧
              (∀ x ∈ pathIds N (j :: a) ++ [M.offset + (i : Int)], x ∈ t)) := by
            rintro ⟨h1, h2, h3⟩
            by_cases hpos : 0 < N.chcnt
            · apply hit
              refine ⟨hpos, h3 c.id ?_⟩
              rw [pathIds_cons_of hc]; simp
            · have hwc' : WFN lc false h c := by
                have : (live && decide (0 < N.chcnt)) = false := by simp [hpos]
                rw [this] at hwc; exact hwc
              have := dead_at a hwc' hn'
              omega
          rw [if_neg this]

theorem countInt_at_none {lc : Int} (hlc : lc ≤ 0) : ∀ (a : Addr) {live : Bool} {h : Nat} {N : ISNODE}
    {t : List Int} (min : Int), WFN lc live h N → Tract t → min = (h : Int) + 1 →
    nodeAt N a = none → nodeAt (_countInt (h + 1) N t min) a = none
  | [], live, h, N, t, min, hw, ht, hm, hn => by simp [nodeAt_nil] at hn
  | j :: a, live, h, N, t, min, hw, ht, hm, hn => by
    obtain ⟨c1, c2, c3, c4, c5, c6, c7⟩ := countInt_node hw hlc ht min hm
    have hc' := c7 j
    cases hg : N.vec[j]? with
    | none =>
      rw [hg] at hc'
      exact nodeAt_cons_none a (fun c h => by rw [hc'] at h; simp at h)
    | some oc =>
      cases oc with
      | none =>
        rw [hg] at hc'
        exact nodeAt_cons_none a (fun c h => by rw [hc'] at h; simp at h)
      | some c =>
        rw [hg] at hc'
        simp only [Option.map_some'] at hc'
        rw [nodeAt_cons_of hg] at hn
        rw [nodeAt_cons_of hc']
        cases h with
        | zero => rw [WFN_zero] at hw; rw [hw.2.1] at hg; simp at hg
        | succ h =>
          obtain ⟨first, rest, hv, hok, hwc, hl, hch, hdead⟩ := WFN_child hw hg
          split
          · exact countInt_at_none hlc a (min - 1) hwc (ht.after c.id) (by push_cast at hm; omega) hn
          · exact hn


/-- Counting with counters of the type `int` changes the values of counters only. -/
theorem countInt_shape {lc : Int} (hlc : lc ≤ 0) : ∀ {h : Nat} {live : Bool} {N : ISNODE}
    {t : List Int} (min : Int), WFN lc live h N → Tract t → min = (h : Int) + 1 →
    Shape h N (_countInt (h + 1) N t min)
  | 0, live, N, t, min, hw, ht, hm => by
    obtain ⟨c1, c2, c3, c4, c5, c6, c7⟩ := countInt_node hw hlc ht min hm
    refine TRel_zero.2 ⟨c1.symm, c2.symm, c3.symm, c4.symm, ?_⟩
    rw [(WFN_zero.1 hw).2.1] at c6 ⊢
    exact (List.length_eq_zero.1 c6).symm
  | h + 1, live, N, t, min, hw, ht, hm => by
    obtain ⟨c1, c2, c3, c4, c5, c6, c7⟩ := countInt_node hw hlc ht min hm
    refine TRel_succ.2 ⟨⟨c1.symm, c2.symm, c3.symm, c4.symm⟩, ?_, ?_, ?_⟩
    · intro j
      rw [c7 j]
      cases N.vec[j]? <;> simp
    · intro j
      rw [c7 j]
      cases hg : N.vec[j]? with
      | none => simp
      | some oc => cases oc <;> simp
    · intro j c hc
      rw [c7 j, hc]
      simp only [Option.map_some']
      refine ⟨_, rfl, ?_⟩
      obtain ⟨first, rest, hv, hok, hwc, -⟩ := WFN_child hw hc
      split
      · exact countInt_shape hlc (min - 1) hwc (ht.after c.id) (by push_cast at hm; omega)
      · exact Shape.refl_shape _ _


theorem ist_countInt_shape {ist : ISTREE} (hI : Inv ist) {t : List Int} (ht : Tract t) :
    Shape (ist.lvlcnt - 1) ist.root (ist_countInt ist t).root := by
  unfold ist_countInt
  split
  · obtain ⟨lc, hlc, hw⟩ := hI.wf
    have hp := hI.lvl_pos
    have := countInt_shape (wf_lc_le hlc) (t := t) (ist.lvlcnt : Int) hw ht
      (by have : ((ist.lvlcnt - 1 : Nat) : Int) = (ist.lvlcnt : Int) - 1 := by omega
          omega)
    have he : ist.lvlcnt - 1 + 1 = ist.lvlcnt := by omega
    rw [he] at this
    exact this
  · exact Shape.refl_shape _ _

theorem Inv_countInt {ist : ISTREE} (hI : Inv ist) {t : List Int} (ht : Tract t) :
    Inv (ist_countInt ist t) := by
  refine Inv_of_shape hI ?_ ?_ ?_ ?_ (ist_countInt_shape hI ht) <;>
  · unfold ist_countInt; split <;> rfl


theorem ist_countInt_root {ist : ISTREE} (hI : Inv ist) (t : List Int) :
    (ist_countInt ist t).root = _countInt ist.lvlcnt ist.root t ist.lvlcnt := by
  unfold ist_countInt
  split
  · rfl
  · rename_i hlt
    obtain ⟨lc, hlc, hw⟩ := hI.wf
    have hp := hI.lvl_pos
    have := countInt_short hw t (ist.lvlcnt : Int) (by omega) (by omega)
    have he : ist.lvlcnt - 1 + 1 = ist.lvlcnt := by omega
    rw [he] at this
    rw [this]


/-! ### Counters of the type `int` -/

theorem wrapInt_range (x : Int) : INT_MIN ≤ wrapInt x ∧ wrapInt x ≤ INT_MAX := by
  unfold wrapInt INT_MIN INT_MAX
  omega

theorem wrapInt_id {x : Int} (h1 : INT_MIN ≤ x) (h2 : x ≤ INT_MAX) : wrapInt x = x := by
  unfold wrapInt
  unfold INT_MIN at h1
  unfold INT_MAX at h2
  omega

theorem wrapInt_max : wrapInt (INT_MAX + 1) = INT_MIN := by
  decide

/-- Every tree that the public operations produce with counters of the type `int` satisfies
the invariant. -/
theorem Inv_of_reachableInt {ist : ISTREE} (hr : ReachableInt ist) : Inv ist := by
  induction hr with
  | create itemcnt supp hn hs => exact Inv_create itemcnt supp hn hs
  | setcnt ist item cnt _ _ _ ih => exact Inv_setcnt ih item cnt
  | count ist t _ ht ih => exact Inv_countInt ih ht
  | addlvl ist mem _ ih => exact Inv_addlvl ih mem
  | filter ist ist1 mode _ hf ih => exact Inv_filter ih hf
  | init ist _ ih => exact Inv_init ih

theorem nodeAt_setCnts_cons (N : ISNODE) (c : List Int) (j : Nat) (a : Addr) :
    nodeAt (N.setCnts c) (j :: a) = nodeAt N (j :: a) := by
  unfold nodeAt
  simp

theorem IntCnts_create (itemcnt : Nat) (supp : Int) : IntCnts (ist_create itemcnt supp).root := by
  intro a N i hN
  have hv : (ist_create itemcnt supp).root.vec = [] := rfl
  have := nodeAt_leaf hv hN
  obtain ⟨ha, hM⟩ := this
  subst hM
  have hc : (ist_create itemcnt supp).root.cnts = List.replicate itemcnt 0 := rfl
  rw [hc]
  by_cases hi : i < itemcnt
  · rw [getD_of_lt _ _ _ (by simpa using hi)]
    simp [INT_MIN, INT_MAX]
  · rw [List.getD_eq_getElem?_getD, List.getElem?_eq_none (by simp; omega)]
    simp [INT_MIN, INT_MAX]

theorem IntCnts_setcnt {ist : ISTREE} (h : IntCnts ist.root) (item cnt : Int)
    (h1 : INT_MIN ≤ cnt) (h2 : cnt ≤ INT_MAX) : IntCnts (ist_setcnt ist item cnt).root := by
  unfold ist_setcnt
  split
  · intro a N i hN
    cases a with
    | nil =>
      rw [nodeAt_nil] at hN
      cases hN
      simp only [ISNODE.cnts_setCnts]
      have h0 := h [] ist.root i (nodeAt_nil _)
      rw [List.getD_eq_getElem?_getD, List.getElem?_set]
      split
      · split
        · exact ⟨h1, h2⟩
        · simp [INT_MIN, INT_MAX]
      · rw [← List.getD_eq_getElem?_getD]
        exact h0
    | cons j a =>
      simp only at hN
      rw [nodeAt_setCnts_cons] at hN
      exact h (j :: a) N i hN
  · exact h

theorem IntCnts_countInt {ist : ISTREE} (hI : Inv ist) (h : IntCnts ist.root) {t : List Int}
    (ht : Tract t) : IntCnts (ist_countInt ist t).root := by
  obtain ⟨lc, hlc, hw⟩ := hI.wf
  have hp := hI.lvl_pos
  have he : ist.lvlcnt - 1 + 1 = ist.lvlcnt := by omega
  have hmin : (ist.lvlcnt : Int) = ((ist.lvlcnt - 1 : Nat) : Int) + 1 := by omega
  intro a N' i hN'
  rw [ist_countInt_root hI] at hN'
  cases hN : nodeAt ist.root a with
  | none =>
    have := countInt_at_none (wf_lc_le hlc) a (t := t) (ist.lvlcnt : Int) hw ht hmin hN
    rw [he] at this
    rw [this] at hN'
    cases hN'
  | some N =>
    obtain ⟨N2, c1, -, -, -, -, -, -, c8⟩ :=
      countInt_at (wf_lc_le hlc) a (t := t) (ist.lvlcnt : Int) hw ht hmin hN
    rw [he] at c1
    rw [hN'] at c1
    cases c1
    rw [c8 i]
    split
    · exact wrapInt_range _
    · exact h a N i hN

theorem addlvl_lvlcnt {ist : ISTREE} (hI : Inv ist) (mem : Option Nat) :
    ((ist_addlvl ist mem).2 = 0 ∧ (ist_addlvl ist mem).1.lvlcnt = ist.lvlcnt + 1) ∨
    (ist_addlvl ist mem).1.lvlcnt = ist.lvlcnt := by
  rcases addlvl_cases hI mem with ⟨h, -⟩ | ⟨r1, done, -, -, h⟩ | ⟨r1, -, -, h⟩ | ⟨r1, -, -, h⟩
  · right; rw [h]
  · right; rw [h]
  · right; rw [h]
  · left; rw [h]; exact ⟨rfl, rfl⟩

theorem IntCnts_addlvl {ist : ISTREE} (hI : Inv ist) (h : IntCnts ist.root) (mem : Option Nat) :
    IntCnts (ist_addlvl ist mem).1.root := by
  intro b c i hc
  have hI1 := Inv_addlvl hI mem
  have hlen := hI1.nodeAt_length hc
  have hp := hI.lvl_pos
  by_cases hb : b.length ≤ ist.lvlcnt - 1
  · obtain ⟨N, hN, e, -, -⟩ := addlvl_old_node hI mem b c hb hc
    rw [e]
    exact h b N i hN
  · rcases addlvl_lvlcnt hI mem with ⟨h0, hl⟩ | hl
    · obtain ⟨a, j, N, -, -, -, -, hk, -⟩ := addlvl_new_node hI mem h0 b c (by omega) hc
      obtain ⟨k, -, hch⟩ := mem_kidsOf.1 hk
      obtain ⟨-, -, -, -, -, -, -, -, c9, -⟩ := childOf_some hch
      have hz : c.cnts.getD i 0 = 0 := by
        by_cases hi : i < c.cnts.length
        · rw [getD_of_lt c.cnts i 0 hi]
          exact c9 _ (List.getElem_mem _)
        · rw [List.getD_eq_getElem?_getD, List.getElem?_eq_none (by omega)]
          rfl
      rw [hz]
      simp [INT_MIN, INT_MAX]
    · omega

theorem IntCnts_filter {ist ist1 : ISTREE} {mode : Int} (hI : Inv ist) (h : IntCnts ist.root)
    (hf : ist_filter ist mode = some ist1) : IntCnts ist1.root := by
  obtain ⟨hs, hfd⟩ := ist_filter_faded hI hf
  have hI1 := Inv_filter hI hf
  obtain ⟨-, he⟩ := ist_filter_shape hI hf
  have hl : ist1.lvlcnt = ist.lvlcnt := by rw [he]
  intro a M' i hM'
  have hlen := hI1.nodeAt_length hM'
  rw [hl] at hlen
  obtain ⟨M, hM, -⟩ := (TRel_nodeAt a hs hlen).2.2 M' hM'
  rcases (hfd a M M' hM hM').2 i with e | e
  · rw [e]
    exact h a M i hM
  · rw [e]
    simp [INT_MIN, INT_MAX]

/-- Every counter of a tree that the public operations produce with counters of the type
`int` is a value of that type. -/
theorem IntCnts_of_reachableInt {ist : ISTREE} (hr : ReachableInt ist) : IntCnts ist.root := by
  induction hr with
  | create itemcnt supp hn hs => exact IntCnts_create itemcnt supp
  | setcnt ist item cnt _ h1 h2 ih => exact IntCnts_setcnt ih item cnt h1 h2
  | count ist t hr ht ih => exact IntCnts_countInt (Inv_of_reachableInt hr) ih ht
  | addlvl ist mem hr ih => exact IntCnts_addlvl (Inv_of_reachableInt hr) ih mem
  | filter ist ist1 mode hr hf ih => exact IntCnts_filter (Inv_of_reachableInt hr) ih hf
  | init ist _ ih => exact ih

/-- The two ways of counting agree below `INT_MAX`: in a tree that satisfies the invariant, a
counter that is a value of the type `int` below `INT_MAX` gets the same value from `ist_count`
with exact arithmetic and from `ist_count` with counters of the type `int`. -/
theorem countInt_agree {ist : ISTREE} (hI : Inv ist) {t : List Int} (ht : Tract t) {a : Addr}
    {N : ISNODE} (hN : nodeAt ist.root a = some N) (i : Nat)
    (h1 : INT_MIN ≤ N.cnts.getD i 0) (h2 : N.cnts.getD i 0 < INT_MAX) :
    ∃ N1 N2, nodeAt (ist_count ist t).root a = some N1 ∧
      nodeAt (ist_countInt ist t).root a = some N2 ∧ N2.cnts.getD i 0 = N1.cnts.getD i 0 := by
  obtain ⟨lc, hlc, hw⟩ := hI.wf
  have hp := hI.lvl_pos
  have he : ist.lvlcnt - 1 + 1 = ist.lvlcnt := by omega
  have hmin : (ist.lvlcnt : Int) = ((ist.lvlcnt - 1 : Nat) : Int) + 1 := by omega
  obtain ⟨N1, c1, -, -, -, -, -, -, c8⟩ :=
    count_at (wf_lc_le hlc) a (t := t) (ist.lvlcnt : Int) hw ht hmin hN
  obtain ⟨N2, d1, -, -, -, -, -, -, d8⟩ :=
    countInt_at (wf_lc_le hlc) a (t := t) (ist.lvlcnt : Int) hw ht hmin hN
  rw [he] at c1 d1
  refine ⟨N1, N2, by rw [ist_count_root hI]; exact c1, by rw [ist_countInt_root hI]; exact d1, ?_⟩
  rw [c8 i, d8 i]
  split
  · rw [wrapInt_id (by omega) (by omega)]
  · omega

theorem fullTree_reachable : ReachableInt fullTree :=
  ReachableInt.setcnt _ 0 2147483647 (ReachableInt.create 2 1 (by decide) (by decide))
    (by decide) (by decide)

theorem tract_one : Tract [0] := by
  unfold Tract
  simp

/-- C3, counterexample: in the tree `fullTree` the counter of item 0 in the root, a node with
`chcnt = 0`, is `INT_MAX`.  The transaction `[0]` contains the item set of that counter, and
`ist_count` leaves the counter at `INT_MIN`: it is not the counter plus 1. -/
theorem C3_counter_overflow :
    ReachableInt fullTree ∧ Tract [0] ∧ nodeAt fullTree.root [] = some fullTree.root ∧
    fullTree.root.chcnt = 0 ∧
    contains [0] (pathIds fullTree.root [] ++ [fullTree.root.offset + ((0 : Nat) : Int)]) = true ∧
    fullTree.root.cnts.getD 0 0 = 2147483647 ∧
    nodeAt (ist_countInt fullTree [0]).root [] = some (ist_countInt fullTree [0]).root ∧
    (ist_countInt fullTree [0]).root.cnts.getD 0 0 = -2147483648 ∧
    (ist_countInt fullTree [0]).root.cnts.getD 0 0 ≠ fullTree.root.cnts.getD 0 0 + 1 :=
  ⟨fullTree_reachable, tract_one, rfl, by decide, by decide, by decide, rfl, by decide,
    by decide⟩

/-- C3 (amended): for every tree reachable through the public operations, with counters of the
type `int`, and every transaction (item ids ascending), `ist_count` keeps the nodes and their
fields.  Every counter is a value of the type `int`.  A counter whose item set (the ids on the
path, then the item of the slot) is contained in the transaction and that lives in a node with
`chcnt = 0` gets the value of `cnts[i]++`: exactly 1 is added when the counter is below
`INT_MAX`, and a counter that is `INT_MAX` overflows and becomes `INT_MIN`.  Every other
counter is unchanged; the nodes with `chcnt = 0` are nodes of the deepest level; a transaction
with fewer items than the tree height changes no counter. -/
theorem C3_ist_count_effect (ist : ISTREE) (t : List Int) (hr : ReachableInt ist)
    (ht : Tract t) :
    (∀ a : Addr, (nodeAt (ist_countInt ist t).root a).isSome = (nodeAt ist.root a).isSome) ∧
    (∀ (a : Addr) (N : ISNODE), nodeAt ist.root a = some N →
      ∃ N', nodeAt (ist_countInt ist t).root a = some N' ∧ N'.id = N.id ∧
        N'.chcnt = N.chcnt ∧ N'.offset = N.offset ∧ N'.cnts.length = N.cnts.length ∧
        ∀ i : Nat, i < N.cnts.length →
          (INT_MIN ≤ N.cnts.getD i 0 ∧ N.cnts.getD i 0 ≤ INT_MAX) ∧
          (N'.cnts.getD i 0 =
            if N.chcnt = 0 ∧ contains t (pathIds ist.root a ++ [N.offset + (i : Int)]) = true
            then wrapInt (N.cnts.getD i 0 + 1) else N.cnts.getD i 0) ∧
          (N.cnts.getD i 0 < INT_MAX → N'.cnts.getD i 0 = N.cnts.getD i 0 +
            if N.chcnt = 0 ∧ contains t (pathIds ist.root a ++ [N.offset + (i : Int)]) = true
            then 1 else 0) ∧
          (N.cnts.getD i 0 = INT_MAX → N.chcnt = 0 →
            contains t (pathIds ist.root a ++ [N.offset + (i : Int)]) = true →
            N'.cnts.getD i 0 = INT_MIN)) ∧
    (∀ (a : Addr) (N : ISNODE), nodeAt ist.root a = some N → N.chcnt = 0 →
      a.length + 1 = ist.lvlcnt) ∧
    (t.length < ist.lvlcnt → (ist_countInt ist t).root = ist.root) := by
  have hI := Inv_of_reachableInt hr
  have hint := IntCnts_of_reachableInt hr
  obtain ⟨lc, hlc, hw⟩ := hI.wf
  have hp := hI.lvl_pos
  have he : ist.lvlcnt - 1 + 1 = ist.lvlcnt := by omega
  have hmin : (ist.lvlcnt : Int) = ((ist.lvlcnt - 1 : Nat) : Int) + 1 := by omega
  refine ⟨fun a => ?_, fun a N hN => ?_, fun a N hN h0 => hI.chcnt_zero_deepest hN h0,
    fun hlt => ?_⟩
  · cases hN : nodeAt ist.root a with
    | none =>
      have := countInt_at_none (wf_lc_le hlc) a (t := t) (ist.lvlcnt : Int) hw ht hmin hN
      rw [he] at this
      rw [ist_countInt_root hI, this]
    | some N =>
      obtain ⟨N', h1, -⟩ :=
        countInt_at (wf_lc_le hlc) a (t := t) (ist.lvlcnt : Int) hw ht hmin hN
      rw [he] at h1
      rw [ist_countInt_root hI, h1]
      rfl
  · obtain ⟨N', h1, h2, h3, h4, h5, -, -, h8⟩ :=
      countInt_at (wf_lc_le hlc) a (t := t) (ist.lvlcnt : Int) hw ht hmin hN
    rw [he] at h1
    refine ⟨N', by rw [ist_countInt_root hI]; exact h1, h2, h3, h4, h5, fun i hi => ?_⟩
    have hrange := hint a N i hN
    have hval : N'.cnts.getD i 0 =
        if N.chcnt = 0 ∧ contains t (pathIds ist.root a ++ [N.offset + (i : Int)]) = true
        then wrapInt (N.cnts.getD i 0 + 1) else N.cnts.getD i 0 := by
      rw [h8 i]
      simp only [hi, true_and, contains_iff]
    refine ⟨hrange, hval, fun hlt => ?_, fun hmax h0 hc => ?_⟩
    · rw [hval]
      split
      · exact wrapInt_id (by omega) (by omega)
      · omega
    · rw [hval, if_pos ⟨h0, hc⟩, hmax]
      exact wrapInt_max
  · rw [ist_countInt_root hI]
    have := countInt_short hw t (ist.lvlcnt : Int) hmin (by omega)
    rw [he] at this
    exact this

theorem C3_ist_count_effect_witness :
    ReachableInt fullTree ∧ Tract [0, 1] ∧
    (∃ N', nodeAt (ist_countInt fullTree [0, 1]).root [] = some N' ∧
      N'.cnts.getD 0 0 = INT_MIN ∧ N'.cnts.getD 1 0 = 1) := by
  obtain ⟨N', h1, -, -, -, -, h6⟩ :=
    (C3_ist_count_effect fullTree [0, 1] fullTree_reachable tract_pair).2.1 [] fullTree.root rfl
  refine ⟨fullTree_reachable, tract_pair, N', h1, ?_, ?_⟩
  · exact (h6 0 (by decide)).2.2.2 (by decide) (by decide) (by decide)
  · have := (h6 1 (by decide)).2.2.1 (by decide)
    rw [this]
    decide


/-! ### `ist_init` on a tree whose cursor has moved -/

theorem SameTree.refl_same (ist : ISTREE) : SameTree ist ist := ⟨rfl, rfl, rfl, rfl⟩

theorem advance_next {ist ist1 : ISTREE} {pos pos1 : Nat}
    (h : advance ist pos = .next ist1 pos1) : SameTree ist ist1 := by
  unfold advance at h
  split at h
  · cases h
  · split at h
    · split at h
      · cases h
        exact ⟨rfl, rfl, rfl, rfl⟩
      · split at h
        · cases h
        · cases h
          exact ⟨rfl, rfl, rfl, rfl⟩
    · cases h
      exact ⟨rfl, rfl, rfl, rfl⟩

/-- The search loop of `ist_set` changes the cursor only, wherever it starts. -/
theorem setLoop_same : ∀ (fuel : Nat) (ist0 ist : ISTREE) (pos : Nat), SameTree ist0 ist →
    SameTree ist0 (SetRes.state ist0 (setLoop fuel ist pos))
  | 0, ist0, ist, pos, _ => SameTree.refl_same ist0
  | fuel + 1, ist0, ist, pos, hs => by
    rw [setLoop_succ]
    cases ha : advance ist pos with
    | bad => exact SameTree.refl_same ist0
    | done ist1 => exact hs.trans_same (advance_done ha).2
    | next ist1 pos1 =>
      have h1 := hs.trans_same (advance_next ha)
      simp only
      cases hc : cursorNode ist1 pos1 with
      | none => exact SameTree.refl_same ist0
      | some node =>
        simp only
        split
        · exact h1
        · exact setLoop_same fuel ist0 ist1 pos1 h1

/-- A call of `ist_set` changes the cursor only, whatever the cursor is. -/
theorem ist_set_same (ist : ISTREE) : SameTree ist (SetRes.state ist (ist_set ist)) := by
  unfold ist_set
  split
  · exact SameTree.refl_same ist
  · split
    · exact setLoop_same _ ist _ 0 ⟨rfl, rfl, rfl, rfl⟩
    · exact setLoop_same _ ist _ _ (SameTree.refl_same ist)

theorem setState_same : ∀ (m : Nat) (ist : ISTREE), SameTree ist (setState m ist)
  | 0, ist => SameTree.refl_same ist
  | m + 1, ist => by
    rw [setState_succ]
    exact (ist_set_same ist).trans_same (setState_same m _)

theorem SameTree.enumSets_same {ist ist' : ISTREE} (h : SameTree ist ist') :
    enumSets ist' = enumSets ist := by
  obtain ⟨h1, h2, -, h4⟩ := h
  unfold enumSets levelOut nodeOut slotOut
  rw [h1, h2, h4]

/-- The calls of `ist_set` after `ist_init` on a tree that differs from `ist` in the cursor
only. -/
theorem setCalls_reset {ist cur : ISTREE} (hS : Scan ist) (hL : LevelLen ist)
    (hl : 1 ≤ ist.lvlcnt) (hc : SameTree ist cur) (k : Nat) :
    setCalls k (ist_init cur) =
      (((enumSets ist).map callOut) ++ List.replicate k (some (-1, [], 0))).take k ∧
    SameTree ist (setState k (ist_init cur)) := by
  have h := setCalls_init (hc.scan hS) (hc.levelLen hL) (by rw [hc.2.2.1]; exact hl) k
  rw [hc.enumSets_same] at h
  exact ⟨h.1, hc.trans_same h.2⟩

/-- C11: for every tree reachable through the public operations, the results of `k`
successive calls of `ist_set` after `ist_init` are the first `k` entries of the following
sequence: for every pair of a node and a slot whose counter is at least `supp` the level of
the node plus 1 as the return value, the item set of the slot and the counter as its support
(`slotRes`), in the order of `slotList`, and then `-1` for every further call.  This holds
wherever the cursor stands when `ist_init` is called: with any values in the cursor fields
`size`, `node` and `index`, and after any number `m` of calls of `ist_set` from there, the calls
after `ist_init` yield the sequence from its beginning.  The list `slotList` holds exactly the
pairs of a node and a slot with a counter of at least `supp`, each once, by increasing level,
within a level in the order of the node list and within a node by ascending slot index.  The
calls of `ist_set`, from any cursor, change neither the nodes with their counters nor the level
lists, the height or the minimal support. -/
theorem C11_set_sequence (ist : ISTREE) (hr : Reachable ist) :
    (∀ k : Nat, setCalls k (ist_init ist) =
      ((slotList ist).map (slotRes ist) ++ List.replicate k (some (-1, [], 0))).take k) ∧
    (∀ (sz : Nat) (nd : Option Nat) (ix : Int) (m k : Nat),
      setCalls k (ist_init (setState m { ist with size := sz, node := nd, index := ix })) =
        ((slotList ist).map (slotRes ist) ++ List.replicate k (some (-1, [], 0))).take k) ∧
    (∀ (a : Addr) (i : Nat), (a, i) ∈ slotList ist ↔
      ∃ M, nodeAt ist.root a = some M ∧ i < M.cnts.length ∧ ist.supp ≤ M.cnts.getD i 0) ∧
    (slotList ist).Nodup ∧
    (slotList ist).Pairwise (slotBefore ist) ∧
    (∀ k : Nat, (setState k (ist_init ist)).root = ist.root ∧
      (setState k (ist_init ist)).levels = ist.levels ∧
      (setState k (ist_init ist)).lvlcnt = ist.lvlcnt ∧
      (setState k (ist_init ist)).supp = ist.supp) ∧
    (∀ (sz : Nat) (nd : Option Nat) (ix : Int) (m : Nat),
      (setState m { ist with size := sz, node := nd, index := ix }).root = ist.root ∧
      (setState m { ist with size := sz, node := nd, index := ix }).levels = ist.levels ∧
      (setState m { ist with size := sz, node := nd, index := ix }).lvlcnt = ist.lvlcnt ∧
      (setState m { ist with size := sz, node := nd, index := ix }).supp = ist.supp) := by
  have hI := Inv_of_reachable hr
  have hS := Scan_of_inv hI (levels_ne_of_reachable hr)
  have hL := LevelLen_of_inv hI
  have hcur : ∀ (sz : Nat) (nd : Option Nat) (ix : Int) (m : Nat),
      SameTree ist (setState m { ist with size := sz, node := nd, index := ix }) :=
    fun sz nd ix m =>
      SameTree.trans_same (b := { ist with size := sz, node := nd, index := ix })
        ⟨rfl, rfl, rfl, rfl⟩ (setState_same m _)
  refine ⟨fun k => ?_, fun sz nd ix m k => ?_, mem_slotList hI, ?_, slotList_sorted hI,
    fun k => ?_, fun sz nd ix m => hcur sz nd ix m⟩
  · rw [← enumSets_slots]
    exact (setCalls_init hS hL hI.lvl_pos k).1
  · rw [← enumSets_slots]
    exact (setCalls_reset hS hL hI.lvl_pos (hcur sz nd ix m) k).1
  · exact (slotList_sorted hI).imp (fun h => slotBefore_ne h)
  · exact (setCalls_init hS hL hI.lvl_pos k).2

/-- On the tree `gapTree` the first call of `ist_set` reports the item set of item 0.  Without
`ist_init` the next calls go on with the items 1 and 3 and end with `-1`; with `ist_init` they
start again with item 0. -/
theorem init_restarts :
    setCalls 3 (setState 1 gapTree) = [some (1, [1], 1), some (1, [3], 1), some (-1, [], 0)] ∧
    setCalls 3 (ist_init (setState 1 gapTree)) =
      [some (1, [0], 2), some (1, [1], 1), some (1, [3], 1)] := by
  decide

theorem C11_set_sequence_witness :
    Reachable gapTree ∧
    setCalls 5 (ist_init gapTree) =
      [some (1, [0], 2), some (1, [1], 1), some (1, [3], 1), some (-1, [], 0),
        some (-1, [], 0)] ∧
    setCalls 3 (setState 4 { gapTree with size := 1, node := none, index := -1 }) =
      [some (-1, [], 0), some (-1, [], 0), some (-1, [], 0)] ∧
    setCalls 3 (ist_init (setState 4 { gapTree with size := 1, node := none, index := -1 })) =
      [some (1, [0], 2), some (1, [1], 1), some (1, [3], 1)] :=
  ⟨gapTree_reachable, ((C11_set_sequence gapTree gapTree_reachable).1 5).trans (by decide),
    by decide,
    ((C11_set_sequence gapTree gapTree_reachable).2.1 1 none (-1) 4 3).trans (by decide)⟩

end ISTree
